import Mathlib

/-! voxel2: the voxel store (VoxelStorage.cpp) and its coordinate math (Math.hpp)

A shallow embedding of the storage core of `tvoeroes/voxel2` and the proofs of the
properties its specification states about it.

Conventions of the embedding.

* `int32_t` values are `Int`s; every arithmetic result is passed through `wrapS32`
  (two's-complement wrap-around).  `uint32_t` values are `Nat`s reduced by `wrapU32`.
  C++ `/` and `%` on signed operands are `Int.tdiv` and `Int.tmod` (truncation).
* A region file is a byte-addressed function together with its length; `pread` and
  `pwrite` are positional.  The source never checks their return values; a byte past the
  end of the file reads as 0 here.
* `uint32_t` words in a file are little-endian.
* The intrusive lists of `LeastRecentlyUsed` (the `down` chain of a bucket, the
  `prev`/`next` recency chain, the free chain) are Lean lists of node ids; node contents
  live in a separate id-indexed memory.
* `assert(...)` is compiled out in the state transformers (the `NDEBUG` build).
* The compile-time constants of the `CONFIGURATION` block are the fields of `Config`;
  `defaultConfig` holds the values of the source.
* zlib (`compress2`, `uncompress`, `compressBound`) and the terrain generator are
  parameters (`Codec`, `generate`).
-/

namespace Voxel

/-! ## Machine integers -/

/-- Smallest `int32_t`. -/
def INT32_MIN : Int := -2147483648

/-- Largest `int32_t`. -/
def INT32_MAX : Int := 2147483647

/-- Two to the 32, the modulus of `uint32_t` arithmetic. -/
def U32_MOD : Nat := 4294967296

/-- Membership in the range of `int32_t`. -/
def isS32 (x : Int) : Prop := -2147483648 ≤ x ∧ x ≤ 2147483647

instance (x : Int) : Decidable (isS32 x) := by
  unfold isS32; infer_instance

/-- Two's-complement reduction of an integer to `int32_t`. -/
def wrapS32 (x : Int) : Int := (x + 2147483648) % 4294967296 - 2147483648

/-- Reduction of a natural number to `uint32_t`. -/
def wrapU32 (n : Nat) : Nat := n % 4294967296

/-- The C++ conversion of the comparison `a < 0` to an integer. -/
def ltZero (a : Int) : Int := if a < 0 then 1 else 0

/-- Scalar body of `floor_div`: `(a + (a < 0)) / b - (a < 0)` on `int32_t`. -/
def floor_div_s32 (a b : Int) : Int :=
  wrapS32 (wrapS32 (Int.tdiv (wrapS32 (a + ltZero a)) b) - ltZero a)

/-- Scalar body of `floor_mod`: `(a % b + b) % b` on `int32_t`. -/
def floor_mod_s32 (a b : Int) : Int :=
  Int.tmod (wrapS32 (Int.tmod a b + b)) b

/-- Three-component integer vector (`glm::tvec3<int32_t>`, `Vec3<int32_t>`). -/
structure Vec3 where
  x : Int
  y : Int
  z : Int
deriving DecidableEq, Repr

/-- All three components are `int32_t` values. -/
def Vec3.isS32 (v : Vec3) : Prop := Voxel.isS32 v.x ∧ Voxel.isS32 v.y ∧ Voxel.isS32 v.z

instance (v : Vec3) : Decidable v.isS32 := by
  unfold Vec3.isS32; infer_instance

/-! ## Math.hpp -/

namespace Math

/-- Math.hpp `floor_div`, componentwise. -/
def floor_div (a b : Vec3) : Vec3 :=
  { x := floor_div_s32 a.x b.x, y := floor_div_s32 a.y b.y, z := floor_div_s32 a.z b.z }

/-- Math.hpp `floor_mod`, componentwise. -/
def floor_mod (a b : Vec3) : Vec3 :=
  { x := floor_mod_s32 a.x b.x, y := floor_mod_s32 a.y b.y, z := floor_mod_s32 a.z b.z }

end Math

/-! ## VoxelStorage.cpp: file-local helpers -/

namespace VoxelStorage

/-- VoxelStorage.cpp `all_equal`. -/
def all_equal (a b : Vec3) : Bool := a.x == b.x && a.y == b.y && a.z == b.z

/-- VoxelStorage.cpp `floor_div`, componentwise. -/
def floor_div (a b : Vec3) : Vec3 :=
  { x := floor_div_s32 a.x b.x, y := floor_div_s32 a.y b.y, z := floor_div_s32 a.z b.z }

/-- VoxelStorage.cpp `floor_mod`, componentwise. -/
def floor_mod (a b : Vec3) : Vec3 :=
  { x := floor_mod_s32 a.x b.x, y := floor_mod_s32 a.y b.y, z := floor_mod_s32 a.z b.z }

/-- VoxelStorage.cpp `to_index`: `p.z * s.y * s.x + p.y * s.x + p.x` on `int32_t`. -/
def to_index (p s : Vec3) : Int :=
  wrapS32 (wrapS32 (wrapS32 (wrapS32 (p.z * s.y) * s.x) + wrapS32 (p.y * s.x)) + p.x)

/-- VoxelStorage.cpp `position_to_index`. -/
def position_to_index (p s : Vec3) : Int := to_index (floor_mod p s) s

end VoxelStorage

/-! ## Configuration (VoxelStorage.hpp) -/

/-- The compile-time constants of the `CONFIGURATION` block of `VoxelStorage`. -/
structure Config where
  CHUNK_VOLUME : Nat
  REGION_SIZE : Vec3
  DEFRAGMENT_GARBAGE_THRESHOLD : Nat
  CHUNK_HEAP_SIZE : Nat
  REGION_HEAP_SIZE : Nat

/-- `CHUNK_MAP_SIZE{ 4 * CHUNK_HEAP_SIZE }`. -/
def Config.CHUNK_MAP_SIZE (cfg : Config) : Nat := 4 * cfg.CHUNK_HEAP_SIZE

/-- `REGION_MAP_SIZE{ 4 * REGION_HEAP_SIZE }`. -/
def Config.REGION_MAP_SIZE (cfg : Config) : Nat := 4 * cfg.REGION_HEAP_SIZE

/-- `REGION_VOLUME{ REGION_SIZE.x * REGION_SIZE.y * REGION_SIZE.z }`. -/
def Config.REGION_VOLUME (cfg : Config) : Nat :=
  (cfg.REGION_SIZE.x * cfg.REGION_SIZE.y * cfg.REGION_SIZE.z).toNat

/-- The values of the source: 16³ blocks per chunk, 32³ chunks per region, 16 KiB of
garbage before defragmentation, 32768 cached chunks, 2048 cached regions. -/
def defaultConfig : Config :=
  { CHUNK_VOLUME := 4096, REGION_SIZE := ⟨32, 32, 32⟩, DEFRAGMENT_GARBAGE_THRESHOLD := 16384,
    CHUNK_HEAP_SIZE := 32768, REGION_HEAP_SIZE := 2048 }

/-- zlib as used by the store: `compressBound`, `compress2` at `Z_BEST_COMPRESSION` and
`uncompress`.  The second argument of the two codec calls is the capacity of the
destination buffer; `none` stands for every result other than `Z_OK`. -/
structure Codec where
  compressBound : Nat → Nat
  compress2 : List Nat → Nat → Option (List Nat)
  uncompress : List Nat → Nat → Option (List Nat)

/-- `c_maximum_compressed_size{ compressBound(CHUNK_VOLUME * sizeof(Block)) }`. -/
def c_maximum_compressed_size (cfg : Config) (codec : Codec) : Nat :=
  codec.compressBound cfg.CHUNK_VOLUME

/-! ## Region files -/

/-- A file: its length and its bytes. -/
structure File where
  size : Nat
  data : Nat → Nat

/-- The file a failed or never performed `open` leaves behind: the empty file. -/
def File.empty : File := { size := 0, data := fun _ => 0 }

/-- The byte at position `i`; 0 past the end of the file. -/
def File.get (f : File) (i : Nat) : Nat := if i < f.size then f.data i else 0

/-- `pread(fd, buffer, count, position)`: the bytes delivered into the buffer.  A read
that ends inside the file delivers the bytes of the file.  For positions past the end of
the file the model delivers 0, where the source, which ignores the count `pread` returns,
keeps what the buffer held before; `FileComplete` states that the reads of the store end
inside the file. -/
def File.pread (f : File) (count position : Nat) : List Nat :=
  (List.range count).map (fun j => f.get (position + j))

/-- `pwrite(fd, buffer, count, position)` with `buffer` holding the `count` bytes; a gap
between the old end of the file and `position` is filled with zeros. -/
def File.pwrite (f : File) (buffer : List Nat) (position : Nat) : File :=
  if buffer.length = 0 then f
  else
    { size := max f.size (position + buffer.length),
      data := fun i =>
        if position ≤ i ∧ i < position + buffer.length then buffer.getD (i - position) 0
        else f.get i }

/-- `ftruncate(fd, length)`. -/
def File.ftruncate (f : File) (length : Nat) : File :=
  { size := length, data := fun i => if i < length then f.get i else 0 }

/-- The four bytes of a `uint32_t`, little-endian. -/
def u32_bytes (v : Nat) : List Nat :=
  [v % 256, v / 256 % 256, v / 65536 % 256, v / 16777216 % 256]

/-- The `uint32_t` stored at byte position `position`. -/
def File.read_u32 (f : File) (position : Nat) : Nat :=
  f.get position % 256 + 256 * (f.get (position + 1) % 256) +
    65536 * (f.get (position + 2) % 256) + 16777216 * (f.get (position + 3) % 256)

/-- The byte image of the first `n` words of a `uint32_t` array. -/
def words_bytes (raw : Nat → Nat) (n : Nat) : List Nat :=
  (List.range (4 * n)).map (fun j => (u32_bytes (raw (j / 4))).getD (j % 4) 0)

/-- The fields `garbage` and `end` of `struct Region` together with the file behind its
descriptor `fd`. -/
structure RegionIO where
  garbage : Nat
  end_ : Nat
  file : File

/-- `(2 * REGION_VOLUME + 2) * sizeof(uint32_t)`: the first byte after the slot table. -/
def header_end (cfg : Config) : Nat := (2 * cfg.REGION_VOLUME + 2) * 4

/-- `(2 + 2 * chunk_index) * sizeof(uint32_t)`: where the slot of a chunk starts. -/
def slot_position (chunk_index : Nat) : Nat := (2 + 2 * chunk_index) * 4

/-- Slot word 0 of a chunk: the offset of its blob (0: never written). -/
def slot_offset (f : File) (chunk_index : Nat) : Nat := f.read_u32 (slot_position chunk_index)

/-- Slot word 1 of a chunk: the size of its blob. -/
def slot_size (f : File) (chunk_index : Nat) : Nat :=
  f.read_u32 (slot_position chunk_index + 4)

/-- The new-file branch of `get_region`: `end = header_end`, `garbage = 0`, and the file
extended to `end` by `ftruncate`. -/
def new_region (cfg : Config) (f : File) : RegionIO :=
  { garbage := 0, end_ := header_end cfg, file := f.ftruncate (header_end cfg) }

/-- The existing-file branch of `get_region`: `end` and `garbage` are header words 0, 1. -/
def load_region (f : File) : RegionIO :=
  { garbage := f.read_u32 4, end_ := f.read_u32 0, file := f }

/-- The write of `close_region`: `eg = { end, garbage }` goes to position 0. -/
def write_header (r : RegionIO) : File :=
  r.file.pwrite (u32_bytes r.end_ ++ u32_bytes r.garbage) 0

/-- The write rule of `close_chunk` (the part after the compression, before the garbage
test): `compressed` is the content of the compress buffer, `compressed_size` long. -/
def write_chunk (r : RegionIO) (chunk_index : Nat) (compressed : List Nat) : RegionIO :=
  let ops0 := slot_offset r.file chunk_index
  let ops1 := slot_size r.file chunk_index
  let new_size := wrapU32 compressed.length
  let size_difference : Int := (ops1 : Int) - (new_size : Int)
  if size_difference < 0 then
    let f1 := r.file.pwrite (u32_bytes r.end_ ++ u32_bytes new_size) (slot_position chunk_index)
    let f2 := f1.pwrite (compressed.take new_size) r.end_
    { garbage := wrapU32 (r.garbage + ops1), end_ := wrapU32 (r.end_ + new_size), file := f2 }
  else
    let f1 := r.file.pwrite (compressed.take new_size) ops0
    let f2 := f1.pwrite (u32_bytes new_size) (slot_position chunk_index + 4)
    { garbage := wrapU32 (r.garbage + wrapU32 size_difference.toNat), end_ := r.end_,
      file := f2 }

/-- Element of the defragmentation buffer (`u32Vec3`): `x` index, `y` position, `z` size. -/
structure U32Vec3 where
  x : Nat
  y : Nat
  z : Nat
deriving DecidableEq, Repr

/-- The first loop of `defragment_region`: the non-empty slots of the raw table, in index
order. -/
def collect_slots (raw : Nat → Nat) (region_volume : Nat) : List U32Vec3 :=
  ((List.range region_volume).filter (fun index => raw (2 * index) != 0)).map
    (fun index => { x := index, y := raw (2 * index), z := raw (2 * index + 1) })

/-- The order `std::sort` establishes in `defragment_region`: ascending position.  (The
comparator of the source is `a.y < b.y`; the sort is modelled by insertion sort, and the
positions of the slots of a well-formed region are pairwise different.) -/
def sort_by_position (l : List U32Vec3) : List U32Vec3 :=
  l.insertionSort (fun a b => a.y ≤ b.y)

instance : IsTotal U32Vec3 (fun a b => a.y ≤ b.y) := ⟨fun a b => Nat.le_total a.y b.y⟩

instance : IsTrans U32Vec3 (fun a b => a.y ≤ b.y) :=
  ⟨fun _ _ _ h1 h2 => Nat.le_trans h1 h2⟩

/-- The second loop of `defragment_region`: every blob is read into the buffer and written
at `new_end`, its table entry is redirected, and `new_end` advances by its size. -/
def move_blobs (f : File) (raw : Nat → Nat) (new_end : Nat) :
    List U32Vec3 → File × (Nat → Nat) × Nat
  | [] => (f, raw, new_end)
  | i :: rest =>
    let buffer := f.pread i.z i.y
    let f1 := f.pwrite buffer new_end
    let raw1 := Function.update raw (2 * i.x) new_end
    move_blobs f1 raw1 (wrapU32 (new_end + i.z)) rest

/-- The raw slot table `defragment_region` reads: word `w` of the `2 * REGION_VOLUME`
words that follow the two header words. -/
def raw_table (f : File) : Nat → Nat := fun w => f.read_u32 (8 + 4 * w)

/-- The blobs of a region in the order in which `defragment_region` moves them. -/
def defragment_order (cfg : Config) (r : RegionIO) : List U32Vec3 :=
  sort_by_position (collect_slots (raw_table r.file) cfg.REGION_VOLUME)

/-- `VoxelStorage::defragment_region`. -/
def defragment_region (cfg : Config) (r : RegionIO) : RegionIO :=
  let moved := move_blobs r.file (raw_table r.file) (header_end cfg) (defragment_order cfg r)
  { garbage := 0, end_ := moved.2.2,
    file := moved.1.pwrite (words_bytes moved.2.1 (cfg.REGION_VOLUME * 2)) 8 }

/-- No move of the loop of `defragment_region` touches a blob that is still to be moved:
the blob `i` goes to `[new_end, new_end + i.z)`, at or below its old offset `i.y` and
below the old offset of every blob after it in the order. -/
def moves_safe (new_end : Nat) : List U32Vec3 → Prop
  | [] => True
  | i :: rest =>
    new_end ≤ i.y ∧ (∀ j ∈ rest, new_end + i.z ≤ j.y) ∧ moves_safe (wrapU32 (new_end + i.z)) rest

/-- The region part of `close_chunk` for a dirty chunk: the write rule, then
defragmentation when `garbage >= DEFRAGMENT_GARBAGE_THRESHOLD`. -/
def close_chunk_region (cfg : Config) (r : RegionIO) (chunk_index : Nat)
    (compressed : List Nat) : RegionIO :=
  let r1 := write_chunk r chunk_index compressed
  if r1.garbage ≥ cfg.DEFRAGMENT_GARBAGE_THRESHOLD then defragment_region cfg r1 else r1

/-- The bytes of the blob a slot points to. -/
def slot_bytes (f : File) (chunk_index : Nat) : List Nat :=
  f.pread (slot_size f chunk_index) (slot_offset f chunk_index)

/-- The floor law on one component: quotient `q` and remainder `r` of `a` by `b`. -/
def FloorLaw1 (q r a b : Int) : Prop := q * b + r = a ∧ 0 ≤ r ∧ r < b

instance (q r a b : Int) : Decidable (FloorLaw1 q r a b) := by
  unfold FloorLaw1; infer_instance

/-- The floor law on every component of a vector. -/
def FloorLaw (q r a b : Vec3) : Prop :=
  FloorLaw1 q.x r.x a.x b.x ∧ FloorLaw1 q.y r.y a.y b.y ∧ FloorLaw1 q.z r.z a.z b.z

instance (q r a b : Vec3) : Decidable (FloorLaw q r a b) := by
  unfold FloorLaw; infer_instance

/-- The intermediate sum `a % b + b` of `floor_mod` stays inside `int32_t`. -/
def ModSumFits (a b : Vec3) : Prop :=
  Int.tmod a.x b.x + b.x ≤ 2147483647 ∧ Int.tmod a.y b.y + b.y ≤ 2147483647 ∧
    Int.tmod a.z b.z + b.z ≤ 2147483647

instance (a b : Vec3) : Decidable (ModSumFits a b) := by
  unfold ModSumFits; infer_instance

/-- Total size of the blobs of `l` that start below position `c`. -/
def offset_below (l : List U32Vec3) (c : Nat) : Nat :=
  ((l.filter (fun b => b.y < c)).map (fun b => b.z)).sum

/-- A non-empty slot (offset not 0) holds a non-empty blob inside `[header_end, end)`. -/
def slot_inside (cfg : Config) (r : RegionIO) (k : Nat) : Prop :=
  slot_offset r.file k ≠ 0 →
    header_end cfg ≤ slot_offset r.file k ∧ 0 < slot_size r.file k ∧
      slot_offset r.file k + slot_size r.file k ≤ r.end_

instance (cfg : Config) (r : RegionIO) (k : Nat) : Decidable (slot_inside cfg r k) := by
  unfold slot_inside; infer_instance

/-- The blobs of two different non-empty slots do not overlap. -/
def slots_disjoint (f : File) (j k : Nat) : Prop :=
  j ≠ k → slot_offset f j ≠ 0 → slot_offset f k ≠ 0 →
    slot_offset f j + slot_size f j ≤ slot_offset f k ∨
      slot_offset f k + slot_size f k ≤ slot_offset f j

instance (f : File) (j k : Nat) : Decidable (slots_disjoint f j k) := by
  unfold slots_disjoint; infer_instance

/-- The layout property of a region: `end` is a `uint32_t`, the live blobs lie in
`[header_end, end)` and are pairwise disjoint. -/
def BlobLayout (cfg : Config) (r : RegionIO) : Prop :=
  r.end_ < 4294967296 ∧
  (∀ k, k < cfg.REGION_VOLUME → slot_inside cfg r k) ∧
  (∀ j, j < cfg.REGION_VOLUME → ∀ k, k < cfg.REGION_VOLUME → slots_disjoint r.file j k)

instance (cfg : Config) (r : RegionIO) : Decidable (BlobLayout cfg r) := by
  unfold BlobLayout; infer_instance

/-- Total size of the blobs of the first `n` slots that start below position `c`. -/
def packed_below (f : File) (n c : Nat) : Nat :=
  ((List.range n).map (fun i =>
    if slot_offset f i ≠ 0 ∧ slot_offset f i < c then slot_size f i else 0)).sum

/-- Total size of the blobs of the non-empty slots among the first `n`. -/
def live_total (f : File) (n : Nat) : Nat :=
  ((List.range n).map (fun i => if slot_offset f i ≠ 0 then slot_size f i else 0)).sum

/-- What `defragment_region` makes of a region, slot by slot: sizes and blob bytes are
kept, the blobs are packed from `header_end` on in the order of their old offsets. -/
def Defragmented (cfg : Config) (r r' : RegionIO) : Prop :=
  r'.garbage = 0 ∧
  r'.end_ = header_end cfg + live_total r.file cfg.REGION_VOLUME ∧
  (header_end cfg ≤ r.end_ → r'.end_ ≤ r.end_) ∧
  (∀ i, i < 8 → r'.file.get i = r.file.get i) ∧
  r.file.size ≤ r'.file.size ∧
  ∀ k, k < cfg.REGION_VOLUME →
    slot_size r'.file k = slot_size r.file k ∧
    slot_offset r'.file k =
      (if slot_offset r.file k = 0 then 0
       else header_end cfg + packed_below r.file cfg.REGION_VOLUME (slot_offset r.file k)) ∧
    (slot_offset r.file k ≠ 0 →
      slot_bytes r'.file k = slot_bytes r.file k ∧ slot_offset r'.file k ≤ slot_offset r.file k)

/-- A region is well formed: `end` is not below `header_end` and the blobs are laid out. -/
def WellFormed (cfg : Config) (r : RegionIO) : Prop :=
  header_end cfg ≤ r.end_ ∧ BlobLayout cfg r

instance (cfg : Config) (r : RegionIO) : Decidable (WellFormed cfg r) := by
  unfold WellFormed; infer_instance

/-- A small configuration for worked examples: chunks of 4 blocks, regions of 2×1×1
chunks (`header_end = 24`), defragmentation at 4 bytes of garbage, two cached chunks and
two cached regions. -/
def smallConfig : Config :=
  { CHUNK_VOLUME := 4, REGION_SIZE := ⟨2, 1, 1⟩, DEFRAGMENT_GARBAGE_THRESHOLD := 4,
    CHUNK_HEAP_SIZE := 2, REGION_HEAP_SIZE := 2 }

/-- A region of `smallConfig` after three chunk writes: slot 0 was written (3 bytes at
24), slot 1 was written (2 bytes at 27), slot 0 was rewritten with 4 bytes and moved to
29; `end = 33`, `garbage = 3`. -/
def demoRegion : RegionIO :=
  write_chunk (write_chunk (write_chunk (new_region smallConfig File.empty) 0 [1, 2, 3])
    1 [4, 5]) 0 [6, 7, 8, 9]

/-- Sum of the size words of the first `n` slots. -/
def table_total (f : File) (n : Nat) : Nat := ((List.range n).map (slot_size f)).sum

/-- The configuration leaves room in a `uint32_t` for a full region: header, garbage
up to the threshold, and one blob of at most `maxsz` bytes per slot plus one. -/
def Config.Fits (cfg : Config) (maxsz : Nat) : Prop :=
  header_end cfg + cfg.DEFRAGMENT_GARBAGE_THRESHOLD + (cfg.REGION_VOLUME + 1) * maxsz
    < 4294967296

instance (cfg : Config) (maxsz : Nat) : Decidable (cfg.Fits maxsz) := by
  unfold Config.Fits; infer_instance

/-- The invariant of a region of the store: it is well formed, an empty slot has size 0,
no blob is longer than `maxsz`, `end` accounts for the header, the garbage and the
stored sizes, the garbage is bounded, and the file is not empty. -/
def RegionOK (cfg : Config) (maxsz : Nat) (r : RegionIO) : Prop :=
  WellFormed cfg r ∧
  (∀ k, k < cfg.REGION_VOLUME →
    (slot_offset r.file k = 0 → slot_size r.file k = 0) ∧ slot_size r.file k ≤ maxsz) ∧
  r.end_ = header_end cfg + r.garbage + table_total r.file cfg.REGION_VOLUME ∧
  r.garbage ≤ cfg.DEFRAGMENT_GARBAGE_THRESHOLD + maxsz ∧
  r.file.size ≠ 0

/-- A region is closed (`close_region` writes the header) and opened again
(`get_region` reads it back). -/
def reopen_region (r : RegionIO) : RegionIO := load_region (write_header r)

/-- The regions the store can hold: created as a new file, then changed by the write
rule of `close_chunk` (entered with `garbage` below the threshold, because `close_chunk`
defragments before it returns otherwise; the blob is an output of `compress2`, not empty
and at most `maxsz` long), by `defragment_region`, and by closing and reopening. -/
inductive Reach (cfg : Config) (maxsz : Nat) : RegionIO → Prop
  | new_file (f : File) : f.size = 0 → Reach cfg maxsz (new_region cfg f)
  | write (r : RegionIO) (k : Nat) (compressed : List Nat) :
      Reach cfg maxsz r → r.garbage < cfg.DEFRAGMENT_GARBAGE_THRESHOLD →
      k < cfg.REGION_VOLUME → 0 < compressed.length → compressed.length ≤ maxsz →
      Reach cfg maxsz (write_chunk r k compressed)
  | defragment (r : RegionIO) : Reach cfg maxsz r → Reach cfg maxsz (defragment_region cfg r)
  | reopen (r : RegionIO) : Reach cfg maxsz r → Reach cfg maxsz (reopen_region r)

/-- The largest compressed chunk of the source: zlib's `compressBound(4096)`. -/
def defaultMaxCompressed : Nat := 4110

/-- A region of `defaultConfig`: a new file into which the chunks of slots 5 and 7 were
written, 3 and 2 bytes long. -/
def demoRegionDefault : RegionIO :=
  write_chunk (write_chunk (new_region defaultConfig File.empty) 5 [1, 2, 3]) 7 [4, 5]

/-! ## LeastRecentlyUsed -/

/-- `MapNode<K, V>`: key and value of a node, and `head`, the bucket the node was linked
into last.  The links `next`, `prev` and `down` are the lists of `LeastRecentlyUsed`. -/
structure MapNode (V : Type) where
  key : Vec3
  val : V
  head : Nat

/-- `LeastRecentlyUsed<T, N>`.  Nodes are named by their address, a number; `node` is the
memory holding them.  `m_map b` is the chain of bucket `b` (followed through `down`),
`m_free_list` the chain of unused nodes, `m_list` the recency chain from `m_front` to
`m_back` (followed through `next`). -/
structure LeastRecentlyUsed (V : Type) where
  node : Nat → MapNode V
  m_map : Nat → List Nat
  m_free_list : List Nat
  m_list : List Nat

namespace LeastRecentlyUsed

variable {V : Type}

/-- The constructor: empty buckets, no free node, empty recency chain. -/
def init (blank : V) : LeastRecentlyUsed V :=
  { node := fun _ => { key := ⟨0, 0, 0⟩, val := blank, head := 0 },
    m_map := fun _ => [], m_free_list := [], m_list := [] }

/-- `add_node`: the node becomes the first of its bucket and the front of the recency
chain. -/
def add_node (lru : LeastRecentlyUsed V) (n index : Nat) : LeastRecentlyUsed V :=
  { node := Function.update lru.node n { lru.node n with head := index },
    m_map := Function.update lru.m_map index (n :: lru.m_map index),
    m_free_list := lru.m_free_list,
    m_list := n :: lru.m_list }

/-- `remove_node`: the node is unlinked from the chain of the bucket `head` points to and
from the recency chain. -/
def remove_node (lru : LeastRecentlyUsed V) (n : Nat) : LeastRecentlyUsed V :=
  { node := lru.node,
    m_map := Function.update lru.m_map (lru.node n).head
      ((lru.m_map (lru.node n).head).erase n),
    m_free_list := lru.m_free_list,
    m_list := lru.m_list.erase n }

/-- `get_node`: walk the chain of the bucket for a node with the key; a node found is
removed and added again, which makes it the most recently used. -/
def get_node (lru : LeastRecentlyUsed V) (node_position : Vec3) (node_index : Nat) :
    LeastRecentlyUsed V × Option Nat :=
  match (lru.m_map node_index).find?
      (fun n => VoxelStorage.all_equal node_position (lru.node n).key) with
  | none => (lru, none)
  | some n => (add_node (remove_node lru n) n node_index, some n)

/-- `remove_lru_node`: unlink and return `m_back`, if there is one. -/
def remove_lru_node (lru : LeastRecentlyUsed V) : LeastRecentlyUsed V × Option Nat :=
  match lru.m_list.getLast? with
  | none => (lru, none)
  | some n => (remove_node lru n, some n)

/-- `add_to_heap`: push a node onto the free chain. -/
def add_to_heap (lru : LeastRecentlyUsed V) (n : Nat) : LeastRecentlyUsed V :=
  { lru with m_free_list := n :: lru.m_free_list }

/-- `get_from_heap`: pop the free chain, if it is not empty. -/
def get_from_heap (lru : LeastRecentlyUsed V) : LeastRecentlyUsed V × Option Nat :=
  match lru.m_free_list with
  | [] => (lru, none)
  | n :: rest => ({ lru with m_free_list := rest }, some n)

/-- The loop of the constructor of `VoxelStorage`: `count` fresh nodes, with the addresses
`0 .. count - 1`, are pushed onto the free chain. -/
def fill_heap (lru : LeastRecentlyUsed V) : Nat → LeastRecentlyUsed V
  | 0 => lru
  | count + 1 => add_to_heap (fill_heap lru count) count

/-- The keys of the cached nodes, most recently used first. -/
def keys (lru : LeastRecentlyUsed V) : List Vec3 := lru.m_list.map (fun n => (lru.node n).key)

/-- Overwrite the value of a node. -/
def set_val (lru : LeastRecentlyUsed V) (n : Nat) (v : V) : LeastRecentlyUsed V :=
  { lru with node := Function.update lru.node n { lru.node n with val := v } }

/-- Overwrite the key of a node. -/
def set_key (lru : LeastRecentlyUsed V) (n : Nat) (k : Vec3) : LeastRecentlyUsed V :=
  { lru with node := Function.update lru.node n { lru.node n with key := k } }

end LeastRecentlyUsed

/-- The structure of a cache of `N` nodes whose keys are hashed by `hash`, while the
nodes `out` are held by the caller: every node is in exactly one of the recency chain,
the free chain and `out`; cached keys are pairwise different; a cached node remembers the
bucket of its key; and the chain of a bucket lists the cached nodes of the bucket in
recency order. -/
structure LRUInv {V : Type} (N : Nat) (hash : Vec3 → Nat) (lru : LeastRecentlyUsed V)
    (out : List Nat) : Prop where
  perm : (lru.m_list ++ lru.m_free_list ++ out).Perm (List.range N)
  keys_nodup : lru.keys.Nodup
  heads : ∀ n ∈ lru.m_list, (lru.node n).head = hash (lru.node n).key
  buckets : ∀ b, lru.m_map b = lru.m_list.filter (fun n => (lru.node n).head = b)

/-! ## VoxelStorage -/

/-- `struct Chunk`: the block array and the dirty flag. -/
structure Chunk where
  blocks : List Nat
  dirty : Bool

/-- `struct Region`.  A file descriptor is modelled by the region position whose file
`world/x|y|z` it is open on; `none` stands for a descriptor that is not valid. -/
structure Region where
  fd : Option Vec3
  garbage : Nat
  end_ : Nat

/-- What `VoxelStorage` is linked against: the constants, zlib, and the block array
`create_new_chunk` writes for a chunk position. -/
structure Env where
  cfg : Config
  codec : Codec
  create_new_chunk : Vec3 → List Nat

/-- The state of a `VoxelStorage` together with the directory `world/`: the chunk cache,
the region cache, and the file of every region position (length 0: no such file yet). -/
structure VoxelStorage where
  m_chunk_LRU : LeastRecentlyUsed Chunk
  m_region_LRU : LeastRecentlyUsed Region
  world : Vec3 → File

/-- How a call ends: it returns, it throws, it would dereference a null pointer, or a
loop has not finished within the given number of rounds. -/
inductive Outcome (α : Type) where
  | ok : α → Outcome α
  | thrown : Outcome α
  | null : Outcome α
  | unfinished : Outcome α
deriving DecidableEq

/-- `static_cast<uint32_t>` of an `int32_t`. -/
def to_u32 (a : Int) : Nat := (a % 4294967296).toNat

/-- The hash of `chunk_index` and `region_index` before the reduction to the number of
buckets: the components times the seeds `(73856093, 19349663, 83492791)`, xor-ed. -/
def position_hash (p : Vec3) : Nat :=
  wrapU32 (to_u32 p.x * 73856093) ^^^ wrapU32 (to_u32 p.y * 19349663) ^^^
    wrapU32 (to_u32 p.z * 83492791)

namespace VoxelStorage

/-- `VoxelStorage::chunk_index`. -/
def chunk_index (cfg : Config) (chunk_position : Vec3) : Nat :=
  position_hash chunk_position % cfg.CHUNK_MAP_SIZE

/-- `VoxelStorage::region_index`. -/
def region_index (cfg : Config) (region_position : Vec3) : Nat :=
  position_hash region_position % cfg.REGION_MAP_SIZE

/-- The slot of a chunk in its region: `static_cast<uint32_t>(position_to_index(p,
REGION_SIZE))`. -/
def slot_index (cfg : Config) (chunk_position : Vec3) : Nat :=
  to_u32 (position_to_index chunk_position cfg.REGION_SIZE)

/-- The constructor: `CHUNK_HEAP_SIZE` chunk nodes and `REGION_HEAP_SIZE` region nodes go
to the free chains; `world` is the directory the store works on. -/
def init (cfg : Config) (world : Vec3 → File) : VoxelStorage :=
  { m_chunk_LRU :=
      (LeastRecentlyUsed.init { blocks := [], dirty := false }).fill_heap cfg.CHUNK_HEAP_SIZE,
    m_region_LRU :=
      (LeastRecentlyUsed.init { fd := none, garbage := 0, end_ := 0 }).fill_heap
        cfg.REGION_HEAP_SIZE,
    world := world }

/-- The file behind the descriptor of a region node. -/
def region_file (s : VoxelStorage) (region : Nat) : File :=
  match (s.m_region_LRU.node region).val.fd with
  | some p => s.world p
  | none => File.empty

/-- The header fields of a region node with the file behind its descriptor. -/
def region_io (s : VoxelStorage) (region : Nat) : RegionIO :=
  { garbage := (s.m_region_LRU.node region).val.garbage,
    end_ := (s.m_region_LRU.node region).val.end_,
    file := region_file s region }

/-- Store header fields and file contents back to a region node and its file. -/
def set_region_io (s : VoxelStorage) (region : Nat) (io : RegionIO) : VoxelStorage :=
  { m_chunk_LRU := s.m_chunk_LRU,
    m_region_LRU := s.m_region_LRU.set_val region
      { fd := (s.m_region_LRU.node region).val.fd, garbage := io.garbage, end_ := io.end_ },
    world :=
      match (s.m_region_LRU.node region).val.fd with
      | some p => Function.update s.world p io.file
      | none => s.world }

/-- `VoxelStorage::close_region`: write `{ end, garbage }` to position 0 and close. -/
def close_region (s : VoxelStorage) (region : Nat) : VoxelStorage :=
  match (s.m_region_LRU.node region).val.fd with
  | none => s
  | some p => { s with world := Function.update s.world p (write_header (region_io s region)) }

/-- Lines 329-334 of `get_region`: a node from the free chain or, if there is none, the
least recently used region, which is closed first. -/
def take_region_node (s : VoxelStorage) : VoxelStorage × Option Nat :=
  match s.m_region_LRU.get_from_heap with
  | (lru1, some region) => ({ s with m_region_LRU := lru1 }, some region)
  | (lru1, none) =>
    match lru1.remove_lru_node with
    | (lru2, some region) => (close_region { s with m_region_LRU := lru2 } region, some region)
    | (lru2, none) => ({ s with m_region_LRU := lru2 }, none)

/-- Lines 336-361 of `get_region`: open the file of the region on the node, initialise a
new file or read the header of an existing one, set the key and link the node. -/
def open_region (env : Env) (s : VoxelStorage) (region : Nat) (region_position : Vec3) :
    VoxelStorage :=
  let is_new_file := (s.world region_position).size == 0
  let opened : RegionIO :=
    if is_new_file then new_region env.cfg (s.world region_position)
    else load_region (s.world region_position)
  let val : Region :=
    { fd := some region_position, garbage := opened.garbage, end_ := opened.end_ }
  { m_chunk_LRU := s.m_chunk_LRU,
    m_region_LRU :=
      ((s.m_region_LRU.set_val region val).set_key region region_position).add_node region
        (region_index env.cfg region_position),
    world := Function.update s.world region_position opened.file }

/-- `VoxelStorage::get_region`. -/
def get_region (env : Env) (s : VoxelStorage) (region_position : Vec3) :
    VoxelStorage × Outcome Nat :=
  match s.m_region_LRU.get_node region_position (region_index env.cfg region_position) with
  | (lru, some region) => ({ s with m_region_LRU := lru }, .ok region)
  | (lru, none) =>
    -- load region
    match take_region_node { s with m_region_LRU := lru } with
    | (s1, none) => (s1, .null)
    | (s1, some region) => (open_region env s1 region region_position, .ok region)

/-- `VoxelStorage::close_chunk`. -/
def close_chunk (env : Env) (s : VoxelStorage) (chunk : Nat) : VoxelStorage × Outcome Unit :=
  if !(s.m_chunk_LRU.node chunk).val.dirty then (s, .ok ())
  else
    match get_region env s (floor_div (s.m_chunk_LRU.node chunk).key env.cfg.REGION_SIZE) with
    | (s1, .ok region) =>
      let chunk_index := slot_index env.cfg (s1.m_chunk_LRU.node chunk).key
      match env.codec.compress2 (s1.m_chunk_LRU.node chunk).val.blocks
          (c_maximum_compressed_size env.cfg env.codec) with
      | none => (s1, .thrown)
      | some compressed =>
        (set_region_io s1 region
          (close_chunk_region env.cfg (region_io s1 region) chunk_index compressed), .ok ())
    | (s1, .thrown) => (s1, .thrown)
    | (s1, .null) => (s1, .null)
    | (s1, .unfinished) => (s1, .unfinished)

/-- Lines 169-174 of `get_chunk`: a node from the free chain or, if there is none, the
least recently used chunk, which is closed first. -/
def take_chunk_node (env : Env) (s : VoxelStorage) : VoxelStorage × Outcome Nat :=
  match s.m_chunk_LRU.get_from_heap with
  | (lru1, some chunk) => ({ s with m_chunk_LRU := lru1 }, .ok chunk)
  | (lru1, none) =>
    match lru1.remove_lru_node with
    | (lru2, some chunk) =>
      match close_chunk env { s with m_chunk_LRU := lru2 } chunk with
      | (s2, .ok _) => (s2, .ok chunk)
      | (s2, .thrown) => (s2, .thrown)
      | (s2, .null) => (s2, .null)
      | (s2, .unfinished) => (s2, .unfinished)
    | (lru2, none) => ({ s with m_chunk_LRU := lru2 }, .null)

/-- Lines 175-205 of `get_chunk`: set the key of the node, read the slot of the chunk
from the region, decompress the blob or create the chunk, and link the node. -/
def load_chunk (env : Env) (s : VoxelStorage) (region chunk : Nat) (chunk_position : Vec3) :
    VoxelStorage × Outcome Nat :=
  let s3 := { s with m_chunk_LRU := s.m_chunk_LRU.set_key chunk chunk_position }
  let chunk_index := slot_index env.cfg chunk_position
  let ps0 := slot_offset (region_file s3 region) chunk_index
  let ps1 := slot_size (region_file s3 region) chunk_index
  if ps0 ≠ 0 then
    -- if exists
    let buffer := (region_file s3 region).pread ps1 ps0
    match env.codec.uncompress buffer env.cfg.CHUNK_VOLUME with
    | some blocks =>
      if blocks.length ≠ env.cfg.CHUNK_VOLUME then
        let partly : Chunk :=
          { blocks := blocks ++ (s3.m_chunk_LRU.node chunk).val.blocks.drop blocks.length,
            dirty := (s3.m_chunk_LRU.node chunk).val.dirty }
        ({ s3 with m_chunk_LRU := s3.m_chunk_LRU.set_val chunk partly }, .thrown)
      else
        let loaded : Chunk := { blocks := blocks, dirty := false }
        let lru := (s3.m_chunk_LRU.set_val chunk loaded).add_node chunk
          (VoxelStorage.chunk_index env.cfg chunk_position)
        ({ s3 with m_chunk_LRU := lru }, .ok chunk)
    | none => (s3, .thrown)
  else
    let created : Chunk := { blocks := env.create_new_chunk chunk_position, dirty := true }
    let lru := (s3.m_chunk_LRU.set_val chunk created).add_node chunk
      (VoxelStorage.chunk_index env.cfg chunk_position)
    ({ s3 with m_chunk_LRU := lru }, .ok chunk)

/-- `VoxelStorage::get_chunk`. -/
def get_chunk (env : Env) (s : VoxelStorage) (chunk_position : Vec3) :
    VoxelStorage × Outcome Nat :=
  match s.m_chunk_LRU.get_node chunk_position (chunk_index env.cfg chunk_position) with
  | (lru, some chunk) => ({ s with m_chunk_LRU := lru }, .ok chunk)
  | (lru, none) =>
    -- load chunk from region if it exists
    match get_region env { s with m_chunk_LRU := lru }
        (floor_div chunk_position env.cfg.REGION_SIZE) with
    | (s1, .ok region) =>
      match take_chunk_node env s1 with
      | (s2, .ok chunk) => load_chunk env s2 region chunk chunk_position
      | (s2, .thrown) => (s2, .thrown)
      | (s2, .null) => (s2, .null)
      | (s2, .unfinished) => (s2, .unfinished)
    | (s1, .thrown) => (s1, .thrown)
    | (s1, .null) => (s1, .null)
    | (s1, .unfinished) => (s1, .unfinished)

/-- `VoxelStorage::get`: fetch the chunk and, for `edit`, mark it dirty.  The result names
the node whose block array the returned pointer addresses. -/
def get (env : Env) (s : VoxelStorage) (position : Vec3) (_cache edit : Bool) :
    VoxelStorage × Outcome Nat :=
  match get_chunk env s position with
  | (s1, .ok c) =>
    if edit then
      let edited : Chunk := { blocks := (s1.m_chunk_LRU.node c).val.blocks, dirty := true }
      ({ s1 with m_chunk_LRU := s1.m_chunk_LRU.set_val c edited }, .ok c)
    else (s1, .ok c)
  | r => r

/-- The caller stores a block array through the pointer `get` returned. -/
def write_blocks (s : VoxelStorage) (c : Nat) (blocks : List Nat) : VoxelStorage :=
  let written : Chunk := { blocks := blocks, dirty := (s.m_chunk_LRU.node c).val.dirty }
  { s with m_chunk_LRU := s.m_chunk_LRU.set_val c written }

/-- The first loop of the destructor: every cached chunk, least recently used first, is
closed and its node put on the free chain.  `rounds` bounds the number of iterations. -/
def close_all_chunks (env : Env) : Nat → VoxelStorage → VoxelStorage × Outcome Unit
  | 0, s => (s, .unfinished)
  | rounds + 1, s =>
    match s.m_chunk_LRU.remove_lru_node with
    | (lru, none) => ({ s with m_chunk_LRU := lru }, .ok ())
    | (lru, some chunk) =>
      match close_chunk env { s with m_chunk_LRU := lru } chunk with
      | (s1, .ok _) =>
        close_all_chunks env rounds { s1 with m_chunk_LRU := s1.m_chunk_LRU.add_to_heap chunk }
      | (s1, e) => (s1, e)

/-- The second loop of the destructor: every cached region, least recently used first,
is closed and its node put on the free chain. -/
def close_all_regions : Nat → VoxelStorage → VoxelStorage × Outcome Unit
  | 0, s => (s, .unfinished)
  | rounds + 1, s =>
    match s.m_region_LRU.remove_lru_node with
    | (lru, none) => ({ s with m_region_LRU := lru }, .ok ())
    | (lru, some region) =>
      let s1 := close_region { s with m_region_LRU := lru } region
      close_all_regions rounds { s1 with m_region_LRU := s1.m_region_LRU.add_to_heap region }

/-- The destructor `~VoxelStorage` (its last two loops only delete the free nodes). -/
def destroy (env : Env) (rounds : Nat) (s : VoxelStorage) : VoxelStorage × Outcome Unit :=
  match close_all_chunks env rounds s with
  | (s1, .ok _) => close_all_regions rounds s1
  | r => r

end VoxelStorage

/-- A toy codec for worked examples: `compress2` puts the length in front of the bytes,
`uncompress` takes it off again; both respect the capacity of the destination. -/
def toyCodec : Codec :=
  { compressBound := fun n => n + 1,
    compress2 := fun src cap => if src.length + 1 ≤ cap then some (src.length :: src) else none,
    uncompress := fun src cap =>
      match src with
      | [] => none
      | n :: rest => if n = rest.length ∧ rest.length ≤ cap then some rest else none }

/-- A toy environment: `smallConfig`, `toyCodec`, and a generator that fills a chunk with
the `x` coordinate of its position. -/
def toyEnv : Env :=
  { cfg := smallConfig, codec := toyCodec,
    create_new_chunk := fun p => List.replicate 4 (to_u32 p.x % 256) }

/-- The region size is usable: every component is positive. -/
def Config.RegionSizePos (cfg : Config) : Prop :=
  0 < cfg.REGION_SIZE.x ∧ 0 < cfg.REGION_SIZE.y ∧ 0 < cfg.REGION_SIZE.z

instance (cfg : Config) : Decidable cfg.RegionSizePos := by
  unfold Config.RegionSizePos; infer_instance

/-- What the proofs about the store assume of its environment: a region fits into a
`uint32_t`; the threshold and the region sizes are positive; there is at least one chunk
node and there are at least two region nodes; `compress2` into a buffer of
`compressBound` bytes succeeds with a non-empty output that `uncompress` turns back into
the block array; and `create_new_chunk` fills the whole block array. -/
structure Env.Valid (env : Env) : Prop where
  fits : env.cfg.Fits (c_maximum_compressed_size env.cfg env.codec)
  threshold_pos : 0 < env.cfg.DEFRAGMENT_GARBAGE_THRESHOLD
  region_size_pos : env.cfg.RegionSizePos
  chunk_heap : 1 ≤ env.cfg.CHUNK_HEAP_SIZE
  region_heap : 2 ≤ env.cfg.REGION_HEAP_SIZE
  codec_ok : ∀ blocks : List Nat, blocks.length = env.cfg.CHUNK_VOLUME →
    ∃ compressed, env.codec.compress2 blocks (c_maximum_compressed_size env.cfg env.codec)
        = some compressed ∧ 0 < compressed.length ∧
      compressed.length ≤ c_maximum_compressed_size env.cfg env.codec ∧
      env.codec.uncompress compressed env.cfg.CHUNK_VOLUME = some blocks
  generator_ok : ∀ p, (env.create_new_chunk p).length = env.cfg.CHUNK_VOLUME

/-- The invariant of the region cache and the region files, while the caller holds the
region nodes `out`: the cache is well linked, the descriptor of a cached region is open on
the file of its key, a cached region satisfies the region invariant with its garbage
below the threshold, and so does the header on disk of every existing file that is not
cached. -/
structure RegionsOK (env : Env) (s : VoxelStorage) (out : List Nat) : Prop where
  lru : LRUInv env.cfg.REGION_HEAP_SIZE (VoxelStorage.region_index env.cfg) s.m_region_LRU out
  fds : ∀ n ∈ s.m_region_LRU.m_list,
    (s.m_region_LRU.node n).val.fd = some (s.m_region_LRU.node n).key
  cached : ∀ n ∈ s.m_region_LRU.m_list,
    RegionOK env.cfg (c_maximum_compressed_size env.cfg env.codec) (s.region_io n) ∧
      (s.region_io n).garbage < env.cfg.DEFRAGMENT_GARBAGE_THRESHOLD
  closed : ∀ r, r ∉ s.m_region_LRU.keys → (s.world r).size ≠ 0 →
    RegionOK env.cfg (c_maximum_compressed_size env.cfg env.codec) (load_region (s.world r)) ∧
      (load_region (s.world r)).garbage < env.cfg.DEFRAGMENT_GARBAGE_THRESHOLD

/-- What a fetch finds on disk for a chunk that is not cached: the decompressed blob of
its slot if the slot is not empty (and `none` if `get_chunk` would throw), the block array
of `create_new_chunk` if it is. -/
def VoxelStorage.disk_blocks (env : Env) (s : VoxelStorage) (p : Vec3) : Option (List Nat) :=
  if slot_offset (s.world (VoxelStorage.floor_div p env.cfg.REGION_SIZE))
      (VoxelStorage.slot_index env.cfg p) ≠ 0 then
    match env.codec.uncompress
        (slot_bytes (s.world (VoxelStorage.floor_div p env.cfg.REGION_SIZE))
          (VoxelStorage.slot_index env.cfg p)) env.cfg.CHUNK_VOLUME with
    | some blocks => if blocks.length = env.cfg.CHUNK_VOLUME then some blocks else none
    | none => none
  else some (env.create_new_chunk p)

/-- The invariant of the chunk cache, while the caller holds the chunk nodes `out`: the
cache is well linked, cached keys are `int32_t` vectors, cached block arrays are
complete, and a cached chunk that is not dirty holds what is on disk. -/
structure ChunksOK (env : Env) (s : VoxelStorage) (out : List Nat) : Prop where
  lru : LRUInv env.cfg.CHUNK_HEAP_SIZE (VoxelStorage.chunk_index env.cfg) s.m_chunk_LRU out
  keys_s32 : ∀ n ∈ s.m_chunk_LRU.m_list, (s.m_chunk_LRU.node n).key.isS32
  lengths : ∀ n ∈ s.m_chunk_LRU.m_list,
    (s.m_chunk_LRU.node n).val.blocks.length = env.cfg.CHUNK_VOLUME
  clean : ∀ n ∈ s.m_chunk_LRU.m_list, (s.m_chunk_LRU.node n).val.dirty = false →
    s.disk_blocks env (s.m_chunk_LRU.node n).key = some (s.m_chunk_LRU.node n).val.blocks

/-- Every chunk can be fetched from disk: no slot holds a blob that fails to decompress
to a complete block array. -/
def Decodable (env : Env) (s : VoxelStorage) : Prop :=
  ∀ p : Vec3, p.isS32 → ∃ blocks, s.disk_blocks env p = some blocks

/-- The invariant of the store between two calls. -/
structure StoreOK (env : Env) (s : VoxelStorage) : Prop where
  regions : RegionsOK env s []
  chunks : ChunksOK env s []
  decodable : Decodable env s

/-- The node that caches a chunk position, if there is one. -/
def VoxelStorage.cached_chunk (s : VoxelStorage) (p : Vec3) : Option Nat :=
  s.m_chunk_LRU.m_list.find? (fun n => decide ((s.m_chunk_LRU.node n).key = p))

/-- The block array of a chunk as the store holds it: the cached one, or else what is on
disk. -/
def VoxelStorage.chunk_content (env : Env) (s : VoxelStorage) (p : Vec3) : Option (List Nat) :=
  match s.cached_chunk p with
  | some n => some (s.m_chunk_LRU.node n).val.blocks
  | none => s.disk_blocks env p

/-- The keys of a least-recently-used cache of `N` entries after a touch of `p`, most
recently used first: `p` moves to the front if it is cached; otherwise it is added in
front, and the last key goes if the cache is full. -/
def lru_touch (N : Nat) (keys : List Vec3) (p : Vec3) : List Vec3 :=
  if p ∈ keys then p :: keys.erase p
  else if keys.length < N then p :: keys
  else p :: keys.dropLast

/-- A sequence of fetches through `get`, each with its own `edit` flag. -/
def VoxelStorage.fetch_all (env : Env) :
    VoxelStorage → List (Vec3 × Bool) → VoxelStorage × Outcome Unit
  | s, [] => (s, .ok ())
  | s, (p, edit) :: rest =>
    match s.get env p true edit with
    | (s1, .ok _) => VoxelStorage.fetch_all env s1 rest
    | (s1, .thrown) => (s1, .thrown)
    | (s1, .null) => (s1, .null)
    | (s1, .unfinished) => (s1, .unfinished)

/-- The keys of a least-recently-used cache of `N` entries after a sequence of touches. -/
def touch_all (N : Nat) (keys : List Vec3) (ps : List Vec3) : List Vec3 :=
  ps.foldl (lru_touch N) keys

/-- The time of the most recent touch of `k` in the sequence `ks` of touches, counted from
1; it is 0 if `k` is not touched. -/
def last_touch (ks : List Vec3) (k : Vec3) : Nat := ks.length - ks.reverse.indexOf k

/-- A world directory without region files. -/
def emptyWorld : Vec3 → File := fun _ => File.empty

/-- A sequence of touches of two keys: `(0, 0, 0)`, `(1, 0, 0)`, and `(0, 0, 0)` again, the
last one with `edit`. -/
def demoTouches : List (Vec3 × Bool) :=
  [((⟨0, 0, 0⟩ : Vec3), false), ((⟨1, 0, 0⟩ : Vec3), false), ((⟨0, 0, 0⟩ : Vec3), true)]

/-! ## Math.hpp: packed coordinates

`cfg::Coord`, the component type of the coordinates of the streaming container, is
declared in `cfg.hpp`, which is not among the sources; it is taken to be `int32_t`, the
component type of `glm::ivec3`. -/

/-- Reduction of a natural number to `uint64_t`. -/
def wrapU64 (n : Nat) : Nat := n % 18446744073709551616

/-- Conversion of an `int32_t` to `uint64_t` (`DumbVec3(v.x)`). -/
def to_u64 (a : Int) : Nat := (a % 18446744073709551616).toNat

/-- `a & b` on `int32_t`: the conjunction of the two's-complement bit patterns. -/
def and_s32 (a b : Int) : Int := wrapS32 (Int.ofNat (to_u32 a &&& to_u32 b))

/-- `a << n` on `int32_t`, reduced to the 32 bits of the type. -/
def shl_s32 (a : Int) (n : Nat) : Int := wrapS32 (a * 2 ^ n)

/-- `a >> n` on `int32_t`: the arithmetic shift. -/
def shr_s32 (a : Int) (n : Nat) : Int := a >>> n

namespace Math

/-- The `int` constant `(1 << 21) - 1`. -/
def field_mask : Int := wrapS32 (shl_s32 1 21 - 1)

/-- One component of `toVec3`: `v.x = (d >> DumbVec3(k * 21)) & (1 << 21) - 1`, then
`v.x <<= sizeof(T) * CHAR_BIT - 21` and `v.x >>= sizeof(T) * CHAR_BIT - 21`. -/
def unpack_field (d : Nat) (k : Nat) : Int :=
  let v := wrapS32 (Int.ofNat ((d >>> (k * 21)) &&& to_u64 field_mask))
  let v := shl_s32 v (4 * 8 - 21)
  shr_s32 v (4 * 8 - 21)

/-- Math.hpp `toVec3<T>` for `T = int32_t`; a `DumbVec3` is a `uint64_t`. -/
def toVec3 (d : Nat) : Vec3 :=
  { x := unpack_field d 0, y := unpack_field d 1, z := unpack_field d 2 }

/-- Math.hpp `toDumb3<T>` for `T = int32_t`. -/
def toDumb3 (v : Vec3) : Nat :=
  let x := and_s32 v.x field_mask
  let y := and_s32 v.y field_mask
  let z := and_s32 v.z field_mask
  wrapU64 (to_u64 x <<< (0 * 21)) ||| wrapU64 (to_u64 y <<< (1 * 21)) |||
    wrapU64 (to_u64 z <<< (2 * 21))

end Math

/-- A component that fits into the 21 bits of a packed coordinate. -/
def isS21 (x : Int) : Prop := -1048576 ≤ x ∧ x ≤ 1048575

instance (x : Int) : Decidable (isS21 x) := by
  unfold isS21; infer_instance

/-- All three components fit into 21 bits. -/
def Vec3.isS21 (v : Vec3) : Prop := Voxel.isS21 v.x ∧ Voxel.isS21 v.y ∧ Voxel.isS21 v.z

instance (v : Vec3) : Decidable v.isS21 := by
  unfold Vec3.isS21; infer_instance

namespace Math

/-- Math.hpp `to_index`: `(pos.z * dim.y + pos.y) * dim.x + pos.x` on `int32_t`. -/
def to_index (pos dim : Vec3) : Int :=
  wrapS32 (wrapS32 (wrapS32 (wrapS32 (pos.z * dim.y) + pos.y) * dim.x) + pos.x)

/-- Math.hpp `position_to_index`. -/
def position_to_index (pos dim : Vec3) : Int := to_index (floor_mod pos dim) dim

/-- Math.hpp `volume`: `v.x * v.y * v.z` on `int32_t`. -/
def volume (v : Vec3) : Int := wrapS32 (wrapS32 (v.x * v.y) * v.z)

end Math

/-- The distance `|p − c|∞ ≤ R`: every component of `p − c` lies in `[−R, R]`. -/
def inRadius (c : Vec3) (R : Int) (p : Vec3) : Prop :=
  (-R ≤ p.x - c.x ∧ p.x - c.x ≤ R) ∧ (-R ≤ p.y - c.y ∧ p.y - c.y ≤ R) ∧
    (-R ≤ p.z - c.z ∧ p.z - c.z ≤ R)

instance (c : Vec3) (R : Int) (p : Vec3) : Decidable (inRadius c R p) := by
  unfold inRadius; infer_instance

/-- Array dimensions on which the `int32_t` arithmetic of `position_to_index` does not
wrap: every axis is positive and at most `2^30`, and the volume is at most `2^31 − 1`. -/
def ArrayDimsFit (s : Vec3) : Prop :=
  (0 < s.x ∧ s.x ≤ 1073741824) ∧ (0 < s.y ∧ s.y ≤ 1073741824) ∧
    (0 < s.z ∧ s.z ≤ 1073741824) ∧ s.x * s.y * s.z ≤ 2147483647

instance (s : Vec3) : Decidable (ArrayDimsFit s) := by
  unfold ArrayDimsFit; infer_instance

/-! ## Math.hpp: boxes -/

/-- `a + b` on `glm::tvec3<int32_t>`, componentwise. -/
def Vec3.add (a b : Vec3) : Vec3 :=
  { x := wrapS32 (a.x + b.x), y := wrapS32 (a.y + b.y), z := wrapS32 (a.z + b.z) }

/-- `a - b` on `glm::tvec3<int32_t>`, componentwise. -/
def Vec3.sub (a b : Vec3) : Vec3 :=
  { x := wrapS32 (a.x - b.x), y := wrapS32 (a.y - b.y), z := wrapS32 (a.z - b.z) }

/-- `glm::max`, componentwise. -/
def Vec3.max (a b : Vec3) : Vec3 :=
  { x := Max.max a.x b.x, y := Max.max a.y b.y, z := Max.max a.z b.z }

/-- `glm::min`, componentwise. -/
def Vec3.min (a b : Vec3) : Vec3 :=
  { x := Min.min a.x b.x, y := Min.min a.y b.y, z := Min.min a.z b.z }

/-- `glm::any(glm::lessThanEqual(v, { 0, 0, 0 }))`. -/
def Vec3.any_le_zero (v : Vec3) : Bool :=
  decide (v.x ≤ 0) || decide (v.y ≤ 0) || decide (v.z ≤ 0)

/-- `glm::all(glm::equal(a, b))`. -/
def Vec3.all_equal (a b : Vec3) : Bool :=
  decide (a.x = b.x) && decide (a.y = b.y) && decide (a.z = b.z)

namespace Math

/-- Math.hpp `AABB3<T>`. -/
structure AABB3 where
  min : Vec3
  max : Vec3
deriving DecidableEq, Repr

/-- Math.hpp `overlap`.  The extent `aabb.max - aabb.min` is an `int32_t` difference; the
model reduces it to 32 bits, which is what the source computes where the difference fits
`int32_t` (where it does not, the source overflows a signed integer). -/
def overlap (a b : AABB3) : AABB3 :=
  let aabb : AABB3 := { min := Vec3.max a.min b.min, max := Vec3.min a.max b.max }
  if Vec3.any_le_zero (Vec3.sub aabb.max aabb.min) then
    { min := ⟨0, 0, 0⟩, max := ⟨0, 0, 0⟩ }
  else aabb

/-- Math.hpp `toAABB3`. -/
def toAABB3 (center radius : Vec3) : AABB3 :=
  { min := Vec3.sub center radius, max := Vec3.add center radius }

/-- Math.hpp `inside`: `a.max >= b` and `a.min <= b` on every component. -/
def inside (a : AABB3) (b : Vec3) : Bool :=
  (decide (a.max.x ≥ b.x) && decide (a.max.y ≥ b.y) && decide (a.max.z ≥ b.z)) &&
    (decide (a.min.x ≤ b.x) && decide (a.min.y ≤ b.y) && decide (a.min.z ≤ b.z))

end Math

/-- The box `max(a.min, b.min) .. min(a.max, b.max)` has positive extent on every axis, as
`overlap` computes the extent. -/
def Math.positive_extent (a b : Math.AABB3) : Prop :=
  0 < (Vec3.sub (Vec3.min a.max b.max) (Vec3.max a.min b.min)).x ∧
    0 < (Vec3.sub (Vec3.min a.max b.max) (Vec3.max a.min b.min)).y ∧
    0 < (Vec3.sub (Vec3.min a.max b.max) (Vec3.max a.min b.min)).z

instance (a b : Math.AABB3) : Decidable (Math.positive_extent a b) := by
  unfold Math.positive_extent; infer_instance

/-! ## VoxelContainer.cpp

`VoxelContainer.hpp` and `cfg.hpp` are not among the sources.  The compile-time constants
of `cfg` that `VoxelContainer.cpp` uses are the fields of `ContainerConfig`; the data
members the functions read and write are the fields of `VoxelContainer`.  An array is a
function from the index to its entry. -/

/-- Modelled from the spec: the constants of the missing `cfg.hpp` that
`VoxelContainer.cpp` uses.  `CHUNK_ARRAY_SIZE` and `MESH_ARRAY_SIZE` are the dimensions of
the resident chunk and mesh arrays, `CHUNK_LOADING_RADIUS` the radius kept resident,
`CHUNK_MESH_START .. CHUNK_MESH_END` the meshes a chunk contributes to,
`MESH_CHUNK_START .. MESH_CHUNK_END` the chunks a mesh is built from, `CHUNK_VOLUME` the
number of blocks of a chunk, `ALL_CHUNKS_READY` the full readiness mask and
`READINES_BITS` the width of the unsigned `MeshReadinesType`. -/
structure ContainerConfig where
  CHUNK_ARRAY_SIZE : Vec3
  MESH_ARRAY_SIZE : Vec3
  CHUNK_LOADING_RADIUS : Vec3
  CHUNK_MESH_START : Vec3
  CHUNK_MESH_END : Vec3
  MESH_CHUNK_START : Vec3
  MESH_CHUNK_END : Vec3
  CHUNK_VOLUME : Int
  ALL_CHUNKS_READY : Nat
  READINES_BITS : Nat

/-- Modelled from the spec: the data members of `VoxelContainer` (declared in the missing
`VoxelContainer.hpp`) that `moveCenterChunk`, `getChunk`, `worker` and `markMeshes` use:
the packed position of every resident chunk slot, the last emitted position and the
readiness mask of every mesh slot, the positions of the meshes pushed to the queue, the
iterator into the offset list, the two centers, the overlap box, the dirty flag and the
running flag. -/
structure VoxelContainer where
  m_chunk_positions : Int → Nat
  m_mesh_positions : Int → Vec3
  m_mesh_readines : Int → Nat
  m_mesh_queue : List Vec3
  m_iterator : Nat
  m_loader_center_chunk : Vec3
  m_actual_center_chunk : Vec3
  m_center_chunk_overlap : Math.AABB3
  m_center_dirty : Bool
  m_workers_running : Bool

namespace VoxelContainer

/-- `VoxelContainer::moveCenterChunk`. -/
def moveCenterChunk (cc : ContainerConfig) (vc : VoxelContainer) (new_center_chunk : Vec3) :
    VoxelContainer :=
  let changed := !(Vec3.all_equal vc.m_actual_center_chunk new_center_chunk)
  { vc with
    m_actual_center_chunk := new_center_chunk,
    m_center_chunk_overlap :=
      Math.overlap (Math.toAABB3 new_center_chunk cc.CHUNK_LOADING_RADIUS)
        (Math.toAABB3 vc.m_loader_center_chunk cc.CHUNK_LOADING_RADIUS),
    m_center_dirty := if changed then true else vc.m_center_dirty }

/-- `VoxelContainer::getChunk`; `none` is `nullptr`, `some k` the pointer
`m_blocks.data() + k`. -/
def getChunk (cc : ContainerConfig) (vc : VoxelContainer) (chunk_position : Vec3) :
    Option Int :=
  let chunk_index := Math.position_to_index chunk_position cc.CHUNK_ARRAY_SIZE
  let loaded_chunk_position := Math.toVec3 (vc.m_chunk_positions chunk_index)
  if !(Vec3.all_equal loaded_chunk_position chunk_position) then none
  else if !(Math.inside vc.m_center_chunk_overlap chunk_position) then none
  else some (chunk_index * cc.CHUNK_VOLUME)

end VoxelContainer

/-! ## MeshIterator.hpp

`std::sort` is a parameter: a function from a comparison and a list to a list.  What the
C++ standard promises of it is `SortContract`. -/

/-- The values of a loop `for (int i = lo; i <= hi; ++i)`, in order. -/
def int_range (lo hi : Int) : List Int :=
  (List.range (hi - lo + 1).toNat).map (fun (i : Nat) => lo + (i : Int))

namespace MeshIterator

/-- The key of the comparison: `a.x * a.x + a.y * a.y + a.z * a.z` on `int`. -/
def squared (a : Vec3) : Int :=
  wrapS32 (wrapS32 (wrapS32 (a.x * a.x) + wrapS32 (a.y * a.y)) + wrapS32 (a.z * a.z))

/-- The comparison handed to `std::sort`. -/
def less (a b : Vec3) : Bool := decide (squared a < squared b)

/-- The three nested loops of the constructor: `z` outermost, `x` innermost. -/
def fill (radius : Int) : List Vec3 :=
  (int_range (-radius) radius).flatMap fun z =>
    (int_range (-radius) radius).flatMap fun y =>
      (int_range (-radius) radius).map fun x => ({ x := x, y := y, z := z } : Vec3)

/-- `MeshIterator::MeshIterator(int radius)`: the content of `m_values`. -/
def make (sort : (Vec3 → Vec3 → Bool) → List Vec3 → List Vec3) (radius : Int) : List Vec3 :=
  if radius < 0 then [] else sort less (fill radius)

/-- `MeshIterator::size`. -/
def size (m_values : List Vec3) : Nat := m_values.length

/-- `MeshIterator::get`; `none` where the assertion `i < m_values.size()` fails. -/
def get (m_values : List Vec3) (i : Nat) : Option Vec3 := m_values.get? i

end MeshIterator

/-- What `std::sort` promises for a comparison by a key: the result is a rearrangement of
the input in which no element has a smaller key than an element before it. -/
structure SortContract (sort : (Vec3 → Vec3 → Bool) → List Vec3 → List Vec3) : Prop where
  perm : ∀ (less : Vec3 → Vec3 → Bool) (l : List Vec3), (sort less l).Perm l
  sorted : ∀ (key : Vec3 → Int) (l : List Vec3),
    (sort (fun a b => decide (key a < key b)) l).Pairwise (fun a b => key a ≤ key b)

/-- A sort that satisfies `SortContract`: insertion sort. -/
def insertion_sort (less : Vec3 → Vec3 → Bool) (l : List Vec3) : List Vec3 :=
  l.insertionSort (fun a b => less b a = false)

/-- The squared length `x² + y² + z²` of a vector, as an integer. -/
def squared_length (v : Vec3) : Int := v.x * v.x + v.y * v.y + v.z * v.z

/-- The values of a loop `for (i = lo; i < hi; ++i)`, in order. -/
def int_range_lt (lo hi : Int) : List Int := int_range lo (hi - 1)

/-- The positions three nested loops `for (i.z = p.z + s.z; i.z < p.z + e.z; ++i.z)`, then
`y`, then `x` visit, in order. -/
def box_positions (p s e : Vec3) : List Vec3 :=
  (int_range_lt (wrapS32 (p.z + s.z)) (wrapS32 (p.z + e.z))).flatMap fun z =>
    (int_range_lt (wrapS32 (p.y + s.y)) (wrapS32 (p.y + e.y))).flatMap fun y =>
      (int_range_lt (wrapS32 (p.x + s.x)) (wrapS32 (p.x + e.x))).map fun x =>
        ({ x := x, y := y, z := z } : Vec3)

/-- The variables of the loop of `markMeshes`. -/
structure MarkState where
  m_mesh_readines : Int → Nat
  mask : Nat
  meshes_to_load : List Vec3

namespace VoxelContainer

/-- The body of the loop of `markMeshes` at mesh position `i`. -/
def mark_step (cc : ContainerConfig) (m_mesh_positions : Int → Vec3) (st : MarkState)
    (i : Vec3) : MarkState :=
  let index := Math.position_to_index i cc.MESH_ARRAY_SIZE
  let fetched := st.m_mesh_readines index
  let state := (fetched ||| st.mask) % 2 ^ cc.READINES_BITS
  let readines := Function.update st.m_mesh_readines index
    ((fetched ||| st.mask) % 2 ^ cc.READINES_BITS)
  let mask := (st.mask <<< 1) % 2 ^ cc.READINES_BITS
  if state = cc.ALL_CHUNKS_READY ∧ ¬ Vec3.all_equal i (m_mesh_positions index) = true then
    { m_mesh_readines := readines, mask := mask, meshes_to_load := st.meshes_to_load ++ [i] }
  else
    { m_mesh_readines := readines, mask := mask, meshes_to_load := st.meshes_to_load }

/-- `VoxelContainer::markMeshes`: the container afterwards and `meshes_to_load`. -/
def markMeshes (cc : ContainerConfig) (vc : VoxelContainer) (chunk_position : Vec3) :
    VoxelContainer × List Vec3 :=
  let st := (box_positions chunk_position cc.CHUNK_MESH_START cc.CHUNK_MESH_END).foldl
    (mark_step cc vc.m_mesh_positions)
    { m_mesh_readines := vc.m_mesh_readines, mask := 1, meshes_to_load := [] }
  ({ vc with m_mesh_readines := st.m_mesh_readines }, st.meshes_to_load)

/-- `VoxelContainer::generateMesh` as far as the container is concerned: `true` if it
returns, `false` if it throws because a chunk of the mesh is not resident.  The mesher is
external. -/
def generateMesh (cc : ContainerConfig) (vc : VoxelContainer) (mesh_position : Vec3) : Bool :=
  let index := Math.position_to_index mesh_position cc.MESH_ARRAY_SIZE
  if Vec3.all_equal mesh_position (vc.m_mesh_positions index) then true
  else
    (box_positions mesh_position cc.MESH_CHUNK_START cc.MESH_CHUNK_END).all fun i =>
      Vec3.all_equal i
        (Math.toVec3 (vc.m_chunk_positions (Math.position_to_index i cc.CHUNK_ARRAY_SIZE)))

/-- Lines 97-102 of `worker`: the position of the offset, its slot, and the store of the
position where the slot holds another one (`generateChunk` writes only the blocks). -/
def load_chunk_slot (cc : ContainerConfig) (vc : VoxelContainer) (offset : Vec3) :
    VoxelContainer :=
  let chunk_position := Vec3.add offset vc.m_loader_center_chunk
  let chunk_index := Math.position_to_index chunk_position cc.CHUNK_ARRAY_SIZE
  if !(Vec3.all_equal chunk_position (Math.toVec3 (vc.m_chunk_positions chunk_index))) then
    { vc with
      m_chunk_positions :=
        Function.update vc.m_chunk_positions chunk_index (Math.toDumb3 chunk_position) }
  else vc

/-- Lines 106-113 of `worker`: the meshes to load are generated, recorded and pushed to
the queue in turn; `none` if `generateMesh` throws. -/
def emit_meshes (cc : ContainerConfig) : VoxelContainer → List Vec3 → Option VoxelContainer
  | vc, [] => some vc
  | vc, mesh :: rest =>
    let mesh_index := Math.position_to_index mesh cc.MESH_ARRAY_SIZE
    if generateMesh cc vc mesh then
      emit_meshes cc
        { vc with
          m_mesh_positions := Function.update vc.m_mesh_positions mesh_index mesh,
          m_mesh_queue := vc.m_mesh_queue ++ [mesh] } rest
    else none

/-- Lines 97-113 of `worker`: what a worker does with one offset of the list. -/
def process_offset (cc : ContainerConfig) (vc : VoxelContainer) (offset : Vec3) :
    Option VoxelContainer :=
  let vc1 := load_chunk_slot cc vc offset
  let chunk_position := Vec3.add offset vc.m_loader_center_chunk
  let marked := markMeshes cc vc1 chunk_position
  emit_meshes cc marked.1 marked.2

/-- A sweep of a single worker while the center does not change: the offsets of the list
are processed in order, as `m_iterator.fetch_add(1)` hands them out. -/
def sweep (cc : ContainerConfig) : VoxelContainer → List Vec3 → Option VoxelContainer
  | vc, [] => some vc
  | vc, offset :: rest =>
    match process_offset cc vc offset with
    | some vc1 => sweep cc vc1 rest
    | none => none

/-- The chunk half of a sweep: lines 97-102 for every offset in order. -/
def load_all (cc : ContainerConfig) (vc : VoxelContainer) (offsets : List Vec3) :
    VoxelContainer :=
  offsets.foldl (load_chunk_slot cc) vc

end VoxelContainer

/-- A toy configuration of the container: radius 1, `3 × 3 × 3` chunk slots,
`4 × 4 × 4` mesh slots, the neighbourhoods of the spec and an 8-bit readiness mask. -/
def toyContainerConfig : ContainerConfig :=
  { CHUNK_ARRAY_SIZE := ⟨3, 3, 3⟩, MESH_ARRAY_SIZE := ⟨4, 4, 4⟩,
    CHUNK_LOADING_RADIUS := ⟨1, 1, 1⟩, CHUNK_MESH_START := ⟨-1, -1, -1⟩,
    CHUNK_MESH_END := ⟨1, 1, 1⟩, MESH_CHUNK_START := ⟨0, 0, 0⟩, MESH_CHUNK_END := ⟨2, 2, 2⟩,
    CHUNK_VOLUME := 4096, ALL_CHUNKS_READY := 255, READINES_BITS := 8 }

/-- A container state with loader center `c`: every chunk slot holds the packed position
`(0, 0, 0)`, every mesh slot the position `(0, 0, 0)` and a cleared readiness mask. -/
def blankContainer (c : Vec3) : VoxelContainer :=
  { m_chunk_positions := fun _ => Math.toDumb3 ⟨0, 0, 0⟩,
    m_mesh_positions := fun _ => ⟨0, 0, 0⟩,
    m_mesh_readines := fun _ => 0,
    m_mesh_queue := [],
    m_iterator := 0,
    m_loader_center_chunk := c,
    m_actual_center_chunk := c,
    m_center_chunk_overlap := { min := ⟨0, 0, 0⟩, max := ⟨0, 0, 0⟩ },
    m_center_dirty := false,
    m_workers_running := true }

/-- The chunk slot of position `p` holds position `p`, as `getChunk` and `worker` read
it. -/
def VoxelContainer.resident (cc : ContainerConfig) (vc : VoxelContainer) (p : Vec3) : Prop :=
  Math.toVec3 (vc.m_chunk_positions (Math.position_to_index p cc.CHUNK_ARRAY_SIZE)) = p

instance (cc : ContainerConfig) (vc : VoxelContainer) (p : Vec3) :
    Decidable (vc.resident cc p) := by
  unfold VoxelContainer.resident; infer_instance

/-- The radius box around the center `c` lies in the range of packed coordinates:
`c − R` and `c + R` fit into 21 bits on every axis. -/
def SweepFits (c : Vec3) (R : Int) : Prop :=
  (isS21 (c.x - R) ∧ isS21 (c.x + R)) ∧ (isS21 (c.y - R) ∧ isS21 (c.y + R)) ∧
    (isS21 (c.z - R) ∧ isS21 (c.z + R))

instance (c : Vec3) (R : Int) : Decidable (SweepFits c R) := by
  unfold SweepFits; infer_instance

/-- The eight offsets `(0..1, 0..1, 0..1)` of the chunks that contribute to a mesh. -/
def mesh_chunk_offsets : List Vec3 :=
  [⟨0, 0, 0⟩, ⟨1, 0, 0⟩, ⟨0, 1, 0⟩, ⟨1, 1, 0⟩, ⟨0, 0, 1⟩, ⟨1, 0, 1⟩, ⟨0, 1, 1⟩, ⟨1, 1, 1⟩]

/-- `markMeshes` called for a list of chunks in turn: the container afterwards and the
result of every call. -/
def VoxelContainer.mark_all (cc : ContainerConfig) :
    VoxelContainer → List Vec3 → VoxelContainer × List (List Vec3)
  | vc, [] => (vc, [])
  | vc, c :: rest =>
    let marked := VoxelContainer.markMeshes cc vc c
    let others := VoxelContainer.mark_all cc marked.1 rest
    (others.1, marked.2 :: others.2)

/-- The mask a loop over the positions `ps` holds when it visits `m`, if it starts with
`mask` and doubles the mask after every position; 0 if it does not visit `m`. -/
def mask_at (ps : List Vec3) (m : Vec3) (mask : Nat) : Nat :=
  match ps with
  | [] => 0
  | p :: rest => if p = m then mask else mask_at rest m (mask * 2)

/-- The bit `markMeshes(m + d)` sets in the readiness mask of mesh `m` when a chunk
contributes to the meshes `(−1,−1,−1)..(1,1,1)` around it. -/
def contribution_bit (d : Vec3) : Nat :=
  mask_at (box_positions d ⟨-1, -1, -1⟩ ⟨1, 1, 1⟩) ⟨0, 0, 0⟩ 1

/-- The translation of `v` by `m`, without reduction. -/
def Vec3.shift (m v : Vec3) : Vec3 := { x := m.x + v.x, y := m.y + v.y, z := m.z + v.z }

/-- The numbers of meshes a sequence of `markMeshes` calls reports for one mesh whose
slot holds the mask `r`, if the calls set the bits `bs` in turn: a call reports the mesh if
the mask becomes `255`. -/
def readiness_trace (r : Nat) : List Nat → List Nat
  | [] => []
  | b :: rest => (if r ||| b = 255 then 1 else 0) :: readiness_trace (r ||| b) rest

/-- The neighbourhoods of the chunks of mesh `m` can be formed in `int32_t`: every
component of `m` is at least `−2^31 + 1` and at most `2^31 − 3`. -/
def MeshFits (m : Vec3) : Prop :=
  (-2147483647 ≤ m.x ∧ m.x ≤ 2147483645) ∧ (-2147483647 ≤ m.y ∧ m.y ≤ 2147483645) ∧
    (-2147483647 ≤ m.z ∧ m.z ≤ 2147483645)

instance (m : Vec3) : Decidable (MeshFits m) := by
  unfold MeshFits; infer_instance

/-- What C19 assumes of the constants of the missing `cfg.hpp`: a chunk contributes to
the meshes `(−1,−1,−1)..(1,1,1)` around it, the full mask is `255`, `MeshReadinesType` has
at least 8 bits, and the mesh array is at least 3 slots wide on every axis and fits the
`int32_t` index arithmetic. -/
structure MeshConfigOK (cc : ContainerConfig) : Prop where
  mesh_start : cc.CHUNK_MESH_START = ⟨-1, -1, -1⟩
  mesh_end : cc.CHUNK_MESH_END = ⟨1, 1, 1⟩
  all_ready : cc.ALL_CHUNKS_READY = 255
  bits : 8 ≤ cc.READINES_BITS
  dims : ArrayDimsFit cc.MESH_ARRAY_SIZE
  wide : 3 ≤ cc.MESH_ARRAY_SIZE.x ∧ 3 ≤ cc.MESH_ARRAY_SIZE.y ∧ 3 ≤ cc.MESH_ARRAY_SIZE.z

/-- Lines 69-75 of `worker`, the abort step: `m_center_dirty.exchange(false)`, and if the
flag was set, `m_iterator.exchange(indices_size)` followed by
`m_iterator.fetch_add(iterator_index_swap - indices_size)` when the value swapped out was
past the end.  The iterator and `indices_size` are `size_t` values. -/
def VoxelContainer.abort_step (vc : VoxelContainer) (indices_size : Nat) : VoxelContainer :=
  let center_dirty := vc.m_center_dirty
  let vc1 := { vc with m_center_dirty := false }
  if center_dirty then
    -- move iterator to end
    let iterator_index_swap := vc1.m_iterator
    let vc2 := { vc1 with m_iterator := indices_size }
    if iterator_index_swap > indices_size then
      { vc2 with
        m_iterator := wrapU64 (vc2.m_iterator + wrapU64 (iterator_index_swap - indices_size)) }
    else vc2
  else vc1

/-- The initial toy store in which the chunk node 0 holds the position `(0, 0, 0)` with the
blocks `[1, 2, 3, 4]`, marked dirty, as a caller of `close_chunk` holds it. -/
def dirtyChunkStore : VoxelStorage :=
  { VoxelStorage.init smallConfig emptyWorld with
    m_chunk_LRU := (VoxelStorage.init smallConfig emptyWorld).m_chunk_LRU.set_val 0
      { blocks := [1, 2, 3, 4], dirty := true } }

/-- The chunk cache of the toy store after the chunk `(0, 0, 0)` has been fetched. -/
def demoCache : LeastRecentlyUsed Chunk :=
  ((VoxelStorage.init smallConfig emptyWorld).get toyEnv ⟨0, 0, 0⟩ true false).1.m_chunk_LRU

/-- A region file of `smallConfig` with two invalid slots: slot 0 holds offset 0 with size
5, slot 1 holds offset 24 with size 0; `end = 24`, `garbage = 0`. -/
def corruptFile : File :=
  { size := 24, data := fun i => if i = 0 then 24 else if i = 12 then 5 else if i = 16 then 24
      else 0 }

/-- A world directory whose only file, that of region `(0, 0, 0)`, is `corruptFile`. -/
def corruptWorld : Vec3 → File := fun r => if r = ⟨0, 0, 0⟩ then corruptFile else File.empty

/-- The values of the three assertions in one round of the second loop of
`defragment_region`: `assert(i->y < (2 * REGION_VOLUME + 2) * sizeof(uint32_t))` (line 307),
`assert(i->z <= c_maximum_compressed_size)` (line 308) and
`assert(raw_start[2 * i->x + 1] == i->z)` (line 312). -/
structure MoveAsserts where
  offset_bound : Bool
  size_bound : Bool
  size_consistent : Bool
deriving DecidableEq, Repr

/-- The second loop of `defragment_region` with its assertions evaluated: for every blob
moved, in order, what the three assertions of the round evaluate to.  The loop itself is
that of `move_blobs`; `maxsz` is `c_maximum_compressed_size`. -/
def move_blobs_asserts (cfg : Config) (maxsz : Nat) (f : File) (raw : Nat → Nat)
    (new_end : Nat) : List U32Vec3 → List MoveAsserts
  | [] => []
  | i :: rest =>
    -- move to new location
    let offset_bound := decide (i.y < header_end cfg)
    let size_bound := decide (i.z ≤ maxsz)
    let buffer := f.pread i.z i.y
    let f1 := f.pwrite buffer new_end
    let raw1 := Function.update raw (2 * i.x) new_end
    let size_consistent := decide (raw1 (2 * i.x + 1) = i.z)
    { offset_bound := offset_bound, size_bound := size_bound,
      size_consistent := size_consistent } ::
      move_blobs_asserts cfg maxsz f1 raw1 (wrapU32 (new_end + i.z)) rest

/-- The assertions `defragment_region` evaluates on a region, round by round. -/
def defragment_asserts (cfg : Config) (maxsz : Nat) (r : RegionIO) : List MoveAsserts :=
  move_blobs_asserts cfg maxsz r.file (raw_table r.file) (header_end cfg)
    (defragment_order cfg r)

/-- `VoxelContainer::clearMeshReadines`: 0 is stored to every readiness mask. -/
def VoxelContainer.clearMeshReadines (vc : VoxelContainer) : VoxelContainer :=
  { vc with m_mesh_readines := fun _ => 0 }

/-- The constructor `VoxelContainer::VoxelContainer()` up to the start of the workers:
every chunk slot gets the packed position `(0, 0, 0)` and slot 0 then `(1, 0, 0)`; every
mesh slot gets the position `(0, 0, 0)` and slot 0 then `x = 1`; the workers are marked
running, the iterator is 0, both centers are `(0, 0, 0)`, the dirty flag is cleared, and
the readiness masks are cleared.  The constructor does not assign
`m_center_chunk_overlap`; `overlap` is the value the member holds.  The queue starts
empty.  (The block array `m_blocks`, filled with 0, is not part of the state.) -/
def VoxelContainer.init (overlap : Math.AABB3) : VoxelContainer :=
  VoxelContainer.clearMeshReadines
    { m_chunk_positions :=
        Function.update (fun _ => Math.toDumb3 ⟨0, 0, 0⟩) 0 (Math.toDumb3 ⟨1, 0, 0⟩),
      m_mesh_positions := Function.update (fun _ => (⟨0, 0, 0⟩ : Vec3)) 0 ⟨1, 0, 0⟩,
      m_mesh_readines := fun _ => 0,
      m_mesh_queue := [],
      m_iterator := 0,
      m_loader_center_chunk := ⟨0, 0, 0⟩,
      m_actual_center_chunk := ⟨0, 0, 0⟩,
      m_center_chunk_overlap := overlap,
      m_center_dirty := false,
      m_workers_running := true }

/-- Node conservation in a cache of `N` nodes (the nodes `0 .. N − 1`) hashed by `hash`:
every node is either on the free chain or on the recency chain, never on both, and on
neither twice; there are no other nodes; a node of the recency chain is linked exactly once
in the bucket of the hash of its key and in no other bucket; a free node is in no bucket;
the recency chain and the union of the buckets hold the same nodes; and no two cached nodes
have the same key. -/
structure NodesConserved {V : Type} (N : Nat) (hash : Vec3 → Nat) (lru : LeastRecentlyUsed V) :
    Prop where
  free_or_cached : ∀ n, n < N →
    (n ∈ lru.m_free_list ∧ n ∉ lru.m_list) ∨ (n ∉ lru.m_free_list ∧ n ∈ lru.m_list)
  no_other : ∀ n, n ∈ lru.m_free_list ∨ n ∈ lru.m_list → n < N
  once : lru.m_free_list.Nodup ∧ lru.m_list.Nodup
  total : lru.m_free_list.length + lru.m_list.length = N
  cached_bucket : ∀ n ∈ lru.m_list, ∀ b,
    (lru.m_map b).count n = if b = hash (lru.node n).key then 1 else 0
  free_bucket : ∀ n ∈ lru.m_free_list, ∀ b, n ∉ lru.m_map b
  same_nodes : ∀ n, n ∈ lru.m_list ↔ ∃ b, n ∈ lru.m_map b
  keys_distinct : ∀ m ∈ lru.m_list, ∀ n ∈ lru.m_list,
    (lru.node m).key = (lru.node n).key → m = n

/-- The states of a store over the directory `world` in a run that starts with the
constructor and in which every call so far has returned: calls of `get_chunk`, of
`get_region` and of `get`, and stores of a block array through a pointer `get` returned. -/
inductive Returned (env : Env) (world : Vec3 → File) : VoxelStorage → Prop
  | init : Returned env world (VoxelStorage.init env.cfg world)
  | get_chunk (s s' : VoxelStorage) (p : Vec3) (c : Nat) :
      Returned env world s → s.get_chunk env p = (s', .ok c) → Returned env world s'
  | get_region (s s' : VoxelStorage) (r : Vec3) (n : Nat) :
      Returned env world s → s.get_region env r = (s', .ok n) → Returned env world s'
  | get (s s' : VoxelStorage) (p : Vec3) (cache edit : Bool) (c : Nat) :
      Returned env world s → s.get env p cache edit = (s', .ok c) → Returned env world s'
  | write_blocks (s : VoxelStorage) (c : Nat) (blocks : List Nat) :
      Returned env world s → Returned env world (s.write_blocks c blocks)

/-- A region file of `smallConfig` with a well-formed slot table whose only blob is not
an output of `toyCodec`: slot 0 holds offset 24 and size 2, the bytes at 24 and 25 are
`9, 9`; `end = 26`, `garbage = 0`. -/
def garbledFile : File :=
  { size := 26,
    data := fun i => if i = 0 then 26 else if i = 8 then 24 else if i = 12 then 2
      else if i = 24 then 9 else if i = 25 then 9 else 0 }

/-- A world directory whose only file, that of region `(0, 0, 0)`, is `garbledFile`. -/
def garbledWorld : Vec3 → File := fun r => if r = ⟨0, 0, 0⟩ then garbledFile else File.empty

/-- The toy store over `garbledWorld` after the chunks `(1, 0, 0)` and `(2, 0, 0)` have
been fetched: both chunk nodes are cached. -/
def fullGarbledStore : VoxelStorage :=
  (((VoxelStorage.init smallConfig garbledWorld).get_chunk toyEnv ⟨1, 0, 0⟩).1.get_chunk toyEnv
    ⟨2, 0, 0⟩).1

/-! ## Radius boxes without overflow -/

/-- The radius box `toAABB3(c, R)` is formed without overflow: `c − R` and `c + R` are
`int32_t` values on every axis. -/
def RadiusBoxFits (c R : Vec3) : Prop :=
  (isS32 (c.x - R.x) ∧ isS32 (c.x + R.x)) ∧ (isS32 (c.y - R.y) ∧ isS32 (c.y + R.y)) ∧
    (isS32 (c.z - R.z) ∧ isS32 (c.z + R.z))

instance (c R : Vec3) : Decidable (RadiusBoxFits c R) := by
  unfold RadiusBoxFits; infer_instance

/-! ## MeshIterator: the allocation of the list -/

/-- The argument of `reserve` in line 14 of `MeshIterator.hpp`:
`(2 * (size_t)radius + 1) * (2 * (size_t)radius + 1) * (2 * (size_t)radius + 1)`, computed
in `size_t`. -/
def MeshIterator.reserve_count (radius : Int) : Nat :=
  wrapU64 (wrapU64 (wrapU64 (wrapU64 (2 * to_u64 radius) + 1)
    * wrapU64 (wrapU64 (2 * to_u64 radius) + 1)) * wrapU64 (wrapU64 (2 * to_u64 radius) + 1))

/-- `MeshIterator::MeshIterator(int radius)` with its allocations: the content of
`m_values` if the constructor returns, `none` if it throws.  `capacity` is the largest
number of entries the allocator provides for `m_values`: `reserve` (line 14) throws when it
is asked for more, and so does `emplace_back` (line 18) when the list outgrows it. -/
def MeshIterator.construct (capacity : Nat)
    (sort : (Vec3 → Vec3 → Bool) → List Vec3 → List Vec3) (radius : Int) : Option (List Vec3) :=
  if radius < 0 then some []
  else if capacity < MeshIterator.reserve_count radius then none
  else if capacity < (MeshIterator.fill radius).length then none
  else some (sort MeshIterator.less (MeshIterator.fill radius))

/-! ## A region file with a stale size word -/

/-- Every read the store makes from a region file lies inside the file: the file holds the
header and the slot table, and the blob of every non-empty slot ends at or before the end
of the file. -/
def FileComplete (cfg : Config) (f : File) : Prop :=
  header_end cfg ≤ f.size ∧
    ∀ k, k < cfg.REGION_VOLUME → slot_offset f k ≠ 0 →
      slot_offset f k + slot_size f k ≤ f.size

instance (cfg : Config) (f : File) : Decidable (FileComplete cfg f) := by
  unfold FileComplete; infer_instance

/-- No region file of the directory is truncated: every file that exists is complete. -/
def FilesComplete (env : Env) (s : VoxelStorage) : Prop :=
  ∀ r, (s.world r).size ≠ 0 → FileComplete env.cfg (s.world r)

/-- A region file of `smallConfig` as the toy store leaves it after the chunk of slot 0 with
the blocks `1, 2, 3, 4` was written: slot 0 holds offset 24 and size 5, the bytes from 24 on
are `4, 1, 2, 3, 4`; `end = 29`, `garbage = 0`, and the file is 29 bytes long. -/
def storedFile : File :=
  { size := 29,
    data := fun i => if i = 0 then 29 else if i = 8 then 24 else if i = 12 then 5
      else if i = 24 then 4 else if i = 25 then 1 else if i = 26 then 2
      else if i = 27 then 3 else if i = 28 then 4 else 0 }

/-- A world directory whose only file, that of region `(0, 0, 0)`, is `storedFile`. -/
def storedWorld : Vec3 → File := fun r => if r = ⟨0, 0, 0⟩ then storedFile else File.empty
/-! ## Lemmas on machine arithmetic -/

theorem wrapS32_id {x : Int} (h1 : -2147483648 ≤ x) (h2 : x ≤ 2147483647) : wrapS32 x = x := by
  unfold wrapS32; omega

theorem wrapU32_id {n : Nat} (h : n < 4294967296) : wrapU32 n = n := by
  unfold wrapU32; omega

theorem wrapU32_lt (n : Nat) : wrapU32 n < 4294967296 := by
  unfold wrapU32; omega

theorem tdiv_nonpos_eq (a b : Int) (ha : a ≤ 0) (hb : 0 < b) :
    Int.tdiv a b = -((-a) / b) := by
  have h : a = -(-a) := by ring
  rw [h, Int.neg_tdiv, Int.tdiv_eq_ediv (by omega) (le_of_lt hb)]
  simp

theorem tmod_nonpos_eq (a b : Int) (ha : a ≤ 0) (hb : 0 < b) :
    Int.tmod a b = -((-a) % b) := by
  rw [Int.tmod_def, tdiv_nonpos_eq a b ha hb]
  have := Int.emod_add_ediv (-a) b
  linarith

/-- On `int32_t` operands with a positive divisor `floor_div` is the floor quotient. -/
theorem floor_div_s32_eq (a b : Int) (ha : isS32 a) (hb : 0 < b) :
    floor_div_s32 a b = a / b := by
  obtain ⟨ha1, ha2⟩ := ha
  unfold floor_div_s32 ltZero
  by_cases hneg : a < 0
  · simp only [hneg, if_true]
    have hq0 : 0 ≤ (-(a + 1)) / b := Int.ediv_nonneg (by omega) (le_of_lt hb)
    have hq1 : (-(a + 1)) / b ≤ -(a + 1) := Int.ediv_le_self _ (by omega)
    rw [wrapS32_id (x := a + 1) (by omega) (by omega)]
    rw [tdiv_nonpos_eq _ _ (by omega) hb]
    rw [wrapS32_id (x := -(-(a + 1) / b)) (by omega) (by omega),
      wrapS32_id (by omega) (by omega)]
    have hm := Int.emod_add_ediv (-(a + 1)) b
    have hm0 := Int.emod_nonneg (-(a + 1)) (ne_of_gt hb)
    have hm1 := Int.emod_lt_of_pos (-(a + 1)) hb
    have key := (Int.ediv_emod_unique (a := a) (r := b - 1 - (-(a + 1)) % b)
      (q := -(-(a + 1) / b) - 1) hb).2 ⟨by linarith, by omega, by omega⟩
    exact key.1.symm
  · simp only [hneg, if_false]
    have hq0 : 0 ≤ a / b := Int.ediv_nonneg (by omega) (le_of_lt hb)
    have hq1 : a / b ≤ a := Int.ediv_le_self _ (by omega)
    simp only [add_zero, sub_zero]
    rw [wrapS32_id (x := a) (by omega) (by omega), Int.tdiv_eq_ediv (by omega) (le_of_lt hb)]
    rw [wrapS32_id (x := a / b) (by omega) (by omega), wrapS32_id (by omega) (by omega)]

/-- When `a % b + b` does not overflow, `floor_mod` is the floor remainder. -/
theorem floor_mod_s32_eq (a b : Int) (hb : 0 < b)
    (hsum : Int.tmod a b + b ≤ 2147483647) : floor_mod_s32 a b = a % b := by
  unfold floor_mod_s32
  by_cases hneg : a < 0
  · have ht := tmod_nonpos_eq a b (by omega) hb
    have hm0 := Int.emod_nonneg (-a) (ne_of_gt hb)
    have hm1 := Int.emod_lt_of_pos (-a) hb
    have hm := Int.emod_add_ediv (-a) b
    rw [wrapS32_id (by omega) hsum, ht]
    rw [Int.tmod_eq_emod (by omega) (le_of_lt hb)]
    have key := (Int.ediv_emod_unique (a := a) (r := (-(-a % b) + b) % b)
      (q := if (-a) % b = 0 then -((-a)/b) else -((-a)/b) - 1) hb).2 (by
        refine ⟨?_, Int.emod_nonneg _ (ne_of_gt hb), Int.emod_lt_of_pos _ hb⟩
        by_cases h0 : (-a) % b = 0
        · simp only [h0, if_true]; simp; linarith
        · simp only [h0, if_false]
          rw [Int.emod_eq_of_lt (by omega) (by omega)]
          linarith)
    exact key.2.symm
  · have h1 := Int.tmod_eq_emod (a := a) (b := b) (by omega) (le_of_lt hb)
    have hm0 := Int.emod_nonneg a (ne_of_gt hb)
    have hm1 := Int.emod_lt_of_pos a hb
    rw [h1] at hsum ⊢
    rw [wrapS32_id (by omega) hsum, Int.tmod_eq_emod (by omega) (le_of_lt hb)]
    simp [Int.add_emod_self]

/-- A divisor of at most `2^30` never overflows the intermediate sum of `floor_mod`. -/
theorem tmod_add_fits (a b : Int) (hb : 0 < b) (hb2 : b ≤ 1073741824) :
    Int.tmod a b + b ≤ 2147483647 := by
  have := Int.tmod_lt_of_pos a hb
  omega

theorem floorLaw1_of_fits (a b : Int) (ha : isS32 a) (hb : 0 < b)
    (hsum : Int.tmod a b + b ≤ 2147483647) :
    FloorLaw1 (floor_div_s32 a b) (floor_mod_s32 a b) a b := by
  rw [floor_div_s32_eq a b ha hb, floor_mod_s32_eq a b hb hsum]
  refine ⟨?_, Int.emod_nonneg _ (ne_of_gt hb), Int.emod_lt_of_pos _ hb⟩
  have := Int.emod_add_ediv a b
  linarith

/-! ## Files: reads after writes -/

theorem File.get_pwrite (f : File) (b : List Nat) (p i : Nat) :
    (f.pwrite b p).get i = if p ≤ i ∧ i < p + b.length then b.getD (i - p) 0 else f.get i := by
  unfold File.pwrite
  by_cases hb : b.length = 0
  · simp only [hb, if_true]
    have : ¬ (p ≤ i ∧ i < p + 0) := by omega
    rw [if_neg this]
  · simp only [hb, if_false]
    unfold File.get
    simp only
    by_cases hin : p ≤ i ∧ i < p + b.length
    · have : i < max f.size (p + b.length) := by omega
      simp [hin, this]
    · simp only [hin, if_false]
      by_cases hs : i < f.size
      · have : i < max f.size (p + b.length) := by omega
        simp [hs, this]
      · simp [hs]

theorem File.pread_length (f : File) (n q : Nat) : (f.pread n q).length = n := by
  simp [File.pread]

theorem File.pread_getD (f : File) (n q j : Nat) (hj : j < n) :
    (f.pread n q).getD j 0 = f.get (q + j) := by
  simp [File.pread, List.getD_eq_getElem?_getD, List.getElem?_map, List.getElem?_range hj]

theorem File.pread_congr (f g : File) (n q : Nat)
    (h : ∀ j, j < n → f.get (q + j) = g.get (q + j)) : f.pread n q = g.pread n q := by
  unfold File.pread
  apply List.map_congr_left
  intro j hj
  exact h j (List.mem_range.1 hj)

theorem File.read_u32_congr (f g : File) (q : Nat)
    (h : ∀ j, j < 4 → f.get (q + j) = g.get (q + j)) : f.read_u32 q = g.read_u32 q := by
  unfold File.read_u32
  have h0 := h 0 (by omega)
  rw [h 1 (by omega), h 2 (by omega), h 3 (by omega)]
  simp only [Nat.add_zero] at h0
  rw [h0]

theorem File.read_u32_lt (f : File) (q : Nat) : f.read_u32 q < 4294967296 := by
  unfold File.read_u32; omega

theorem File.pread_pwrite_same (f : File) (b : List Nat) (p : Nat) :
    (f.pwrite b p).pread b.length p = b := by
  apply List.ext_getElem
  · simp [File.pread]
  · intro j h1 h2
    simp only [File.pread, List.getElem_map, List.getElem_range, File.get_pwrite]
    have : p ≤ p + j ∧ p + j < p + b.length := by omega
    simp only [this, and_self, if_true]
    simp [List.getD_eq_getElem?_getD, List.getElem?_eq_getElem h2]

theorem File.pread_pwrite_disjoint (f : File) (b : List Nat) (p n q : Nat)
    (h : p + b.length ≤ q ∨ q + n ≤ p) : (f.pwrite b p).pread n q = f.pread n q := by
  apply File.pread_congr
  intro j hj
  rw [File.get_pwrite]
  have : ¬ (p ≤ q + j ∧ q + j < p + b.length) := by omega
  simp [this]

theorem File.read_u32_pwrite_disjoint (f : File) (b : List Nat) (p q : Nat)
    (h : p + b.length ≤ q ∨ q + 4 ≤ p) : (f.pwrite b p).read_u32 q = f.read_u32 q := by
  apply File.read_u32_congr
  intro j hj
  rw [File.get_pwrite]
  have : ¬ (p ≤ q + j ∧ q + j < p + b.length) := by omega
  simp [this]

theorem u32_bytes_length (v : Nat) : (u32_bytes v).length = 4 := rfl

theorem File.read_u32_of_bytes (f : File) (q v : Nat) (hv : v < 4294967296)
    (h : ∀ j, j < 4 → f.get (q + j) = (u32_bytes v).getD j 0) : f.read_u32 q = v := by
  unfold File.read_u32
  have h0 := h 0 (by omega)
  have h1 := h 1 (by omega)
  have h2 := h 2 (by omega)
  have h3 := h 3 (by omega)
  simp only [Nat.add_zero, u32_bytes, List.getD_cons_zero, List.getD_cons_succ] at h0 h1 h2 h3
  rw [h0, h1, h2, h3]
  omega

theorem File.read_u32_pwrite_u32 (f : File) (p v : Nat) (hv : v < 4294967296) :
    (f.pwrite (u32_bytes v) p).read_u32 p = v := by
  apply File.read_u32_of_bytes _ _ _ hv
  intro j hj
  rw [File.get_pwrite]
  have : p ≤ p + j ∧ p + j < p + (u32_bytes v).length := by simp [u32_bytes_length]; omega
  simp [this]

theorem File.read_u32_pwrite_pair_fst (f : File) (p v w : Nat) (hv : v < 4294967296) :
    (f.pwrite (u32_bytes v ++ u32_bytes w) p).read_u32 p = v := by
  apply File.read_u32_of_bytes _ _ _ hv
  intro j hj
  rw [File.get_pwrite]
  have : p ≤ p + j ∧ p + j < p + (u32_bytes v ++ u32_bytes w).length := by
    simp [u32_bytes_length]; omega
  simp only [this, and_self, if_true, Nat.add_sub_cancel_left]
  have h4 : j < (u32_bytes v).length := by simp [u32_bytes_length]; omega
  simp [List.getD_eq_getElem?_getD, List.getElem?_append_left h4]

theorem File.read_u32_pwrite_pair_snd (f : File) (p v w : Nat) (hw : w < 4294967296) :
    (f.pwrite (u32_bytes v ++ u32_bytes w) p).read_u32 (p + 4) = w := by
  apply File.read_u32_of_bytes _ _ _ hw
  intro j hj
  rw [File.get_pwrite]
  have : p ≤ p + 4 + j ∧ p + 4 + j < p + (u32_bytes v ++ u32_bytes w).length := by
    simp [u32_bytes_length]; omega
  simp only [this, and_self, if_true]
  have h4 : (u32_bytes v).length ≤ p + 4 + j - p := by simp [u32_bytes_length]; omega
  rw [List.getD_eq_getElem?_getD, List.getElem?_append_right h4]
  have : p + 4 + j - p - (u32_bytes v).length = j := by simp [u32_bytes_length]; omega
  rw [this, List.getD_eq_getElem?_getD]

theorem words_bytes_length (raw : Nat → Nat) (n : Nat) : (words_bytes raw n).length = 4 * n := by
  simp [words_bytes]

theorem File.read_u32_pwrite_words (f : File) (raw : Nat → Nat) (n p w : Nat) (hw : w < n)
    (hraw : raw w < 4294967296) :
    (f.pwrite (words_bytes raw n) p).read_u32 (p + 4 * w) = raw w := by
  apply File.read_u32_of_bytes _ _ _ hraw
  intro j hj
  rw [File.get_pwrite, words_bytes_length]
  have : p ≤ p + 4 * w + j ∧ p + 4 * w + j < p + 4 * n := by omega
  simp only [this, and_self, if_true]
  have e : p + 4 * w + j - p = 4 * w + j := by omega
  have hlt : 4 * w + j < 4 * n := by omega
  rw [e]
  simp only [words_bytes, List.getD_eq_getElem?_getD, List.getElem?_map, List.getElem?_range hlt]
  have e1 : (4 * w + j) / 4 = w := by omega
  have e2 : (4 * w + j) % 4 = j := by omega
  simp [e1, e2]

theorem File.size_le_pwrite (f : File) (b : List Nat) (p : Nat) : f.size ≤ (f.pwrite b p).size := by
  unfold File.pwrite
  split
  · exact le_refl _
  · simp

/-! ## Defragmentation: the moving loop -/

theorem offset_below_cons (a : U32Vec3) (l : List U32Vec3) (c : Nat) :
    offset_below (a :: l) c = (if a.y < c then a.z else 0) + offset_below l c := by
  unfold offset_below
  by_cases h : a.y < c <;> simp [List.filter_cons, h]

theorem move_blobs_spec (E : Nat) (hE : E < 4294967296) :
    ∀ (l : List U32Vec3) (f : File) (raw : Nat → Nat) (ne : Nat),
      l.Pairwise (fun a b => a.y + a.z ≤ b.y) →
      (∀ a ∈ l, ne ≤ a.y) → (∀ a ∈ l, a.y + a.z ≤ E) → (∀ a ∈ l, 0 < a.z) →
      (l.map (fun a => a.x)).Nodup →
      (move_blobs f raw ne l).2.2 = ne + (l.map (fun a => a.z)).sum ∧
      f.size ≤ (move_blobs f raw ne l).1.size ∧
      (∀ pos, pos < ne → (move_blobs f raw ne l).1.get pos = f.get pos) ∧
      (∀ w, (∀ a ∈ l, w ≠ 2 * a.x) → (move_blobs f raw ne l).2.1 w = raw w) ∧
      (∀ a ∈ l, (move_blobs f raw ne l).2.1 (2 * a.x) = ne + offset_below l a.y ∧
        (move_blobs f raw ne l).1.pread a.z ((move_blobs f raw ne l).2.1 (2 * a.x))
          = f.pread a.z a.y) ∧
      (∀ a ∈ l, ne + offset_below l a.y ≤ a.y) ∧ moves_safe ne l := by
  intro l
  induction l with
  | nil =>
    intro f raw ne _ _ _ _ _
    simp [move_blobs, moves_safe]
  | cons i rest ih =>
    intro f raw ne hchain hne hE' hpos hnd
    have hi_ne : ne ≤ i.y := hne i (List.mem_cons_self _ _)
    have hi_E : i.y + i.z ≤ E := hE' i (List.mem_cons_self _ _)
    have hi_pos : 0 < i.z := hpos i (List.mem_cons_self _ _)
    rw [List.pairwise_cons] at hchain
    obtain ⟨hhead, hrest⟩ := hchain
    rw [List.map_cons, List.nodup_cons] at hnd
    obtain ⟨hx, hnd'⟩ := hnd
    have hwrap : wrapU32 (ne + i.z) = ne + i.z := wrapU32_id (by omega)
    have IH := ih (f.pwrite (f.pread i.z i.y) ne) (Function.update raw (2 * i.x) ne) (ne + i.z)
      hrest (fun a ha => by have := hhead a ha; omega)
      (fun a ha => hE' a (List.mem_cons_of_mem _ ha))
      (fun a ha => hpos a (List.mem_cons_of_mem _ ha)) hnd'
    obtain ⟨h1, hsz, h2, h3, h4, h5, h6⟩ := IH
    have hxne : ∀ a ∈ rest, 2 * i.x ≠ 2 * a.x := by
      intro a ha hcontra
      apply hx
      have : a.x = i.x := by omega
      rw [← this]
      exact List.mem_map_of_mem _ ha
    have hbelow_head : offset_below (i :: rest) i.y = 0 := by
      rw [offset_below_cons]
      have h0 : offset_below rest i.y = 0 := by
        unfold offset_below
        have : rest.filter (fun b => decide (b.y < i.y)) = [] := by
          rw [List.filter_eq_nil_iff]
          intro b hb
          have := hhead b hb
          simp; omega
        rw [this]; rfl
      simp [h0]
    simp only [move_blobs, moves_safe, hwrap]
    refine ⟨?_, ?_, ?_, ?_, ?_, ?_, ?_⟩
    · rw [h1]; simp [List.map_cons, List.sum_cons]; omega
    · exact le_trans (File.size_le_pwrite _ _ _) hsz
    · intro pos hpos'
      rw [h2 pos (by omega), File.get_pwrite]
      have : ¬ (ne ≤ pos ∧ pos < ne + (f.pread i.z i.y).length) := by omega
      rw [if_neg this]
    · intro w hw
      rw [h3 w (fun a ha => hw a (List.mem_cons_of_mem _ ha))]
      exact Function.update_noteq (hw i (List.mem_cons_self _ _)) _ _
    · intro a ha
      rcases List.mem_cons.1 ha with rfl | ha'
      · have hraw : (move_blobs (f.pwrite (f.pread a.z a.y) ne) (Function.update raw (2 * a.x) ne)
            (ne + a.z) rest).2.1 (2 * a.x) = ne := by
          rw [h3 _ hxne]; exact Function.update_same _ _ _
        have hbelow := hbelow_head
        rw [hraw, hbelow]
        refine ⟨rfl, ?_⟩
        have e1 : (move_blobs (f.pwrite (f.pread a.z a.y) ne) (Function.update raw (2 * a.x) ne)
            (ne + a.z) rest).1.pread a.z ne = (f.pwrite (f.pread a.z a.y) ne).pread a.z ne := by
          apply File.pread_congr
          intro j hj
          exact h2 (ne + j) (by omega)
        rw [e1]
        have := File.pread_pwrite_same f (f.pread a.z a.y) ne
        rw [File.pread_length] at this
        exact this
      · obtain ⟨h4a, h4b⟩ := h4 a ha'
        have hlt : i.y < a.y := by have := hhead a ha'; omega
        refine ⟨?_, ?_⟩
        · rw [h4a, offset_below_cons]; simp [hlt]; omega
        · rw [h4b]
          apply File.pread_pwrite_disjoint
          left
          rw [File.pread_length]
          have := hhead a ha'
          omega
    · intro a ha
      rcases List.mem_cons.1 ha with rfl | ha'
      · rw [hbelow_head]; omega
      · have hlt : i.y < a.y := by have := hhead a ha'; omega
        have := h5 a ha'
        rw [offset_below_cons]; simp [hlt]; omega
    · exact ⟨hi_ne, fun j hj => by have := hhead j hj; omega, h6⟩

/-! ## Defragmentation: what it does to a laid-out region -/

theorem sort_by_position_perm (l : List U32Vec3) : (sort_by_position l).Perm l :=
  List.perm_insertionSort _ l

theorem sort_by_position_sorted (l : List U32Vec3) :
    (sort_by_position l).Pairwise (fun a b => a.y ≤ b.y) :=
  List.sorted_insertionSort _ l

theorem offset_below_perm {l l' : List U32Vec3} (h : l.Perm l') (c : Nat) :
    offset_below l c = offset_below l' c := by
  unfold offset_below
  exact ((h.filter _).map _).sum_eq

theorem mem_collect_slots (raw : Nat → Nat) (n : Nat) (e : U32Vec3) :
    e ∈ collect_slots raw n ↔
      e.x < n ∧ raw (2 * e.x) ≠ 0 ∧ e.y = raw (2 * e.x) ∧ e.z = raw (2 * e.x + 1) := by
  unfold collect_slots
  simp only [List.mem_map, List.mem_filter, List.mem_range, bne_iff_ne]
  constructor
  · rintro ⟨k, ⟨hk, hne⟩, rfl⟩
    exact ⟨hk, hne, rfl, rfl⟩
  · rintro ⟨hk, hne, hy, hz⟩
    refine ⟨e.x, ⟨hk, hne⟩, ?_⟩
    cases e
    simp_all

theorem collect_slots_nodup (raw : Nat → Nat) (n : Nat) :
    ((collect_slots raw n).map (fun a => a.x)).Nodup := by
  unfold collect_slots
  rw [List.map_map]
  have : ((fun a : U32Vec3 => a.x) ∘ fun index =>
      ({ x := index, y := raw (2 * index), z := raw (2 * index + 1) } : U32Vec3)) = id := by
    funext i; rfl
  rw [this, List.map_id]
  exact (List.nodup_range n).filter _

theorem sum_collect_slots (raw : Nat → Nat) (n : Nat) (q : U32Vec3 → Bool) :
    (((collect_slots raw n).filter q).map (fun b => b.z)).sum =
      ((List.range n).map (fun i =>
        if raw (2 * i) ≠ 0 ∧ q ⟨i, raw (2 * i), raw (2 * i + 1)⟩ = true
        then raw (2 * i + 1) else 0)).sum := by
  unfold collect_slots
  generalize List.range n = idx
  induction idx with
  | nil => simp
  | cons i rest ih =>
    by_cases h1 : raw (2 * i) ≠ 0
    · by_cases h2 : q ⟨i, raw (2 * i), raw (2 * i + 1)⟩ = true
      · simp [List.filter_cons, h1, h2]
        simpa using ih
      · simp [List.filter_cons, h1, h2]
        simpa using ih
    · simp [List.filter_cons, h1]
      simpa using ih


theorem slot_position_eq (k : Nat) : slot_position k = 8 + 4 * (2 * k) := by
  unfold slot_position; omega

theorem slot_position_eq' (k : Nat) : slot_position k + 4 = 8 + 4 * (2 * k + 1) := by
  unfold slot_position; omega

theorem slot_position_lt (cfg : Config) (k : Nat) (hk : k < cfg.REGION_VOLUME) :
    slot_position k + 8 ≤ header_end cfg := by
  unfold slot_position header_end; omega

theorem slot_offset_lt (f : File) (k : Nat) : slot_offset f k < 4294967296 :=
  File.read_u32_lt _ _

theorem slot_size_lt (f : File) (k : Nat) : slot_size f k < 4294967296 :=
  File.read_u32_lt _ _

/-- In a laid-out region different non-empty slots have different offsets, and the one
with the smaller offset ends before the other starts. -/
theorem BlobLayout.lt_of_lt {cfg : Config} {r : RegionIO} (h : BlobLayout cfg r)
    {j k : Nat} (hj : j < cfg.REGION_VOLUME) (hk : k < cfg.REGION_VOLUME)
    (hj0 : slot_offset r.file j ≠ 0) (hk0 : slot_offset r.file k ≠ 0)
    (hle : slot_offset r.file j ≤ slot_offset r.file k) (hne : j ≠ k) :
    slot_offset r.file j + slot_size r.file j ≤ slot_offset r.file k := by
  obtain ⟨_, hin, hdis⟩ := h
  have h1 := hin j hj hj0
  have h2 := hin k hk hk0
  rcases hdis j hj k hk hne hj0 hk0 with h3 | h3
  · exact h3
  · omega

theorem sum_filter_add_le {α : Type} (g : α → Nat) (p q : α → Bool) (e : α) :
    ∀ (l : List α), e ∈ l → (∀ a, p a = true → q a = true) → q e = true → p e = false →
      ((l.filter p).map g).sum + g e ≤ ((l.filter q).map g).sum := by
  intro l he hpq hq hp
  have mono : ∀ (t : List α), ((t.filter p).map g).sum ≤ ((t.filter q).map g).sum := by
    intro t
    induction t with
    | nil => simp
    | cons a t ih =>
      by_cases h1 : p a = true
      · simp [List.filter_cons, h1, hpq a h1]; exact ih
      · by_cases h2 : q a = true
        · simp [List.filter_cons, h1, h2]; omega
        · simp [List.filter_cons, h1, h2]; exact ih
  induction l with
  | nil => cases he
  | cons a t ih =>
    rcases List.mem_cons.1 he with rfl | he'
    · have := mono t
      simp [List.filter_cons, hp, hq]; omega
    · have := ih he'
      by_cases h1 : p a = true
      · simp [List.filter_cons, h1, hpq a h1]; omega
      · by_cases h2 : q a = true
        · simp [List.filter_cons, h1, h2]; omega
        · simp [List.filter_cons, h1, h2]; exact this

theorem offset_below_add_le_total (l : List U32Vec3) (a : U32Vec3) (ha : a ∈ l) :
    offset_below l a.y + a.z ≤ (l.map (fun b => b.z)).sum := by
  have := sum_filter_add_le (fun b : U32Vec3 => b.z) (fun b => decide (b.y < a.y))
    (fun _ => true) a l ha (fun _ _ => rfl) rfl (by simp)
  simpa [offset_below] using this

theorem chain_sum_le (E : Nat) :
    ∀ (l : List U32Vec3) (ne : Nat), l.Pairwise (fun a b => a.y + a.z ≤ b.y) →
      (∀ a ∈ l, ne ≤ a.y) → (∀ a ∈ l, a.y + a.z ≤ E) → ne ≤ E →
      ne + (l.map (fun a => a.z)).sum ≤ E := by
  intro l
  induction l with
  | nil => intro ne _ _ _ h; simpa using h
  | cons i rest ih =>
    intro ne hchain hne hE hle
    rw [List.pairwise_cons] at hchain
    have h1 := hne i (List.mem_cons_self _ _)
    have h2 := hE i (List.mem_cons_self _ _)
    have := ih (ne + i.z) hchain.2 (fun a ha => by have := hchain.1 a ha; omega)
      (fun a ha => hE a (List.mem_cons_of_mem _ ha)) (by omega)
    simp only [List.map_cons, List.sum_cons]
    omega

theorem defragment_region_spec (cfg : Config) (r : RegionIO) (h : BlobLayout cfg r) :
    Defragmented cfg r (defragment_region cfg r) ∧
      moves_safe (header_end cfg) (defragment_order cfg r) := by
  have hlay := h
  obtain ⟨hend, hin, hdis⟩ := h
  set raw : Nat → Nat := raw_table r.file with hraw
  have raw_off : ∀ k, raw (2 * k) = slot_offset r.file k := by
    intro k; simp only [hraw, raw_table, slot_offset, slot_position_eq]
  have raw_size : ∀ k, raw (2 * k + 1) = slot_size r.file k := by
    intro k; simp only [hraw, raw_table, slot_size, slot_position_eq']
  set c := collect_slots raw cfg.REGION_VOLUME with hc
  set l := defragment_order cfg r with hl
  have hperm : l.Perm c := sort_by_position_perm c
  have hmem : ∀ a, a ∈ l ↔ a.x < cfg.REGION_VOLUME ∧ slot_offset r.file a.x ≠ 0 ∧
      a.y = slot_offset r.file a.x ∧ a.z = slot_size r.file a.x := by
    intro a
    rw [hperm.mem_iff, hc, mem_collect_slots, raw_off, raw_size]
  have hnd : (l.map (fun a => a.x)).Nodup :=
    ((hperm.map _).nodup_iff).2 (collect_slots_nodup raw cfg.REGION_VOLUME)
  have hndl : l.Nodup := hnd.of_map _
  have hchain : l.Pairwise (fun a b => a.y + a.z ≤ b.y) := by
    have hs := (sort_by_position_sorted c).and hndl
    refine hs.imp_of_mem ?_
    intro a b ha hb hab
    obtain ⟨hle, hne⟩ := hab
    obtain ⟨ha1, ha2, ha3, ha4⟩ := (hmem a).1 ha
    obtain ⟨hb1, hb2, hb3, hb4⟩ := (hmem b).1 hb
    have hxne : a.x ≠ b.x := by
      intro hx
      apply hne
      cases a; cases b; simp_all
    rw [ha3, ha4, hb3]
    exact hlay.lt_of_lt ha1 hb1 ha2 hb2 (by rw [← ha3, ← hb3]; exact hle) hxne
  have hge : ∀ a ∈ l, header_end cfg ≤ a.y := by
    intro a ha
    obtain ⟨ha1, ha2, ha3, ha4⟩ := (hmem a).1 ha
    rw [ha3]; exact (hin a.x ha1 ha2).1
  have hle : ∀ a ∈ l, a.y + a.z ≤ r.end_ := by
    intro a ha
    obtain ⟨ha1, ha2, ha3, ha4⟩ := (hmem a).1 ha
    rw [ha3, ha4]; exact (hin a.x ha1 ha2).2.2
  have hpos : ∀ a ∈ l, 0 < a.z := by
    intro a ha
    obtain ⟨ha1, ha2, ha3, ha4⟩ := (hmem a).1 ha
    rw [ha4]; exact (hin a.x ha1 ha2).2.1
  obtain ⟨m1, msz, m2, m3, m4, m5, m6⟩ :=
    move_blobs_spec r.end_ hend l r.file raw (header_end cfg) hchain hge hle hpos hnd
  set mv := move_blobs r.file raw (header_end cfg) l with hmv
  have hdef : defragment_region cfg r = RegionIO.mk 0 (mv.2.2)
      (mv.1.pwrite (words_bytes mv.2.1 (cfg.REGION_VOLUME * 2)) 8) := rfl
  -- sums over the sorted list as sums over the slot indices
  have hsum : ∀ q : U32Vec3 → Bool, ((l.filter q).map (fun b => b.z)).sum =
      ((List.range cfg.REGION_VOLUME).map (fun i =>
        if slot_offset r.file i ≠ 0 ∧
          q ⟨i, slot_offset r.file i, slot_size r.file i⟩ = true
        then slot_size r.file i else 0)).sum := by
    intro q
    rw [((hperm.filter q).map _).sum_eq, hc, sum_collect_slots]
    simp only [raw_off, raw_size]
  have htotal : (l.map (fun a => a.z)).sum = live_total r.file cfg.REGION_VOLUME := by
    have := hsum (fun _ => true)
    simp only [List.filter_true, and_true] at this
    rw [this]; rfl
  have hbelow : ∀ cc, offset_below l cc = packed_below r.file cfg.REGION_VOLUME cc := by
    intro cc
    unfold offset_below packed_below
    rw [hsum]
    simp only [decide_eq_true_eq]
  -- the table written back
  have hb : ∀ a ∈ l, offset_below l a.y + a.z ≤ (l.map (fun b => b.z)).sum :=
    fun a ha => offset_below_add_le_total l a ha
  have hrawlt : ∀ w, mv.2.1 w < 4294967296 := by
    intro w
    by_cases hw : ∀ a ∈ l, w ≠ 2 * a.x
    · rw [m3 w hw]; exact File.read_u32_lt _ _
    · push_neg at hw
      obtain ⟨a, ha, rfl⟩ := hw
      rw [(m4 a ha).1]
      have := m5 a ha
      have := hle a ha
      omega
  have hslot_off : ∀ k, k < cfg.REGION_VOLUME →
      slot_offset (defragment_region cfg r).file k = mv.2.1 (2 * k) := by
    intro k hk
    rw [hdef]
    simp only [slot_offset, slot_position_eq]
    exact File.read_u32_pwrite_words _ _ _ _ _ (by omega) (hrawlt _)
  have hslot_size : ∀ k, k < cfg.REGION_VOLUME →
      slot_size (defragment_region cfg r).file k = slot_size r.file k := by
    intro k hk
    rw [hdef]
    simp only [slot_size, slot_position_eq']
    rw [File.read_u32_pwrite_words _ _ _ _ _ (by omega) (hrawlt _)]
    rw [m3 _ (fun a _ => by omega), raw_size]
    simp only [slot_size, slot_position_eq']
  have hfile_ge : ∀ pos, header_end cfg ≤ pos →
      (defragment_region cfg r).file.get pos = mv.1.get pos := by
    intro pos hpos'
    rw [hdef]
    simp only
    rw [File.get_pwrite, words_bytes_length]
    have : ¬ (8 ≤ pos ∧ pos < 8 + 4 * (cfg.REGION_VOLUME * 2)) := by
      unfold header_end at hpos'; omega
    rw [if_neg this]
  refine ⟨⟨by rw [hdef], by rw [hdef, ← htotal]; exact m1, ?_, ?_, ?_, ?_⟩, m6⟩
  · intro hhe
    rw [hdef]
    simp only
    rw [m1]
    exact chain_sum_le r.end_ l (header_end cfg) hchain hge hle hhe
  · intro i hi
    rw [hdef]
    simp only
    rw [File.get_pwrite, if_neg (by omega)]
    exact m2 i (by unfold header_end; omega)
  · rw [hdef]
    exact le_trans msz (File.size_le_pwrite _ _ _)
  · intro k hk
    refine ⟨hslot_size k hk, ?_, ?_⟩
    · rw [hslot_off k hk]
      by_cases h0 : slot_offset r.file k = 0
      · rw [if_pos h0, m3 _ ?_, raw_off, h0]
        intro a ha hcontra
        obtain ⟨ha1, ha2, ha3, ha4⟩ := (hmem a).1 ha
        have : a.x = k := by omega
        rw [this] at ha2
        exact ha2 h0
      · rw [if_neg h0]
        have hk_mem : (⟨k, slot_offset r.file k, slot_size r.file k⟩ : U32Vec3) ∈ l :=
          (hmem _).2 ⟨hk, h0, rfl, rfl⟩
        have := (m4 _ hk_mem).1
        simp only at this
        rw [this, hbelow]
    · intro h0
      have hk_mem : (⟨k, slot_offset r.file k, slot_size r.file k⟩ : U32Vec3) ∈ l :=
        (hmem _).2 ⟨hk, h0, rfl, rfl⟩
      have h4 := m4 _ hk_mem
      have h5 := m5 _ hk_mem
      simp only at h4 h5
      refine ⟨?_, by rw [hslot_off k hk, h4.1]; exact h5⟩
      unfold slot_bytes
      rw [hslot_size k hk, hslot_off k hk, ← h4.2]
      apply File.pread_congr
      intro j hj
      apply hfile_ge
      rw [h4.1]; omega

/-! ## C10: floor semantics -/

/-- C10 (as amended): for `int32_t` vectors `a`, `b` with every component of `b` positive
and the intermediate sum `a % b + b` of `floor_mod` inside `int32_t` on every component,
both the Math.hpp and the VoxelStorage.cpp pair satisfy
`floor_div(a,b)·b + floor_mod(a,b) = a` and `0 ≤ floor_mod(a,b) < b`. -/
theorem floor_semantics (a b : Vec3) (ha : a.isS32)
    (hpos : 0 < b.x ∧ 0 < b.y ∧ 0 < b.z) (hfit : ModSumFits a b) :
    FloorLaw (Math.floor_div a b) (Math.floor_mod a b) a b ∧
      FloorLaw (VoxelStorage.floor_div a b) (VoxelStorage.floor_mod a b) a b := by
  obtain ⟨hx, hy, hz⟩ := ha
  obtain ⟨px, py, pz⟩ := hpos
  obtain ⟨fx, fy, fz⟩ := hfit
  have h1 := floorLaw1_of_fits a.x b.x hx px fx
  have h2 := floorLaw1_of_fits a.y b.y hy py fy
  have h3 := floorLaw1_of_fits a.z b.z hz pz fz
  exact ⟨⟨h1, h2, h3⟩, ⟨h1, h2, h3⟩⟩

/-- Witness for `floor_semantics`: negative and extreme dividends, divisors up to `2^30`. -/
theorem floor_semantics_witness :
    FloorLaw (Math.floor_div ⟨-7, 5, -2147483648⟩ ⟨2, 3, 1073741824⟩)
        (Math.floor_mod ⟨-7, 5, -2147483648⟩ ⟨2, 3, 1073741824⟩)
        ⟨-7, 5, -2147483648⟩ ⟨2, 3, 1073741824⟩ ∧
      FloorLaw (VoxelStorage.floor_div ⟨-7, 5, -2147483648⟩ ⟨2, 3, 1073741824⟩)
        (VoxelStorage.floor_mod ⟨-7, 5, -2147483648⟩ ⟨2, 3, 1073741824⟩)
        ⟨-7, 5, -2147483648⟩ ⟨2, 3, 1073741824⟩ :=
  floor_semantics ⟨-7, 5, -2147483648⟩ ⟨2, 3, 1073741824⟩ (by decide) (by decide) (by decide)

/-- C10 as stated fails: `a = 1`, `b = 2^31 - 1` are `int32_t` values with `b > 0`, yet
`a % b + b` wraps to `-2^31` and `floor_mod` returns `-1` in both definitions. -/
theorem floor_semantics_counterexample :
    Vec3.isS32 ⟨1, 1, 1⟩ ∧ Vec3.isS32 ⟨2147483647, 2147483647, 2147483647⟩ ∧
      Math.floor_mod ⟨1, 1, 1⟩ ⟨2147483647, 2147483647, 2147483647⟩ = ⟨-1, -1, -1⟩ ∧
      VoxelStorage.floor_mod ⟨1, 1, 1⟩ ⟨2147483647, 2147483647, 2147483647⟩ = ⟨-1, -1, -1⟩ ∧
      ¬ FloorLaw (Math.floor_div ⟨1, 1, 1⟩ ⟨2147483647, 2147483647, 2147483647⟩)
        (Math.floor_mod ⟨1, 1, 1⟩ ⟨2147483647, 2147483647, 2147483647⟩)
        ⟨1, 1, 1⟩ ⟨2147483647, 2147483647, 2147483647⟩ ∧
      ¬ FloorLaw (VoxelStorage.floor_div ⟨1, 1, 1⟩ ⟨2147483647, 2147483647, 2147483647⟩)
        (VoxelStorage.floor_mod ⟨1, 1, 1⟩ ⟨2147483647, 2147483647, 2147483647⟩)
        ⟨1, 1, 1⟩ ⟨2147483647, 2147483647, 2147483647⟩ := by
  decide

theorem sum_map_add_le {ι : Type} (g h : ι → Nat) (d : Nat) (k : ι) :
    ∀ (l : List ι), k ∈ l → (∀ i ∈ l, g i ≤ h i) → g k + d ≤ h k →
      (l.map g).sum + d ≤ (l.map h).sum := by
  intro l hk hle hkd
  have mono : ∀ (t : List ι), (∀ i ∈ t, g i ≤ h i) → (t.map g).sum ≤ (t.map h).sum := by
    intro t
    induction t with
    | nil => intro _; simp
    | cons a t ih =>
      intro ht
      have := ih (fun i hi => ht i (List.mem_cons_of_mem _ hi))
      have := ht a (List.mem_cons_self _ _)
      simp only [List.map_cons, List.sum_cons]; omega
  induction l with
  | nil => cases hk
  | cons a t ih =>
    simp only [List.map_cons, List.sum_cons]
    rcases List.mem_cons.1 hk with rfl | hk'
    · have := mono t (fun i hi => hle i (List.mem_cons_of_mem _ hi))
      omega
    · have := ih hk' (fun i hi => hle i (List.mem_cons_of_mem _ hi))
      have := hle a (List.mem_cons_self _ _)
      omega

/-- Packing keeps the order of the blobs and keeps them apart. -/
theorem packed_below_mono (cfg : Config) (r : RegionIO)
    {j k : Nat} (hj : j < cfg.REGION_VOLUME)
    (hj0 : slot_offset r.file j ≠ 0)
    (hlt : slot_offset r.file j < slot_offset r.file k) :
    packed_below r.file cfg.REGION_VOLUME (slot_offset r.file j) + slot_size r.file j ≤
      packed_below r.file cfg.REGION_VOLUME (slot_offset r.file k) := by
  unfold packed_below
  apply sum_map_add_le _ _ _ j _ (List.mem_range.2 hj)
  · intro i _
    by_cases h1 : slot_offset r.file i ≠ 0 ∧ slot_offset r.file i < slot_offset r.file j
    · have h2 : slot_offset r.file i ≠ 0 ∧ slot_offset r.file i < slot_offset r.file k :=
        ⟨h1.1, by omega⟩
      rw [if_pos h1, if_pos h2]
    · rw [if_neg h1]; exact Nat.zero_le _
  · have h1 : ¬ (slot_offset r.file j ≠ 0 ∧ slot_offset r.file j < slot_offset r.file j) := by
      omega
    have h2 : slot_offset r.file j ≠ 0 ∧ slot_offset r.file j < slot_offset r.file k :=
      ⟨hj0, hlt⟩
    rw [if_neg h1, if_pos h2]; omega

theorem packed_below_add_le_total (cfg : Config) (r : RegionIO)
    {k : Nat} (hk : k < cfg.REGION_VOLUME) (hk0 : slot_offset r.file k ≠ 0) :
    packed_below r.file cfg.REGION_VOLUME (slot_offset r.file k) + slot_size r.file k ≤
      live_total r.file cfg.REGION_VOLUME := by
  unfold packed_below live_total
  apply sum_map_add_le _ _ _ k _ (List.mem_range.2 hk)
  · intro i _
    by_cases h1 : slot_offset r.file i ≠ 0 ∧ slot_offset r.file i < slot_offset r.file k
    · rw [if_pos h1, if_pos h1.1]
    · rw [if_neg h1]; exact Nat.zero_le _
  · have h1 : ¬ (slot_offset r.file k ≠ 0 ∧ slot_offset r.file k < slot_offset r.file k) := by
      omega
    rw [if_neg h1, if_pos hk0]; omega

theorem header_end_pos (cfg : Config) : 8 ≤ header_end cfg := by
  unfold header_end; omega

/-- Defragmentation leaves a well-formed region well formed. -/
theorem Defragmented.wellFormed {cfg : Config} {r r' : RegionIO} (h : WellFormed cfg r)
    (hd : Defragmented cfg r r') : WellFormed cfg r' := by
  obtain ⟨hhe, hlay⟩ := h
  obtain ⟨hend, hin, hdis⟩ := hlay
  obtain ⟨_, hd_end, hd_le, _, _, hd_slot⟩ := hd
  have hpos := header_end_pos cfg
  have hoff0 : ∀ k, k < cfg.REGION_VOLUME →
      (slot_offset r'.file k ≠ 0 ↔ slot_offset r.file k ≠ 0) := by
    intro k hk
    rw [(hd_slot k hk).2.1]
    by_cases h0 : slot_offset r.file k = 0
    · simp [h0]
    · simp [h0]; omega
  refine ⟨by omega, by have := hd_le hhe; omega, ?_, ?_⟩
  · intro k hk h0'
    have h0 := (hoff0 k hk).1 h0'
    obtain ⟨hs, ho, _⟩ := hd_slot k hk
    rw [if_neg h0] at ho
    have hi := hin k hk h0
    have := packed_below_add_le_total cfg r hk h0
    rw [hs, ho, hd_end]
    exact ⟨by omega, hi.2.1, by omega⟩
  · intro j hj k hk hne hj0' hk0'
    have hj0 := (hoff0 j hj).1 hj0'
    have hk0 := (hoff0 k hk).1 hk0'
    obtain ⟨hsj, hoj, _⟩ := hd_slot j hj
    obtain ⟨hsk, hok, _⟩ := hd_slot k hk
    rw [if_neg hj0] at hoj
    rw [if_neg hk0] at hok
    rw [hsj, hoj, hsk, hok]
    have hlayout : BlobLayout cfg r := ⟨hend, hin, hdis⟩
    rcases Nat.lt_or_ge (slot_offset r.file j) (slot_offset r.file k) with hlt | hge
    · left
      have := packed_below_mono cfg r hj hj0 hlt
      omega
    · right
      have hlt : slot_offset r.file k < slot_offset r.file j := by
        have := hlayout.lt_of_lt hk hj hk0 hj0 hge (Ne.symm hne)
        have := (hin k hk hk0).2.1
        omega
      have := packed_below_mono cfg r hk hk0 hlt
      omega

theorem File.get_pwrite_out (f : File) (b : List Nat) (p i : Nat)
    (h : i < p ∨ p + b.length ≤ i) : (f.pwrite b p).get i = f.get i := by
  rw [File.get_pwrite, if_neg (by omega)]

theorem File.get_pwrite_u32_out (f : File) (v p i : Nat) (h : i < p ∨ p + 4 ≤ i) :
    (f.pwrite (u32_bytes v) p).get i = f.get i :=
  File.get_pwrite_out _ _ _ _ (by rw [u32_bytes_length]; exact h)

theorem File.get_pwrite_pair_out (f : File) (v w p i : Nat) (h : i < p ∨ p + 8 ≤ i) :
    (f.pwrite (u32_bytes v ++ u32_bytes w) p).get i = f.get i :=
  File.get_pwrite_out _ _ _ _ (by
    rw [List.length_append, u32_bytes_length, u32_bytes_length]; exact h)

theorem slot_position_ge (k : Nat) : 8 ≤ slot_position k := by
  unfold slot_position; omega

/-- What the write rule of `close_chunk` does to the file, the slot of the chunk and
the header fields, and what it leaves alone. -/
theorem write_chunk_spec (cfg : Config) (r : RegionIO) (k : Nat) (compressed : List Nat)
    (hk : k < cfg.REGION_VOLUME) (hend : header_end cfg ≤ r.end_)
    (hfit : r.end_ + compressed.length < 4294967296)
    (hslot : slot_offset r.file k = 0 ∧ slot_size r.file k = 0 ∨
      header_end cfg ≤ slot_offset r.file k)
    (hg : r.garbage + slot_size r.file k < 4294967296) :
    (compressed.length ≤ slot_size r.file k →
      (write_chunk r k compressed).file.pread compressed.length (slot_offset r.file k)
        = compressed ∧
      slot_offset (write_chunk r k compressed).file k = slot_offset r.file k ∧
      slot_size (write_chunk r k compressed).file k = compressed.length ∧
      (write_chunk r k compressed).garbage
        = r.garbage + (slot_size r.file k - compressed.length) ∧
      (write_chunk r k compressed).end_ = r.end_) ∧
    (slot_size r.file k < compressed.length →
      (write_chunk r k compressed).file.pread compressed.length r.end_ = compressed ∧
      slot_offset (write_chunk r k compressed).file k = r.end_ ∧
      slot_size (write_chunk r k compressed).file k = compressed.length ∧
      (write_chunk r k compressed).garbage = r.garbage + slot_size r.file k ∧
      (write_chunk r k compressed).end_ = r.end_ + compressed.length) ∧
    (∀ i, i < 8 → (write_chunk r k compressed).file.get i = r.file.get i) ∧
    r.file.size ≤ (write_chunk r k compressed).file.size ∧
    (∀ j, j < cfg.REGION_VOLUME → j ≠ k →
      slot_offset (write_chunk r k compressed).file j = slot_offset r.file j ∧
      slot_size (write_chunk r k compressed).file j = slot_size r.file j) ∧
    (∀ pos, header_end cfg ≤ pos →
      ¬ (slot_offset (write_chunk r k compressed).file k ≤ pos ∧
        pos < slot_offset (write_chunk r k compressed).file k + compressed.length) →
      (write_chunk r k compressed).file.get pos = r.file.get pos) := by
  have hsp := slot_position_lt cfg k hk
  have hsp8 := slot_position_ge k
  have hlen : compressed.length < 4294967296 := by omega
  have hnew : wrapU32 compressed.length = compressed.length := wrapU32_id hlen
  have htake : compressed.take compressed.length = compressed := List.take_length _
  have hs_lt := slot_size_lt r.file k
  by_cases hcase : compressed.length ≤ slot_size r.file k
  · -- insert in-place
    have hdiff : ¬ ((slot_size r.file k : Int) - (compressed.length : Int) < 0) := by omega
    have hw : write_chunk r k compressed =
        RegionIO.mk (r.garbage + (slot_size r.file k - compressed.length)) r.end_
          ((r.file.pwrite compressed (slot_offset r.file k)).pwrite
            (u32_bytes compressed.length) (slot_position k + 4)) := by
      unfold write_chunk
      simp only [hnew, htake, hdiff, if_false]
      have e1 : ((slot_size r.file k : Int) - (compressed.length : Int)).toNat
          = slot_size r.file k - compressed.length := by omega
      rw [e1, wrapU32_id (n := slot_size r.file k - compressed.length) (by omega),
        wrapU32_id (by omega)]
    have hblob : compressed = [] ∨ header_end cfg ≤ slot_offset r.file k := by
      rcases hslot with ⟨_, h2⟩ | h
      · left
        have : compressed.length = 0 := by omega
        exact List.length_eq_zero.1 this
      · right; exact h
    have hget1 : ∀ pos, pos < header_end cfg →
        (r.file.pwrite compressed (slot_offset r.file k)).get pos = r.file.get pos := by
      intro pos hpos
      rcases hblob with h | h
      · rw [h]; rfl
      · exact File.get_pwrite_out _ _ _ _ (by omega)
    have hlow : ∀ pos, pos < header_end cfg →
        (pos < slot_position k + 4 ∨ slot_position k + 8 ≤ pos) →
        (write_chunk r k compressed).file.get pos = r.file.get pos := by
      intro pos hpos hout
      rw [hw]
      simp only
      rw [File.get_pwrite_u32_out _ _ _ _ (by omega)]
      exact hget1 pos hpos
    have hoff : slot_offset (write_chunk r k compressed).file k = slot_offset r.file k :=
      File.read_u32_congr _ _ _ (fun j hj => hlow _ (by omega) (by omega))
    refine ⟨fun _ => ⟨?_, hoff, ?_, by rw [hw], by rw [hw]⟩, fun h => absurd hcase (by omega),
      ?_, ?_, ?_, ?_⟩
    · rw [hw]
      simp only
      rcases hblob with h | h
      · rw [h]; rfl
      · rw [File.pread_congr _ (r.file.pwrite compressed (slot_offset r.file k)) _ _
          (fun j hj => File.get_pwrite_u32_out _ _ _ _ (by omega))]
        exact File.pread_pwrite_same _ _ _
    · rw [hw]
      simp only [slot_size]
      exact File.read_u32_pwrite_u32 _ _ _ hlen
    · intro i hi
      exact hlow i (by omega) (by omega)
    · rw [hw]
      exact le_trans (File.size_le_pwrite _ _ _) (File.size_le_pwrite _ _ _)
    · intro j hj hjk
      have hspj := slot_position_lt cfg j hj
      have hdisj : slot_position j + 8 ≤ slot_position k ∨
          slot_position k + 8 ≤ slot_position j := by
        unfold slot_position; omega
      exact ⟨File.read_u32_congr _ _ _ (fun t ht => hlow _ (by omega) (by omega)),
        File.read_u32_congr _ _ _ (fun t ht => hlow _ (by omega) (by omega))⟩
    · intro pos hpos hout
      rw [hoff] at hout
      rw [hw]
      simp only
      rw [File.get_pwrite_u32_out _ _ _ _ (by omega), File.get_pwrite, if_neg hout]
  · -- append to file
    have hdiff : (slot_size r.file k : Int) - (compressed.length : Int) < 0 := by omega
    have hw : write_chunk r k compressed =
        RegionIO.mk (r.garbage + slot_size r.file k) (r.end_ + compressed.length)
          ((r.file.pwrite (u32_bytes r.end_ ++ u32_bytes compressed.length)
            (slot_position k)).pwrite compressed r.end_) := by
      unfold write_chunk
      simp only [hnew, htake, hdiff, if_true]
      rw [wrapU32_id (n := r.garbage + slot_size r.file k) (by omega), wrapU32_id (by omega)]
    have hget2 : ∀ (f : File) pos, pos < header_end cfg →
        (f.pwrite compressed r.end_).get pos = f.get pos := by
      intro f pos hpos
      exact File.get_pwrite_out _ _ _ _ (by omega)
    have hlow : ∀ pos, pos < header_end cfg →
        (pos < slot_position k ∨ slot_position k + 8 ≤ pos) →
        (write_chunk r k compressed).file.get pos = r.file.get pos := by
      intro pos hpos hout
      rw [hw]
      simp only
      rw [hget2 _ _ hpos]
      exact File.get_pwrite_pair_out _ _ _ _ _ hout
    have hoff : slot_offset (write_chunk r k compressed).file k = r.end_ := by
      rw [hw]
      simp only [slot_offset]
      rw [File.read_u32_congr _ _ _ (fun j hj => hget2 _ _ (by omega))]
      exact File.read_u32_pwrite_pair_fst _ _ _ _ (by omega)
    refine ⟨fun h => absurd h hcase, fun _ => ⟨?_, hoff, ?_, by rw [hw], by rw [hw]⟩,
      ?_, ?_, ?_, ?_⟩
    · rw [hw]
      exact File.pread_pwrite_same _ _ _
    · rw [hw]
      simp only [slot_size]
      rw [File.read_u32_congr _ _ _ (fun j hj => hget2 _ _ (by omega))]
      exact File.read_u32_pwrite_pair_snd _ _ _ _ hlen
    · intro i hi
      exact hlow i (by omega) (by omega)
    · rw [hw]
      exact le_trans (File.size_le_pwrite _ _ _) (File.size_le_pwrite _ _ _)
    · intro j hj hjk
      have hspj := slot_position_lt cfg j hj
      have hdisj : slot_position j + 8 ≤ slot_position k ∨
          slot_position k + 8 ≤ slot_position j := by
        unfold slot_position; omega
      exact ⟨File.read_u32_congr _ _ _ (fun t ht => hlow _ (by omega) (by omega)),
        File.read_u32_congr _ _ _ (fun t ht => hlow _ (by omega) (by omega))⟩
    · intro pos hpos hout
      rw [hoff] at hout
      rw [hw]
      simp only
      rw [File.get_pwrite, if_neg hout]
      exact File.get_pwrite_pair_out _ _ _ _ _ (by omega)

theorem sum_map_update {ι : Type} (g g' : ι → Nat) (k : ι) :
    ∀ (l : List ι), l.Nodup → k ∈ l → (∀ i ∈ l, i ≠ k → g' i = g i) →
      (l.map g').sum + g k = (l.map g).sum + g' k := by
  intro l
  induction l with
  | nil => intro _ hk; cases hk
  | cons a t ih =>
    intro hnd hk hsame
    rw [List.nodup_cons] at hnd
    simp only [List.map_cons, List.sum_cons]
    rcases List.mem_cons.1 hk with rfl | hk'
    · have : t.map g' = t.map g := by
        apply List.map_congr_left
        intro i hi
        exact hsame i (List.mem_cons_of_mem _ hi) (fun h => hnd.1 (h ▸ hi))
      rw [this]; omega
    · have h1 := ih hnd.2 hk' (fun i hi hne => hsame i (List.mem_cons_of_mem _ hi) hne)
      have h2 : g' a = g a := hsame a (List.mem_cons_self _ _) (fun h => hnd.1 (h ▸ hk'))
      omega

theorem sum_map_le_mul {ι : Type} (g : ι → Nat) (m : Nat) :
    ∀ (l : List ι), (∀ i ∈ l, g i ≤ m) → (l.map g).sum ≤ l.length * m := by
  intro l
  induction l with
  | nil => intro _; simp
  | cons a t ih =>
    intro h
    have h1 := ih (fun i hi => h i (List.mem_cons_of_mem _ hi))
    have h2 := h a (List.mem_cons_self _ _)
    simp only [List.map_cons, List.sum_cons, List.length_cons]
    rw [Nat.add_mul]; omega

theorem table_total_le (f : File) (n m : Nat) (h : ∀ k, k < n → slot_size f k ≤ m) :
    table_total f n ≤ n * m := by
  have := sum_map_le_mul (slot_size f) m (List.range n) (fun i hi => h i (List.mem_range.1 hi))
  simpa [table_total] using this

theorem table_total_update (f f' : File) (n k : Nat) (hk : k < n)
    (h : ∀ j, j < n → j ≠ k → slot_size f' j = slot_size f j) :
    table_total f' n + slot_size f k = table_total f n + slot_size f' k :=
  sum_map_update (slot_size f) (slot_size f') k (List.range n) (List.nodup_range n)
    (List.mem_range.2 hk) (fun i hi hne => h i (List.mem_range.1 hi) hne)

theorem table_total_congr (f f' : File) (n : Nat)
    (h : ∀ j, j < n → slot_size f' j = slot_size f j) : table_total f' n = table_total f n := by
  unfold table_total
  congr 1
  exact List.map_congr_left (fun i hi => h i (List.mem_range.1 hi))

theorem live_total_eq_table_total (f : File) (n : Nat)
    (h : ∀ k, k < n → slot_offset f k = 0 → slot_size f k = 0) :
    live_total f n = table_total f n := by
  unfold live_total table_total
  congr 1
  apply List.map_congr_left
  intro i hi
  by_cases h0 : slot_offset f i = 0
  · simp [h0, h i (List.mem_range.1 hi) h0]
  · simp [h0]

theorem File.get_ftruncate (f : File) (n i : Nat) :
    (f.ftruncate n).get i = if i < n then f.get i else 0 := by
  unfold File.ftruncate File.get
  by_cases h : i < n <;> simp [h]

theorem File.get_of_size_zero (f : File) (h : f.size = 0) (i : Nat) : f.get i = 0 := by
  unfold File.get; simp [h]

theorem File.read_u32_of_zero (f : File) (q : Nat) (h : ∀ j, j < 4 → f.get (q + j) = 0) :
    f.read_u32 q = 0 := by
  unfold File.read_u32
  have h0 := h 0 (by omega)
  rw [h 1 (by omega), h 2 (by omega), h 3 (by omega)]
  simp only [Nat.add_zero] at h0
  rw [h0]

theorem new_region_get (cfg : Config) (f : File) (hf : f.size = 0) (i : Nat) :
    (new_region cfg f).file.get i = 0 := by
  unfold new_region
  simp only
  rw [File.get_ftruncate, File.get_of_size_zero f hf]
  simp

/-- A freshly created region satisfies the invariant. -/
theorem new_region_ok (cfg : Config) (maxsz : Nat) (f : File) (hf : f.size = 0)
    (hfits : cfg.Fits maxsz) : RegionOK cfg maxsz (new_region cfg f) := by
  have hoff : ∀ k, slot_offset (new_region cfg f).file k = 0 := fun k =>
    File.read_u32_of_zero _ _ (fun j _ => new_region_get cfg f hf _)
  have hsize : ∀ k, slot_size (new_region cfg f).file k = 0 := fun k =>
    File.read_u32_of_zero _ _ (fun j _ => new_region_get cfg f hf _)
  have htot : table_total (new_region cfg f).file cfg.REGION_VOLUME = 0 := by
    unfold table_total
    rw [List.sum_eq_zero]
    intro x hx
    obtain ⟨i, _, rfl⟩ := List.mem_map.1 hx
    exact hsize i
  have hend : (new_region cfg f).end_ = header_end cfg := rfl
  have hgar : (new_region cfg f).garbage = 0 := rfl
  have hpos := header_end_pos cfg
  unfold Config.Fits at hfits
  refine ⟨⟨by rw [hend], by rw [hend]; omega, ?_, ?_⟩, ?_, by rw [hend, hgar, htot]; omega, by
    rw [hgar]; omega, ?_⟩
  · intro k _ h0; exact absurd (hoff k) h0
  · intro j _ k _ _ h0; exact absurd (hoff j) h0
  · intro k _; exact ⟨fun _ => hsize k, by rw [hsize k]; omega⟩
  · show (f.ftruncate (header_end cfg)).size ≠ 0
    unfold File.ftruncate; simp only; omega

/-- The write rule of `close_chunk` keeps the invariant. -/
theorem write_chunk_ok (cfg : Config) (maxsz : Nat) (r : RegionIO) (k : Nat)
    (compressed : List Nat) (hfits : cfg.Fits maxsz) (h : RegionOK cfg maxsz r)
    (hgar : r.garbage < cfg.DEFRAGMENT_GARBAGE_THRESHOLD) (hk : k < cfg.REGION_VOLUME)
    (hpos : 0 < compressed.length) (hmax : compressed.length ≤ maxsz) :
    RegionOK cfg maxsz (write_chunk r k compressed) := by
  obtain ⟨⟨hhe, hend, hin, hdis⟩, hslots, hacc, _, hsz⟩ := h
  unfold Config.Fits at hfits
  have htl := table_total_le r.file cfg.REGION_VOLUME maxsz (fun j hj => (hslots j hj).2)
  have hks := hslots k hk
  have hmul : (cfg.REGION_VOLUME + 1) * maxsz = cfg.REGION_VOLUME * maxsz + maxsz := by ring
  have hfit : r.end_ + compressed.length < 4294967296 := by omega
  have hslot : slot_offset r.file k = 0 ∧ slot_size r.file k = 0 ∨
      header_end cfg ≤ slot_offset r.file k := by
    by_cases h0 : slot_offset r.file k = 0
    · exact Or.inl ⟨h0, hks.1 h0⟩
    · exact Or.inr (hin k hk h0).1
  have hg : r.garbage + slot_size r.file k < 4294967296 := by omega
  obtain ⟨hA, hB, _, hC, hD, _⟩ := write_chunk_spec cfg r k compressed hk hhe hfit hslot hg
  have hHE := header_end_pos cfg
  -- the new slot of the chunk
  have hnew : slot_size (write_chunk r k compressed).file k = compressed.length ∧
      header_end cfg ≤ slot_offset (write_chunk r k compressed).file k ∧
      slot_offset (write_chunk r k compressed).file k + compressed.length
        ≤ (write_chunk r k compressed).end_ ∧
      r.end_ ≤ (write_chunk r k compressed).end_ ∧
      (write_chunk r k compressed).end_ ≤ r.end_ + compressed.length ∧
      (write_chunk r k compressed).end_ < 4294967296 ∧
      (write_chunk r k compressed).garbage + compressed.length + r.end_ =
        r.garbage + slot_size r.file k + (write_chunk r k compressed).end_ ∧
      (∀ j, j < cfg.REGION_VOLUME → j ≠ k → slot_offset r.file j ≠ 0 →
        slot_offset r.file j + slot_size r.file j
            ≤ slot_offset (write_chunk r k compressed).file k ∨
          slot_offset (write_chunk r k compressed).file k + compressed.length
            ≤ slot_offset r.file j) := by
    by_cases hcase : compressed.length ≤ slot_size r.file k
    · obtain ⟨_, ho, hs, hg', he⟩ := hA hcase
      have h0 : slot_offset r.file k ≠ 0 := fun h0 => by have := hks.1 h0; omega
      have hi := hin k hk h0
      refine ⟨hs, by rw [ho]; exact hi.1, by rw [ho, he]; omega, by rw [he], by rw [he]; omega,
        by rw [he]; exact hend, by rw [hg', he]; omega, ?_⟩
      intro j hj hjk hj0
      rw [ho]
      rcases hdis j hj k hk hjk hj0 h0 with h1 | h1
      · exact Or.inl h1
      · exact Or.inr (by omega)
    · obtain ⟨_, ho, hs, hg', he⟩ := hB (by omega)
      refine ⟨hs, by rw [ho]; exact hhe, by rw [ho, he], by rw [he]; omega, by rw [he],
        by rw [he]; exact hfit, by rw [hg', he]; omega, ?_⟩
      intro j hj hjk hj0
      rw [ho]
      exact Or.inl (hin j hj hj0).2.2
  obtain ⟨hs, ho1, ho2, hmono, hle', hend', hbal, hsep⟩ := hnew
  have htot := table_total_update r.file (write_chunk r k compressed).file cfg.REGION_VOLUME k hk
    (fun j hj hjk => (hD j hj hjk).2)
  rw [hs] at htot
  refine ⟨⟨by omega, hend', ?_, ?_⟩, ?_, by omega, by omega, by omega⟩
  · intro j hj hj0
    by_cases hjk : j = k
    · subst hjk
      rw [hs]
      exact ⟨ho1, hpos, ho2⟩
    · obtain ⟨e1, e2⟩ := hD j hj hjk
      rw [e1] at hj0 ⊢
      rw [e2]
      have := hin j hj hj0
      exact ⟨this.1, this.2.1, by omega⟩
  · intro i hi j hj hij hi0 hj0
    by_cases hik : i = k
    · subst hik
      obtain ⟨e1, e2⟩ := hD j hj (Ne.symm hij)
      rw [e1] at hj0 ⊢
      rw [e2, hs]
      rcases hsep j hj (Ne.symm hij) hj0 with h1 | h1
      · exact Or.inr h1
      · exact Or.inl h1
    · obtain ⟨e1, e2⟩ := hD i hi hik
      rw [e1] at hi0 ⊢
      rw [e2]
      by_cases hjk : j = k
      · subst hjk
        rw [hs]
        exact hsep i hi hik hi0
      · obtain ⟨e3, e4⟩ := hD j hj hjk
        rw [e3] at hj0 ⊢
        rw [e4]
        exact hdis i hi j hj hij hi0 hj0
  · intro j hj
    by_cases hjk : j = k
    · subst hjk
      rw [hs]
      exact ⟨fun h0 => by omega, hmax⟩
    · obtain ⟨e1, e2⟩ := hD j hj hjk
      rw [e1, e2]
      exact hslots j hj

/-- What `defragment_region` does to a region that satisfies the invariant, and that the
invariant survives. -/
theorem defragment_region_ok (cfg : Config) (maxsz : Nat) (r : RegionIO)
    (h : RegionOK cfg maxsz r) :
    RegionOK cfg maxsz (defragment_region cfg r) ∧
      (defragment_region cfg r).garbage = 0 ∧
      (defragment_region cfg r).end_ = r.end_ - r.garbage := by
  obtain ⟨hwf, hslots, hacc, _, hsz⟩ := h
  have hd := (defragment_region_spec cfg r hwf.2).1
  have hwf' := Defragmented.wellFormed hwf hd
  obtain ⟨hg, he, _, _, hsize, hs⟩ := hd
  have hlive := live_total_eq_table_total r.file cfg.REGION_VOLUME (fun k hk => (hslots k hk).1)
  have htot := table_total_congr r.file (defragment_region cfg r).file cfg.REGION_VOLUME
    (fun j hj => (hs j hj).1)
  refine ⟨⟨hwf', ?_, by rw [he, hg, htot, hlive]; omega, by rw [hg]; omega, by omega⟩, hg, by
    rw [he, hlive, hacc]; omega⟩
  intro k hk
  obtain ⟨e1, e2, _⟩ := hs k hk
  rw [e1]
  refine ⟨fun h0 => ?_, (hslots k hk).2⟩
  by_cases h0' : slot_offset r.file k = 0
  · exact (hslots k hk).1 h0'
  · rw [e2, if_neg h0'] at h0
    have := header_end_pos cfg
    omega

theorem write_header_get (r : RegionIO) (i : Nat) (hi : 8 ≤ i) :
    (write_header r).get i = r.file.get i :=
  File.get_pwrite_pair_out _ _ _ _ _ (by omega)

/-- Closing a region and opening it again returns the same header fields and the same
slots and blobs. -/
theorem reopen_region_spec (r : RegionIO) (he : r.end_ < 4294967296)
    (hg : r.garbage < 4294967296) :
    (reopen_region r).end_ = r.end_ ∧ (reopen_region r).garbage = r.garbage ∧
      (∀ i, 8 ≤ i → (reopen_region r).file.get i = r.file.get i) ∧
      r.file.size ≤ (reopen_region r).file.size ∧
      (reopen_region r).file.read_u32 0 = r.end_ ∧
      (reopen_region r).file.read_u32 4 = r.garbage := by
  have h1 : (write_header r).read_u32 0 = r.end_ :=
    File.read_u32_pwrite_pair_fst _ _ _ _ he
  have h2 : (write_header r).read_u32 4 = r.garbage :=
    File.read_u32_pwrite_pair_snd _ 0 _ _ hg
  exact ⟨h1, h2, fun i hi => write_header_get r i hi, File.size_le_pwrite _ _ _, h1, h2⟩

theorem reopen_region_ok (cfg : Config) (maxsz : Nat) (r : RegionIO)
    (hfits : cfg.Fits maxsz) (h : RegionOK cfg maxsz r) :
    RegionOK cfg maxsz (reopen_region r) := by
  obtain ⟨⟨hhe, hend, hin, hdis⟩, hslots, hacc, hgb, hsz⟩ := h
  unfold Config.Fits at hfits
  have hmul : (cfg.REGION_VOLUME + 1) * maxsz = cfg.REGION_VOLUME * maxsz + maxsz := by ring
  obtain ⟨e1, e2, e3, e4, _⟩ := reopen_region_spec r hend (by omega)
  have hoff : ∀ k, slot_offset (reopen_region r).file k = slot_offset r.file k := fun k =>
    File.read_u32_congr _ _ _ (fun j _ => e3 _ (by have := slot_position_ge k; omega))
  have hsize : ∀ k, slot_size (reopen_region r).file k = slot_size r.file k := fun k =>
    File.read_u32_congr _ _ _ (fun j _ => e3 _ (by have := slot_position_ge k; omega))
  have htot := table_total_congr r.file (reopen_region r).file cfg.REGION_VOLUME
    (fun j _ => hsize j)
  refine ⟨⟨by rw [e1]; exact hhe, by rw [e1]; exact hend, ?_, ?_⟩, ?_, by
    rw [e1, e2, htot]; exact hacc, by rw [e2]; exact hgb, by omega⟩
  · intro k hk
    unfold slot_inside
    rw [hoff, hsize, e1]
    exact hin k hk
  · intro j hj k hk
    unfold slots_disjoint
    rw [hoff, hoff, hsize, hsize]
    exact hdis j hj k hk
  · intro k hk
    rw [hoff, hsize]
    exact hslots k hk

/-- Every region the store can hold satisfies the invariant. -/
theorem Reach.ok {cfg : Config} {maxsz : Nat} (hfits : cfg.Fits maxsz) {r : RegionIO}
    (h : Reach cfg maxsz r) : RegionOK cfg maxsz r := by
  induction h with
  | new_file f hf => exact new_region_ok cfg maxsz f hf hfits
  | write r k compressed _ hgar hk hpos hmax ih =>
    exact write_chunk_ok cfg maxsz r k compressed hfits ih hgar hk hpos hmax
  | defragment r _ ih => exact (defragment_region_ok cfg maxsz r ih).1
  | reopen r _ ih => exact reopen_region_ok cfg maxsz r hfits ih

/-! ## C4: defragmentation preserves the blobs -/

/-- C6: `close_chunk` writes a blob of `s'` bytes into slot `k` holding `(o, s)` of a region
with `end ≥ header_end` whose slot is empty (`(0, 0)`) or points past the header, the
`uint32_t` sums `end + s'` and `garbage + s` not overflowing.  If `s' ≤ s` the blob is at
`o`, the slot is `(o, s')`, `garbage` grew by `s − s'` and `end` is unchanged; otherwise the
blob is at the old `end`, the slot is `(old end, s')`, `garbage` grew by `s` and `end` by
`s'`. -/
theorem chunk_write_rule (cfg : Config) (r : RegionIO) (k : Nat) (compressed : List Nat)
    (hk : k < cfg.REGION_VOLUME) (hend : header_end cfg ≤ r.end_)
    (hfit : r.end_ + compressed.length < 4294967296)
    (hslot : slot_offset r.file k = 0 ∧ slot_size r.file k = 0 ∨
      header_end cfg ≤ slot_offset r.file k)
    (hg : r.garbage + slot_size r.file k < 4294967296) :
    (compressed.length ≤ slot_size r.file k →
      (write_chunk r k compressed).file.pread compressed.length (slot_offset r.file k)
        = compressed ∧
      slot_offset (write_chunk r k compressed).file k = slot_offset r.file k ∧
      slot_size (write_chunk r k compressed).file k = compressed.length ∧
      (write_chunk r k compressed).garbage
        = r.garbage + (slot_size r.file k - compressed.length) ∧
      (write_chunk r k compressed).end_ = r.end_) ∧
    (slot_size r.file k < compressed.length →
      (write_chunk r k compressed).file.pread compressed.length r.end_ = compressed ∧
      slot_offset (write_chunk r k compressed).file k = r.end_ ∧
      slot_size (write_chunk r k compressed).file k = compressed.length ∧
      (write_chunk r k compressed).garbage = r.garbage + slot_size r.file k ∧
      (write_chunk r k compressed).end_ = r.end_ + compressed.length) := by
  obtain ⟨hA, hB, _⟩ := write_chunk_spec cfg r k compressed hk hend hfit hslot hg
  exact ⟨hA, hB⟩

/-- The hypotheses of `chunk_write_rule` hold whenever `close_chunk` reaches its write
rule: in a region of the store, entered with `garbage` below the threshold, for a blob of at
most `maxsz` bytes. -/
theorem Reach.write_ready {cfg : Config} {maxsz : Nat} (hfits : cfg.Fits maxsz) {r : RegionIO}
    (h : Reach cfg maxsz r) (hgar : r.garbage < cfg.DEFRAGMENT_GARBAGE_THRESHOLD)
    (k : Nat) (hk : k < cfg.REGION_VOLUME) (compressed : List Nat)
    (hmax : compressed.length ≤ maxsz) :
    header_end cfg ≤ r.end_ ∧ r.end_ + compressed.length < 4294967296 ∧
      (slot_offset r.file k = 0 ∧ slot_size r.file k = 0 ∨
        header_end cfg ≤ slot_offset r.file k) ∧
      r.garbage + slot_size r.file k < 4294967296 := by
  obtain ⟨⟨hhe, hend, hin, _⟩, hslots, hacc, _, _⟩ := h.ok hfits
  unfold Config.Fits at hfits
  have htl := table_total_le r.file cfg.REGION_VOLUME maxsz (fun j hj => (hslots j hj).2)
  have hks := hslots k hk
  have hmul : (cfg.REGION_VOLUME + 1) * maxsz = cfg.REGION_VOLUME * maxsz + maxsz := by ring
  refine ⟨hhe, by omega, ?_, by omega⟩
  by_cases h0 : slot_offset r.file k = 0
  · exact Or.inl ⟨h0, hks.1 h0⟩
  · exact Or.inr (hin k hk h0).1

/-- Witness for `chunk_write_rule`: slot 5 of `demoRegionDefault` holds 3 bytes at
`header_end`; a blob of 2 bytes is written in place, one of 4 bytes would be appended. -/
theorem chunk_write_rule_witness :
    ([8, 9].length ≤ slot_size demoRegionDefault.file 5 →
      (write_chunk demoRegionDefault 5 [8, 9]).file.pread [8, 9].length
        (slot_offset demoRegionDefault.file 5) = [8, 9] ∧
      slot_offset (write_chunk demoRegionDefault 5 [8, 9]).file 5
        = slot_offset demoRegionDefault.file 5 ∧
      slot_size (write_chunk demoRegionDefault 5 [8, 9]).file 5 = [8, 9].length ∧
      (write_chunk demoRegionDefault 5 [8, 9]).garbage
        = demoRegionDefault.garbage + (slot_size demoRegionDefault.file 5 - [8, 9].length) ∧
      (write_chunk demoRegionDefault 5 [8, 9]).end_ = demoRegionDefault.end_) ∧
    (slot_size demoRegionDefault.file 5 < [8, 9].length →
      (write_chunk demoRegionDefault 5 [8, 9]).file.pread [8, 9].length demoRegionDefault.end_
        = [8, 9] ∧
      slot_offset (write_chunk demoRegionDefault 5 [8, 9]).file 5 = demoRegionDefault.end_ ∧
      slot_size (write_chunk demoRegionDefault 5 [8, 9]).file 5 = [8, 9].length ∧
      (write_chunk demoRegionDefault 5 [8, 9]).garbage
        = demoRegionDefault.garbage + slot_size demoRegionDefault.file 5 ∧
      (write_chunk demoRegionDefault 5 [8, 9]).end_ = demoRegionDefault.end_ + [8, 9].length) :=
  chunk_write_rule defaultConfig demoRegionDefault 5 [8, 9] (by decide) (by decide) (by decide)
    (by decide) (by decide)

/-! ## C7, C9: the header fields in memory -/

theorem demoRegionDefault_reach : Reach defaultConfig defaultMaxCompressed demoRegionDefault :=
  Reach.write _ 7 [4, 5]
    (Reach.write _ 5 [1, 2, 3] (Reach.new_file File.empty rfl) (by decide) (by decide)
      (by decide) (by decide))
    (by decide) (by decide) (by decide) (by decide)

theorem demoRegion_reach : Reach smallConfig 8 demoRegion :=
  Reach.write _ 0 [6, 7, 8, 9]
    (Reach.write _ 1 [4, 5]
      (Reach.write _ 0 [1, 2, 3] (Reach.new_file File.empty rfl) (by decide) (by decide)
        (by decide) (by decide))
      (by decide) (by decide) (by decide) (by decide))
    (by decide) (by decide) (by decide) (by decide)

/-- C7: a region created as a new file satisfies, after its creation and after every
chunk write, defragmentation and close-and-reopen, `end ≥ header_end` and
`garbage ≤ end − header_end` in memory, with `header_end = (2·REGION_VOLUME + 2)·4`. -/
theorem header_invariant_in_memory (cfg : Config) (maxsz : Nat) (hfits : cfg.Fits maxsz)
    (r : RegionIO) (h : Reach cfg maxsz r) :
    header_end cfg = (2 * cfg.REGION_VOLUME + 2) * 4 ∧
      header_end cfg ≤ r.end_ ∧ r.garbage ≤ r.end_ - header_end cfg := by
  obtain ⟨⟨hhe, _⟩, _, hacc, _, _⟩ := h.ok hfits
  exact ⟨rfl, hhe, by omega⟩

/-- Witness for `header_invariant_in_memory`: `demoRegionDefault` under the constants of
the source. -/
theorem header_invariant_in_memory_witness :
    header_end defaultConfig = (2 * defaultConfig.REGION_VOLUME + 2) * 4 ∧
      header_end defaultConfig ≤ demoRegionDefault.end_ ∧
      demoRegionDefault.garbage ≤ demoRegionDefault.end_ - header_end defaultConfig :=
  header_invariant_in_memory defaultConfig defaultMaxCompressed (by decide) demoRegionDefault
    demoRegionDefault_reach

/-- C9: for a region reached from a new file by chunk writes and defragmentations,
`defragment_region` sets `garbage` to 0 and `end` to the old `end` minus the old
`garbage` (which is not larger than the old `end`). -/
theorem defragment_reclaims_garbage (cfg : Config) (maxsz : Nat) (hfits : cfg.Fits maxsz)
    (r : RegionIO) (h : Reach cfg maxsz r) :
    (defragment_region cfg r).garbage = 0 ∧
      (defragment_region cfg r).end_ = r.end_ - r.garbage ∧ r.garbage ≤ r.end_ := by
  have hok := h.ok hfits
  obtain ⟨_, hg, he⟩ := defragment_region_ok cfg maxsz r hok
  obtain ⟨_, _, hacc, _, _⟩ := hok
  exact ⟨hg, he, by omega⟩

/-- Witness for `defragment_reclaims_garbage`: `demoRegion` has `end = 33` and 3 bytes of
garbage. -/
theorem defragment_reclaims_garbage_witness :
    (defragment_region smallConfig demoRegion).garbage = 0 ∧
      (defragment_region smallConfig demoRegion).end_ = demoRegion.end_ - demoRegion.garbage ∧
      demoRegion.garbage ≤ demoRegion.end_ :=
  defragment_reclaims_garbage smallConfig 8 (by decide) demoRegion demoRegion_reach

/-! ## C8: the header on disk -/

/-- C8 as stated fails: in `demoRegionDefault` (a new file and two chunk writes, not yet
closed) header word 0 on disk is still 0, below `header_end = 262152`, while `end` in
memory is 262157. -/
theorem header_on_disk_counterexample :
    Reach defaultConfig defaultMaxCompressed demoRegionDefault ∧
      demoRegionDefault.end_ = 262157 ∧
      demoRegionDefault.file.read_u32 0 = 0 ∧
      ¬ (header_end defaultConfig ≤ demoRegionDefault.file.read_u32 0) :=
  ⟨demoRegionDefault_reach, by decide, by decide, by decide⟩

/-- C8 (as amended): in a region created as a new file, header words 0 and 1 on disk are
either both still 0 (the file was never closed) or satisfy `end ≥ header_end` and
`garbage ≤ end − header_end`; and the header `close_region` writes holds the `end` and
`garbage` of the memory, which satisfy both. -/
theorem header_on_disk (cfg : Config) (maxsz : Nat) (hfits : cfg.Fits maxsz)
    (r : RegionIO) (h : Reach cfg maxsz r) :
    ((r.file.read_u32 0 = 0 ∧ r.file.read_u32 4 = 0) ∨
      (header_end cfg ≤ r.file.read_u32 0 ∧
        r.file.read_u32 4 ≤ r.file.read_u32 0 - header_end cfg)) ∧
    ((write_header r).read_u32 0 = r.end_ ∧ (write_header r).read_u32 4 = r.garbage ∧
      header_end cfg ≤ (write_header r).read_u32 0 ∧
      (write_header r).read_u32 4 ≤ (write_header r).read_u32 0 - header_end cfg) := by
  have hclose : ∀ r', Reach cfg maxsz r' →
      (write_header r').read_u32 0 = r'.end_ ∧ (write_header r').read_u32 4 = r'.garbage ∧
      header_end cfg ≤ (write_header r').read_u32 0 ∧
      (write_header r').read_u32 4 ≤ (write_header r').read_u32 0 - header_end cfg := by
    intro r' h'
    have hok := h'.ok hfits
    obtain ⟨⟨hhe, hend, _⟩, _, hacc, hgb, _⟩ := hok
    have hfits' := hfits
    unfold Config.Fits at hfits'
    have hmul : (cfg.REGION_VOLUME + 1) * maxsz = cfg.REGION_VOLUME * maxsz + maxsz := by ring
    obtain ⟨_, _, _, _, e1, e2⟩ := reopen_region_spec r' hend (by omega)
    have e1' : (write_header r').read_u32 0 = r'.end_ := e1
    have e2' : (write_header r').read_u32 4 = r'.garbage := e2
    rw [e1', e2']
    exact ⟨rfl, rfl, hhe, by omega⟩
  refine ⟨?_, hclose r h⟩
  induction h with
  | new_file f hf =>
    left
    exact ⟨File.read_u32_of_zero _ _ (fun j _ => new_region_get cfg f hf _),
      File.read_u32_of_zero _ _ (fun j _ => new_region_get cfg f hf _)⟩
  | write r k compressed hr hgar hk hpos hmax ih =>
    have hok := hr.ok hfits
    obtain ⟨⟨hhe, hend, hin, _⟩, hslots, hacc, _, _⟩ := hok
    have hfits' := hfits
    unfold Config.Fits at hfits'
    have htl := table_total_le r.file cfg.REGION_VOLUME maxsz (fun j hj => (hslots j hj).2)
    have hks := hslots k hk
    have hmul : (cfg.REGION_VOLUME + 1) * maxsz = cfg.REGION_VOLUME * maxsz + maxsz := by ring
    have hslot : slot_offset r.file k = 0 ∧ slot_size r.file k = 0 ∨
        header_end cfg ≤ slot_offset r.file k := by
      by_cases h0 : slot_offset r.file k = 0
      · exact Or.inl ⟨h0, hks.1 h0⟩
      · exact Or.inr (hin k hk h0).1
    obtain ⟨_, _, hlow, _⟩ := write_chunk_spec cfg r k compressed hk hhe (by omega) hslot
      (by omega)
    rw [File.read_u32_congr _ r.file 0 (fun j hj => hlow _ (by omega)),
      File.read_u32_congr _ r.file 4 (fun j hj => hlow _ (by omega))]
    exact ih
  | defragment r hr ih =>
    have hok := hr.ok hfits
    have hd := (defragment_region_spec cfg r hok.1.2).1
    have hlow := hd.2.2.2.1
    rw [File.read_u32_congr _ r.file 0 (fun j hj => hlow _ (by omega)),
      File.read_u32_congr _ r.file 4 (fun j hj => hlow _ (by omega))]
    exact ih
  | reopen r hr _ =>
    right
    obtain ⟨e1, e2, e3, e4⟩ := hclose r hr
    have e1' : (reopen_region r).file.read_u32 0 = r.end_ := e1
    have e2' : (reopen_region r).file.read_u32 4 = r.garbage := e2
    rw [e1', e2']
    rw [e1] at e3 e4
    rw [e2] at e4
    exact ⟨e3, e4⟩

/-- Witness for `header_on_disk`: `demoRegionDefault` under the constants of the source. -/
theorem header_on_disk_witness :
    ((demoRegionDefault.file.read_u32 0 = 0 ∧ demoRegionDefault.file.read_u32 4 = 0) ∨
      (header_end defaultConfig ≤ demoRegionDefault.file.read_u32 0 ∧
        demoRegionDefault.file.read_u32 4
          ≤ demoRegionDefault.file.read_u32 0 - header_end defaultConfig)) ∧
    ((write_header demoRegionDefault).read_u32 0 = demoRegionDefault.end_ ∧
      (write_header demoRegionDefault).read_u32 4 = demoRegionDefault.garbage ∧
      header_end defaultConfig ≤ (write_header demoRegionDefault).read_u32 0 ∧
      (write_header demoRegionDefault).read_u32 4
        ≤ (write_header demoRegionDefault).read_u32 0 - header_end defaultConfig) :=
  header_on_disk defaultConfig defaultMaxCompressed (by decide) demoRegionDefault
    demoRegionDefault_reach

theorem all_equal_iff (a b : Vec3) : VoxelStorage.all_equal a b = true ↔ a = b := by
  cases a; cases b
  simp [VoxelStorage.all_equal]
  tauto

namespace LeastRecentlyUsed

variable {V : Type}

theorem key_inj_of_nodup (lru : LeastRecentlyUsed V) (h : lru.keys.Nodup) {m n : Nat}
    (hm : m ∈ lru.m_list) (hn : n ∈ lru.m_list) (hk : (lru.node m).key = (lru.node n).key) :
    m = n :=
  List.inj_on_of_nodup_map h hm hn hk

end LeastRecentlyUsed

theorem LRUInv.list_nodup {V : Type} {N : Nat} {hash : Vec3 → Nat} {lru : LeastRecentlyUsed V}
    {out : List Nat} (h : LRUInv N hash lru out) : lru.m_list.Nodup := by
  have := (h.perm.nodup_iff).2 (List.nodup_range N)
  exact (List.nodup_append.1 (List.nodup_append.1 this).1).1

theorem List.erase_append_singleton_of_nodup {α : Type} [DecidableEq α] (ys : List α) (a : α)
    (h : (ys ++ [a]).Nodup) : (ys ++ [a]).erase a = ys := by
  have hnot : a ∉ ys := by
    intro hmem
    have := List.nodup_append.1 h
    exact this.2.2 hmem (List.mem_singleton_self a)
  rw [List.erase_append_right _ hnot]
  simp

theorem List.erase_getLast_of_nodup {α : Type} [DecidableEq α] (l : List α) (hne : l ≠ [])
    (hnd : l.Nodup) : l.erase (l.getLast hne) = l.dropLast := by
  obtain ⟨ys, a, rfl⟩ : ∃ ys a, l = ys ++ [a] :=
    ⟨l.dropLast, l.getLast hne, (List.dropLast_append_getLast hne).symm⟩
  rw [List.getLast_append_singleton, List.dropLast_concat]
  exact List.erase_append_singleton_of_nodup ys a hnd

theorem LRUInv.all_nodup {V : Type} {N : Nat} {hash : Vec3 → Nat} {lru : LeastRecentlyUsed V}
    {out : List Nat} (h : LRUInv N hash lru out) :
    (lru.m_list ++ lru.m_free_list ++ out).Nodup :=
  (h.perm.nodup_iff).2 (List.nodup_range N)

theorem LRUInv.not_mem_list_of_out {V : Type} {N : Nat} {hash : Vec3 → Nat}
    {lru : LeastRecentlyUsed V} {out : List Nat} (h : LRUInv N hash lru out) {n : Nat}
    (hn : n ∈ out) : n ∉ lru.m_list := by
  intro hmem
  have := List.nodup_append.1 h.all_nodup
  exact this.2.2 (List.mem_append_left _ hmem) hn

theorem LRUInv.not_mem_list_of_free {V : Type} {N : Nat} {hash : Vec3 → Nat}
    {lru : LeastRecentlyUsed V} {out : List Nat} (h : LRUInv N hash lru out) {n : Nat}
    (hn : n ∈ lru.m_free_list) : n ∉ lru.m_list := by
  intro hmem
  have := List.nodup_append.1 (List.nodup_append.1 h.all_nodup).1
  exact this.2.2 hmem hn

theorem LRUInv.length_eq {V : Type} {N : Nat} {hash : Vec3 → Nat} {lru : LeastRecentlyUsed V}
    {out : List Nat} (h : LRUInv N hash lru out) :
    lru.m_list.length + lru.m_free_list.length + out.length = N := by
  have := h.perm.length_eq
  simp only [List.length_append, List.length_range] at this
  omega

theorem LRUInv.lt_of_mem {V : Type} {N : Nat} {hash : Vec3 → Nat} {lru : LeastRecentlyUsed V}
    {out : List Nat} (h : LRUInv N hash lru out) {n : Nat} (hn : n ∈ lru.m_list) : n < N := by
  have : n ∈ List.range N :=
    h.perm.mem_iff.1 (List.mem_append_left _ (List.mem_append_left _ hn))
  exact List.mem_range.1 this

/-- The invariant only looks at the cached nodes. -/
theorem LRUInv.congr {V : Type} {N : Nat} {hash : Vec3 → Nat} {lru lru' : LeastRecentlyUsed V}
    {out out' : List Nat} (h : LRUInv N hash lru out)
    (hl : lru'.m_list = lru.m_list) (hm : lru'.m_map = lru.m_map)
    (hp : (lru'.m_list ++ lru'.m_free_list ++ out').Perm (lru.m_list ++ lru.m_free_list ++ out))
    (hn : ∀ n ∈ lru.m_list, (lru'.node n).key = (lru.node n).key ∧
      (lru'.node n).head = (lru.node n).head) : LRUInv N hash lru' out' := by
  have hkeys : lru'.keys = lru.keys := by
    unfold LeastRecentlyUsed.keys
    rw [hl]
    exact List.map_congr_left (fun n hn' => (hn n hn').1)
  refine ⟨hp.trans h.perm, by rw [hkeys]; exact h.keys_nodup, ?_, ?_⟩
  · intro n hn'
    rw [hl] at hn'
    rw [(hn n hn').1, (hn n hn').2]
    exact h.heads n hn'
  · intro b
    rw [hm, hl, h.buckets]
    apply List.filter_congr
    intro n hn'
    rw [(hn n hn').2]

/-- `remove_node` hands a cached node to the caller. -/
theorem LRUInv.remove_node {V : Type} {N : Nat} {hash : Vec3 → Nat} {lru : LeastRecentlyUsed V}
    {out : List Nat} (h : LRUInv N hash lru out) {n : Nat} (hn : n ∈ lru.m_list) :
    LRUInv N hash (lru.remove_node n) (n :: out) := by
  have hnd := h.list_nodup
  refine ⟨?_, ?_, ?_, ?_⟩
  · show (lru.m_list.erase n ++ lru.m_free_list ++ n :: out).Perm (List.range N)
    refine List.Perm.trans ?_ h.perm
    have h1 : (lru.m_list.erase n ++ lru.m_free_list ++ n :: out).Perm
        (n :: (lru.m_list.erase n ++ lru.m_free_list ++ out)) := List.perm_middle
    refine h1.trans ?_
    have h2 : (n :: lru.m_list.erase n).Perm lru.m_list := (List.perm_cons_erase hn).symm
    have h3 := (h2.append_right lru.m_free_list).append_right out
    simpa using h3
  · show ((lru.m_list.erase n).map (fun m => (lru.node m).key)).Nodup
    exact h.keys_nodup.sublist ((List.erase_sublist n lru.m_list).map _)
  · intro m hm
    exact h.heads m (List.mem_of_mem_erase hm)
  · intro b
    show Function.update lru.m_map (lru.node n).head ((lru.m_map (lru.node n).head).erase n) b =
      (lru.m_list.erase n).filter (fun m => (lru.node m).head = b)
    rw [hnd.erase_eq_filter, List.filter_filter]
    by_cases hb : b = (lru.node n).head
    · subst hb
      rw [Function.update_same, h.buckets]
      have hnd' : (lru.m_list.filter (fun m => decide ((lru.node m).head = (lru.node n).head))).Nodup :=
        hnd.filter _
      rw [hnd'.erase_eq_filter, List.filter_filter]
      apply List.filter_congr
      intro m _
      simp [Bool.and_comm]
    · rw [Function.update_noteq hb, h.buckets]
      apply List.filter_congr
      intro m _
      by_cases hmn : m = n
      · subst hmn
        have : ¬ (lru.node m).head = b := fun h' => hb h'.symm
        simp [this]
      · simp [hmn]

/-- `add_node` links a node held by the caller whose key is not cached. -/
theorem LRUInv.add_node {V : Type} {N : Nat} {hash : Vec3 → Nat} {lru : LeastRecentlyUsed V}
    {out : List Nat} (h : LRUInv N hash lru out) {n : Nat} (hn : n ∈ out)
    (hk : (lru.node n).key ∉ lru.keys) :
    LRUInv N hash (lru.add_node n (hash (lru.node n).key)) (out.erase n) := by
  have hnot := h.not_mem_list_of_out hn
  have hkey : ∀ m, ((lru.add_node n (hash (lru.node n).key)).node m).key = (lru.node m).key := by
    intro m
    show (Function.update lru.node n _ m).key = _
    by_cases hmn : m = n
    · subst hmn; rw [Function.update_same]
    · rw [Function.update_noteq hmn]
  have hhead : ∀ m, m ≠ n →
      ((lru.add_node n (hash (lru.node n).key)).node m).head = (lru.node m).head := by
    intro m hmn
    show (Function.update lru.node n _ m).head = _
    rw [Function.update_noteq hmn]
  have hheadn : ((lru.add_node n (hash (lru.node n).key)).node n).head
      = hash (lru.node n).key := by
    show (Function.update lru.node n _ n).head = _
    rw [Function.update_same]
  refine ⟨?_, ?_, ?_, ?_⟩
  · show ((n :: lru.m_list) ++ lru.m_free_list ++ out.erase n).Perm (List.range N)
    refine List.Perm.trans ?_ h.perm
    have h1 : (lru.m_list ++ lru.m_free_list ++ out).Perm
        (lru.m_list ++ lru.m_free_list ++ n :: out.erase n) :=
      List.Perm.append_left _ (List.perm_cons_erase hn)
    refine List.Perm.trans ?_ h1.symm
    have h2 : (lru.m_list ++ lru.m_free_list ++ n :: out.erase n).Perm
        (n :: (lru.m_list ++ lru.m_free_list ++ out.erase n)) := List.perm_middle
    refine List.Perm.trans ?_ h2.symm
    simp
  · show ((n :: lru.m_list).map
      (fun m => ((lru.add_node n (hash (lru.node n).key)).node m).key)).Nodup
    have : (n :: lru.m_list).map
        (fun m => ((lru.add_node n (hash (lru.node n).key)).node m).key)
        = (lru.node n).key :: lru.keys := by
      simp only [List.map_cons, hkey]
      rfl
    rw [this]
    exact List.nodup_cons.2 ⟨hk, h.keys_nodup⟩
  · intro m hm
    rw [hkey]
    rcases List.mem_cons.1 hm with rfl | hm'
    · exact hheadn
    · have hmn : m ≠ n := fun e => hnot (e ▸ hm')
      rw [hhead m hmn]
      exact h.heads m hm'
  · intro b
    show Function.update lru.m_map (hash (lru.node n).key) (n :: lru.m_map (hash (lru.node n).key)) b
      = (n :: lru.m_list).filter
        (fun m => ((lru.add_node n (hash (lru.node n).key)).node m).head = b)
    have hrest : lru.m_list.filter
        (fun m => decide (((lru.add_node n (hash (lru.node n).key)).node m).head = b))
        = lru.m_list.filter (fun m => decide ((lru.node m).head = b)) := by
      apply List.filter_congr
      intro m hm'
      have hmn : m ≠ n := fun e => hnot (e ▸ hm')
      rw [hhead m hmn]
    by_cases hb : b = hash (lru.node n).key
    · subst hb
      rw [Function.update_same, List.filter_cons, hheadn, hrest, h.buckets]
      simp
    · rw [Function.update_noteq hb, List.filter_cons, hheadn, hrest, h.buckets]
      have : ¬ hash (lru.node n).key = b := fun e => hb e.symm
      simp [this]

/-- A lookup of a key that is not cached returns null and changes nothing. -/
theorem LRUInv.get_node_miss {V : Type} {N : Nat} {hash : Vec3 → Nat}
    {lru : LeastRecentlyUsed V} {out : List Nat} (h : LRUInv N hash lru out) (p : Vec3)
    (hp : p ∉ lru.keys) : lru.get_node p (hash p) = (lru, none) := by
  unfold LeastRecentlyUsed.get_node
  have : (lru.m_map (hash p)).find?
      (fun n => VoxelStorage.all_equal p (lru.node n).key) = none := by
    rw [List.find?_eq_none]
    intro n hn hcontra
    rw [h.buckets] at hn
    have hn' := (List.mem_filter.1 hn).1
    rw [all_equal_iff] at hcontra
    apply hp
    rw [hcontra]
    exact List.mem_map_of_mem _ hn'
  rw [this]


theorem LeastRecentlyUsed.add_node_key {V : Type} (lru : LeastRecentlyUsed V) (n idx m : Nat) :
    ((lru.add_node n idx).node m).key = (lru.node m).key ∧
      ((lru.add_node n idx).node m).val = (lru.node m).val := by
  show (Function.update lru.node n _ m).key = _ ∧ (Function.update lru.node n _ m).val = _
  by_cases hmn : m = n
  · subst hmn; rw [Function.update_same]; exact ⟨rfl, rfl⟩
  · rw [Function.update_noteq hmn]; exact ⟨rfl, rfl⟩

/-- A lookup of a cached key returns its node and moves the node to the front. -/
theorem LRUInv.get_node_hit {V : Type} {N : Nat} {hash : Vec3 → Nat}
    {lru : LeastRecentlyUsed V} {out : List Nat} (h : LRUInv N hash lru out) (n : Nat)
    (hn : n ∈ lru.m_list) (p : Vec3) (hp : (lru.node n).key = p) :
    (lru.get_node p (hash p)).2 = some n ∧
    (lru.get_node p (hash p)).1.m_list = n :: lru.m_list.erase n ∧
    (lru.get_node p (hash p)).1.m_free_list = lru.m_free_list ∧
    (∀ m, ((lru.get_node p (hash p)).1.node m).key = (lru.node m).key ∧
      ((lru.get_node p (hash p)).1.node m).val = (lru.node m).val) ∧
    LRUInv N hash (lru.get_node p (hash p)).1 out := by
  subst hp
  have hfind : (lru.m_map (hash (lru.node n).key)).find?
      (fun m => VoxelStorage.all_equal (lru.node n).key (lru.node m).key) = some n := by
    cases hf : (lru.m_map (hash (lru.node n).key)).find?
        (fun m => VoxelStorage.all_equal (lru.node n).key (lru.node m).key) with
    | none =>
      rw [List.find?_eq_none] at hf
      have hmem : n ∈ lru.m_map (hash (lru.node n).key) := by
        rw [h.buckets]
        exact List.mem_filter.2 ⟨hn, by simp [h.heads n hn]⟩
      exact absurd ((all_equal_iff _ _).2 rfl) (hf n hmem)
    | some m =>
      have h1 := List.find?_some hf
      have h2 := List.mem_of_find?_eq_some hf
      rw [h.buckets] at h2
      rw [all_equal_iff] at h1
      have := lru.key_inj_of_nodup h.keys_nodup (List.mem_filter.1 h2).1 hn h1.symm
      rw [this]
  have hget : lru.get_node (lru.node n).key (hash (lru.node n).key)
      = ((lru.remove_node n).add_node n (hash (lru.node n).key), some n) := by
    unfold LeastRecentlyUsed.get_node
    rw [hfind]
  rw [hget]
  have hrem := h.remove_node hn
  have hk : ((lru.remove_node n).node n).key ∉ (lru.remove_node n).keys := by
    show (lru.node n).key ∉ (lru.m_list.erase n).map (fun m => (lru.node m).key)
    intro hmem
    obtain ⟨m, hm, hkm⟩ := List.mem_map.1 hmem
    have hm' := List.mem_of_mem_erase hm
    have := lru.key_inj_of_nodup h.keys_nodup hm' hn hkm
    subst this
    exact (h.list_nodup.not_mem_erase) hm
  have hadd := hrem.add_node (List.mem_cons_self n out) hk
  rw [List.erase_cons_head] at hadd
  exact ⟨rfl, rfl, rfl, fun m => LeastRecentlyUsed.add_node_key _ _ _ _, hadd⟩

/-- `remove_lru_node` on a non-empty cache hands the last node of the recency chain to
the caller. -/
theorem LRUInv.remove_lru_node {V : Type} {N : Nat} {hash : Vec3 → Nat}
    {lru : LeastRecentlyUsed V} {out : List Nat} (h : LRUInv N hash lru out)
    (hne : lru.m_list ≠ []) :
    ∃ n, lru.remove_lru_node = (lru.remove_node n, some n) ∧ n ∈ lru.m_list ∧
      lru.m_list = lru.m_list.dropLast ++ [n] ∧
      (lru.remove_node n).m_list = lru.m_list.dropLast ∧
      LRUInv N hash (lru.remove_node n) (n :: out) := by
  refine ⟨lru.m_list.getLast hne, ?_, List.getLast_mem hne,
    (List.dropLast_append_getLast hne).symm, ?_, h.remove_node (List.getLast_mem hne)⟩
  · unfold LeastRecentlyUsed.remove_lru_node
    rw [List.getLast?_eq_getLast _ hne]
  · show lru.m_list.erase (lru.m_list.getLast hne) = lru.m_list.dropLast
    exact List.erase_getLast_of_nodup _ hne h.list_nodup

theorem LeastRecentlyUsed.remove_lru_node_nil {V : Type} (lru : LeastRecentlyUsed V)
    (h : lru.m_list = []) : lru.remove_lru_node = (lru, none) := by
  unfold LeastRecentlyUsed.remove_lru_node
  rw [h]; rfl

/-- `get_from_heap` on a cache with a free node hands the first free node to the
caller. -/
theorem LRUInv.get_from_heap {V : Type} {N : Nat} {hash : Vec3 → Nat}
    {lru : LeastRecentlyUsed V} {out : List Nat} (h : LRUInv N hash lru out)
    {n : Nat} {rest : List Nat} (hf : lru.m_free_list = n :: rest) :
    lru.get_from_heap = ({ lru with m_free_list := rest }, some n) ∧
      LRUInv N hash { lru with m_free_list := rest } (n :: out) := by
  refine ⟨by unfold LeastRecentlyUsed.get_from_heap; rw [hf], ?_⟩
  refine h.congr rfl rfl ?_ (fun m _ => ⟨rfl, rfl⟩)
  show (lru.m_list ++ rest ++ n :: out).Perm (lru.m_list ++ lru.m_free_list ++ out)
  rw [hf]
  have h1 : (lru.m_list ++ rest ++ n :: out).Perm (n :: (lru.m_list ++ rest ++ out)) :=
    List.perm_middle
  refine h1.trans ?_
  have h2 : (lru.m_list ++ n :: rest).Perm (n :: (lru.m_list ++ rest)) := List.perm_middle
  have h3 := h2.append_right out
  exact (by simpa using h3.symm)

theorem LeastRecentlyUsed.get_from_heap_nil {V : Type} (lru : LeastRecentlyUsed V)
    (h : lru.m_free_list = []) : lru.get_from_heap = (lru, none) := by
  unfold LeastRecentlyUsed.get_from_heap
  rw [h]

/-- `add_to_heap` takes a node back from the caller. -/
theorem LRUInv.add_to_heap {V : Type} {N : Nat} {hash : Vec3 → Nat}
    {lru : LeastRecentlyUsed V} {out : List Nat} (h : LRUInv N hash lru (n :: out)) :
    LRUInv N hash (lru.add_to_heap n) out := by
  refine h.congr rfl rfl ?_ (fun m _ => ⟨rfl, rfl⟩)
  show (lru.m_list ++ n :: lru.m_free_list ++ out).Perm (lru.m_list ++ lru.m_free_list ++ n :: out)
  have h1 : (lru.m_list ++ lru.m_free_list ++ n :: out).Perm
      (n :: (lru.m_list ++ lru.m_free_list ++ out)) := List.perm_middle
  refine List.Perm.trans ?_ h1.symm
  have h2 : (lru.m_list ++ n :: lru.m_free_list).Perm (n :: (lru.m_list ++ lru.m_free_list)) :=
    List.perm_middle
  have h3 := h2.append_right out
  simp only [List.cons_append] at h3
  exact h3

theorem LeastRecentlyUsed.fill_heap_spec {V : Type} (lru : LeastRecentlyUsed V) (count : Nat) :
    (lru.fill_heap count).m_list = lru.m_list ∧ (lru.fill_heap count).m_map = lru.m_map ∧
      (lru.fill_heap count).node = lru.node ∧
      (lru.fill_heap count).m_free_list = (List.range count).reverse ++ lru.m_free_list := by
  induction count with
  | zero => simp [LeastRecentlyUsed.fill_heap]
  | succ c ih =>
    obtain ⟨h1, h2, h3, h4⟩ := ih
    refine ⟨h1, h2, h3, ?_⟩
    show c :: (lru.fill_heap c).m_free_list = _
    rw [h4, List.range_succ]
    simp

/-- The cache the constructor of `VoxelStorage` builds: nothing cached, `N` free nodes. -/
theorem LRUInv.init {V : Type} (N : Nat) (hash : Vec3 → Nat) (blank : V) :
    LRUInv N hash ((LeastRecentlyUsed.init blank).fill_heap N) [] := by
  obtain ⟨h1, h2, h3, h4⟩ := LeastRecentlyUsed.fill_heap_spec (LeastRecentlyUsed.init blank) N
  have hl : ((LeastRecentlyUsed.init blank).fill_heap N).m_list = [] := h1
  refine ⟨?_, ?_, ?_, ?_⟩
  · rw [hl, h4]
    show ([] ++ ((List.range N).reverse ++ []) ++ []).Perm (List.range N)
    simp
  · unfold LeastRecentlyUsed.keys
    rw [hl]
    exact List.nodup_nil
  · intro n hn
    rw [hl] at hn
    cases hn
  · intro b
    rw [hl, h2]
    rfl

theorem to_u32_of_nonneg {a : Int} (h0 : 0 ≤ a) (h1 : a < 4294967296) : (to_u32 a : Int) = a := by
  unfold to_u32
  rw [Int.emod_eq_of_lt h0 h1]
  exact Int.toNat_of_nonneg h0

theorem mixed_radix_unique {s a b c d : Int} (hb0 : 0 ≤ b) (hb : b < s) (hd0 : 0 ≤ d)
    (hd : d < s) (h : a * s + b = c * s + d) : a = c ∧ b = d := by
  have hs : 0 < s := by omega
  have hac : a = c := by
    by_contra hne
    rcases lt_or_gt_of_ne hne with hlt | hgt
    · have : a + 1 ≤ c := by omega
      have := mul_le_mul_of_nonneg_right this (le_of_lt hs)
      nlinarith
    · have : c + 1 ≤ a := by omega
      have := mul_le_mul_of_nonneg_right this (le_of_lt hs)
      nlinarith
  subst hac
  exact ⟨rfl, by omega⟩

theorem index_bounds {sx sy sz x y z : Int} (hx0 : 0 ≤ x) (hx : x < sx) (hy0 : 0 ≤ y)
    (hy : y < sy) (hz0 : 0 ≤ z) (hz : z < sz) :
    0 ≤ z * sy ∧ z * sy ≤ sx * sy * sz ∧ 0 ≤ z * sy * sx ∧ z * sy * sx ≤ sx * sy * sz ∧
      0 ≤ y * sx ∧ y * sx ≤ sx * sy * sz ∧
      0 ≤ z * sy * sx + y * sx ∧ z * sy * sx + y * sx ≤ sx * sy * sz ∧
      0 ≤ z * sy * sx + y * sx + x ∧ z * sy * sx + y * sx + x < sx * sy * sz ∧
      sx ≤ sx * sy * sz ∧ sy ≤ sx * sy * sz ∧ sz ≤ sx * sy * sz := by
  have hsx : 0 < sx := by omega
  have hsy : 0 < sy := by omega
  have hsz : 0 < sz := by omega
  have a1 : 0 ≤ z * sy := mul_nonneg hz0 (le_of_lt hsy)
  have a2 : 0 ≤ z * sy * sx := mul_nonneg a1 (le_of_lt hsx)
  have a3 : 0 ≤ y * sx := mul_nonneg hy0 (le_of_lt hsx)
  have c1 : z * sy ≤ (sz - 1) * sy := mul_le_mul_of_nonneg_right (by omega) (le_of_lt hsy)
  have c2 : z * sy + y + 1 ≤ sz * sy := by
    have : (sz - 1) * sy = sz * sy - sy := by ring
    omega
  have c3 : (z * sy + y + 1) * sx ≤ sz * sy * sx :=
    mul_le_mul_of_nonneg_right c2 (le_of_lt hsx)
  have c4 : (z * sy + y + 1) * sx = z * sy * sx + y * sx + sx := by ring
  have c5 : sz * sy * sx = sx * sy * sz := by ring
  have d1 : 1 ≤ sy * sz := by
    have := mul_le_mul (show (1 : Int) ≤ sy by omega) (show (1 : Int) ≤ sz by omega)
      (by omega) (by omega)
    simpa using this
  have d2 : sx * 1 ≤ sx * (sy * sz) := mul_le_mul_of_nonneg_left d1 (le_of_lt hsx)
  have d3 : sx * (sy * sz) = sx * sy * sz := by ring
  have d4 : 1 ≤ sx * sz := by
    have := mul_le_mul (show (1 : Int) ≤ sx by omega) (show (1 : Int) ≤ sz by omega)
      (by omega) (by omega)
    simpa using this
  have d5 : sy * 1 ≤ sy * (sx * sz) := mul_le_mul_of_nonneg_left d4 (le_of_lt hsy)
  have d6 : sy * (sx * sz) = sx * sy * sz := by ring
  have d7 : 1 ≤ sx * sy := by
    have := mul_le_mul (show (1 : Int) ≤ sx by omega) (show (1 : Int) ≤ sy by omega)
      (by omega) (by omega)
    simpa using this
  have d8 : sz * 1 ≤ sz * (sx * sy) := mul_le_mul_of_nonneg_left d7 (le_of_lt hsz)
  have d9 : sz * (sx * sy) = sx * sy * sz := by ring
  have e1 : z * sy ≤ z * sy * sx := by
    have := mul_le_mul_of_nonneg_left (show (1 : Int) ≤ sx by omega) a1
    simpa using this
  refine ⟨a1, by omega, a2, by omega, a3, by omega, by omega, by omega, by omega, by omega,
    by omega, by omega, by omega⟩

/-- With positive region sizes whose product is below `2^29`, the remainder of a chunk
position and its index in the region are computed without overflow. -/
theorem position_to_index_eq (cfg : Config) (hpos : cfg.RegionSizePos)
    (hvol : cfg.REGION_VOLUME < 536870912) (p : Vec3) (hp : p.isS32) :
    VoxelStorage.floor_div p cfg.REGION_SIZE
      = ⟨p.x / cfg.REGION_SIZE.x, p.y / cfg.REGION_SIZE.y, p.z / cfg.REGION_SIZE.z⟩ ∧
    VoxelStorage.position_to_index p cfg.REGION_SIZE
      = p.z % cfg.REGION_SIZE.z * cfg.REGION_SIZE.y * cfg.REGION_SIZE.x
          + p.y % cfg.REGION_SIZE.y * cfg.REGION_SIZE.x + p.x % cfg.REGION_SIZE.x ∧
    0 ≤ VoxelStorage.position_to_index p cfg.REGION_SIZE ∧
    VoxelStorage.position_to_index p cfg.REGION_SIZE < cfg.REGION_VOLUME := by
  obtain ⟨hx, hy, hz⟩ := hpos
  obtain ⟨px, py, pz⟩ := hp
  generalize hsx : cfg.REGION_SIZE.x = sx at hx
  generalize hsy : cfg.REGION_SIZE.y = sy at hy
  generalize hsz : cfg.REGION_SIZE.z = sz at hz
  have hprod : (cfg.REGION_VOLUME : Int) = sx * sy * sz := by
    unfold Config.REGION_VOLUME
    rw [hsx, hsy, hsz, Int.toNat_of_nonneg]
    exact le_of_lt (mul_pos (mul_pos hx hy) hz)
  have hv : sx * sy * sz < 536870912 := by rw [← hprod]; omega
  have mx0 := Int.emod_nonneg p.x (ne_of_gt hx)
  have mx1 := Int.emod_lt_of_pos p.x hx
  have my0 := Int.emod_nonneg p.y (ne_of_gt hy)
  have my1 := Int.emod_lt_of_pos p.y hy
  have mz0 := Int.emod_nonneg p.z (ne_of_gt hz)
  have mz1 := Int.emod_lt_of_pos p.z hz
  obtain ⟨a1, a2, a3, a4, a5, a6, a7, a8, a9, a10, lx, ly, lz⟩ :=
    @index_bounds sx sy sz _ _ _ mx0 mx1 my0 my1 mz0 mz1
  have fmx := floor_mod_s32_eq p.x sx hx (tmod_add_fits _ _ hx (by omega))
  have fmy := floor_mod_s32_eq p.y sy hy (tmod_add_fits _ _ hy (by omega))
  have fmz := floor_mod_s32_eq p.z sz hz (tmod_add_fits _ _ hz (by omega))
  have fdx := floor_div_s32_eq p.x sx px hx
  have fdy := floor_div_s32_eq p.y sy py hy
  have fdz := floor_div_s32_eq p.z sz pz hz
  have hfd : VoxelStorage.floor_div p cfg.REGION_SIZE = ⟨p.x / sx, p.y / sy, p.z / sz⟩ := by
    unfold VoxelStorage.floor_div
    rw [hsx, hsy, hsz, fdx, fdy, fdz]
  have w1 : wrapS32 (p.z % sz * sy) = p.z % sz * sy := wrapS32_id (by omega) (by omega)
  have w2 : wrapS32 (p.z % sz * sy * sx) = p.z % sz * sy * sx :=
    wrapS32_id (by omega) (by omega)
  have w3 : wrapS32 (p.y % sy * sx) = p.y % sy * sx := wrapS32_id (by omega) (by omega)
  have w4 : wrapS32 (p.z % sz * sy * sx + p.y % sy * sx) = p.z % sz * sy * sx + p.y % sy * sx :=
    wrapS32_id (by omega) (by omega)
  have w5 : wrapS32 (p.z % sz * sy * sx + p.y % sy * sx + p.x % sx)
      = p.z % sz * sy * sx + p.y % sy * sx + p.x % sx := wrapS32_id (by omega) (by omega)
  have hidx : VoxelStorage.position_to_index p cfg.REGION_SIZE
      = p.z % sz * sy * sx + p.y % sy * sx + p.x % sx := by
    unfold VoxelStorage.position_to_index VoxelStorage.to_index VoxelStorage.floor_mod
    simp only [hsx, hsy, hsz, fmx, fmy, fmz, w1, w2, w3, w4, w5]
  refine ⟨hfd, hidx, ?_, ?_⟩
  · rw [hidx]; exact a9
  · rw [hidx, hprod]; exact a10

/-- The slot of a chunk lies inside the slot table of its region. -/
theorem slot_index_lt (cfg : Config) (hpos : cfg.RegionSizePos)
    (hvol : cfg.REGION_VOLUME < 536870912) (p : Vec3) (hp : p.isS32) :
    VoxelStorage.slot_index cfg p < cfg.REGION_VOLUME := by
  obtain ⟨_, _, h0, h1⟩ := position_to_index_eq cfg hpos hvol p hp
  unfold VoxelStorage.slot_index
  have := to_u32_of_nonneg h0 (by omega)
  omega

/-- Chunks of one region with different positions have different slots. -/
theorem slot_index_inj (cfg : Config) (hpos : cfg.RegionSizePos)
    (hvol : cfg.REGION_VOLUME < 536870912) (p q : Vec3) (hp : p.isS32) (hq : q.isS32)
    (hr : VoxelStorage.floor_div p cfg.REGION_SIZE = VoxelStorage.floor_div q cfg.REGION_SIZE)
    (hs : VoxelStorage.slot_index cfg p = VoxelStorage.slot_index cfg q) : p = q := by
  obtain ⟨hfdp, hip, hp0, hp1⟩ := position_to_index_eq cfg hpos hvol p hp
  obtain ⟨hfdq, hiq, hq0, hq1⟩ := position_to_index_eq cfg hpos hvol q hq
  obtain ⟨hx, hy, hz⟩ := hpos
  have e1 := to_u32_of_nonneg hp0 (by omega)
  have e2 := to_u32_of_nonneg hq0 (by omega)
  unfold VoxelStorage.slot_index at hs
  have hidx : VoxelStorage.position_to_index p cfg.REGION_SIZE
      = VoxelStorage.position_to_index q cfg.REGION_SIZE := by
    rw [← e1, ← e2, hs]
  rw [hip, hiq] at hidx
  rw [hfdp, hfdq] at hr
  injection hr with rx ry rz
  have hidx' : (p.z % cfg.REGION_SIZE.z * cfg.REGION_SIZE.y + p.y % cfg.REGION_SIZE.y)
        * cfg.REGION_SIZE.x + p.x % cfg.REGION_SIZE.x
      = (q.z % cfg.REGION_SIZE.z * cfg.REGION_SIZE.y + q.y % cfg.REGION_SIZE.y)
        * cfg.REGION_SIZE.x + q.x % cfg.REGION_SIZE.x := by
    have e3 : ∀ a b c : Int, (a * cfg.REGION_SIZE.y + b) * cfg.REGION_SIZE.x + c
        = a * cfg.REGION_SIZE.y * cfg.REGION_SIZE.x + b * cfg.REGION_SIZE.x + c := by
      intro a b c; ring
    rw [e3, e3]; exact hidx
  clear hidx
  have hidx := hidx'
  obtain ⟨h1, h2⟩ := mixed_radix_unique (Int.emod_nonneg _ (ne_of_gt hx))
    (Int.emod_lt_of_pos _ hx) (Int.emod_nonneg _ (ne_of_gt hx)) (Int.emod_lt_of_pos _ hx) hidx
  obtain ⟨h3, h4⟩ := mixed_radix_unique (Int.emod_nonneg _ (ne_of_gt hy))
    (Int.emod_lt_of_pos _ hy) (Int.emod_nonneg _ (ne_of_gt hy)) (Int.emod_lt_of_pos _ hy) h1
  have ex : p.x = q.x := by
    rw [← Int.emod_add_ediv p.x cfg.REGION_SIZE.x, ← Int.emod_add_ediv q.x cfg.REGION_SIZE.x,
      rx, h2]
  have ey : p.y = q.y := by
    rw [← Int.emod_add_ediv p.y cfg.REGION_SIZE.y, ← Int.emod_add_ediv q.y cfg.REGION_SIZE.y,
      ry, h4]
  have ez : p.z = q.z := by
    rw [← Int.emod_add_ediv p.z cfg.REGION_SIZE.z, ← Int.emod_add_ediv q.z cfg.REGION_SIZE.z,
      rz, h3]
  cases p; cases q
  simp_all

theorem Env.Valid.volume_lt {env : Env} (hv : env.Valid) : env.cfg.REGION_VOLUME < 536870912 := by
  have := hv.fits
  unfold Config.Fits header_end at this
  omega

theorem Env.Valid.garbage_lt {env : Env} (hv : env.Valid) {g : Nat}
    (hg : g < env.cfg.DEFRAGMENT_GARBAGE_THRESHOLD) : g < 4294967296 := by
  have := hv.fits
  unfold Config.Fits at this
  omega

theorem LeastRecentlyUsed.set_val_node {V : Type} (lru : LeastRecentlyUsed V) (n : Nat) (v : V)
    (m : Nat) : ((lru.set_val n v).node m).key = (lru.node m).key ∧
      ((lru.set_val n v).node m).head = (lru.node m).head ∧
      ((lru.set_val n v).node m).val = if m = n then v else (lru.node m).val := by
  show (Function.update lru.node n _ m).key = _ ∧ (Function.update lru.node n _ m).head = _ ∧
    (Function.update lru.node n _ m).val = _
  by_cases hmn : m = n
  · subst hmn; rw [Function.update_same]; simp
  · rw [Function.update_noteq hmn]; simp [hmn]

theorem LeastRecentlyUsed.set_key_node {V : Type} (lru : LeastRecentlyUsed V) (n : Nat)
    (k : Vec3) (m : Nat) : ((lru.set_key n k).node m).val = (lru.node m).val ∧
      ((lru.set_key n k).node m).head = (lru.node m).head ∧
      ((lru.set_key n k).node m).key = if m = n then k else (lru.node m).key := by
  show (Function.update lru.node n _ m).val = _ ∧ (Function.update lru.node n _ m).head = _ ∧
    (Function.update lru.node n _ m).key = _
  by_cases hmn : m = n
  · subst hmn; rw [Function.update_same]; simp
  · rw [Function.update_noteq hmn]; simp [hmn]

/-- Closing a region (its header is written) leaves a file whose header read back gives
the invariant again. -/
theorem write_header_load_ok (env : Env) (hv : env.Valid) (io : RegionIO)
    (h : RegionOK env.cfg (c_maximum_compressed_size env.cfg env.codec) io)
    (hg : io.garbage < env.cfg.DEFRAGMENT_GARBAGE_THRESHOLD) :
    RegionOK env.cfg (c_maximum_compressed_size env.cfg env.codec)
        (load_region (write_header io)) ∧
      (load_region (write_header io)).garbage < env.cfg.DEFRAGMENT_GARBAGE_THRESHOLD ∧
      (write_header io).size ≠ 0 := by
  have hok := reopen_region_ok env.cfg _ io hv.fits h
  obtain ⟨_, e2, _, e4, _⟩ := reopen_region_spec io h.1.2.1 (hv.garbage_lt hg)
  refine ⟨hok, ?_, ?_⟩
  · have : (load_region (write_header io)).garbage = io.garbage := e2
    rw [this]; exact hg
  · have hs := h.2.2.2.2
    have : io.file.size ≤ (write_header io).size := e4
    omega

/-- Lines 329-334 of `get_region` hand a region node to the caller; if a region had to be
evicted, its header is on disk. -/
theorem take_region_node_spec (env : Env) (hv : env.Valid) (s : VoxelStorage)
    (h : RegionsOK env s []) :
    ∃ s1 n, s.take_region_node = (s1, some n) ∧ RegionsOK env s1 [n] ∧
      s1.m_chunk_LRU = s.m_chunk_LRU ∧ s1.m_region_LRU.node = s.m_region_LRU.node ∧
      (∀ r i, 8 ≤ i → (s1.world r).get i = (s.world r).get i) ∧
      (∀ r, (s.world r).size ≠ 0 → (s1.world r).size ≠ 0) ∧
      (s1.m_region_LRU.m_list = s.m_region_LRU.m_list ∨
        (s.m_region_LRU.m_list.length = env.cfg.REGION_HEAP_SIZE ∧
          s.m_region_LRU.m_list = s1.m_region_LRU.m_list ++ [n])) := by
  cases hfree : s.m_region_LRU.m_free_list with
  | cons n rest =>
    obtain ⟨e1, hinv⟩ := h.lru.get_from_heap hfree
    refine ⟨{ s with m_region_LRU := { s.m_region_LRU with m_free_list := rest } }, n, ?_,
      ⟨hinv, h.fds, h.cached, h.closed⟩, rfl, rfl, fun _ _ _ => rfl, fun _ hne => hne,
      Or.inl rfl⟩
    unfold VoxelStorage.take_region_node
    rw [e1]
  | nil =>
    have hlen := h.lru.length_eq
    rw [hfree] at hlen
    simp only [List.length_nil, Nat.add_zero] at hlen
    have hne : s.m_region_LRU.m_list ≠ [] := by
      intro hnil
      rw [hnil] at hlen
      have := hv.region_heap
      simp at hlen
      omega
    obtain ⟨n, e2, hn, hsplit, hdrop, hinv⟩ := h.lru.remove_lru_node hne
    have hfd := h.fds n hn
    have hkeys : s.m_region_LRU.keys
        = (s.m_region_LRU.remove_node n).keys ++ [(s.m_region_LRU.node n).key] := by
      unfold LeastRecentlyUsed.keys
      rw [hdrop]
      have := congrArg (List.map (fun m => (s.m_region_LRU.node m).key)) hsplit
      rw [List.map_append] at this
      exact this
    have hnotin : (s.m_region_LRU.node n).key ∉ (s.m_region_LRU.remove_node n).keys := by
      have hnd := h.lru.keys_nodup
      rw [hkeys] at hnd
      intro hmem
      exact (List.nodup_append.1 hnd).2.2 hmem (List.mem_singleton_self _)
    set e := (s.m_region_LRU.node n).key with he
    set s' : VoxelStorage := VoxelStorage.close_region
      { s with m_region_LRU := s.m_region_LRU.remove_node n } n with hs'
    have hs'_eq : s' = VoxelStorage.mk s.m_chunk_LRU (s.m_region_LRU.remove_node n)
        (Function.update s.world e (write_header (s.region_io n))) := by
      rw [hs']
      unfold VoxelStorage.close_region
      have : ((s.m_region_LRU.remove_node n).node n).val.fd = some e := hfd
      simp only [this]
      rfl
    obtain ⟨hcn, hgn⟩ := h.cached n hn
    obtain ⟨w1, w2, w3⟩ := write_header_load_ok env hv (s.region_io n) hcn hgn
    have hfile_n : (s.region_io n).file = s.world e := by
      unfold VoxelStorage.region_io VoxelStorage.region_file
      simp only [hfd]
    refine ⟨s', n, ?_, ⟨?_, ?_, ?_, ?_⟩, by rw [hs'_eq], by rw [hs'_eq]; rfl, ?_, ?_,
      Or.inr ⟨by omega, by rw [hs'_eq]; exact (by rw [hdrop]; exact hsplit)⟩⟩
    · unfold VoxelStorage.take_region_node
      rw [LeastRecentlyUsed.get_from_heap_nil _ hfree]
      simp only
      rw [e2]
    · rw [hs'_eq]; exact hinv
    · intro m hm
      rw [hs'_eq] at hm ⊢
      exact h.fds m (List.mem_of_mem_erase hm)
    · intro m hm
      rw [hs'_eq] at hm ⊢
      have hm' : m ∈ s.m_region_LRU.m_list := List.mem_of_mem_erase hm
      have hkm : (s.m_region_LRU.node m).key ≠ e := by
        intro hk
        apply hnotin
        rw [← hk]
        exact List.mem_map_of_mem _ hm
      have : VoxelStorage.region_io (VoxelStorage.mk s.m_chunk_LRU
          (s.m_region_LRU.remove_node n)
          (Function.update s.world e (write_header (s.region_io n)))) m
          = s.region_io m := by
        unfold VoxelStorage.region_io VoxelStorage.region_file
        have hfdm := h.fds m hm'
        show RegionIO.mk _ _ (match (s.m_region_LRU.node m).val.fd with
          | some p => Function.update s.world e (write_header (s.region_io n)) p
          | none => File.empty) = RegionIO.mk _ _ (match (s.m_region_LRU.node m).val.fd with
          | some p => s.world p
          | none => File.empty)
        rw [hfdm]
        simp only
        rw [Function.update_noteq hkm]
        rfl
      rw [this]
      exact h.cached m hm'
    · intro r hr hsize
      rw [hs'_eq] at hr hsize ⊢
      simp only at hr hsize ⊢
      by_cases hre : r = e
      · subst hre
        rw [Function.update_same]
        exact ⟨w1, w2⟩
      · rw [Function.update_noteq hre] at hsize ⊢
        apply h.closed r _ hsize
        rw [hkeys]
        intro hmem
        rcases List.mem_append.1 hmem with h1 | h1
        · exact hr h1
        · exact hre (List.mem_singleton.1 h1)
    · intro r i hi
      rw [hs'_eq]
      simp only
      by_cases hre : r = e
      · subst hre
        rw [Function.update_same, write_header_get _ _ hi, hfile_n]
      · rw [Function.update_noteq hre]
    · intro r hsize
      rw [hs'_eq]
      simp only
      by_cases hre : r = e
      · subst hre
        rw [Function.update_same]
        exact w3
      · rw [Function.update_noteq hre]
        exact hsize

theorem new_region_bytes (cfg : Config) (f : File) (hf : f.size = 0) (i : Nat) :
    (new_region cfg f).file.get i = f.get i := by
  rw [new_region_get cfg f hf, File.get_of_size_zero f hf]

/-- Lines 336-361 of `get_region` link the node the caller holds as the cached region of
the position; nothing but the header fields of that node and, for a new file, the length
of the file changes. -/
theorem open_region_spec (env : Env) (hv : env.Valid) (s : VoxelStorage) (n : Nat) (r : Vec3)
    (h : RegionsOK env s [n]) (hr : r ∉ s.m_region_LRU.keys) :
    RegionsOK env (s.open_region env n r) [] ∧
      (s.open_region env n r).m_chunk_LRU = s.m_chunk_LRU ∧
      (s.open_region env n r).m_region_LRU.m_list = n :: s.m_region_LRU.m_list ∧
      ((s.open_region env n r).m_region_LRU.node n).key = r ∧
      (∀ m, m ≠ n → ((s.open_region env n r).m_region_LRU.node m).key
          = (s.m_region_LRU.node m).key ∧
        ((s.open_region env n r).m_region_LRU.node m).val = (s.m_region_LRU.node m).val) ∧
      (∀ r' i, 8 ≤ i → ((s.open_region env n r).world r').get i = (s.world r').get i) ∧
      (∀ r', (s.world r').size ≠ 0 → ((s.open_region env n r).world r').size ≠ 0) := by
  set opened : RegionIO := if ((s.world r).size == 0) = true then new_region env.cfg (s.world r)
    else load_region (s.world r) with hopened
  set val : Region := { fd := some r, garbage := opened.garbage, end_ := opened.end_ } with hval
  set lruA := (s.m_region_LRU.set_val n val).set_key n r with hlruA
  have hdef : s.open_region env n r = VoxelStorage.mk s.m_chunk_LRU
      (lruA.add_node n (VoxelStorage.region_index env.cfg r))
      (Function.update s.world r opened.file) := rfl
  have hnot : n ∉ s.m_region_LRU.m_list := h.lru.not_mem_list_of_out (List.mem_singleton_self n)
  have hnodeA : ∀ m, (lruA.node m).key = (if m = n then r else (s.m_region_LRU.node m).key) ∧
      (lruA.node m).val = (if m = n then val else (s.m_region_LRU.node m).val) ∧
      (lruA.node m).head = (s.m_region_LRU.node m).head := by
    intro m
    obtain ⟨a1, a2, a3⟩ := LeastRecentlyUsed.set_key_node (s.m_region_LRU.set_val n val) n r m
    obtain ⟨b1, b2, b3⟩ := LeastRecentlyUsed.set_val_node s.m_region_LRU n val m
    refine ⟨?_, ?_, ?_⟩
    · rw [hlruA, a3]
      by_cases hmn : m = n
      · simp [hmn]
      · simp [hmn, b1]
    · rw [hlruA, a1, b3]
    · rw [hlruA, a2, b2]
  have hinvA : LRUInv env.cfg.REGION_HEAP_SIZE (VoxelStorage.region_index env.cfg) lruA [n] := by
    refine h.lru.congr rfl rfl (List.Perm.refl _) ?_
    intro m hm
    have hmn : m ≠ n := fun e => hnot (e ▸ hm)
    obtain ⟨c1, _, c3⟩ := hnodeA m
    rw [c1, c3]
    simp [hmn]
  have hkeysA : lruA.keys = s.m_region_LRU.keys := by
    unfold LeastRecentlyUsed.keys
    apply List.map_congr_left
    intro m hm
    have hmn : m ≠ n := fun e => hnot (e ▸ hm)
    rw [(hnodeA m).1]
    simp [hmn]
  have hkeyn : (lruA.node n).key = r := by rw [(hnodeA n).1]; simp
  have hadd := hinvA.add_node (List.mem_singleton_self n) (by rw [hkeyn, hkeysA]; exact hr)
  rw [hkeyn] at hadd
  simp only [List.erase_cons_head] at hadd
  have hnodeB : ∀ m, ((lruA.add_node n (VoxelStorage.region_index env.cfg r)).node m).key
        = (if m = n then r else (s.m_region_LRU.node m).key) ∧
      ((lruA.add_node n (VoxelStorage.region_index env.cfg r)).node m).val
        = (if m = n then val else (s.m_region_LRU.node m).val) := by
    intro m
    obtain ⟨d1, d2⟩ := LeastRecentlyUsed.add_node_key lruA n (VoxelStorage.region_index env.cfg r) m
    rw [d1, d2]
    exact ⟨(hnodeA m).1, (hnodeA m).2.1⟩
  have hopen_ok : RegionOK env.cfg (c_maximum_compressed_size env.cfg env.codec) opened ∧
      opened.garbage < env.cfg.DEFRAGMENT_GARBAGE_THRESHOLD := by
    by_cases hsz : (s.world r).size = 0
    · have : opened = new_region env.cfg (s.world r) := by
        rw [hopened]; simp [hsz]
      rw [this]
      exact ⟨new_region_ok _ _ _ hsz hv.fits, hv.threshold_pos⟩
    · have : opened = load_region (s.world r) := by
        rw [hopened]; simp [hsz]
      rw [this]
      exact h.closed r hr hsz
  have hbytes : ∀ i, opened.file.get i = (s.world r).get i := by
    intro i
    by_cases hsz : (s.world r).size = 0
    · have : opened = new_region env.cfg (s.world r) := by
        rw [hopened]; simp [hsz]
      rw [this]
      exact new_region_bytes _ _ hsz i
    · have : opened = load_region (s.world r) := by
        rw [hopened]; simp [hsz]
      rw [this]; rfl
  have hworld : ∀ r', r' ≠ r → Function.update s.world r opened.file r' = s.world r' :=
    fun r' hne => Function.update_noteq hne _ _
  refine ⟨⟨?_, ?_, ?_, ?_⟩, by rw [hdef], by rw [hdef]; rfl, by rw [hdef]; simp [(hnodeB n).1],
    ?_, ?_, ?_⟩
  · rw [hdef]; exact hadd
  · intro m hm
    rw [hdef] at hm ⊢
    simp only at hm ⊢
    rw [(hnodeB m).1, (hnodeB m).2]
    rcases List.mem_cons.1 hm with rfl | hm'
    · simp [hval]
    · have hmn : m ≠ n := fun e => hnot (e ▸ hm')
      simp only [hmn, if_false]
      exact h.fds m hm'
  · intro m hm
    rw [hdef] at hm ⊢
    have hm2 : m ∈ n :: s.m_region_LRU.m_list := hm
    rcases List.mem_cons.1 hm2 with rfl | hm'
    · have : VoxelStorage.region_io (VoxelStorage.mk s.m_chunk_LRU
          (lruA.add_node m (VoxelStorage.region_index env.cfg r))
          (Function.update s.world r opened.file)) m = opened := by
        unfold VoxelStorage.region_io VoxelStorage.region_file
        simp only [(hnodeB m).2, if_true, hval, Function.update_same]
      rw [this]
      exact hopen_ok
    · have hmn : m ≠ n := fun e => hnot (e ▸ hm')
      have hfdm := h.fds m hm'
      have hkm : (s.m_region_LRU.node m).key ≠ r := by
        intro hk
        apply hr
        rw [← hk]
        exact List.mem_map_of_mem _ hm'
      have : VoxelStorage.region_io (VoxelStorage.mk s.m_chunk_LRU
          (lruA.add_node n (VoxelStorage.region_index env.cfg r))
          (Function.update s.world r opened.file)) m = s.region_io m := by
        unfold VoxelStorage.region_io VoxelStorage.region_file
        simp only [(hnodeB m).2, hmn, if_false, hfdm, Function.update_noteq hkm]
      rw [this]
      exact h.cached m hm'
  · intro r' hr' hsize
    rw [hdef] at hr' hsize ⊢
    simp only at hr' hsize ⊢
    have hne : r' ≠ r := by
      intro e
      apply hr'
      rw [e]
      unfold LeastRecentlyUsed.keys
      show r ∈ (n :: s.m_region_LRU.m_list).map _
      rw [List.map_cons, (hnodeB n).1]
      simp
    rw [hworld r' hne] at hsize ⊢
    apply h.closed r' _ hsize
    intro hmem
    apply hr'
    unfold LeastRecentlyUsed.keys at hmem ⊢
    obtain ⟨m, hm, hkm⟩ := List.mem_map.1 hmem
    have hmn : m ≠ n := fun e => hnot (e ▸ hm)
    show r' ∈ (n :: s.m_region_LRU.m_list).map _
    refine List.mem_map.2 ⟨m, List.mem_cons_of_mem _ hm, ?_⟩
    rw [(hnodeB m).1]
    simp [hmn, hkm]
  · intro m hmn
    rw [hdef]
    simp only
    rw [(hnodeB m).1, (hnodeB m).2]
    simp [hmn]
  · intro r' i hi
    rw [hdef]
    simp only
    by_cases hne : r' = r
    · subst hne
      rw [Function.update_same]
      exact hbytes i
    · rw [hworld r' hne]
  · intro r' hsize
    rw [hdef]
    simp only
    by_cases hne : r' = r
    · subst hne
      rw [Function.update_same]
      exact hopen_ok.1.2.2.2.2
    · rw [hworld r' hne]
      exact hsize

/-- `get_region` returns the cached region of the position, most recently used; the region
files keep their blobs and slot tables; and a region cached before is still cached under
its key unless it was the least recently used one of a full cache. -/
theorem get_region_spec (env : Env) (hv : env.Valid) (s : VoxelStorage) (r : Vec3)
    (h : RegionsOK env s []) :
    ∃ s' n, s.get_region env r = (s', .ok n) ∧ RegionsOK env s' [] ∧
      s'.m_chunk_LRU = s.m_chunk_LRU ∧
      s'.m_region_LRU.m_list.head? = some n ∧ (s'.m_region_LRU.node n).key = r ∧
      (∀ r' i, 8 ≤ i → (s'.world r').get i = (s.world r').get i) ∧
      (∀ r', (s.world r').size ≠ 0 → (s'.world r').size ≠ 0) ∧
      (∀ m, m ∈ s.m_region_LRU.m_list →
        (m ∈ s'.m_region_LRU.m_list ∧
          (s'.m_region_LRU.node m).key = (s.m_region_LRU.node m).key) ∨
        (s.m_region_LRU.m_list.length = env.cfg.REGION_HEAP_SIZE ∧
          s.m_region_LRU.m_list.getLast? = some m)) := by
  by_cases hr : r ∈ s.m_region_LRU.keys
  · -- the region is cached
    obtain ⟨n, hn, hkn⟩ := List.mem_map.1 hr
    obtain ⟨g1, g2, g3, g4, g5⟩ := h.lru.get_node_hit n hn r hkn
    set lru' := (s.m_region_LRU.get_node r (VoxelStorage.region_index env.cfg r)).1 with hlru'
    have hget : s.get_region env r = ({ s with m_region_LRU := lru' }, .ok n) := by
      unfold VoxelStorage.get_region
      have : s.m_region_LRU.get_node r (VoxelStorage.region_index env.cfg r) = (lru', some n) :=
        Prod.ext rfl g1
      rw [this]
    have hmem : ∀ m, m ∈ lru'.m_list ↔ m ∈ s.m_region_LRU.m_list := by
      intro m
      rw [g2]
      exact (List.perm_cons_erase hn).mem_iff.symm
    have hio : ∀ m, VoxelStorage.region_io { s with m_region_LRU := lru' } m = s.region_io m := by
      intro m
      unfold VoxelStorage.region_io VoxelStorage.region_file
      simp only [(g4 m).2]
    refine ⟨{ s with m_region_LRU := lru' }, n, hget, ⟨g5, ?_, ?_, ?_⟩, rfl, by
      show lru'.m_list.head? = some n
      rw [g2]; rfl, by
      show (lru'.node n).key = r
      rw [(g4 n).1]; exact hkn, fun _ _ _ => rfl, fun _ hs => hs, ?_⟩
    · intro m hm
      show (lru'.node m).val.fd = some (lru'.node m).key
      rw [(g4 m).1, (g4 m).2]
      exact h.fds m ((hmem m).1 hm)
    · intro m hm
      rw [hio m]
      exact h.cached m ((hmem m).1 hm)
    · intro r' hr' hsize
      apply h.closed r' _ hsize
      intro hmem'
      apply hr'
      obtain ⟨m, hm, hkm⟩ := List.mem_map.1 hmem'
      exact List.mem_map.2 ⟨m, (hmem m).2 hm, by rw [(g4 m).1]; exact hkm⟩
    · intro m hm
      left
      exact ⟨(hmem m).2 hm, (g4 m).1⟩
  · -- load region
    have hmiss := h.lru.get_node_miss r hr
    obtain ⟨s1, n, t1, t2, t3, t4, t5, t6, t7⟩ := take_region_node_spec env hv s h
    have hkeys1 : ∀ r', r' ∈ s1.m_region_LRU.keys → r' ∈ s.m_region_LRU.keys := by
      intro r' hmem
      unfold LeastRecentlyUsed.keys at hmem ⊢
      rw [t4] at hmem
      rcases t7 with e | ⟨_, e⟩
      · rw [e] at hmem; exact hmem
      · rw [e, List.map_append]
        exact List.mem_append_left _ hmem
    have hr1 : r ∉ s1.m_region_LRU.keys := fun hmem => hr (hkeys1 r hmem)
    obtain ⟨o1, o2, o3, o4, o5, o6, o7⟩ := open_region_spec env hv s1 n r t2 hr1
    have hget : s.get_region env r = (s1.open_region env n r, .ok n) := by
      unfold VoxelStorage.get_region
      rw [hmiss]
      simp only
      have : ({ s with m_region_LRU := s.m_region_LRU } : VoxelStorage) = s := rfl
      rw [this, t1]
    have hnot : n ∉ s1.m_region_LRU.m_list :=
      t2.lru.not_mem_list_of_out (List.mem_singleton_self n)
    refine ⟨s1.open_region env n r, n, hget, o1, by rw [o2, t3], by rw [o3]; rfl, o4,
      fun r' i hi => by rw [o6 r' i hi, t5 r' i hi], fun r' hs => o7 r' (t6 r' hs), ?_⟩
    intro m hm
    rcases t7 with e | ⟨e1, e2⟩
    · left
      have hm1 : m ∈ s1.m_region_LRU.m_list := by rw [e]; exact hm
      have hmn : m ≠ n := fun e' => hnot (e' ▸ hm1)
      exact ⟨by rw [o3]; exact List.mem_cons_of_mem _ hm1, by rw [(o5 m hmn).1, t4]⟩
    · rw [e2] at hm
      rcases List.mem_append.1 hm with hm1 | hm1
      · left
        have hmn : m ≠ n := fun e' => hnot (e' ▸ hm1)
        exact ⟨by rw [o3]; exact List.mem_cons_of_mem _ hm1, by rw [(o5 m hmn).1, t4]⟩
      · right
        rw [List.mem_singleton] at hm1
        subst hm1
        exact ⟨e1, by rw [e2]; simp⟩

theorem File.pread_zero (f : File) (q : Nat) : f.pread 0 q = [] := rfl

/-- Bytes of a blob that the write rule does not touch: a blob inside `[header_end, end)`
that is disjoint from the old blob of the written slot. -/
theorem write_chunk_frame (cfg : Config) (maxsz : Nat) (r : RegionIO) (k : Nat)
    (compressed : List Nat) (hfits : cfg.Fits maxsz) (h : RegionOK cfg maxsz r)
    (hgar : r.garbage < cfg.DEFRAGMENT_GARBAGE_THRESHOLD) (hk : k < cfg.REGION_VOLUME)
    (hmax : compressed.length ≤ maxsz) :
    (slot_offset (write_chunk r k compressed).file k ≠ 0 ∨ compressed.length = 0) ∧
    slot_bytes (write_chunk r k compressed).file k = compressed ∧
    ∀ j, j < cfg.REGION_VOLUME → j ≠ k →
      slot_offset (write_chunk r k compressed).file j = slot_offset r.file j ∧
      slot_size (write_chunk r k compressed).file j = slot_size r.file j ∧
      slot_bytes (write_chunk r k compressed).file j = slot_bytes r.file j := by
  obtain ⟨⟨hhe, hend, hin, hdis⟩, hslots, hacc, _, hsz⟩ := h
  unfold Config.Fits at hfits
  have htl := table_total_le r.file cfg.REGION_VOLUME maxsz (fun j hj => (hslots j hj).2)
  have hks := hslots k hk
  have hmul : (cfg.REGION_VOLUME + 1) * maxsz = cfg.REGION_VOLUME * maxsz + maxsz := by ring
  have hfit : r.end_ + compressed.length < 4294967296 := by omega
  have hslot : slot_offset r.file k = 0 ∧ slot_size r.file k = 0 ∨
      header_end cfg ≤ slot_offset r.file k := by
    by_cases h0 : slot_offset r.file k = 0
    · exact Or.inl ⟨h0, hks.1 h0⟩
    · exact Or.inr (hin k hk h0).1
  have hg : r.garbage + slot_size r.file k < 4294967296 := by omega
  obtain ⟨hA, hB, _, _, hD, hE⟩ := write_chunk_spec cfg r k compressed hk hhe hfit hslot hg
  have hHE := header_end_pos cfg
  -- the written range, and that the new slot reads back the blob
  have hnew : slot_size (write_chunk r k compressed).file k = compressed.length ∧
      (write_chunk r k compressed).file.pread compressed.length
        (slot_offset (write_chunk r k compressed).file k) = compressed ∧
      (slot_offset (write_chunk r k compressed).file k ≠ 0 ∨ compressed.length = 0) ∧
      (∀ j, j < cfg.REGION_VOLUME → j ≠ k → slot_offset r.file j ≠ 0 →
        slot_offset r.file j + slot_size r.file j
            ≤ slot_offset (write_chunk r k compressed).file k ∨
          slot_offset (write_chunk r k compressed).file k + compressed.length
            ≤ slot_offset r.file j) := by
    by_cases hcase : compressed.length ≤ slot_size r.file k
    · obtain ⟨hp, ho, hs, _, _⟩ := hA hcase
      refine ⟨hs, by rw [ho]; exact hp, ?_, ?_⟩
      · by_cases h0 : slot_offset r.file k = 0
        · right
          have := hks.1 h0
          omega
        · left; rw [ho]; exact h0
      · intro j hj hjk hj0
        rw [ho]
        by_cases h0 : slot_offset r.file k = 0
        · have := hks.1 h0
          right
          have := (hin j hj hj0).1
          omega
        · rcases hdis j hj k hk hjk hj0 h0 with h1 | h1
          · exact Or.inl h1
          · exact Or.inr (by omega)
    · obtain ⟨hp, ho, hs, _, _⟩ := hB (by omega)
      refine ⟨hs, by rw [ho]; exact hp, Or.inl (by rw [ho]; omega), ?_⟩
      intro j hj hjk hj0
      rw [ho]
      exact Or.inl (hin j hj hj0).2.2
  obtain ⟨hs, hp, h0, hsep⟩ := hnew
  refine ⟨h0, by unfold slot_bytes; rw [hs]; exact hp, ?_⟩
  intro j hj hjk
  obtain ⟨e1, e2⟩ := hD j hj hjk
  refine ⟨e1, e2, ?_⟩
  unfold slot_bytes
  rw [e1, e2]
  by_cases hj0 : slot_offset r.file j = 0
  · rw [hj0, (hslots j hj).1 hj0, File.pread_zero, File.pread_zero]
  · apply File.pread_congr
    intro t ht
    have hi := hin j hj hj0
    apply hE _ (by omega)
    rcases hsep j hj hjk hj0 with h1 | h1
    · omega
    · omega

/-- The region part of `close_chunk`: the invariant is kept, the garbage ends below the
threshold, the slot of the chunk is non-empty and reads back the compressed blob, and
every other slot keeps its emptiness, its size and its bytes. -/
theorem close_chunk_region_spec (cfg : Config) (maxsz : Nat) (r : RegionIO) (k : Nat)
    (compressed : List Nat) (hfits : cfg.Fits maxsz) (hT : 0 < cfg.DEFRAGMENT_GARBAGE_THRESHOLD)
    (h : RegionOK cfg maxsz r)
    (hgar : r.garbage < cfg.DEFRAGMENT_GARBAGE_THRESHOLD) (hk : k < cfg.REGION_VOLUME)
    (hpos : 0 < compressed.length) (hmax : compressed.length ≤ maxsz) :
    RegionOK cfg maxsz (close_chunk_region cfg r k compressed) ∧
    (close_chunk_region cfg r k compressed).garbage < cfg.DEFRAGMENT_GARBAGE_THRESHOLD ∧
    slot_offset (close_chunk_region cfg r k compressed).file k ≠ 0 ∧
    slot_bytes (close_chunk_region cfg r k compressed).file k = compressed ∧
    ∀ j, j < cfg.REGION_VOLUME → j ≠ k →
      (slot_offset (close_chunk_region cfg r k compressed).file j = 0 ↔
        slot_offset r.file j = 0) ∧
      slot_size (close_chunk_region cfg r k compressed).file j = slot_size r.file j ∧
      slot_bytes (close_chunk_region cfg r k compressed).file j = slot_bytes r.file j := by
  have hok1 := write_chunk_ok cfg maxsz r k compressed hfits h hgar hk hpos hmax
  obtain ⟨f0, f1, f2⟩ := write_chunk_frame cfg maxsz r k compressed hfits h hgar hk hmax
  have f0' : slot_offset (write_chunk r k compressed).file k ≠ 0 := by
    rcases f0 with h0 | h0
    · exact h0
    · omega
  unfold close_chunk_region
  simp only
  by_cases hdefrag : (write_chunk r k compressed).garbage ≥ cfg.DEFRAGMENT_GARBAGE_THRESHOLD
  · rw [if_pos hdefrag]
    obtain ⟨hok2, hg2, _⟩ := defragment_region_ok cfg maxsz _ hok1
    have hd := (defragment_region_spec cfg _ hok1.1.2).1
    have hslot := hd.2.2.2.2.2
    have hHE := header_end_pos cfg
    refine ⟨hok2, by rw [hg2]; exact hT, ?_, ?_, ?_⟩
    · rw [(hslot k hk).2.1, if_neg f0']; omega
    · rw [((hslot k hk).2.2 f0').1, f1]
    · intro j hj hjk
      obtain ⟨g1, g2, g3⟩ := f2 j hj hjk
      obtain ⟨d1, d2, d3⟩ := hslot j hj
      refine ⟨?_, by rw [d1, g2], ?_⟩
      · rw [d2, g1]
        by_cases h0 : slot_offset r.file j = 0
        · simp [h0]
        · simp only [h0, if_false, iff_false]; omega
      · by_cases h0 : slot_offset r.file j = 0
        · have hz := (h.2.1 j hj).1 h0
          have e1 : slot_size (defragment_region cfg (write_chunk r k compressed)).file j = 0 := by
            rw [d1, g2, hz]
          unfold slot_bytes
          rw [e1, hz, File.pread_zero, File.pread_zero]
        · rw [(d3 (by rw [g1]; exact h0)).1, g3]
  · rw [if_neg hdefrag]
    refine ⟨hok1, by omega, f0', f1, ?_⟩
    intro j hj hjk
    obtain ⟨g1, g2, g3⟩ := f2 j hj hjk
    exact ⟨by rw [g1], g2, g3⟩

theorem disk_blocks_length (env : Env) (hv : env.Valid) (s : VoxelStorage) (p : Vec3)
    (b : List Nat) (h : s.disk_blocks env p = some b) : b.length = env.cfg.CHUNK_VOLUME := by
  unfold VoxelStorage.disk_blocks at h
  split at h
  · split at h
    · split at h
      · injection h with h; rw [← h]; assumption
      · cases h
    · cases h
  · injection h with h
    rw [← h]
    exact hv.generator_ok p

/-- What is on disk for a chunk depends only on the emptiness of its slot and the bytes
of its blob. -/
theorem disk_blocks_congr (env : Env) (s s' : VoxelStorage) (p : Vec3)
    (h0 : slot_offset (s'.world (VoxelStorage.floor_div p env.cfg.REGION_SIZE))
        (VoxelStorage.slot_index env.cfg p) = 0 ↔
      slot_offset (s.world (VoxelStorage.floor_div p env.cfg.REGION_SIZE))
        (VoxelStorage.slot_index env.cfg p) = 0)
    (hb : slot_bytes (s'.world (VoxelStorage.floor_div p env.cfg.REGION_SIZE))
        (VoxelStorage.slot_index env.cfg p) =
      slot_bytes (s.world (VoxelStorage.floor_div p env.cfg.REGION_SIZE))
        (VoxelStorage.slot_index env.cfg p)) :
    s'.disk_blocks env p = s.disk_blocks env p := by
  unfold VoxelStorage.disk_blocks
  rw [hb]
  by_cases h : slot_offset (s.world (VoxelStorage.floor_div p env.cfg.REGION_SIZE))
      (VoxelStorage.slot_index env.cfg p) = 0
  · rw [if_neg (by simpa using h0.2 h), if_neg (by simpa using h)]
  · rw [if_pos (fun e => h (h0.1 e)), if_pos h]

/-- In a store that satisfies the region invariant, every slot of every region file is
empty with size 0 or points past the header. -/
theorem RegionsOK.slot_cases {env : Env} {s : VoxelStorage} (h : RegionsOK env s [])
    (r : Vec3) (k : Nat) (hk : k < env.cfg.REGION_VOLUME) :
    (slot_offset (s.world r) k = 0 ∧ slot_size (s.world r) k = 0) ∨
      header_end env.cfg ≤ slot_offset (s.world r) k := by
  have key : ∀ io : RegionIO, io.file = s.world r →
      RegionOK env.cfg (c_maximum_compressed_size env.cfg env.codec) io →
      (slot_offset (s.world r) k = 0 ∧ slot_size (s.world r) k = 0) ∨
        header_end env.cfg ≤ slot_offset (s.world r) k := by
    intro io hfile hok
    rw [← hfile]
    by_cases h0 : slot_offset io.file k = 0
    · exact Or.inl ⟨h0, (hok.2.1 k hk).1 h0⟩
    · exact Or.inr (hok.1.2.2.1 k hk h0).1
  by_cases hr : r ∈ s.m_region_LRU.keys
  · obtain ⟨n, hn, hkn⟩ := List.mem_map.1 hr
    refine key (s.region_io n) ?_ (h.cached n hn).1
    unfold VoxelStorage.region_io VoxelStorage.region_file
    simp only [h.fds n hn, hkn]
  · by_cases hsz : (s.world r).size = 0
    · left
      exact ⟨File.read_u32_of_zero _ _ (fun j _ => File.get_of_size_zero _ hsz _),
        File.read_u32_of_zero _ _ (fun j _ => File.get_of_size_zero _ hsz _)⟩
    · exact key (load_region (s.world r)) rfl (h.closed r hr hsz).1

/-- Slots and blobs of two files that agree from byte 8 on. -/
theorem slot_congr_of_bytes (cfg : Config) (f f' : File) (k : Nat)
    (hbytes : ∀ i, 8 ≤ i → f'.get i = f.get i)
    (hcase : (slot_offset f k = 0 ∧ slot_size f k = 0) ∨ header_end cfg ≤ slot_offset f k) :
    slot_offset f' k = slot_offset f k ∧ slot_size f' k = slot_size f k ∧
      slot_bytes f' k = slot_bytes f k := by
  have hsp := slot_position_ge k
  have e1 : slot_offset f' k = slot_offset f k :=
    File.read_u32_congr _ _ _ (fun j _ => hbytes _ (by omega))
  have e2 : slot_size f' k = slot_size f k :=
    File.read_u32_congr _ _ _ (fun j _ => hbytes _ (by omega))
  refine ⟨e1, e2, ?_⟩
  unfold slot_bytes
  rw [e1, e2]
  rcases hcase with ⟨h0, h1⟩ | h
  · rw [h1, File.pread_zero, File.pread_zero]
  · apply File.pread_congr
    intro j _
    have := header_end_pos cfg
    exact hbytes _ (by omega)

/-- What is on disk for a chunk does not change when the region files keep their bytes
from byte 8 on. -/
theorem disk_blocks_of_bytes (env : Env) (hv : env.Valid) (s s' : VoxelStorage)
    (h : RegionsOK env s [])
    (hbytes : ∀ r i, 8 ≤ i → (s'.world r).get i = (s.world r).get i) (p : Vec3)
    (hp : p.isS32) : s'.disk_blocks env p = s.disk_blocks env p := by
  have hk := slot_index_lt env.cfg hv.region_size_pos hv.volume_lt p hp
  obtain ⟨e1, _, e3⟩ := slot_congr_of_bytes env.cfg _ _ _
    (hbytes (VoxelStorage.floor_div p env.cfg.REGION_SIZE)) (h.slot_cases _ _ hk)
  exact disk_blocks_congr env s s' p (by rw [e1]) e3

theorem VoxelStorage.set_region_io_world (s : VoxelStorage) (n : Nat) (io : RegionIO) (r : Vec3)
    (hfd : (s.m_region_LRU.node n).val.fd = some r) (r' : Vec3) :
    (s.set_region_io n io).world r' = if r' = r then io.file else s.world r' := by
  unfold VoxelStorage.set_region_io
  simp only [hfd]
  by_cases h : r' = r
  · subst h; rw [Function.update_same]; simp
  · rw [Function.update_noteq h]; simp [h]

theorem VoxelStorage.set_region_io_node (s : VoxelStorage) (n : Nat) (io : RegionIO) (m : Nat) :
    ((s.set_region_io n io).m_region_LRU.node m).key = (s.m_region_LRU.node m).key ∧
    ((s.set_region_io n io).m_region_LRU.node m).head = (s.m_region_LRU.node m).head ∧
    ((s.set_region_io n io).m_region_LRU.node m).val.fd = (s.m_region_LRU.node m).val.fd ∧
    (m ≠ n → ((s.set_region_io n io).m_region_LRU.node m).val = (s.m_region_LRU.node m).val) ∧
    (m = n → ((s.set_region_io n io).m_region_LRU.node m).val.garbage = io.garbage ∧
      ((s.set_region_io n io).m_region_LRU.node m).val.end_ = io.end_) := by
  obtain ⟨a1, a2, a3⟩ := LeastRecentlyUsed.set_val_node s.m_region_LRU n
    { fd := (s.m_region_LRU.node n).val.fd, garbage := io.garbage, end_ := io.end_ } m
  have hnode : (s.set_region_io n io).m_region_LRU = s.m_region_LRU.set_val n
    { fd := (s.m_region_LRU.node n).val.fd, garbage := io.garbage, end_ := io.end_ } := rfl
  rw [hnode]
  refine ⟨a1, a2, ?_, ?_, ?_⟩
  · rw [a3]
    by_cases h : m = n
    · subst h; simp
    · simp [h]
  · intro h; rw [a3]; simp [h]
  · intro h; rw [a3]; simp [h]

/-- Storing new header fields and file contents for a cached region whose new state
satisfies the region invariant keeps the invariant of the region cache. -/
theorem RegionsOK.set_region_io {env : Env} {s : VoxelStorage} (h : RegionsOK env s [])
    (n : Nat) (hn : n ∈ s.m_region_LRU.m_list) (io : RegionIO)
    (hio : RegionOK env.cfg (c_maximum_compressed_size env.cfg env.codec) io ∧
      io.garbage < env.cfg.DEFRAGMENT_GARBAGE_THRESHOLD) :
    RegionsOK env (s.set_region_io n io) [] := by
  have hfd := h.fds n hn
  have hlist : (s.set_region_io n io).m_region_LRU.m_list = s.m_region_LRU.m_list := rfl
  have hkeys : (s.set_region_io n io).m_region_LRU.keys = s.m_region_LRU.keys := by
    unfold LeastRecentlyUsed.keys
    rw [hlist]
    exact List.map_congr_left (fun m _ => (VoxelStorage.set_region_io_node s n io m).1)
  refine ⟨?_, ?_, ?_, ?_⟩
  · exact h.lru.congr rfl rfl (List.Perm.refl _)
      (fun m _ => ⟨(VoxelStorage.set_region_io_node s n io m).1,
        (VoxelStorage.set_region_io_node s n io m).2.1⟩)
  · intro m hm
    obtain ⟨a1, _, a3, _, _⟩ := VoxelStorage.set_region_io_node s n io m
    rw [a1, a3]
    exact h.fds m hm
  · intro m hm
    obtain ⟨a1, _, a3, a4, a5⟩ := VoxelStorage.set_region_io_node s n io m
    have hfdm := h.fds m hm
    by_cases hmn : m = n
    · subst hmn
      have : (s.set_region_io m io).region_io m = io := by
        unfold VoxelStorage.region_io VoxelStorage.region_file
        rw [(a5 rfl).1, (a5 rfl).2, a3, hfd]
        simp only
        rw [VoxelStorage.set_region_io_world s m io _ hfd]
        simp
      rw [this]
      exact hio
    · have hkm : (s.m_region_LRU.node m).key ≠ (s.m_region_LRU.node n).key := by
        intro hk
        exact hmn (s.m_region_LRU.key_inj_of_nodup h.lru.keys_nodup hm hn hk)
      have : (s.set_region_io n io).region_io m = s.region_io m := by
        unfold VoxelStorage.region_io VoxelStorage.region_file
        rw [a4 hmn, hfdm]
        simp only
        rw [VoxelStorage.set_region_io_world s n io _ hfd]
        simp [hkm]
      rw [this]
      exact h.cached m hm
  · intro r hr hsize
    rw [hkeys] at hr
    have hne : r ≠ (s.m_region_LRU.node n).key := by
      intro e
      apply hr
      rw [e]
      exact List.mem_map_of_mem _ hn
    rw [VoxelStorage.set_region_io_world s n io _ hfd] at hsize ⊢
    simp only [hne, if_false] at hsize ⊢
    exact h.closed r hr hsize

/-- `close_chunk` on a chunk node the caller holds: afterwards the chunk is on disk, every
other chunk is on disk as before, and the chunk cache is untouched. -/
theorem close_chunk_spec (env : Env) (hv : env.Valid) (s : VoxelStorage) (c : Nat)
    (hr : RegionsOK env s [])
    (hkey : (s.m_chunk_LRU.node c).key.isS32)
    (hlen : (s.m_chunk_LRU.node c).val.blocks.length = env.cfg.CHUNK_VOLUME)
    (hclean : (s.m_chunk_LRU.node c).val.dirty = false →
      s.disk_blocks env (s.m_chunk_LRU.node c).key = some (s.m_chunk_LRU.node c).val.blocks) :
    ∃ s', s.close_chunk env c = (s', .ok ()) ∧ RegionsOK env s' [] ∧
      s'.m_chunk_LRU = s.m_chunk_LRU ∧
      s'.disk_blocks env (s.m_chunk_LRU.node c).key = some (s.m_chunk_LRU.node c).val.blocks ∧
      (∀ q : Vec3, q.isS32 → q ≠ (s.m_chunk_LRU.node c).key →
        s'.disk_blocks env q = s.disk_blocks env q) ∧
      (∀ m, m ∈ s.m_region_LRU.m_list →
        (m ∈ s'.m_region_LRU.m_list ∧
          (s'.m_region_LRU.node m).key = (s.m_region_LRU.node m).key) ∨
        (s.m_region_LRU.m_list.length = env.cfg.REGION_HEAP_SIZE ∧
          s.m_region_LRU.m_list.getLast? = some m)) := by
  by_cases hd : (s.m_chunk_LRU.node c).val.dirty = false
  · refine ⟨s, ?_, hr, rfl, hclean hd, fun _ _ _ => rfl, fun m hm => Or.inl ⟨hm, rfl⟩⟩
    unfold VoxelStorage.close_chunk
    simp [hd]
  · have hd' : (s.m_chunk_LRU.node c).val.dirty = true := by simpa using hd
    set p := (s.m_chunk_LRU.node c).key with hp
    set rE := VoxelStorage.floor_div p env.cfg.REGION_SIZE with hrE
    obtain ⟨s1, n, hget, hr1, hc1, hhead, hkn, hbytes, _, hsurv⟩ :=
      get_region_spec env hv s rE hr
    have hn : n ∈ s1.m_region_LRU.m_list := List.mem_of_mem_head? hhead
    have hfd : (s1.m_region_LRU.node n).val.fd = some rE := by
      rw [hr1.fds n hn, hkn]
    have hk := slot_index_lt env.cfg hv.region_size_pos hv.volume_lt p hkey
    obtain ⟨comp, hcomp, hcpos, hcmax, hunc⟩ := hv.codec_ok _ hlen
    have hiofile : (s1.region_io n).file = s1.world rE := by
      unfold VoxelStorage.region_io VoxelStorage.region_file
      simp only [hfd]
    obtain ⟨q1, q2, q3, q4, q5⟩ := close_chunk_region_spec env.cfg _ (s1.region_io n)
      (VoxelStorage.slot_index env.cfg p) comp hv.fits hv.threshold_pos (hr1.cached n hn).1
      (hr1.cached n hn).2 hk hcpos hcmax
    set io' := close_chunk_region env.cfg (s1.region_io n) (VoxelStorage.slot_index env.cfg p)
      comp with hio'
    have hclose : s.close_chunk env c = (s1.set_region_io n io', .ok ()) := by
      unfold VoxelStorage.close_chunk
      rw [hd']
      simp only [Bool.not_true, Bool.false_eq_true, if_false]
      rw [← hp, ← hrE, hget]
      simp only
      rw [hc1, hcomp, ← hp]
    have hworld := VoxelStorage.set_region_io_world s1 n io' rE hfd
    refine ⟨s1.set_region_io n io', hclose, hr1.set_region_io n hn io' ⟨q1, q2⟩, by
      show s1.m_chunk_LRU = s.m_chunk_LRU
      exact hc1, ?_, ?_, ?_⟩
    · unfold VoxelStorage.disk_blocks
      rw [← hrE, hworld rE]
      simp only [if_true]
      rw [if_pos q3, q4, hunc]
      simp [hlen]
    · intro q hq hqp
      rw [← disk_blocks_of_bytes env hv s s1 hr hbytes q hq]
      by_cases hreg : VoxelStorage.floor_div q env.cfg.REGION_SIZE = rE
      · have hj := slot_index_lt env.cfg hv.region_size_pos hv.volume_lt q hq
        have hjk : VoxelStorage.slot_index env.cfg q ≠ VoxelStorage.slot_index env.cfg p := by
          intro e
          exact hqp (slot_index_inj env.cfg hv.region_size_pos hv.volume_lt q p hq hkey
            (by rw [hreg]) e)
        obtain ⟨z1, _, z3⟩ := q5 _ hj hjk
        rw [hiofile] at z1 z3
        apply disk_blocks_congr
        · rw [hreg, hworld rE]
          simp only [if_true]
          exact z1
        · rw [hreg, hworld rE]
          simp only [if_true]
          exact z3
      · apply disk_blocks_congr
        · rw [hworld _]
          simp only [hreg, if_false]
        · rw [hworld _]
          simp only [hreg, if_false]
    · intro m hm
      rcases hsurv m hm with ⟨h1, h2⟩ | h3
      · left
        exact ⟨h1, by rw [(VoxelStorage.set_region_io_node s1 n io' m).1, h2]⟩
      · exact Or.inr h3

theorem ChunksOK.of_world {env : Env} {s s' : VoxelStorage} {out : List Nat}
    (h : ChunksOK env s out) (hc : s'.m_chunk_LRU = s.m_chunk_LRU)
    (hdisk : ∀ n ∈ s.m_chunk_LRU.m_list, (s.m_chunk_LRU.node n).val.dirty = false →
      s'.disk_blocks env (s.m_chunk_LRU.node n).key
        = s.disk_blocks env (s.m_chunk_LRU.node n).key) :
    ChunksOK env s' out := by
  refine ⟨by rw [hc]; exact h.lru, by rw [hc]; exact h.keys_s32, by rw [hc]; exact h.lengths, ?_⟩
  rw [hc]
  intro n hn hd
  rw [hdisk n hn hd]
  exact h.clean n hn hd

/-- Lines 169-174 of `get_chunk` hand a chunk node to the caller; if a chunk had to be
evicted it is on disk now, and every other chunk is on disk as before. -/
theorem take_chunk_node_spec (env : Env) (hv : env.Valid) (s : VoxelStorage)
    (h : StoreOK env s) :
    ∃ s2 c, s.take_chunk_node env = (s2, .ok c) ∧ RegionsOK env s2 [] ∧
      ChunksOK env s2 [c] ∧ Decodable env s2 ∧
      s2.m_chunk_LRU.node = s.m_chunk_LRU.node ∧
      ((s2.m_chunk_LRU.m_list = s.m_chunk_LRU.m_list ∧
          s.m_chunk_LRU.m_list.length < env.cfg.CHUNK_HEAP_SIZE ∧
          ∀ q : Vec3, q.isS32 → s2.disk_blocks env q = s.disk_blocks env q) ∨
        (s.m_chunk_LRU.m_list = s2.m_chunk_LRU.m_list ++ [c] ∧
          s.m_chunk_LRU.m_list.length = env.cfg.CHUNK_HEAP_SIZE ∧
          s2.disk_blocks env (s.m_chunk_LRU.node c).key
            = some (s.m_chunk_LRU.node c).val.blocks ∧
          ∀ q : Vec3, q.isS32 → q ≠ (s.m_chunk_LRU.node c).key →
            s2.disk_blocks env q = s.disk_blocks env q)) ∧
      (∀ m, m ∈ s.m_region_LRU.m_list →
        (m ∈ s2.m_region_LRU.m_list ∧
          (s2.m_region_LRU.node m).key = (s.m_region_LRU.node m).key) ∨
        (s.m_region_LRU.m_list.length = env.cfg.REGION_HEAP_SIZE ∧
          s.m_region_LRU.m_list.getLast? = some m)) := by
  obtain ⟨hr, hc, hdec⟩ := h
  cases hfree : s.m_chunk_LRU.m_free_list with
  | cons c rest =>
    obtain ⟨e1, hinv⟩ := hc.lru.get_from_heap hfree
    have hlen := hc.lru.length_eq
    rw [hfree] at hlen
    simp only [List.length_cons, List.length_nil] at hlen
    refine ⟨{ s with m_chunk_LRU := { s.m_chunk_LRU with m_free_list := rest } }, c, ?_,
      ⟨hr.lru, hr.fds, hr.cached, hr.closed⟩, ⟨hinv, hc.keys_s32, hc.lengths, hc.clean⟩, hdec,
      rfl, Or.inl ⟨rfl, by omega, fun _ _ => rfl⟩, fun m hm => Or.inl ⟨hm, rfl⟩⟩
    unfold VoxelStorage.take_chunk_node
    rw [e1]
  | nil =>
    have hlen := hc.lru.length_eq
    rw [hfree] at hlen
    simp only [List.length_nil, Nat.add_zero] at hlen
    have hne : s.m_chunk_LRU.m_list ≠ [] := by
      intro hnil
      rw [hnil] at hlen
      have := hv.chunk_heap
      simp at hlen
      omega
    obtain ⟨c, e2, hcm, hsplit, hdrop, hinv⟩ := hc.lru.remove_lru_node hne
    set sA : VoxelStorage := { s with m_chunk_LRU := s.m_chunk_LRU.remove_node c } with hsA
    have hrA : RegionsOK env sA [] := ⟨hr.lru, hr.fds, hr.cached, hr.closed⟩
    obtain ⟨s2, k1, k2, k3, k4, k5, k6⟩ := close_chunk_spec env hv sA c hrA
      (hc.keys_s32 c hcm) (hc.lengths c hcm) (hc.clean c hcm)
    have hkeyc : ∀ n, n ∈ s.m_chunk_LRU.m_list → n ≠ c →
        (s.m_chunk_LRU.node n).key ≠ (s.m_chunk_LRU.node c).key := by
      intro n hn hnc hk
      exact hnc (s.m_chunk_LRU.key_inj_of_nodup hc.lru.keys_nodup hn hcm hk)
    have hnd := hc.lru.list_nodup
    have hsplit2 : s.m_chunk_LRU.m_list = s2.m_chunk_LRU.m_list ++ [c] := by
      rw [k3]
      show s.m_chunk_LRU.m_list = (s.m_chunk_LRU.remove_node c).m_list ++ [c]
      rw [hdrop]
      exact hsplit
    refine ⟨s2, c, ?_, k2, ⟨by rw [k3]; exact hinv, ?_, ?_, ?_⟩, ?_, by rw [k3]; rfl,
      Or.inr ⟨hsplit2, by omega, k4, k5⟩,
      k6⟩
    · unfold VoxelStorage.take_chunk_node
      rw [LeastRecentlyUsed.get_from_heap_nil _ hfree]
      simp only
      rw [e2]
      simp only
      rw [k1]
    · rw [k3]
      intro n hn
      exact hc.keys_s32 n (List.mem_of_mem_erase hn)
    · rw [k3]
      intro n hn
      exact hc.lengths n (List.mem_of_mem_erase hn)
    · rw [k3]
      intro n hn hd
      have hn' : n ∈ s.m_chunk_LRU.m_list := List.mem_of_mem_erase hn
      have hnc : n ≠ c := fun e => (hnd.not_mem_erase) (e ▸ hn)
      have := k5 _ (hc.keys_s32 n hn') (hkeyc n hn' hnc)
      show s2.disk_blocks env (s.m_chunk_LRU.node n).key = _
      rw [this]
      exact hc.clean n hn' hd
    · intro q hq
      by_cases hqc : q = (s.m_chunk_LRU.node c).key
      · rw [hqc]
        exact ⟨_, k4⟩
      · rw [k5 q hq hqc]
        exact hdec q hq

theorem disk_blocks_world (env : Env) (s s' : VoxelStorage) (h : s'.world = s.world) (p : Vec3) :
    s'.disk_blocks env p = s.disk_blocks env p := by
  unfold VoxelStorage.disk_blocks
  rw [h]

/-- Lines 175-205 of `get_chunk` on a node the caller holds, for a position that is not
cached and whose region is cached: the node is linked as the most recently used chunk,
with the position as key and the blocks found on disk. -/
theorem load_chunk_spec (env : Env) (hv : env.Valid) (s : VoxelStorage) (region c : Nat)
    (p : Vec3) (hr : RegionsOK env s []) (hc : ChunksOK env s [c]) (hdec : Decodable env s)
    (hp : p.isS32) (hpk : p ∉ s.m_chunk_LRU.keys)
    (hreg : region ∈ s.m_region_LRU.m_list)
    (hregk : (s.m_region_LRU.node region).key = VoxelStorage.floor_div p env.cfg.REGION_SIZE) :
    ∃ s' b, s.load_chunk env region c p = (s', .ok c) ∧ s.disk_blocks env p = some b ∧
      StoreOK env s' ∧ s'.m_chunk_LRU.m_list = c :: s.m_chunk_LRU.m_list ∧
      (s'.m_chunk_LRU.node c).key = p ∧ (s'.m_chunk_LRU.node c).val.blocks = b ∧
      (∀ n, n ≠ c → (s'.m_chunk_LRU.node n).key = (s.m_chunk_LRU.node n).key ∧
        (s'.m_chunk_LRU.node n).val = (s.m_chunk_LRU.node n).val) ∧
      s'.world = s.world ∧ s'.m_region_LRU = s.m_region_LRU := by
  obtain ⟨b, hb⟩ := hdec p hp
  have hfile : ∀ lru : LeastRecentlyUsed Chunk,
      VoxelStorage.region_file { s with m_chunk_LRU := lru } region
        = s.world (VoxelStorage.floor_div p env.cfg.REGION_SIZE) := by
    intro lru
    unfold VoxelStorage.region_file
    simp only [hr.fds region hreg, hregk]
  -- the two successful ways through the code end in the same shape
  have hshape : ∃ dflag : Bool, s.load_chunk env region c p =
      ({ s with m_chunk_LRU := ((s.m_chunk_LRU.set_key c p).set_val c
          { blocks := b, dirty := dflag }).add_node c (VoxelStorage.chunk_index env.cfg p) },
        .ok c) ∧ (dflag = false → s.disk_blocks env p = some b) := by
    unfold VoxelStorage.disk_blocks at hb
    unfold VoxelStorage.load_chunk
    simp only [hfile]
    by_cases h0 : slot_offset (s.world (VoxelStorage.floor_div p env.cfg.REGION_SIZE))
        (VoxelStorage.slot_index env.cfg p) = 0
    · rw [if_neg (by simpa using h0)] at hb
      injection hb with hb
      refine ⟨true, ?_, fun h => by cases h⟩
      rw [if_neg (by simpa using h0), hb]
    · rw [if_pos h0] at hb
      refine ⟨false, ?_, fun _ => ?_⟩
      · rw [if_pos h0]
        unfold slot_bytes at hb
        cases hu : env.codec.uncompress
            ((s.world (VoxelStorage.floor_div p env.cfg.REGION_SIZE)).pread
              (slot_size (s.world (VoxelStorage.floor_div p env.cfg.REGION_SIZE))
                (VoxelStorage.slot_index env.cfg p))
              (slot_offset (s.world (VoxelStorage.floor_div p env.cfg.REGION_SIZE))
                (VoxelStorage.slot_index env.cfg p))) env.cfg.CHUNK_VOLUME with
        | none => rw [hu] at hb; cases hb
        | some blocks =>
          rw [hu] at hb
          simp only at hb
          by_cases hl : blocks.length = env.cfg.CHUNK_VOLUME
          · rw [if_pos hl] at hb
            injection hb with hb
            simp only
            rw [if_neg (by simpa using hl), hb]
          · rw [if_neg hl] at hb; cases hb
      · unfold VoxelStorage.disk_blocks
        rw [if_pos h0]
        exact hb
  obtain ⟨dflag, hload, hclean⟩ := hshape
  set lruA := (s.m_chunk_LRU.set_key c p).set_val c { blocks := b, dirty := dflag } with hlruA
  have hnot : c ∉ s.m_chunk_LRU.m_list := hc.lru.not_mem_list_of_out (List.mem_singleton_self c)
  have hnodeA : ∀ m, (lruA.node m).key = (if m = c then p else (s.m_chunk_LRU.node m).key) ∧
      (lruA.node m).val = (if m = c then { blocks := b, dirty := dflag }
        else (s.m_chunk_LRU.node m).val) ∧
      (lruA.node m).head = (s.m_chunk_LRU.node m).head := by
    intro m
    obtain ⟨a1, a2, a3⟩ := LeastRecentlyUsed.set_val_node (s.m_chunk_LRU.set_key c p) c
      { blocks := b, dirty := dflag } m
    obtain ⟨b1, b2, b3⟩ := LeastRecentlyUsed.set_key_node s.m_chunk_LRU c p m
    refine ⟨by rw [hlruA, a1, b3], ?_, by rw [hlruA, a2, b2]⟩
    rw [hlruA, a3]
    by_cases hmc : m = c
    · simp [hmc]
    · simp [hmc, b1]
  have hinvA : LRUInv env.cfg.CHUNK_HEAP_SIZE (VoxelStorage.chunk_index env.cfg) lruA [c] := by
    refine hc.lru.congr rfl rfl (List.Perm.refl _) ?_
    intro m hm
    have hmc : m ≠ c := fun e => hnot (e ▸ hm)
    obtain ⟨c1, _, c3⟩ := hnodeA m
    rw [c1, c3]
    simp [hmc]
  have hkeysA : lruA.keys = s.m_chunk_LRU.keys := by
    unfold LeastRecentlyUsed.keys
    apply List.map_congr_left
    intro m hm
    have hmc : m ≠ c := fun e => hnot (e ▸ hm)
    rw [(hnodeA m).1]
    simp [hmc]
  have hkeyc : (lruA.node c).key = p := by rw [(hnodeA c).1]; simp
  have hadd := hinvA.add_node (List.mem_singleton_self c) (by rw [hkeyc, hkeysA]; exact hpk)
  rw [hkeyc] at hadd
  simp only [List.erase_cons_head] at hadd
  have hnodeB : ∀ m, ((lruA.add_node c (VoxelStorage.chunk_index env.cfg p)).node m).key
        = (if m = c then p else (s.m_chunk_LRU.node m).key) ∧
      ((lruA.add_node c (VoxelStorage.chunk_index env.cfg p)).node m).val
        = (if m = c then { blocks := b, dirty := dflag } else (s.m_chunk_LRU.node m).val) := by
    intro m
    obtain ⟨d1, d2⟩ := LeastRecentlyUsed.add_node_key lruA c (VoxelStorage.chunk_index env.cfg p) m
    rw [d1, d2]
    exact ⟨(hnodeA m).1, (hnodeA m).2.1⟩
  set s' : VoxelStorage :=
    { s with m_chunk_LRU := lruA.add_node c (VoxelStorage.chunk_index env.cfg p) } with hs'
  have hdisk : ∀ q, s'.disk_blocks env q = s.disk_blocks env q :=
    fun q => disk_blocks_world env s s' rfl q
  refine ⟨s', b, hload, hb, ⟨⟨hr.lru, hr.fds, hr.cached, hr.closed⟩, ⟨hadd, ?_, ?_, ?_⟩, ?_⟩,
    rfl, by show ((lruA.add_node c _).node c).key = p; rw [(hnodeB c).1]; simp, by
    show ((lruA.add_node c _).node c).val.blocks = b
    rw [(hnodeB c).2]; simp, ?_, rfl, rfl⟩
  · intro m hm
    show ((lruA.add_node c _).node m).key.isS32
    rw [(hnodeB m).1]
    have hm2 : m ∈ c :: s.m_chunk_LRU.m_list := hm
    rcases List.mem_cons.1 hm2 with rfl | hm'
    · simp only [if_true]; exact hp
    · have hmc : m ≠ c := fun e => hnot (e ▸ hm')
      simp only [hmc, if_false]
      exact hc.keys_s32 m hm'
  · intro m hm
    show ((lruA.add_node c _).node m).val.blocks.length = _
    rw [(hnodeB m).2]
    have hm2 : m ∈ c :: s.m_chunk_LRU.m_list := hm
    rcases List.mem_cons.1 hm2 with rfl | hm'
    · simp only [if_true]
      exact disk_blocks_length env hv s p b hb
    · have hmc : m ≠ c := fun e => hnot (e ▸ hm')
      simp only [hmc, if_false]
      exact hc.lengths m hm'
  · intro m hm hd
    have hd' : ((lruA.add_node c (VoxelStorage.chunk_index env.cfg p)).node m).val.dirty
        = false := hd
    show s'.disk_blocks env ((lruA.add_node c _).node m).key
      = some ((lruA.add_node c _).node m).val.blocks
    rw [hdisk]
    rw [(hnodeB m).2] at hd' ⊢
    rw [(hnodeB m).1]
    have hm2 : m ∈ c :: s.m_chunk_LRU.m_list := hm
    rcases List.mem_cons.1 hm2 with rfl | hm'
    · simp only [if_true] at hd' ⊢
      exact hclean hd'
    · have hmc : m ≠ c := fun e => hnot (e ▸ hm')
      simp only [hmc, if_false] at hd' ⊢
      exact hc.clean m hm' hd'
  · intro q hq
    rw [hdisk]
    exact hdec q hq
  · intro m hmc
    show ((lruA.add_node c _).node m).key = _ ∧ ((lruA.add_node c _).node m).val = _
    rw [(hnodeB m).1, (hnodeB m).2]
    simp [hmc]

theorem chunk_content_of_mem (env : Env) (s : VoxelStorage) (hnd : s.m_chunk_LRU.keys.Nodup)
    (n : Nat) (hn : n ∈ s.m_chunk_LRU.m_list) :
    s.chunk_content env (s.m_chunk_LRU.node n).key = some (s.m_chunk_LRU.node n).val.blocks := by
  unfold VoxelStorage.chunk_content VoxelStorage.cached_chunk
  cases hf : s.m_chunk_LRU.m_list.find?
      (fun m => decide ((s.m_chunk_LRU.node m).key = (s.m_chunk_LRU.node n).key)) with
  | none =>
    rw [List.find?_eq_none] at hf
    have := hf n hn
    simp at this
  | some m =>
    have h1 := List.find?_some hf
    have h2 := List.mem_of_find?_eq_some hf
    simp only [decide_eq_true_eq] at h1
    have := s.m_chunk_LRU.key_inj_of_nodup hnd h2 hn h1
    rw [this]

theorem chunk_content_of_not_mem (env : Env) (s : VoxelStorage) (p : Vec3)
    (hp : p ∉ s.m_chunk_LRU.keys) : s.chunk_content env p = s.disk_blocks env p := by
  unfold VoxelStorage.chunk_content VoxelStorage.cached_chunk
  have : s.m_chunk_LRU.m_list.find? (fun m => decide ((s.m_chunk_LRU.node m).key = p)) = none := by
    rw [List.find?_eq_none]
    intro m hm hcontra
    simp only [decide_eq_true_eq] at hcontra
    apply hp
    rw [← hcontra]
    exact List.mem_map_of_mem _ hm
  rw [this]

theorem map_erase_of_inj_on {α β : Type} [DecidableEq α] [DecidableEq β] (f : α → β) :
    ∀ (l : List α) (a : α), a ∈ l → (∀ x ∈ l, ∀ y ∈ l, f x = f y → x = y) →
      (l.erase a).map f = (l.map f).erase (f a) := by
  intro l
  induction l with
  | nil => intro a ha; cases ha
  | cons b t ih =>
    intro a ha hinj
    by_cases hba : b = a
    · subst hba
      simp
    · have hfa : f b ≠ f a := by
        intro e
        exact hba (hinj b (List.mem_cons_self _ _) a ha e)
      have hat : a ∈ t := by
        rcases List.mem_cons.1 ha with e | e
        · exact absurd e.symm hba
        · exact e
      rw [List.erase_cons_tail (by simpa using hba), List.map_cons, List.map_cons,
        List.erase_cons_tail (by simpa using hfa)]
      rw [ih a hat (fun x hx y hy => hinj x (List.mem_cons_of_mem _ hx) y
        (List.mem_cons_of_mem _ hy))]

theorem head_ne_getLast_of_nodup {α : Type} (l : List α) (a : α) (hnd : l.Nodup)
    (hlen : 2 ≤ l.length) (hh : l.head? = some a) : l.getLast? ≠ some a := by
  match l, hnd, hlen, hh with
  | b :: c :: t, hnd, _, hh =>
    simp only [List.head?_cons, Option.some.injEq] at hh
    subst hh
    intro hl
    have hmem : b ∈ c :: t := by
      have h1 : (c :: t).getLast? = some b := by
        rw [← hl]; simp [List.getLast?_cons_cons]
      exact List.mem_of_getLast?_eq_some h1
    exact (List.nodup_cons.1 hnd).1 hmem

/-- A fetch of a cached chunk returns its node and moves it to the front of the cache. -/
theorem get_chunk_hit_spec (env : Env) (s : VoxelStorage) (p : Vec3)
    (h : StoreOK env s) (n : Nat) (hn : n ∈ s.m_chunk_LRU.m_list)
    (hkn : (s.m_chunk_LRU.node n).key = p) :
    ∃ s', s.get_chunk env p = (s', .ok n) ∧ StoreOK env s' ∧
      n ∈ s'.m_chunk_LRU.m_list ∧ (s'.m_chunk_LRU.node n).key = p ∧
      (s'.m_chunk_LRU.node n).val.blocks = (s.m_chunk_LRU.node n).val.blocks ∧
      (∀ q : Vec3, s'.chunk_content env q = s.chunk_content env q) ∧
      s'.m_chunk_LRU.keys = p :: s.m_chunk_LRU.keys.erase p ∧
      s'.world = s.world := by
  obtain ⟨hr, hc, hdec⟩ := h
  obtain ⟨g1, g2, g3, g4, g5⟩ := hc.lru.get_node_hit n hn p hkn
  set lru' := (s.m_chunk_LRU.get_node p (VoxelStorage.chunk_index env.cfg p)).1 with hlru'
  have hget : s.get_chunk env p = ({ s with m_chunk_LRU := lru' }, .ok n) := by
    unfold VoxelStorage.get_chunk
    have : s.m_chunk_LRU.get_node p (VoxelStorage.chunk_index env.cfg p) = (lru', some n) :=
      Prod.ext rfl g1
    rw [this]
  have hmem : ∀ m, m ∈ lru'.m_list ↔ m ∈ s.m_chunk_LRU.m_list := by
    intro m
    rw [g2]
    exact (List.perm_cons_erase hn).mem_iff.symm
  have hdisk : ∀ q, VoxelStorage.disk_blocks env { s with m_chunk_LRU := lru' } q
      = s.disk_blocks env q := fun q => disk_blocks_world env s _ rfl q
  have hkeys : lru'.keys = p :: s.m_chunk_LRU.keys.erase p := by
    unfold LeastRecentlyUsed.keys
    rw [g2, List.map_cons, (g4 n).1, hkn]
    congr 1
    have e1 : (s.m_chunk_LRU.m_list.erase n).map (fun m => (lru'.node m).key)
        = (s.m_chunk_LRU.m_list.erase n).map (fun m => (s.m_chunk_LRU.node m).key) :=
      List.map_congr_left (fun m _ => (g4 m).1)
    rw [e1, map_erase_of_inj_on _ _ n hn
      (fun x hx y hy e => s.m_chunk_LRU.key_inj_of_nodup hc.lru.keys_nodup hx hy e), hkn]
  have hs' : StoreOK env { s with m_chunk_LRU := lru' } := by
    refine ⟨⟨hr.lru, hr.fds, hr.cached, hr.closed⟩, ⟨g5, ?_, ?_, ?_⟩, ?_⟩
    · intro m hm
      show (lru'.node m).key.isS32
      rw [(g4 m).1]
      exact hc.keys_s32 m ((hmem m).1 hm)
    · intro m hm
      show (lru'.node m).val.blocks.length = _
      rw [(g4 m).2]
      exact hc.lengths m ((hmem m).1 hm)
    · intro m hm hd
      have hd' : (lru'.node m).val.dirty = false := hd
      show VoxelStorage.disk_blocks env _ (lru'.node m).key = some (lru'.node m).val.blocks
      rw [hdisk, (g4 m).1, (g4 m).2]
      rw [(g4 m).2] at hd'
      exact hc.clean m ((hmem m).1 hm) hd'
    · intro q hq
      rw [hdisk]
      exact hdec q hq
  refine ⟨{ s with m_chunk_LRU := lru' }, hget, hs', (hmem n).2 hn, by
    show (lru'.node n).key = p
    rw [(g4 n).1]; exact hkn, by
    show (lru'.node n).val.blocks = _
    rw [(g4 n).2], ?_, hkeys, rfl⟩
  intro q
  by_cases hq : q ∈ s.m_chunk_LRU.keys
  · obtain ⟨m, hm, hkm⟩ := List.mem_map.1 hq
    have h1 := chunk_content_of_mem env s hc.lru.keys_nodup m hm
    have h2 := chunk_content_of_mem env { s with m_chunk_LRU := lru' } hs'.chunks.lru.keys_nodup m
      ((hmem m).2 hm)
    have ek : (lru'.node m).key = q := by rw [(g4 m).1]; exact hkm
    have h2' : VoxelStorage.chunk_content env { s with m_chunk_LRU := lru' } (lru'.node m).key
        = some (lru'.node m).val.blocks := h2
    rw [ek, (g4 m).2] at h2'
    rw [hkm] at h1
    rw [h1, h2']
  · have hq' : q ∉ lru'.keys := by
      rw [hkeys]
      intro hmem'
      rcases List.mem_cons.1 hmem' with e | e
      · apply hq
        rw [e, ← hkn]
        exact List.mem_map_of_mem _ hn
      · exact hq (List.mem_of_mem_erase e)
    rw [chunk_content_of_not_mem env s q hq,
      chunk_content_of_not_mem env { s with m_chunk_LRU := lru' } q hq', hdisk]

/-- A fetch of a chunk that is not cached loads it from disk into a free node, or into the
node of the least recently used chunk after writing that chunk to disk. -/
theorem get_chunk_miss_spec (env : Env) (hv : env.Valid) (s : VoxelStorage) (p : Vec3)
    (h : StoreOK env s) (hp : p.isS32) (hpk : p ∉ s.m_chunk_LRU.keys) :
    ∃ s' c b, s.get_chunk env p = (s', .ok c) ∧ StoreOK env s' ∧
      s.disk_blocks env p = some b ∧
      c ∈ s'.m_chunk_LRU.m_list ∧ (s'.m_chunk_LRU.node c).key = p ∧
      (s'.m_chunk_LRU.node c).val.blocks = b ∧
      (∀ q : Vec3, q.isS32 → s'.chunk_content env q = s.chunk_content env q) ∧
      s'.m_chunk_LRU.keys = (if s.m_chunk_LRU.keys.length < env.cfg.CHUNK_HEAP_SIZE
        then p :: s.m_chunk_LRU.keys else p :: s.m_chunk_LRU.keys.dropLast) := by
  obtain ⟨hr, hc, hdec⟩ := h
  have hmiss := hc.lru.get_node_miss p hpk
  -- the region is fetched first
  obtain ⟨s1, region, e1, hr1, hcl1, hhead1, hkey1, hbytes1, _, _⟩ :=
    get_region_spec env hv s (VoxelStorage.floor_div p env.cfg.REGION_SIZE) hr
  have hdisk1 : ∀ q : Vec3, q.isS32 → s1.disk_blocks env q = s.disk_blocks env q :=
    fun q hq => disk_blocks_of_bytes env hv s s1 hr hbytes1 q hq
  have hc1 : ChunksOK env s1 [] :=
    hc.of_world hcl1 (fun n hn _ => hdisk1 _ (hc.keys_s32 n hn))
  have hdec1 : Decodable env s1 := by
    intro q hq
    rw [hdisk1 q hq]
    exact hdec q hq
  -- then a node for the chunk
  obtain ⟨s2, c, e2, hr2, hc2, hdec2, hnode2, hcases, hsurv⟩ :=
    take_chunk_node_spec env hv s1 ⟨hr1, hc1, hdec1⟩
  have hregmem : region ∈ s1.m_region_LRU.m_list := by
    cases hl : s1.m_region_LRU.m_list with
    | nil => rw [hl] at hhead1; cases hhead1
    | cons a t =>
      rw [hl] at hhead1
      simp only [List.head?_cons, Option.some.injEq] at hhead1
      rw [hhead1]
      exact List.mem_cons_self _ _
  have hreg2 : region ∈ s2.m_region_LRU.m_list ∧
      (s2.m_region_LRU.node region).key = VoxelStorage.floor_div p env.cfg.REGION_SIZE := by
    rcases hsurv region hregmem with ⟨g1, g2⟩ | ⟨g1, g2⟩
    · exact ⟨g1, by rw [g2, hkey1]⟩
    · exfalso
      have h2 : 2 ≤ s1.m_region_LRU.m_list.length := by rw [g1]; exact hv.region_heap
      exact head_ne_getLast_of_nodup _ region hr1.lru.list_nodup h2 hhead1 g2
  have hkeys2 : ∀ q, q ∈ s2.m_chunk_LRU.keys → q ∈ s.m_chunk_LRU.keys := by
    intro q hq
    obtain ⟨m, hm, hkm⟩ := List.mem_map.1 hq
    rw [hnode2, hcl1] at hkm
    rw [← hkm]
    apply List.mem_map_of_mem
    rcases hcases with ⟨g1, _⟩ | ⟨g1, _⟩
    · rw [g1, hcl1] at hm; exact hm
    · rw [← hcl1, g1]; exact List.mem_append_left _ hm
  have hpk2 : p ∉ s2.m_chunk_LRU.keys := fun hq => hpk (hkeys2 p hq)
  obtain ⟨s', b, e3, hb, hs', hlist', hkey', hval', hothers, hworld', _⟩ :=
    load_chunk_spec env hv s2 region c p hr2 hc2 hdec2 hp hpk2 hreg2.1 hreg2.2
  have hdisk' : ∀ q, s'.disk_blocks env q = s2.disk_blocks env q :=
    fun q => disk_blocks_world env s2 s' hworld' q
  have hget : s.get_chunk env p = (s', .ok c) := by
    unfold VoxelStorage.get_chunk
    rw [hmiss]
    simp only []
    rw [e1]
    simp only []
    rw [e2]
    simp only []
    exact e3
  have hmemc : c ∈ s'.m_chunk_LRU.m_list := by rw [hlist']; exact List.mem_cons_self _ _
  have hnd' := hs'.chunks.lru.keys_nodup
  have hcnot2 : c ∉ s2.m_chunk_LRU.m_list := by
    intro hmem
    have := hs'.chunks.lru.list_nodup
    rw [hlist'] at this
    exact (List.nodup_cons.1 this).1 hmem
  have hkeys' : s'.m_chunk_LRU.keys = p :: s2.m_chunk_LRU.keys := by
    unfold LeastRecentlyUsed.keys
    rw [hlist', List.map_cons, hkey']
    congr 1
    apply List.map_congr_left
    intro m hm
    exact (hothers m (fun e => hcnot2 (e ▸ hm))).1
  -- a chunk still cached in the old node set keeps its content
  have hkeep : ∀ m, m ∈ s2.m_chunk_LRU.m_list →
      s'.chunk_content env (s.m_chunk_LRU.node m).key = some (s.m_chunk_LRU.node m).val.blocks := by
    intro m hm
    have hmc : m ≠ c := fun e => hcnot2 (e ▸ hm)
    have := chunk_content_of_mem env s' hnd' m (by rw [hlist']; exact List.mem_cons_of_mem _ hm)
    rw [(hothers m hmc).1, (hothers m hmc).2, hnode2, hcl1] at this
    exact this
  have hpc : s'.chunk_content env p = some b := by
    have := chunk_content_of_mem env s' hnd' c hmemc
    rw [hkey', hval'] at this
    exact this
  rcases hcases with ⟨g1, g2, g3⟩ | ⟨g1, g2, g3, g4⟩
  · -- a free node
    rw [hcl1] at g1 g2
    have hbs : s.disk_blocks env p = some b := by rw [← hdisk1 p hp, ← g3 p hp]; exact hb
    refine ⟨s', c, b, hget, hs', hbs, hmemc, hkey', hval', ?_, ?_⟩
    · intro q hq
      by_cases hqp : q = p
      · rw [hqp, hpc, chunk_content_of_not_mem env s p hpk, hbs]
      · by_cases hqk : q ∈ s.m_chunk_LRU.keys
        · obtain ⟨m, hm, hkm⟩ := List.mem_map.1 hqk
          have h1 := chunk_content_of_mem env s hc.lru.keys_nodup m hm
          have h2 := hkeep m (by rw [g1]; exact hm)
          rw [hkm] at h1 h2
          rw [h1, h2]
        · have hq' : q ∉ s'.m_chunk_LRU.keys := by
            rw [hkeys']
            intro hmem
            rcases List.mem_cons.1 hmem with e | e
            · exact hqp e
            · exact hqk (hkeys2 q e)
          rw [chunk_content_of_not_mem env s' q hq', chunk_content_of_not_mem env s q hqk,
            hdisk', g3 q hq, hdisk1 q hq]
    · have hl : s.m_chunk_LRU.keys.length < env.cfg.CHUNK_HEAP_SIZE := by
        unfold LeastRecentlyUsed.keys
        rw [List.length_map]
        exact g2
      rw [if_pos hl, hkeys']
      congr 1
      unfold LeastRecentlyUsed.keys
      rw [g1, hnode2, hcl1]
  · -- the least recently used chunk is evicted
    rw [hcl1] at g1 g2 g3 g4
    have hcs : c ∈ s.m_chunk_LRU.m_list := by rw [g1]; simp
    have hkc : (s.m_chunk_LRU.node c).key ≠ p := by
      intro e
      apply hpk
      rw [← e]
      exact List.mem_map_of_mem _ hcs
    have hbs : s.disk_blocks env p = some b := by
      rw [← hdisk1 p hp, ← g4 p hp (fun e => hkc e.symm)]; exact hb
    have hk2 : s.m_chunk_LRU.keys = s2.m_chunk_LRU.keys ++ [(s.m_chunk_LRU.node c).key] := by
      unfold LeastRecentlyUsed.keys
      rw [g1, List.map_append, hnode2, hcl1]
      rfl
    have hkc2 : (s.m_chunk_LRU.node c).key ∉ s2.m_chunk_LRU.keys := by
      have := hc.lru.keys_nodup
      rw [hk2] at this
      intro hmem
      exact (List.nodup_append.1 this).2.2 hmem (List.mem_singleton_self _) 
    refine ⟨s', c, b, hget, hs', hbs, hmemc, hkey', hval', ?_, ?_⟩
    · intro q hq
      by_cases hqp : q = p
      · rw [hqp, hpc, chunk_content_of_not_mem env s p hpk, hbs]
      · by_cases hqc : q = (s.m_chunk_LRU.node c).key
        · have hq' : q ∉ s'.m_chunk_LRU.keys := by
            rw [hkeys']
            intro hmem
            rcases List.mem_cons.1 hmem with e | e
            · exact hqp e
            · exact hkc2 (hqc ▸ e)
          rw [chunk_content_of_not_mem env s' q hq', hdisk', hqc, g3,
            chunk_content_of_mem env s hc.lru.keys_nodup c hcs]
        · by_cases hqk : q ∈ s.m_chunk_LRU.keys
          · obtain ⟨m, hm, hkm⟩ := List.mem_map.1 hqk
            have hm2 : m ∈ s2.m_chunk_LRU.m_list := by
              rw [g1] at hm
              rcases List.mem_append.1 hm with e | e
              · exact e
              · exfalso
                rw [List.mem_singleton.1 e] at hkm
                exact hqc hkm.symm
            have h1 := chunk_content_of_mem env s hc.lru.keys_nodup m hm
            have h2 := hkeep m hm2
            rw [hkm] at h1 h2
            rw [h1, h2]
          · have hq' : q ∉ s'.m_chunk_LRU.keys := by
              rw [hkeys']
              intro hmem
              rcases List.mem_cons.1 hmem with e | e
              · exact hqp e
              · exact hqk (hkeys2 q e)
            rw [chunk_content_of_not_mem env s' q hq', chunk_content_of_not_mem env s q hqk,
              hdisk', g4 q hq hqc, hdisk1 q hq]
    · have hl : ¬ s.m_chunk_LRU.keys.length < env.cfg.CHUNK_HEAP_SIZE := by
        unfold LeastRecentlyUsed.keys
        rw [List.length_map, g2]
        exact Nat.lt_irrefl _
      rw [if_neg hl, hkeys', hk2, List.dropLast_concat]

/-- The keys of the chunk cache after a fetch are the keys before it, touched. -/
theorem get_chunk_spec (env : Env) (hv : env.Valid) (s : VoxelStorage) (p : Vec3)
    (h : StoreOK env s) (hp : p.isS32) :
    ∃ s' c b, s.get_chunk env p = (s', .ok c) ∧ StoreOK env s' ∧
      s.chunk_content env p = some b ∧
      c ∈ s'.m_chunk_LRU.m_list ∧ (s'.m_chunk_LRU.node c).key = p ∧
      (s'.m_chunk_LRU.node c).val.blocks = b ∧
      (∀ q : Vec3, q.isS32 → s'.chunk_content env q = s.chunk_content env q) ∧
      s'.m_chunk_LRU.keys = lru_touch env.cfg.CHUNK_HEAP_SIZE s.m_chunk_LRU.keys p := by
  by_cases hpk : p ∈ s.m_chunk_LRU.keys
  · obtain ⟨n, hn, hkn⟩ := List.mem_map.1 hpk
    obtain ⟨s', e1, hs', hmem, hkey, hval, hcont, hkeys, _⟩ :=
      get_chunk_hit_spec env s p h n hn hkn
    refine ⟨s', n, (s.m_chunk_LRU.node n).val.blocks, e1, hs', ?_, hmem, hkey, hval,
      fun q _ => hcont q, ?_⟩
    · have := chunk_content_of_mem env s h.chunks.lru.keys_nodup n hn
      rw [hkn] at this
      exact this
    · unfold lru_touch
      rw [if_pos hpk]
      exact hkeys
  · obtain ⟨s', c, b, e1, hs', hb, hmem, hkey, hval, hcont, hkeys⟩ :=
      get_chunk_miss_spec env hv s p h hp hpk
    refine ⟨s', c, b, e1, hs', ?_, hmem, hkey, hval, hcont, ?_⟩
    · rw [chunk_content_of_not_mem env s p hpk]
      exact hb
    · unfold lru_touch
      rw [if_neg hpk]
      exact hkeys

/-- Storing a complete block array in a cached chunk that is marked dirty changes the
content of that chunk and of no other. -/
theorem storeOK_set_val (env : Env) (s : VoxelStorage) (h : StoreOK env s) (c : Nat)
    (hc : c ∈ s.m_chunk_LRU.m_list) (v : Chunk) (hlen : v.blocks.length = env.cfg.CHUNK_VOLUME)
    (hd : v.dirty = true) (s' : VoxelStorage)
    (hs' : s' = { s with m_chunk_LRU := s.m_chunk_LRU.set_val c v }) :
    StoreOK env s' ∧ s'.m_chunk_LRU.m_list = s.m_chunk_LRU.m_list ∧
      s'.m_chunk_LRU.keys = s.m_chunk_LRU.keys ∧
      (∀ n, (s'.m_chunk_LRU.node n).key = (s.m_chunk_LRU.node n).key) ∧
      (s'.m_chunk_LRU.node c).val = v ∧
      s'.chunk_content env (s.m_chunk_LRU.node c).key = some v.blocks ∧
      (∀ q : Vec3, q ≠ (s.m_chunk_LRU.node c).key →
        s'.chunk_content env q = s.chunk_content env q) ∧
      s'.world = s.world := by
  subst hs'
  obtain ⟨hr, hch, hdec⟩ := h
  have hnode := s.m_chunk_LRU.set_val_node c v
  have hlru : LRUInv env.cfg.CHUNK_HEAP_SIZE (VoxelStorage.chunk_index env.cfg)
      (s.m_chunk_LRU.set_val c v) [] :=
    hch.lru.congr rfl rfl (List.Perm.refl _) (fun m _ => ⟨(hnode m).1, (hnode m).2.1⟩)
  have hdisk : ∀ q, VoxelStorage.disk_blocks env
      { s with m_chunk_LRU := s.m_chunk_LRU.set_val c v } q = s.disk_blocks env q :=
    fun q => disk_blocks_world env s _ rfl q
  have hkeys : (s.m_chunk_LRU.set_val c v).keys = s.m_chunk_LRU.keys :=
    List.map_congr_left (fun m _ => (hnode m).1)
  have hok : StoreOK env { s with m_chunk_LRU := s.m_chunk_LRU.set_val c v } := by
    refine ⟨⟨hr.lru, hr.fds, hr.cached, hr.closed⟩, ⟨hlru, ?_, ?_, ?_⟩, ?_⟩
    · intro m hm
      show ((s.m_chunk_LRU.set_val c v).node m).key.isS32
      rw [(hnode m).1]
      exact hch.keys_s32 m hm
    · intro m hm
      show ((s.m_chunk_LRU.set_val c v).node m).val.blocks.length = _
      rw [(hnode m).2.2]
      by_cases hmc : m = c
      · rw [if_pos hmc]; exact hlen
      · rw [if_neg hmc]; exact hch.lengths m hm
    · intro m hm hdm
      have hdm' : ((s.m_chunk_LRU.set_val c v).node m).val.dirty = false := hdm
      show VoxelStorage.disk_blocks env _ ((s.m_chunk_LRU.set_val c v).node m).key
        = some ((s.m_chunk_LRU.set_val c v).node m).val.blocks
      rw [(hnode m).2.2] at hdm' ⊢
      by_cases hmc : m = c
      · rw [if_pos hmc, hd] at hdm'
        cases hdm'
      · rw [if_neg hmc] at hdm' ⊢
        rw [hdisk, (hnode m).1]
        exact hch.clean m hm hdm'
    · intro q hq
      rw [hdisk]
      exact hdec q hq
  have hvalc : ((s.m_chunk_LRU.set_val c v).node c).val = v := by
    rw [(hnode c).2.2, if_pos rfl]
  refine ⟨hok, rfl, hkeys, fun n => (hnode n).1, hvalc, ?_, ?_, rfl⟩
  · have := chunk_content_of_mem env _ hok.chunks.lru.keys_nodup c hc
    have h2 : VoxelStorage.chunk_content env
        { s with m_chunk_LRU := s.m_chunk_LRU.set_val c v }
        ((s.m_chunk_LRU.set_val c v).node c).key
        = some ((s.m_chunk_LRU.set_val c v).node c).val.blocks := this
    rw [(hnode c).1, hvalc] at h2
    exact h2
  · intro q hq
    by_cases hqk : q ∈ s.m_chunk_LRU.keys
    · obtain ⟨m, hm, hkm⟩ := List.mem_map.1 hqk
      have hmc : m ≠ c := fun e => hq (by rw [← hkm, e])
      have h1 := chunk_content_of_mem env s hch.lru.keys_nodup m hm
      have h2 : VoxelStorage.chunk_content env
          { s with m_chunk_LRU := s.m_chunk_LRU.set_val c v }
          ((s.m_chunk_LRU.set_val c v).node m).key
          = some ((s.m_chunk_LRU.set_val c v).node m).val.blocks :=
        chunk_content_of_mem env _ hok.chunks.lru.keys_nodup m hm
      rw [(hnode m).1, (hnode m).2.2, if_neg hmc] at h2
      rw [hkm] at h1 h2
      rw [h1, h2]
    · have hqk' : q ∉ (s.m_chunk_LRU.set_val c v).keys := by rw [hkeys]; exact hqk
      rw [chunk_content_of_not_mem env s q hqk]
      exact (chunk_content_of_not_mem env
        { s with m_chunk_LRU := s.m_chunk_LRU.set_val c v } q hqk').trans (hdisk q)

/-- The contract of `get`: it returns the node of the chunk, which holds the content of
the chunk; no chunk changes its content; the chunk is the most recently used one; and
with `edit` the chunk is dirty. -/
theorem get_spec (env : Env) (hv : env.Valid) (s : VoxelStorage) (p : Vec3) (cache edit : Bool)
    (h : StoreOK env s) (hp : p.isS32) :
    ∃ s' c b, s.get env p cache edit = (s', .ok c) ∧ StoreOK env s' ∧
      s.chunk_content env p = some b ∧
      c ∈ s'.m_chunk_LRU.m_list ∧ (s'.m_chunk_LRU.node c).key = p ∧
      (s'.m_chunk_LRU.node c).val.blocks = b ∧
      (edit = true → (s'.m_chunk_LRU.node c).val.dirty = true) ∧
      (∀ q : Vec3, q.isS32 → s'.chunk_content env q = s.chunk_content env q) ∧
      s'.m_chunk_LRU.keys = lru_touch env.cfg.CHUNK_HEAP_SIZE s.m_chunk_LRU.keys p := by
  obtain ⟨s1, c, b, e1, hs1, hb, hmem, hkey, hval, hcont, hkeys⟩ :=
    get_chunk_spec env hv s p h hp
  cases edit with
  | false =>
    refine ⟨s1, c, b, ?_, hs1, hb, hmem, hkey, hval, (fun e => by cases e), hcont, hkeys⟩
    unfold VoxelStorage.get
    rw [e1]
    rfl
  | true =>
    obtain ⟨g1, g2, g3, g4, g5, g6, g7, _⟩ := storeOK_set_val env s1 hs1 c hmem
      { blocks := (s1.m_chunk_LRU.node c).val.blocks, dirty := true }
      (hs1.chunks.lengths c hmem) rfl _ rfl
    refine ⟨_, c, b, ?_, g1, hb, by rw [g2]; exact hmem, (by rw [g4, hkey]), (by rw [g5]; exact hval),
      (fun _ => by rw [g5]), ?_, (by rw [g3]; exact hkeys)⟩
    · unfold VoxelStorage.get
      rw [e1]
      rfl
    · intro q hq
      rw [← hcont q hq]
      by_cases hqc : q = (s1.m_chunk_LRU.node c).key
      · rw [hqc, g6, chunk_content_of_mem env s1 hs1.chunks.lru.keys_nodup c hmem]
      · exact g7 q hqc

/-- A store through the pointer of an edited chunk sets the content of that chunk. -/
theorem write_blocks_spec (env : Env) (s : VoxelStorage) (h : StoreOK env s) (c : Nat)
    (hc : c ∈ s.m_chunk_LRU.m_list) (hd : (s.m_chunk_LRU.node c).val.dirty = true)
    (A : List Nat) (hA : A.length = env.cfg.CHUNK_VOLUME) :
    StoreOK env (s.write_blocks c A) ∧
      (s.write_blocks c A).m_chunk_LRU.keys = s.m_chunk_LRU.keys ∧
      (s.write_blocks c A).chunk_content env (s.m_chunk_LRU.node c).key = some A ∧
      (∀ q : Vec3, q ≠ (s.m_chunk_LRU.node c).key →
        (s.write_blocks c A).chunk_content env q = s.chunk_content env q) ∧
      (s.write_blocks c A).world = s.world := by
  obtain ⟨g1, _, g3, _, _, g6, g7, g8⟩ := storeOK_set_val env s h c hc
    { blocks := A, dirty := (s.m_chunk_LRU.node c).val.dirty } hA hd (s.write_blocks c A) rfl
  exact ⟨g1, g3, g6, g7, g8⟩

/-- A sequence of fetches succeeds, changes the content of no chunk, and touches the keys
of the chunk cache in turn. -/
theorem fetch_all_spec (env : Env) (hv : env.Valid) :
    ∀ (ps : List (Vec3 × Bool)) (s : VoxelStorage), StoreOK env s →
      (∀ x ∈ ps, x.1.isS32) →
      ∃ s', s.fetch_all env ps = (s', .ok ()) ∧ StoreOK env s' ∧
        (∀ q : Vec3, q.isS32 → s'.chunk_content env q = s.chunk_content env q) ∧
        s'.m_chunk_LRU.keys
          = touch_all env.cfg.CHUNK_HEAP_SIZE s.m_chunk_LRU.keys (ps.map Prod.fst) := by
  intro ps
  induction ps with
  | nil => intro s h _; exact ⟨s, rfl, h, fun _ _ => rfl, rfl⟩
  | cons x rest ih =>
    intro s h hps
    obtain ⟨p, edit⟩ := x
    obtain ⟨s1, c, b, e1, hs1, _, _, _, _, _, hcont1, hkeys1⟩ :=
      get_spec env hv s p true edit h (hps (p, edit) (List.mem_cons_self _ _))
    obtain ⟨s', e2, hs', hcont2, hkeys2⟩ :=
      ih s1 hs1 (fun y hy => hps y (List.mem_cons_of_mem _ hy))
    refine ⟨s', ?_, hs', fun q hq => (hcont2 q hq).trans (hcont1 q hq), ?_⟩
    · show (match s.get env p true edit with
        | (s1, .ok _) => VoxelStorage.fetch_all env s1 rest
        | (s1, .thrown) => (s1, .thrown)
        | (s1, .null) => (s1, .null)
        | (s1, .unfinished) => (s1, .unfinished)) = _
      rw [e1]
      exact e2
    · rw [hkeys2, hkeys1]
      rfl

theorem last_touch_snoc_self (ks : List Vec3) (k : Vec3) :
    last_touch (ks ++ [k]) k = ks.length + 1 := by
  unfold last_touch
  rw [List.reverse_append, List.reverse_singleton, List.singleton_append,
    List.indexOf_cons_self, List.length_append, List.length_singleton]
  rfl

theorem last_touch_snoc_ne (ks : List Vec3) (k j : Vec3) (h : j ≠ k) :
    last_touch (ks ++ [k]) j = last_touch ks j := by
  unfold last_touch
  rw [List.reverse_append, List.reverse_singleton, List.singleton_append,
    List.indexOf_cons_ne _ (fun e => h e.symm), List.length_append, List.length_singleton]
  omega

theorem last_touch_le (ks : List Vec3) (j : Vec3) : last_touch ks j ≤ ks.length := by
  unfold last_touch
  omega

theorem touch_all_snoc (N : Nat) (keys ks : List Vec3) (k : Vec3) :
    touch_all N keys (ks ++ [k]) = lru_touch N (touch_all N keys ks) k := by
  unfold touch_all
  rw [List.foldl_append]
  rfl

/-- While no more than `N` distinct keys are touched, a cache that was empty holds every
key touched, in the order of their most recent touches. -/
theorem touch_all_recency (N : Nat) : ∀ ks : List Vec3, ks.toFinset.card ≤ N →
    (touch_all N [] ks).Nodup ∧ (∀ k, k ∈ touch_all N [] ks ↔ k ∈ ks) ∧
      (touch_all N [] ks).Pairwise (fun a b => last_touch ks b < last_touch ks a) := by
  intro ks
  induction ks using List.reverseRecOn with
  | nil => intro _; exact ⟨List.nodup_nil, fun k => Iff.rfl, List.Pairwise.nil⟩
  | append_singleton ks k ih =>
    intro hcard
    have hsub : ks.toFinset ⊆ (ks ++ [k]).toFinset := by
      intro x hx
      rw [List.mem_toFinset] at hx ⊢
      exact List.mem_append_left _ hx
    obtain ⟨hnd, hmem, hpw⟩ := ih (le_trans (Finset.card_le_card hsub) hcard)
    set K := touch_all N [] ks with hK
    have hlen : K.length = ks.toFinset.card := by
      rw [← List.toFinset_card_of_nodup hnd]
      congr 1
      ext x
      rw [List.mem_toFinset, List.mem_toFinset]
      exact hmem x
    have hstep : lru_touch N K k = k :: K.erase k := by
      unfold lru_touch
      by_cases hk : k ∈ K
      · rw [if_pos hk]
      · rw [if_neg hk, List.erase_of_not_mem hk]
        by_cases hl : K.length < N
        · rw [if_pos hl]
        · exfalso
          have hkks : k ∉ ks := fun e => hk ((hmem k).2 e)
          have : (ks ++ [k]).toFinset = insert k ks.toFinset := by
            ext x
            simp only [List.mem_toFinset, List.mem_append, List.mem_singleton,
              Finset.mem_insert]
            tauto
          rw [this, Finset.card_insert_of_not_mem (by rw [List.mem_toFinset]; exact hkks)]
            at hcard
          omega
    rw [touch_all_snoc, hstep]
    refine ⟨?_, ?_, ?_⟩
    · refine List.nodup_cons.2 ⟨?_, hnd.erase k⟩
      intro hin
      exact ((hnd.mem_erase_iff).1 hin).1 rfl
    · intro x
      rw [List.mem_cons, hnd.mem_erase_iff, hmem, List.mem_append, List.mem_singleton]
      by_cases hx : x = k
      · simp [hx]
      · simp [hx]
    · refine List.pairwise_cons.2 ⟨?_, ?_⟩
      · intro b hb
        have hbk : b ≠ k := ((hnd.mem_erase_iff).1 hb).1
        rw [last_touch_snoc_self, last_touch_snoc_ne ks k b hbk]
        have := last_touch_le ks b
        omega
      · have h1 : (K.erase k).Pairwise (fun a b => last_touch ks b < last_touch ks a) :=
          hpw.sublist (List.erase_sublist k K)
        refine h1.imp_of_mem ?_
        intro a b ha hb hab
        rw [last_touch_snoc_ne ks k a ((hnd.mem_erase_iff).1 ha).1,
          last_touch_snoc_ne ks k b ((hnd.mem_erase_iff).1 hb).1]
        exact hab

/-- After touches of `N` distinct keys and then of one more key, a cache of `N` entries
that was empty lacks exactly one of them: the key whose most recent touch is the
oldest. -/
theorem touch_all_victim (N : Nat) (hN : 1 ≤ N) (ks : List Vec3) (k' : Vec3)
    (hcard : ks.toFinset.card = N) (hnew : k' ∉ ks) :
    ∃ v, v ∈ ks ∧ (∀ k ∈ ks, k ≠ v → last_touch ks v < last_touch ks k) ∧
      ∀ k, k ∈ touch_all N [] (ks ++ [k']) ↔ (k = k' ∨ (k ∈ ks ∧ k ≠ v)) := by
  obtain ⟨hnd, hmem, hpw⟩ := touch_all_recency N ks (le_of_eq hcard)
  set K := touch_all N [] ks with hK
  have hlen : K.length = N := by
    rw [← hcard, ← List.toFinset_card_of_nodup hnd]
    congr 1
    ext x
    rw [List.mem_toFinset, List.mem_toFinset]
    exact hmem x
  have hne : K ≠ [] := by
    intro e
    rw [e] at hlen
    simp only [List.length_nil] at hlen
    omega
  have hsplit : K = K.dropLast ++ [K.getLast hne] := (List.dropLast_append_getLast hne).symm
  have hk'K : k' ∉ K := fun e => hnew ((hmem k').1 e)
  have hstep : touch_all N [] (ks ++ [k']) = k' :: K.dropLast := by
    rw [touch_all_snoc]
    unfold lru_touch
    rw [if_neg hk'K, if_neg (by rw [hlen]; exact Nat.lt_irrefl _)]
  have hnd2 := hnd
  rw [hsplit] at hnd2
  have hvnot : K.getLast hne ∉ K.dropLast := by
    intro hin
    exact (List.nodup_append.1 hnd2).2.2 hin (List.mem_singleton_self _)
  have hpw2 := hpw
  rw [hsplit] at hpw2
  refine ⟨K.getLast hne, (hmem _).1 (List.getLast_mem hne), ?_, ?_⟩
  · intro k hk hkv
    have hkK : k ∈ K := (hmem k).2 hk
    rw [hsplit] at hkK
    rcases List.mem_append.1 hkK with e | e
    · exact (List.pairwise_append.1 hpw2).2.2 k e _ (List.mem_singleton_self _)
    · exact absurd (List.mem_singleton.1 e) hkv
  · intro k
    rw [hstep, List.mem_cons]
    constructor
    · rintro (e | e)
      · exact Or.inl e
      · refine Or.inr ⟨(hmem k).1 (List.mem_of_mem_dropLast e), ?_⟩
        intro ekv
        exact hvnot (ekv ▸ e)
    · rintro (e | ⟨e1, e2⟩)
      · exact Or.inl e
      · have hkK : k ∈ K := (hmem k).2 e1
        rw [hsplit] at hkK
        rcases List.mem_append.1 hkK with e | e
        · exact Or.inr e
        · exact absurd (List.mem_singleton.1 e) e2

/-- Touches of pairwise different keys, no more than the cache holds, put these keys in
front of the cache. -/
theorem touch_all_front (N : Nat) (keys : List Vec3) (hkeys : keys.length ≤ N) :
    ∀ qs : List Vec3, qs.Nodup → qs.length ≤ N →
      ∃ rest, touch_all N keys qs = qs.reverse ++ rest ∧ qs.length + rest.length ≤ N := by
  intro qs
  induction qs using List.reverseRecOn with
  | nil => intro _ _; exact ⟨keys, rfl, by simpa using hkeys⟩
  | append_singleton qs q ih =>
    intro hnd hlen
    rw [List.length_append, List.length_singleton] at hlen
    have hnd' := List.nodup_append.1 hnd
    have hq : q ∉ qs := fun e => hnd'.2.2 e (List.mem_singleton_self _)
    obtain ⟨rest, e1, hl⟩ := ih hnd'.1 (by omega)
    rw [touch_all_snoc, e1, List.reverse_append, List.reverse_singleton, List.singleton_append]
    have hqr : q ∉ qs.reverse := fun e => hq (List.mem_reverse.1 e)
    unfold lru_touch
    by_cases hin : q ∈ qs.reverse ++ rest
    · rw [if_pos hin]
      have hqrest : q ∈ rest := by
        rcases List.mem_append.1 hin with e | e
        · exact absurd e hqr
        · exact e
      refine ⟨rest.erase q, by rw [List.erase_append_right _ hqr]; rfl, ?_⟩
      rw [List.length_erase_of_mem hqrest, List.length_append, List.length_singleton]
      have := List.length_pos_of_mem hqrest
      omega
    · rw [if_neg hin]
      by_cases hfull : (qs.reverse ++ rest).length < N
      · rw [if_pos hfull]
        refine ⟨rest, rfl, ?_⟩
        rw [List.length_append, List.length_reverse] at hfull
        rw [List.length_append, List.length_singleton]
        omega
      · rw [if_neg hfull]
        rw [List.length_append, List.length_reverse] at hfull
        have hrne : rest ≠ [] := by
          intro e
          rw [e] at hfull
          simp only [List.length_nil] at hfull
          omega
        refine ⟨rest.dropLast, by rw [List.dropLast_append_of_ne_nil _ hrne]; rfl, ?_⟩
        rw [List.length_dropLast, List.length_append, List.length_singleton]
        have := List.length_pos_of_ne_nil hrne
        omega

/-- Touches of `N` pairwise different keys leave exactly these keys in a cache of `N`
entries. -/
theorem touch_all_full (N : Nat) (keys : List Vec3) (hkeys : keys.length ≤ N)
    (qs : List Vec3) (hnd : qs.Nodup) (hlen : qs.length = N) :
    touch_all N keys qs = qs.reverse := by
  obtain ⟨rest, e1, hl⟩ := touch_all_front N keys hkeys qs hnd (le_of_eq hlen)
  have : rest = [] := List.eq_nil_of_length_eq_zero (by omega)
  rw [e1, this, List.append_nil]

theorem toyEnv_valid : toyEnv.Valid := by
  refine ⟨by decide, by decide, by decide, by decide, by decide, ?_, ?_⟩
  · intro blocks hlen
    have hlen4 : blocks.length = 4 := hlen
    refine ⟨blocks.length :: blocks, ?_, ?_, ?_, ?_⟩
    · show (if blocks.length + 1 ≤ 4 + 1 then some (blocks.length :: blocks) else none) = _
      rw [if_pos (by omega)]
    · simp
    · show (blocks.length :: blocks).length ≤ 4 + 1
      simp only [List.length_cons]
      omega
    · show (if blocks.length = blocks.length ∧ blocks.length ≤ 4 then some blocks else none) = _
      rw [if_pos ⟨rfl, by omega⟩]
  · intro p
    exact List.length_replicate _ _

/-- A store constructed over region files whose headers satisfy the region invariant, and
whose blobs can be decompressed, satisfies the invariant of the store; its chunk cache is
empty. -/
theorem storeOK_init (env : Env) (world : Vec3 → File)
    (hclosed : ∀ r, (world r).size ≠ 0 →
      RegionOK env.cfg (c_maximum_compressed_size env.cfg env.codec) (load_region (world r)) ∧
        (load_region (world r)).garbage < env.cfg.DEFRAGMENT_GARBAGE_THRESHOLD)
    (hdec : Decodable env (VoxelStorage.init env.cfg world)) :
    StoreOK env (VoxelStorage.init env.cfg world) ∧
      (VoxelStorage.init env.cfg world).m_chunk_LRU.m_list = [] := by
  have hc := LeastRecentlyUsed.fill_heap_spec
    (LeastRecentlyUsed.init ({ blocks := [], dirty := false } : Chunk)) env.cfg.CHUNK_HEAP_SIZE
  have hr := LeastRecentlyUsed.fill_heap_spec
    (LeastRecentlyUsed.init ({ fd := none, garbage := 0, end_ := 0 } : Region))
    env.cfg.REGION_HEAP_SIZE
  have hcl : (VoxelStorage.init env.cfg world).m_chunk_LRU.m_list = [] := hc.1
  have hrl : (VoxelStorage.init env.cfg world).m_region_LRU.m_list = [] := hr.1
  refine ⟨⟨⟨LRUInv.init _ _ _, ?_, ?_, ?_⟩, ⟨LRUInv.init _ _ _, ?_, ?_, ?_⟩, hdec⟩, hcl⟩
  · intro n hn; rw [hrl] at hn; cases hn
  · intro n hn; rw [hrl] at hn; cases hn
  · intro r _ hsz; exact hclosed r hsz
  · intro n hn; rw [hcl] at hn; cases hn
  · intro n hn; rw [hcl] at hn; cases hn
  · intro n hn; rw [hcl] at hn; cases hn

/-- A store constructed over an empty directory satisfies the invariant of the store. -/
theorem storeOK_init_empty (env : Env) :
    StoreOK env (VoxelStorage.init env.cfg emptyWorld) ∧
      (VoxelStorage.init env.cfg emptyWorld).m_chunk_LRU.m_list = [] := by
  refine storeOK_init env emptyWorld (fun r hsz => absurd rfl hsz) ?_
  intro p _
  refine ⟨env.create_new_chunk p, ?_⟩
  unfold VoxelStorage.disk_blocks
  have : slot_offset ((VoxelStorage.init env.cfg emptyWorld).world
      (VoxelStorage.floor_div p env.cfg.REGION_SIZE)) (VoxelStorage.slot_index env.cfg p) = 0 :=
    File.read_u32_of_zero _ _ (fun j _ => File.get_of_size_zero _ rfl _)
  rw [if_neg (by simpa using this)]

/-! ## C1: eviction round trip -/

/-- C1: a chunk `p` is fetched with `edit = true` and its block array is set to `A`; then
`CHUNK_HEAP_SIZE` other, pairwise different chunks are fetched, which evicts `p` from the
chunk cache; a later fetch of `p` returns a block array equal to `A`.  The codec is assumed
to turn every compressed block array back into the block array (`Env.Valid`). -/
theorem eviction_round_trip (env : Env) (hv : env.Valid) (s : VoxelStorage)
    (h : StoreOK env s) (p : Vec3) (hp : p.isS32) (A : List Nat)
    (hA : A.length = env.cfg.CHUNK_VOLUME) (others : List (Vec3 × Bool))
    (hothers : ∀ x ∈ others, x.1.isS32 ∧ x.1 ≠ p)
    (hdistinct : (others.map Prod.fst).Nodup)
    (hcount : others.length = env.cfg.CHUNK_HEAP_SIZE) (cache edit : Bool) :
    ∃ s1 c s2 s3 c', s.get env p true true = (s1, .ok c) ∧
      (s1.write_blocks c A).fetch_all env others = (s2, .ok ()) ∧
      p ∉ s2.m_chunk_LRU.keys ∧
      s2.get env p cache edit = (s3, .ok c') ∧ (s3.m_chunk_LRU.node c').val.blocks = A := by
  obtain ⟨s1, c, b, e1, hs1, _, hmem1, hkey1, _, hdirty1, _, _⟩ :=
    get_spec env hv s p true true h hp
  obtain ⟨hw, hwkeys, hwc, _, _⟩ :=
    write_blocks_spec env s1 hs1 c hmem1 (hdirty1 rfl) A hA
  rw [hkey1] at hwc
  obtain ⟨s2, e2, hs2, hcont2, hkeys2⟩ :=
    fetch_all_spec env hv others (s1.write_blocks c A) hw (fun x hx => (hothers x hx).1)
  obtain ⟨s3, c', b', e3, _, hb', _, _, hval3, _, _, _⟩ :=
    get_spec env hv s2 p cache edit hs2 hp
  have hlenk : (s1.write_blocks c A).m_chunk_LRU.keys.length ≤ env.cfg.CHUNK_HEAP_SIZE := by
    have := hw.chunks.lru.length_eq
    unfold LeastRecentlyUsed.keys
    rw [List.length_map]
    omega
  have hfull := touch_all_full env.cfg.CHUNK_HEAP_SIZE _ hlenk (others.map Prod.fst) hdistinct
    (by rw [List.length_map]; exact hcount)
  refine ⟨s1, c, s2, s3, c', e1, e2, ?_, e3, ?_⟩
  · rw [hkeys2, hfull, List.mem_reverse]
    intro hin
    obtain ⟨x, hx, hxp⟩ := List.mem_map.1 hin
    exact (hothers x hx).2 hxp
  · rw [hcont2 p hp, hwc] at hb'
    rw [hval3]
    exact (Option.some.inj hb').symm

/-- Witness for `eviction_round_trip`: in the toy store of two chunk nodes over an empty
directory, chunk `(0, 0, 0)` is set to `[9, 8, 7, 6]` and evicted by the fetches of
`(1, 0, 0)` and `(2, 0, 0)`. -/
theorem eviction_round_trip_witness :
    ∃ s1 c s2 s3 c',
      (VoxelStorage.init smallConfig emptyWorld).get toyEnv ⟨0, 0, 0⟩ true true = (s1, .ok c) ∧
      (s1.write_blocks c [9, 8, 7, 6]).fetch_all toyEnv [(⟨1, 0, 0⟩, false), (⟨2, 0, 0⟩, true)]
        = (s2, .ok ()) ∧
      (⟨0, 0, 0⟩ : Vec3) ∉ s2.m_chunk_LRU.keys ∧
      s2.get toyEnv ⟨0, 0, 0⟩ true false = (s3, .ok c') ∧
      (s3.m_chunk_LRU.node c').val.blocks = [9, 8, 7, 6] :=
  eviction_round_trip toyEnv toyEnv_valid (VoxelStorage.init smallConfig emptyWorld)
    (storeOK_init_empty toyEnv).1 ⟨0, 0, 0⟩ (by decide) [9, 8, 7, 6] rfl
    [(⟨1, 0, 0⟩, false), (⟨2, 0, 0⟩, true)] (by decide) (by decide) rfl true false

/-! ## C3: the order of evictions -/

/-- C3: starting from an empty chunk cache of `CHUNK_HEAP_SIZE = N` nodes, after a
sequence of fetches that touches `N` distinct keys, each possibly several times, and the
fetch of one more key, the cache holds all of these `N + 1` keys but one: the key `v`
among the first `N` whose most recent touch is older than that of every other key. -/
theorem lru_eviction_order (env : Env) (hv : env.Valid) (s : VoxelStorage)
    (h : StoreOK env s) (hempty : s.m_chunk_LRU.m_list = [])
    (touches : List (Vec3 × Bool)) (hs32 : ∀ x ∈ touches, x.1.isS32)
    (hN : (touches.map Prod.fst).toFinset.card = env.cfg.CHUNK_HEAP_SIZE)
    (k' : Vec3) (edit : Bool) (hk' : k'.isS32) (hnew : k' ∉ touches.map Prod.fst) :
    ∃ s1 s2 c v, s.fetch_all env touches = (s1, .ok ()) ∧
      s1.get env k' true edit = (s2, .ok c) ∧ v ∈ touches.map Prod.fst ∧
      (∀ k ∈ touches.map Prod.fst, k ≠ v →
        last_touch (touches.map Prod.fst) v < last_touch (touches.map Prod.fst) k) ∧
      (∀ k, k ∈ s2.m_chunk_LRU.keys ↔ (k = k' ∨ (k ∈ touches.map Prod.fst ∧ k ≠ v))) := by
  obtain ⟨s1, e1, hs1, _, hkeys1⟩ := fetch_all_spec env hv touches s h hs32
  obtain ⟨s2, c, b, e2, _, _, _, _, _, _, _, hkeys2⟩ := get_spec env hv s1 k' true edit hs1 hk'
  obtain ⟨v, hvmem, hvold, hvkeys⟩ := touch_all_victim env.cfg.CHUNK_HEAP_SIZE hv.chunk_heap
    (touches.map Prod.fst) k' hN hnew
  have hk0 : s.m_chunk_LRU.keys = [] := by
    unfold LeastRecentlyUsed.keys
    rw [hempty]
    rfl
  refine ⟨s1, s2, c, v, e1, e2, hvmem, hvold, ?_⟩
  intro k
  rw [hkeys2, hkeys1, hk0, ← touch_all_snoc]
  exact hvkeys k

/-- Witness for `lru_eviction_order`: in the toy store of two chunk nodes the touches
`(0, 0, 0)`, `(1, 0, 0)`, `(0, 0, 0)` and then `(2, 0, 0)` evict `(1, 0, 0)`. -/
theorem lru_eviction_order_witness :
    ∃ s1 s2 c v,
      (VoxelStorage.init smallConfig emptyWorld).fetch_all toyEnv demoTouches = (s1, .ok ()) ∧
      s1.get toyEnv ⟨2, 0, 0⟩ true false = (s2, .ok c) ∧ v ∈ demoTouches.map Prod.fst ∧
      (∀ k ∈ demoTouches.map Prod.fst, k ≠ v →
        last_touch (demoTouches.map Prod.fst) v < last_touch (demoTouches.map Prod.fst) k) ∧
      (∀ k, k ∈ s2.m_chunk_LRU.keys ↔
        (k = ⟨2, 0, 0⟩ ∨ (k ∈ demoTouches.map Prod.fst ∧ k ≠ v))) :=
  lru_eviction_order toyEnv toyEnv_valid (VoxelStorage.init smallConfig emptyWorld)
    (storeOK_init_empty toyEnv).1 (storeOK_init_empty toyEnv).2 demoTouches (by decide)
    (by decide) ⟨2, 0, 0⟩ false (by decide) (by decide)

/-- The body of the second loop of the destructor (and of an eviction in `get_region`):
the least recently used region is unlinked and closed; its header on disk is then what it
was in memory. -/
theorem close_lru_region_spec (env : Env) (hv : env.Valid) (s : VoxelStorage)
    (h : RegionsOK env s []) (hne : s.m_region_LRU.m_list ≠ []) :
    ∃ n, s.m_region_LRU.remove_lru_node = (s.m_region_LRU.remove_node n, some n) ∧
      n ∈ s.m_region_LRU.m_list ∧
      s.m_region_LRU.m_list = (s.m_region_LRU.remove_node n).m_list ++ [n] ∧
      (VoxelStorage.close_region { s with m_region_LRU := s.m_region_LRU.remove_node n } n)
        = VoxelStorage.mk s.m_chunk_LRU (s.m_region_LRU.remove_node n)
          (Function.update s.world (s.m_region_LRU.node n).key
            (write_header (s.region_io n))) ∧
      RegionsOK env (VoxelStorage.mk s.m_chunk_LRU (s.m_region_LRU.remove_node n)
          (Function.update s.world (s.m_region_LRU.node n).key
            (write_header (s.region_io n)))) [n] ∧
      (s.m_region_LRU.node n).key ∉ (s.m_region_LRU.remove_node n).keys ∧
      (write_header (s.region_io n)).read_u32 0 = (s.m_region_LRU.node n).val.end_ ∧
      (write_header (s.region_io n)).read_u32 4 = (s.m_region_LRU.node n).val.garbage ∧
      (∀ i, 8 ≤ i → (write_header (s.region_io n)).get i
        = (s.world (s.m_region_LRU.node n).key).get i) := by
  obtain ⟨n, e2, hn, hsplit, hdrop, hinv⟩ := h.lru.remove_lru_node hne
  have hfd := h.fds n hn
  have hkeys : s.m_region_LRU.keys
      = (s.m_region_LRU.remove_node n).keys ++ [(s.m_region_LRU.node n).key] := by
    unfold LeastRecentlyUsed.keys
    rw [hdrop]
    have := congrArg (List.map (fun m => (s.m_region_LRU.node m).key)) hsplit
    rw [List.map_append] at this
    exact this
  have hnotin : (s.m_region_LRU.node n).key ∉ (s.m_region_LRU.remove_node n).keys := by
    have hnd := h.lru.keys_nodup
    rw [hkeys] at hnd
    intro hmem
    exact (List.nodup_append.1 hnd).2.2 hmem (List.mem_singleton_self _)
  set e := (s.m_region_LRU.node n).key with he
  have hs'_eq : VoxelStorage.close_region
      { s with m_region_LRU := s.m_region_LRU.remove_node n } n
      = VoxelStorage.mk s.m_chunk_LRU (s.m_region_LRU.remove_node n)
        (Function.update s.world e (write_header (s.region_io n))) := by
    unfold VoxelStorage.close_region
    have : ((s.m_region_LRU.remove_node n).node n).val.fd = some e := hfd
    simp only [this]
    rfl
  obtain ⟨hcn, hgn⟩ := h.cached n hn
  obtain ⟨w1, w2, w3⟩ := write_header_load_ok env hv (s.region_io n) hcn hgn
  have hfile_n : (s.region_io n).file = s.world e := by
    unfold VoxelStorage.region_io VoxelStorage.region_file
    simp only [hfd]
  obtain ⟨_, _, _, _, r5, r6⟩ := reopen_region_spec (s.region_io n) hcn.1.2.1
    (hv.garbage_lt hgn)
  refine ⟨n, e2, hn, by rw [hdrop]; exact hsplit, hs'_eq, ⟨hinv, ?_, ?_, ?_⟩, hnotin, r5, r6,
    ?_⟩
  · intro m hm
    exact h.fds m (List.mem_of_mem_erase hm)
  · intro m hm
    have hm' : m ∈ s.m_region_LRU.m_list := List.mem_of_mem_erase hm
    have hkm : (s.m_region_LRU.node m).key ≠ e := by
      intro hk
      apply hnotin
      rw [← hk]
      exact List.mem_map_of_mem _ hm
    have : VoxelStorage.region_io (VoxelStorage.mk s.m_chunk_LRU
        (s.m_region_LRU.remove_node n)
        (Function.update s.world e (write_header (s.region_io n)))) m
        = s.region_io m := by
      unfold VoxelStorage.region_io VoxelStorage.region_file
      have hfdm := h.fds m hm'
      show RegionIO.mk _ _ (match (s.m_region_LRU.node m).val.fd with
        | some p => Function.update s.world e (write_header (s.region_io n)) p
        | none => File.empty) = RegionIO.mk _ _ (match (s.m_region_LRU.node m).val.fd with
        | some p => s.world p
        | none => File.empty)
      rw [hfdm]
      simp only
      rw [Function.update_noteq hkm]
      rfl
    rw [this]
    exact h.cached m hm'
  · intro r hr hsize
    simp only at hr hsize ⊢
    by_cases hre : r = e
    · subst hre
      rw [Function.update_same]
      exact ⟨w1, w2⟩
    · rw [Function.update_noteq hre] at hsize ⊢
      apply h.closed r _ hsize
      rw [hkeys]
      intro hmem
      rcases List.mem_append.1 hmem with h1 | h1
      · exact hr h1
      · exact hre (List.mem_singleton.1 h1)
  · intro i hi
    rw [write_header_get _ _ hi, hfile_n]

/-- The second loop of the destructor terminates; it closes every cached region, so that
header words 0 and 1 of its file are the `end` and the `garbage` the region had in memory;
it changes nothing else in the files. -/
theorem close_all_regions_spec (env : Env) (hv : env.Valid) :
    ∀ (k : Nat) (s : VoxelStorage), RegionsOK env s [] → s.m_region_LRU.m_list.length ≤ k →
      ∃ s', VoxelStorage.close_all_regions (k + 1) s = (s', .ok ()) ∧
        s'.m_chunk_LRU = s.m_chunk_LRU ∧ s'.m_region_LRU.m_list = [] ∧
        RegionsOK env s' [] ∧
        (∀ r i, 8 ≤ i → (s'.world r).get i = (s.world r).get i) ∧
        (∀ r, r ∉ s.m_region_LRU.keys → s'.world r = s.world r) ∧
        (∀ n ∈ s.m_region_LRU.m_list,
          (s'.world (s.m_region_LRU.node n).key).read_u32 0 = (s.m_region_LRU.node n).val.end_ ∧
          (s'.world (s.m_region_LRU.node n).key).read_u32 4
            = (s.m_region_LRU.node n).val.garbage) := by
  intro k
  induction k with
  | zero =>
    intro s h hlen
    have hnil : s.m_region_LRU.m_list = [] := List.eq_nil_of_length_eq_zero (by omega)
    refine ⟨s, ?_, rfl, hnil, h, fun _ _ _ => rfl, fun _ _ => rfl, ?_⟩
    · show (match s.m_region_LRU.remove_lru_node with
        | (lru, none) => (({ s with m_region_LRU := lru } : VoxelStorage), Outcome.ok ())
        | (lru, some region) => _) = _
      rw [LeastRecentlyUsed.remove_lru_node_nil _ hnil]
    · intro n hn
      rw [hnil] at hn
      cases hn
  | succ k ih =>
    intro s h hlen
    by_cases hnil : s.m_region_LRU.m_list = []
    · refine ⟨s, ?_, rfl, hnil, h, fun _ _ _ => rfl, fun _ _ => rfl, ?_⟩
      · show (match s.m_region_LRU.remove_lru_node with
          | (lru, none) => (({ s with m_region_LRU := lru } : VoxelStorage), Outcome.ok ())
          | (lru, some region) => _) = _
        rw [LeastRecentlyUsed.remove_lru_node_nil _ hnil]
      · intro n hn
        rw [hnil] at hn
        cases hn
    · obtain ⟨n, e1, hn, hsplit, e2, hok, hnotin, w0, w4, wb⟩ :=
        close_lru_region_spec env hv s h hnil
      set s1 : VoxelStorage := VoxelStorage.mk s.m_chunk_LRU (s.m_region_LRU.remove_node n)
        (Function.update s.world (s.m_region_LRU.node n).key (write_header (s.region_io n)))
        with hs1
      set s3 : VoxelStorage := { s1 with m_region_LRU := s1.m_region_LRU.add_to_heap n }
        with hs3
      have hok3 : RegionsOK env s3 [] := ⟨hok.lru.add_to_heap, hok.fds, hok.cached, hok.closed⟩
      have hlen3 : s3.m_region_LRU.m_list.length ≤ k := by
        have := congrArg List.length hsplit
        rw [List.length_append, List.length_singleton] at this
        show (s.m_region_LRU.remove_node n).m_list.length ≤ k
        omega
      obtain ⟨s', f1, f2, f3, f4, f5, f6, f7⟩ := ih s3 hok3 hlen3
      refine ⟨s', ?_, by rw [f2], f3, f4, ?_, ?_, ?_⟩
      · show (match s.m_region_LRU.remove_lru_node with
          | (lru, none) => (({ s with m_region_LRU := lru } : VoxelStorage), Outcome.ok ())
          | (lru, some region) =>
            VoxelStorage.close_all_regions (k + 1)
              { VoxelStorage.close_region { s with m_region_LRU := lru } region with
                m_region_LRU := (VoxelStorage.close_region
                  { s with m_region_LRU := lru } region).m_region_LRU.add_to_heap region }) = _
        rw [e1]
        simp only
        rw [e2]
        exact f1
      · intro r i hi
        rw [f5 r i hi]
        show (Function.update s.world (s.m_region_LRU.node n).key
          (write_header (s.region_io n)) r).get i = _
        by_cases hre : r = (s.m_region_LRU.node n).key
        · rw [hre, Function.update_same]
          exact wb i hi
        · rw [Function.update_noteq hre]
      · intro r hr
        have hre : r ≠ (s.m_region_LRU.node n).key := by
          intro e
          apply hr
          rw [e]
          exact List.mem_map_of_mem _ hn
        have hr3 : r ∉ s3.m_region_LRU.keys := by
          intro hmem
          apply hr
          obtain ⟨m, hm, hkm⟩ := List.mem_map.1 hmem
          rw [← hkm]
          have hm' : m ∈ s.m_region_LRU.m_list := by
            rw [hsplit]
            exact List.mem_append_left _ hm
          exact List.mem_map_of_mem _ hm'
        rw [f6 r hr3]
        show Function.update s.world (s.m_region_LRU.node n).key _ r = _
        rw [Function.update_noteq hre]
      · intro m hm
        by_cases hmn : m = n
        · rw [hmn]
          have : s'.world (s.m_region_LRU.node n).key = write_header (s.region_io n) := by
            rw [f6 _ hnotin]
            show Function.update s.world (s.m_region_LRU.node n).key _ _ = _
            rw [Function.update_same]
          rw [this]
          exact ⟨w0, w4⟩
        · have hm3 : m ∈ s3.m_region_LRU.m_list := by
            rw [hsplit] at hm
            rcases List.mem_append.1 hm with e | e
            · exact e
            · exact absurd (List.mem_singleton.1 e) hmn
          exact f7 m hm3

/-- The body of the first loop of the destructor: the least recently used chunk is
unlinked, closed and its node freed; afterwards it is on disk, and no chunk has changed
its content. -/
theorem close_lru_chunk_spec (env : Env) (hv : env.Valid) (s : VoxelStorage)
    (h : StoreOK env s) (hne : s.m_chunk_LRU.m_list ≠ []) :
    ∃ c s2, s.m_chunk_LRU.remove_lru_node = (s.m_chunk_LRU.remove_node c, some c) ∧
      VoxelStorage.close_chunk env { s with m_chunk_LRU := s.m_chunk_LRU.remove_node c } c
        = (s2, .ok ()) ∧
      StoreOK env { s2 with m_chunk_LRU := s2.m_chunk_LRU.add_to_heap c } ∧
      s.m_chunk_LRU.m_list = s2.m_chunk_LRU.m_list ++ [c] ∧
      (∀ q : Vec3, q.isS32 →
        VoxelStorage.chunk_content env
          { s2 with m_chunk_LRU := s2.m_chunk_LRU.add_to_heap c } q
          = s.chunk_content env q) := by
  obtain ⟨hr, hc, hdec⟩ := h
  obtain ⟨c, e2, hcm, hsplit, hdrop, hinv⟩ := hc.lru.remove_lru_node hne
  set sA : VoxelStorage := { s with m_chunk_LRU := s.m_chunk_LRU.remove_node c } with hsA
  have hrA : RegionsOK env sA [] := ⟨hr.lru, hr.fds, hr.cached, hr.closed⟩
  obtain ⟨s2, k1, k2, k3, k4, k5, _⟩ := close_chunk_spec env hv sA c hrA
    (hc.keys_s32 c hcm) (hc.lengths c hcm) (hc.clean c hcm)
  have k3' : s2.m_chunk_LRU = s.m_chunk_LRU.remove_node c := k3
  have k4' : s2.disk_blocks env (s.m_chunk_LRU.node c).key
      = some (s.m_chunk_LRU.node c).val.blocks := k4
  have k5' : ∀ q : Vec3, q.isS32 → q ≠ (s.m_chunk_LRU.node c).key →
      s2.disk_blocks env q = s.disk_blocks env q := k5
  have hkeyc : ∀ n, n ∈ s.m_chunk_LRU.m_list → n ≠ c →
      (s.m_chunk_LRU.node n).key ≠ (s.m_chunk_LRU.node c).key := by
    intro n hn hnc hk
    exact hnc (s.m_chunk_LRU.key_inj_of_nodup hc.lru.keys_nodup hn hcm hk)
  have hnd := hc.lru.list_nodup
  set s3 : VoxelStorage := { s2 with m_chunk_LRU := s2.m_chunk_LRU.add_to_heap c } with hs3
  have hl3 : s3.m_chunk_LRU.m_list = s.m_chunk_LRU.m_list.erase c := by
    show s2.m_chunk_LRU.m_list = _
    rw [k3']
    rfl
  have hn3 : s3.m_chunk_LRU.node = s.m_chunk_LRU.node := by
    show s2.m_chunk_LRU.node = _
    rw [k3']
    rfl
  have hdisk3 : ∀ q, s3.disk_blocks env q = s2.disk_blocks env q :=
    fun q => disk_blocks_world env s2 s3 rfl q
  have hmem3 : ∀ n, n ∈ s3.m_chunk_LRU.m_list → n ∈ s.m_chunk_LRU.m_list ∧ n ≠ c := by
    intro n hn
    rw [hl3] at hn
    exact ⟨List.mem_of_mem_erase hn, fun e => (hnd.not_mem_erase) (e ▸ hn)⟩
  have hlru3 : LRUInv env.cfg.CHUNK_HEAP_SIZE (VoxelStorage.chunk_index env.cfg)
      s3.m_chunk_LRU [] := by
    show LRUInv _ _ (s2.m_chunk_LRU.add_to_heap c) []
    rw [k3']
    exact hinv.add_to_heap
  have hok3 : StoreOK env s3 := by
    refine ⟨⟨k2.lru, k2.fds, k2.cached, k2.closed⟩, ⟨hlru3, ?_, ?_, ?_⟩, ?_⟩
    · intro n hn
      rw [hn3]
      exact hc.keys_s32 n (hmem3 n hn).1
    · intro n hn
      rw [hn3]
      exact hc.lengths n (hmem3 n hn).1
    · intro n hn hd
      rw [hn3] at hd ⊢
      obtain ⟨hn', hnc⟩ := hmem3 n hn
      rw [hdisk3, k5' _ (hc.keys_s32 n hn') (hkeyc n hn' hnc)]
      exact hc.clean n hn' hd
    · intro q hq
      rw [hdisk3]
      by_cases hqc : q = (s.m_chunk_LRU.node c).key
      · rw [hqc]
        exact ⟨_, k4'⟩
      · rw [k5' q hq hqc]
        exact hdec q hq
  have hsplit2 : s.m_chunk_LRU.m_list = s2.m_chunk_LRU.m_list ++ [c] := by
    rw [k3']
    show s.m_chunk_LRU.m_list = (s.m_chunk_LRU.remove_node c).m_list ++ [c]
    rw [hdrop]
    exact hsplit
  have hk3 : ∀ q, q ∈ s3.m_chunk_LRU.keys → q ∈ s.m_chunk_LRU.keys ∧
      q ≠ (s.m_chunk_LRU.node c).key := by
    intro q hq
    obtain ⟨m, hm, hkm⟩ := List.mem_map.1 hq
    rw [hn3] at hkm
    obtain ⟨hm', hmc⟩ := hmem3 m hm
    rw [← hkm]
    exact ⟨List.mem_map_of_mem _ hm', hkeyc m hm' hmc⟩
  refine ⟨c, s2, e2, k1, hok3, hsplit2, ?_⟩
  intro q hq
  by_cases hqc : q = (s.m_chunk_LRU.node c).key
  · have hq3 : q ∉ s3.m_chunk_LRU.keys := fun hmem => (hk3 q hmem).2 hqc
    rw [chunk_content_of_not_mem env s3 q hq3, hdisk3, hqc, k4',
      chunk_content_of_mem env s hc.lru.keys_nodup c hcm]
  · by_cases hqk : q ∈ s.m_chunk_LRU.keys
    · obtain ⟨m, hm, hkm⟩ := List.mem_map.1 hqk
      have hmc : m ≠ c := fun e => hqc (by rw [← hkm, e])
      have hm3 : m ∈ s3.m_chunk_LRU.m_list := by
        rw [hl3]
        exact (List.mem_erase_of_ne hmc).2 hm
      have h1 := chunk_content_of_mem env s hc.lru.keys_nodup m hm
      have h2 := chunk_content_of_mem env s3 hok3.chunks.lru.keys_nodup m hm3
      rw [hn3] at h2
      rw [hkm] at h1 h2
      rw [h1, h2]
    · have hq3 : q ∉ s3.m_chunk_LRU.keys := fun hmem => hqk (hk3 q hmem).1
      rw [chunk_content_of_not_mem env s3 q hq3, chunk_content_of_not_mem env s q hqk,
        hdisk3, k5' q hq hqc]

/-- The first loop of the destructor terminates; afterwards the chunk cache is empty and
every chunk is on disk with the content it had in the store. -/
theorem close_all_chunks_spec (env : Env) (hv : env.Valid) :
    ∀ (k : Nat) (s : VoxelStorage), StoreOK env s → s.m_chunk_LRU.m_list.length ≤ k →
      ∃ s', VoxelStorage.close_all_chunks env (k + 1) s = (s', .ok ()) ∧ StoreOK env s' ∧
        s'.m_chunk_LRU.m_list = [] ∧
        (∀ q : Vec3, q.isS32 → s'.disk_blocks env q = s.chunk_content env q) := by
  intro k
  induction k with
  | zero =>
    intro s h hlen
    have hnil : s.m_chunk_LRU.m_list = [] := List.eq_nil_of_length_eq_zero (by omega)
    refine ⟨s, ?_, h, hnil, ?_⟩
    · show (match s.m_chunk_LRU.remove_lru_node with
        | (lru, none) => (({ s with m_chunk_LRU := lru } : VoxelStorage), Outcome.ok ())
        | (lru, some chunk) => _) = _
      rw [LeastRecentlyUsed.remove_lru_node_nil _ hnil]
    · intro q _
      rw [chunk_content_of_not_mem env s q (by
        unfold LeastRecentlyUsed.keys
        rw [hnil]
        exact List.not_mem_nil _)]
  | succ k ih =>
    intro s h hlen
    by_cases hnil : s.m_chunk_LRU.m_list = []
    · refine ⟨s, ?_, h, hnil, ?_⟩
      · show (match s.m_chunk_LRU.remove_lru_node with
          | (lru, none) => (({ s with m_chunk_LRU := lru } : VoxelStorage), Outcome.ok ())
          | (lru, some chunk) => _) = _
        rw [LeastRecentlyUsed.remove_lru_node_nil _ hnil]
      · intro q _
        rw [chunk_content_of_not_mem env s q (by
          unfold LeastRecentlyUsed.keys
          rw [hnil]
          exact List.not_mem_nil _)]
    · obtain ⟨c, s2, e1, e2, hok3, hsplit, hcont⟩ := close_lru_chunk_spec env hv s h hnil
      have hlen3 : s2.m_chunk_LRU.m_list.length ≤ k := by
        have := congrArg List.length hsplit
        rw [List.length_append, List.length_singleton] at this
        omega
      obtain ⟨s', f1, f2, f3, f4⟩ := ih _ hok3 hlen3
      refine ⟨s', ?_, f2, f3, fun q hq => (f4 q hq).trans (hcont q hq)⟩
      show (match s.m_chunk_LRU.remove_lru_node with
        | (lru, none) => (({ s with m_chunk_LRU := lru } : VoxelStorage), Outcome.ok ())
        | (lru, some chunk) =>
          match VoxelStorage.close_chunk env { s with m_chunk_LRU := lru } chunk with
          | (s1, .ok _) =>
            VoxelStorage.close_all_chunks env (k + 1)
              { s1 with m_chunk_LRU := s1.m_chunk_LRU.add_to_heap chunk }
          | (s1, e) => (s1, e)) = _
      rw [e1]
      simp only
      rw [e2]
      exact f1

/-- A store with an empty region cache opens an existing region file by reading `end` and
`garbage` from header words 0 and 1. -/
theorem get_region_fresh (env : Env) (hv : env.Valid) (s : VoxelStorage)
    (h : RegionsOK env s []) (hempty : s.m_region_LRU.m_list = []) (r : Vec3)
    (hsize : (s.world r).size ≠ 0) :
    ∃ s' n, s.get_region env r = (s', .ok n) ∧
      (s'.m_region_LRU.node n).val.end_ = (s.world r).read_u32 0 ∧
      (s'.m_region_LRU.node n).val.garbage = (s.world r).read_u32 4 := by
  have hr : r ∉ s.m_region_LRU.keys := by
    unfold LeastRecentlyUsed.keys
    rw [hempty]
    exact List.not_mem_nil _
  have hmiss := h.lru.get_node_miss r hr
  cases hfree : s.m_region_LRU.m_free_list with
  | nil =>
    exfalso
    have hlen := h.lru.length_eq
    rw [hfree, hempty] at hlen
    have := hv.region_heap
    simp only [List.length_nil] at hlen
    omega
  | cons c rest =>
    obtain ⟨e1, _⟩ := h.lru.get_from_heap hfree
    set s1 : VoxelStorage :=
      { s with m_region_LRU := { s.m_region_LRU with m_free_list := rest } } with hs1
    have htake : s.take_region_node = (s1, some c) := by
      unfold VoxelStorage.take_region_node
      rw [e1]
    have hget : s.get_region env r = (s1.open_region env c r, .ok c) := by
      unfold VoxelStorage.get_region
      rw [hmiss]
      simp only
      have : ({ s with m_region_LRU := s.m_region_LRU } : VoxelStorage) = s := rfl
      rw [this, htake]
    have hnew : ((s1.world r).size == 0) = false := by
      have : (s1.world r).size ≠ 0 := hsize
      simpa using this
    have hval : ((s1.open_region env c r).m_region_LRU.node c).val
        = { fd := some r, garbage := (load_region (s1.world r)).garbage,
            end_ := (load_region (s1.world r)).end_ } := by
      unfold VoxelStorage.open_region
      simp only [hnew]
      rw [(LeastRecentlyUsed.add_node_key _ c _ c).2, (LeastRecentlyUsed.set_key_node _ c r c).1,
        (LeastRecentlyUsed.set_val_node _ c _ c).2.2, if_pos rfl]
      rfl
    refine ⟨s1.open_region env c r, c, hget, ?_, ?_⟩
    · rw [hval]; rfl
    · rw [hval]; rfl

/-! ## C2: persistence across sessions -/

/-- C2: a chunk `p` is fetched with `edit = true`, its blocks are set to `A`, and the store
is destroyed: the destructor closes every cached chunk, then every cached region, and
terminates.  A fresh store over the same region files returns blocks equal to `A` for `p`,
and for every region that was cached at shutdown it reads from header words 0 and 1 the
`end` and the `garbage` the region had in memory.  The codec is assumed to turn every
compressed block array back into the block array (`Env.Valid`). -/
theorem persistence_across_sessions (env : Env) (hv : env.Valid) (s : VoxelStorage)
    (h : StoreOK env s) (p : Vec3) (hp : p.isS32) (A : List Nat)
    (hA : A.length = env.cfg.CHUNK_VOLUME) (k : Nat) (hkc : env.cfg.CHUNK_HEAP_SIZE ≤ k)
    (hkr : env.cfg.REGION_HEAP_SIZE ≤ k) (cache edit : Bool) :
    ∃ s1 c smid s2 s3 c', s.get env p true true = (s1, .ok c) ∧
      VoxelStorage.close_all_chunks env (k + 1) (s1.write_blocks c A) = (smid, .ok ()) ∧
      VoxelStorage.destroy env (k + 1) (s1.write_blocks c A) = (s2, .ok ()) ∧
      (VoxelStorage.init env.cfg s2.world).get env p cache edit = (s3, .ok c') ∧
      (s3.m_chunk_LRU.node c').val.blocks = A ∧
      (∀ n ∈ smid.m_region_LRU.m_list,
        (s2.world (smid.m_region_LRU.node n).key).read_u32 0
          = (smid.m_region_LRU.node n).val.end_ ∧
        (s2.world (smid.m_region_LRU.node n).key).read_u32 4
          = (smid.m_region_LRU.node n).val.garbage ∧
        ∃ s4 m, (VoxelStorage.init env.cfg s2.world).get_region env
            (smid.m_region_LRU.node n).key = (s4, .ok m) ∧
          (s4.m_region_LRU.node m).val.end_ = (smid.m_region_LRU.node n).val.end_ ∧
          (s4.m_region_LRU.node m).val.garbage = (smid.m_region_LRU.node n).val.garbage) := by
  obtain ⟨s1, c, b, e1, hs1, _, hmem1, hkey1, _, hdirty1, _, _⟩ :=
    get_spec env hv s p true true h hp
  obtain ⟨hw, _, hwc, _, _⟩ := write_blocks_spec env s1 hs1 c hmem1 (hdirty1 rfl) A hA
  rw [hkey1] at hwc
  have hlenc : (s1.write_blocks c A).m_chunk_LRU.m_list.length ≤ k := by
    have := hw.chunks.lru.length_eq
    omega
  obtain ⟨smid, e2, hmid, _, hdiskmid⟩ :=
    close_all_chunks_spec env hv k (s1.write_blocks c A) hw hlenc
  have hlenr : smid.m_region_LRU.m_list.length ≤ k := by
    have := hmid.regions.lru.length_eq
    omega
  obtain ⟨s2, e3, _, hl2, hr2, hbytes2, _, hhead2⟩ :=
    close_all_regions_spec env hv k smid hmid.regions hlenr
  have hdestroy : VoxelStorage.destroy env (k + 1) (s1.write_blocks c A) = (s2, .ok ()) := by
    unfold VoxelStorage.destroy
    rw [e2]
    exact e3
  have hkeys2 : s2.m_region_LRU.keys = [] := by
    unfold LeastRecentlyUsed.keys
    rw [hl2]
    rfl
  have hdisk0 : ∀ q : Vec3, q.isS32 →
      (VoxelStorage.init env.cfg s2.world).disk_blocks env q
        = (s1.write_blocks c A).chunk_content env q := by
    intro q hq
    rw [disk_blocks_world env s2 (VoxelStorage.init env.cfg s2.world) rfl q,
      disk_blocks_of_bytes env hv smid s2 hmid.regions hbytes2 q hq]
    exact hdiskmid q hq
  obtain ⟨h0, hl0⟩ := storeOK_init env s2.world
    (fun r hsz => hr2.closed r (by rw [hkeys2]; exact List.not_mem_nil _) hsz)
    (by
      intro q hq
      rw [hdisk0 q hq, ← hdiskmid q hq]
      exact hmid.decodable q hq)
  obtain ⟨s3, c', b', e4, _, hb', _, _, hval3, _, _, _⟩ :=
    get_spec env hv (VoxelStorage.init env.cfg s2.world) p cache edit h0 hp
  have hp0 : p ∉ (VoxelStorage.init env.cfg s2.world).m_chunk_LRU.keys := by
    unfold LeastRecentlyUsed.keys
    rw [hl0]
    exact List.not_mem_nil _
  rw [chunk_content_of_not_mem env _ p hp0, hdisk0 p hp, hwc] at hb'
  refine ⟨s1, c, smid, s2, s3, c', e1, e2, hdestroy, e4, by
    rw [hval3]; exact (Option.some.inj hb').symm, ?_⟩
  intro n hn
  obtain ⟨w0, w4⟩ := hhead2 n hn
  have hsz : (s2.world (smid.m_region_LRU.node n).key).size ≠ 0 := by
    intro hz
    have hzero : (s2.world (smid.m_region_LRU.node n).key).read_u32 0 = 0 :=
      File.read_u32_of_zero _ _ (fun j _ => File.get_of_size_zero _ hz _)
    have hend : header_end env.cfg ≤ (smid.region_io n).end_ := (hmid.regions.cached n hn).1.1.1
    have hend' : header_end env.cfg ≤ (smid.m_region_LRU.node n).val.end_ := hend
    have := header_end_pos env.cfg
    omega
  have hrl0 : (VoxelStorage.init env.cfg s2.world).m_region_LRU.m_list = [] :=
    (LeastRecentlyUsed.fill_heap_spec _ _).1
  obtain ⟨s4, m, g1, g2, g3⟩ := get_region_fresh env hv (VoxelStorage.init env.cfg s2.world)
    h0.regions hrl0 (smid.m_region_LRU.node n).key hsz
  have g2' : (s4.m_region_LRU.node m).val.end_
      = (s2.world (smid.m_region_LRU.node n).key).read_u32 0 := g2
  have g3' : (s4.m_region_LRU.node m).val.garbage
      = (s2.world (smid.m_region_LRU.node n).key).read_u32 4 := g3
  exact ⟨w0, w4, s4, m, g1, by rw [g2', w0], by rw [g3', w4]⟩

/-- Witness for `persistence_across_sessions`: in the toy store over an empty directory,
chunk `(0, 0, 0)` is set to `[9, 8, 7, 6]` and the store destroyed. -/
theorem persistence_across_sessions_witness :
    ∃ s1 c smid s2 s3 c',
      (VoxelStorage.init smallConfig emptyWorld).get toyEnv ⟨0, 0, 0⟩ true true
        = (s1, .ok c) ∧
      VoxelStorage.close_all_chunks toyEnv (2 + 1) (s1.write_blocks c [9, 8, 7, 6])
        = (smid, .ok ()) ∧
      VoxelStorage.destroy toyEnv (2 + 1) (s1.write_blocks c [9, 8, 7, 6]) = (s2, .ok ()) ∧
      (VoxelStorage.init toyEnv.cfg s2.world).get toyEnv ⟨0, 0, 0⟩ true false = (s3, .ok c') ∧
      (s3.m_chunk_LRU.node c').val.blocks = [9, 8, 7, 6] ∧
      (∀ n ∈ smid.m_region_LRU.m_list,
        (s2.world (smid.m_region_LRU.node n).key).read_u32 0
          = (smid.m_region_LRU.node n).val.end_ ∧
        (s2.world (smid.m_region_LRU.node n).key).read_u32 4
          = (smid.m_region_LRU.node n).val.garbage ∧
        ∃ s4 m, (VoxelStorage.init toyEnv.cfg s2.world).get_region toyEnv
            (smid.m_region_LRU.node n).key = (s4, .ok m) ∧
          (s4.m_region_LRU.node m).val.end_ = (smid.m_region_LRU.node n).val.end_ ∧
          (s4.m_region_LRU.node m).val.garbage = (smid.m_region_LRU.node n).val.garbage) :=
  persistence_across_sessions toyEnv toyEnv_valid (VoxelStorage.init smallConfig emptyWorld)
    (storeOK_init_empty toyEnv).1 ⟨0, 0, 0⟩ (by decide) [9, 8, 7, 6] rfl 2 (by decide)
    (by decide) true false

/-- The constants of the source satisfy what `Env.Valid` assumes of the configuration, for
a codec whose `compressBound` of a block array is 4110 bytes, as that of zlib. -/
theorem valid_of_defaultConfig (codec : Codec) (generate : Vec3 → List Nat)
    (hbound : codec.compressBound 4096 = defaultMaxCompressed)
    (hcodec : ∀ blocks : List Nat, blocks.length = 4096 →
      ∃ compressed, codec.compress2 blocks 4110 = some compressed ∧ 0 < compressed.length ∧
        compressed.length ≤ 4110 ∧ codec.uncompress compressed 4096 = some blocks)
    (hgen : ∀ p, (generate p).length = 4096) :
    Env.Valid { cfg := defaultConfig, codec := codec, create_new_chunk := generate } := by
  have hmax : c_maximum_compressed_size defaultConfig codec = 4110 := hbound
  refine ⟨?_, (by decide : 0 < defaultConfig.DEFRAGMENT_GARBAGE_THRESHOLD),
    (by decide : defaultConfig.RegionSizePos), (by decide : 1 ≤ defaultConfig.CHUNK_HEAP_SIZE),
    (by decide : 2 ≤ defaultConfig.REGION_HEAP_SIZE), ?_, hgen⟩
  · show defaultConfig.Fits (c_maximum_compressed_size defaultConfig codec)
    rw [hmax]
    decide
  · intro blocks hlen
    show ∃ compressed, codec.compress2 blocks (c_maximum_compressed_size defaultConfig codec)
        = some compressed ∧ 0 < compressed.length ∧
      compressed.length ≤ c_maximum_compressed_size defaultConfig codec ∧
      codec.uncompress compressed 4096 = some blocks
    rw [hmax]
    exact hcodec blocks hlen

/-! ## C11: packed coordinates -/

theorem field_mask_eq : Math.field_mask = 2097151 := by decide

theorem to_u64_field_mask : to_u64 Math.field_mask = 2 ^ 21 - 1 := by decide

theorem and_s32_field_mask (a : Int) :
    and_s32 a Math.field_mask = a % 2097152 := by
  unfold and_s32
  have hm : to_u32 Math.field_mask = 2 ^ 21 - 1 := by decide
  rw [hm, Nat.and_pow_two_sub_one_eq_mod]
  unfold to_u32 wrapS32
  have h0 : 0 ≤ a % 4294967296 := Int.emod_nonneg _ (by decide)
  have : (Int.ofNat ((a % 4294967296).toNat % 2 ^ 21) : Int) = (a % 4294967296) % 2097152 := by
    show (((a % 4294967296).toNat % 2 ^ 21 : Nat) : Int) = _
    rw [Int.natCast_mod, Int.toNat_of_nonneg h0]
    norm_num
  rw [this]
  omega

/-- The packed word of three 21-bit fields. -/
theorem toDumb3_eq (v : Vec3) :
    Math.toDumb3 v = (v.x % 2097152).toNat + 2097152 * ((v.y % 2097152).toNat
      + 2097152 * (v.z % 2097152).toNat) := by
  unfold Math.toDumb3
  simp only [and_s32_field_mask]
  have key : ∀ a : Int, to_u64 (a % 2097152) = (a % 2097152).toNat ∧
      (a % 2097152).toNat < 2097152 := by
    intro a
    have h0 : 0 ≤ a % 2097152 := Int.emod_nonneg _ (by decide)
    have h1 : a % 2097152 < 2097152 := Int.emod_lt_of_pos _ (by decide)
    unfold to_u64
    refine ⟨?_, by omega⟩
    rw [Int.emod_eq_of_lt h0 (by omega)]
  obtain ⟨ex, lx⟩ := key v.x
  obtain ⟨ey, ly⟩ := key v.y
  obtain ⟨ez, lz⟩ := key v.z
  rw [ex, ey, ez]
  generalize (v.x % 2097152).toNat = X at lx ⊢
  generalize (v.y % 2097152).toNat = Y at ly ⊢
  generalize (v.z % 2097152).toNat = Z at lz ⊢
  simp only [Nat.shiftLeft_eq, wrapU64]
  have e1 : X * 2 ^ (0 * 21) % 18446744073709551616 = X := by
    norm_num; omega
  have e2 : Y * 2 ^ (1 * 21) % 18446744073709551616 = 2 ^ 21 * Y := by
    norm_num; omega
  have e3 : Z * 2 ^ (2 * 21) % 18446744073709551616 = 2 ^ 42 * Z := by
    norm_num; omega
  rw [e1, e2, e3]
  have hX : X < 2 ^ 21 := by norm_num; exact lx
  have hY : 2 ^ 21 * Y + X < 2 ^ 42 := by norm_num; omega
  rw [Nat.or_comm X, ← Nat.mul_add_lt_is_or hX, Nat.or_comm _ (2 ^ 42 * Z),
    ← Nat.mul_add_lt_is_or hY]
  norm_num
  omega


theorem unpack_field_eq (X Y Z : Nat) (hX : X < 2097152) (hY : Y < 2097152)
    (hZ : Z < 2097152) (k : Nat) (F : Nat)
    (hk : (k = 0 ∧ F = X) ∨ (k = 1 ∧ F = Y) ∨ (k = 2 ∧ F = Z)) :
    Math.unpack_field (X + 2097152 * (Y + 2097152 * Z)) k
      = if F < 1048576 then (F : Int) else (F : Int) - 2097152 := by
  unfold Math.unpack_field
  rw [to_u64_field_mask, Nat.and_pow_two_sub_one_eq_mod, Nat.shiftRight_eq_div_pow]
  have hF : (X + 2097152 * (Y + 2097152 * Z)) / 2 ^ (k * 21) % 2 ^ 21 = F := by
    rcases hk with ⟨rfl, rfl⟩ | ⟨rfl, rfl⟩ | ⟨rfl, rfl⟩
    · norm_num; omega
    · norm_num; omega
    · norm_num; omega
  have hFlt : F < 2097152 := by
    rcases hk with ⟨_, rfl⟩ | ⟨_, rfl⟩ | ⟨_, rfl⟩ <;> assumption
  rw [hF]
  simp only [shl_s32, shr_s32, Int.shiftRight_eq_div_pow]
  have e0 : wrapS32 (Int.ofNat F) = (F : Int) := by
    apply wrapS32_id
    · show (-2147483648 : Int) ≤ (F : Int); omega
    · show (F : Int) ≤ 2147483647; omega
  rw [e0]
  norm_num
  unfold wrapS32
  split_ifs with h <;> omega

/-- Unpacking a packed coordinate whose components fit into 21 bits gives it back. -/
theorem Math.toVec3_toDumb3 (p : Vec3) (hp : p.isS21) : Math.toVec3 (Math.toDumb3 p) = p := by
  obtain ⟨⟨hx0, hx1⟩, ⟨hy0, hy1⟩, ⟨hz0, hz1⟩⟩ := hp
  have key : ∀ a : Int, (a % 2097152).toNat < 2097152 ∧
      ((a % 2097152).toNat : Int) = a % 2097152 := by
    intro a
    have h0 : 0 ≤ a % 2097152 := Int.emod_nonneg _ (by decide)
    have h1 : a % 2097152 < 2097152 := Int.emod_lt_of_pos _ (by decide)
    exact ⟨by omega, Int.toNat_of_nonneg h0⟩
  obtain ⟨lx, ex⟩ := key p.x
  obtain ⟨ly, ey⟩ := key p.y
  obtain ⟨lz, ez⟩ := key p.z
  rw [toDumb3_eq]
  unfold Math.toVec3
  rw [unpack_field_eq _ _ _ lx ly lz 0 _ (Or.inl ⟨rfl, rfl⟩),
    unpack_field_eq _ _ _ lx ly lz 1 _ (Or.inr (Or.inl ⟨rfl, rfl⟩)),
    unpack_field_eq _ _ _ lx ly lz 2 _ (Or.inr (Or.inr ⟨rfl, rfl⟩))]
  have comp : ∀ a : Int, -1048576 ≤ a → a ≤ 1048575 →
      (if (a % 2097152).toNat < 1048576 then ((a % 2097152).toNat : Int)
        else ((a % 2097152).toNat : Int) - 2097152) = a := by
    intro a h0 h1
    have := (key a).2
    split_ifs with h <;> omega
  rw [comp p.x hx0 hx1, comp p.y hy0 hy1, comp p.z hz0 hz1]

/-- C11: for every coordinate whose three components lie in `[−2^20, 2^20 − 1]`,
`toVec3(toDumb3(p)) = p`. -/
theorem packed_round_trip (p : Vec3) (hp : p.isS21) : Math.toVec3 (Math.toDumb3 p) = p := by
  obtain ⟨hx, hy, hz⟩ := hp
  exact Math.toVec3_toDumb3 p ⟨hx, hy, hz⟩

/-- Witness for `packed_round_trip`: the coordinate `(−1048576, 1048575, −1)`. -/
theorem packed_round_trip_witness :
    Math.toVec3 (Math.toDumb3 ⟨-1048576, 1048575, -1⟩) = ⟨-1048576, 1048575, -1⟩ :=
  packed_round_trip ⟨-1048576, 1048575, -1⟩ (by decide)

/-! ## C12: region ownership -/

/-- C12: for every chunk coordinate `p` the slot `position_to_index(p, REGION_SIZE)` lies
in `[0, REGION_VOLUME)`, so does the `uint32_t` it is converted to (the assertions
`chunk_index < REGION_VOLUME` hold); two different chunk coordinates of the same region
`floor_div(p, REGION_SIZE)` have different slots; hence `p ↦ (region, slot)` is
injective. -/
theorem region_ownership (p q : Vec3) (hp : p.isS32) (hq : q.isS32) :
    0 ≤ VoxelStorage.position_to_index p defaultConfig.REGION_SIZE ∧
      VoxelStorage.position_to_index p defaultConfig.REGION_SIZE
        < defaultConfig.REGION_VOLUME ∧
      VoxelStorage.slot_index defaultConfig p < defaultConfig.REGION_VOLUME ∧
      (p ≠ q → VoxelStorage.floor_div p defaultConfig.REGION_SIZE
          = VoxelStorage.floor_div q defaultConfig.REGION_SIZE →
        VoxelStorage.position_to_index p defaultConfig.REGION_SIZE
          ≠ VoxelStorage.position_to_index q defaultConfig.REGION_SIZE) ∧
      ((VoxelStorage.floor_div p defaultConfig.REGION_SIZE,
          VoxelStorage.position_to_index p defaultConfig.REGION_SIZE)
        = (VoxelStorage.floor_div q defaultConfig.REGION_SIZE,
          VoxelStorage.position_to_index q defaultConfig.REGION_SIZE) → p = q) := by
  have hpos : defaultConfig.RegionSizePos := by decide
  have hvol : defaultConfig.REGION_VOLUME < 536870912 := by decide
  obtain ⟨_, _, h0, h1⟩ := position_to_index_eq defaultConfig hpos hvol p hp
  have hinj : VoxelStorage.floor_div p defaultConfig.REGION_SIZE
      = VoxelStorage.floor_div q defaultConfig.REGION_SIZE →
      VoxelStorage.position_to_index p defaultConfig.REGION_SIZE
        = VoxelStorage.position_to_index q defaultConfig.REGION_SIZE → p = q := by
    intro hr hs
    apply slot_index_inj defaultConfig hpos hvol p q hp hq hr
    unfold VoxelStorage.slot_index
    rw [hs]
  refine ⟨h0, h1, slot_index_lt defaultConfig hpos hvol p hp, ?_, ?_⟩
  · intro hne hr hs
    exact hne (hinj hr hs)
  · intro h
    exact hinj (congrArg Prod.fst h) (congrArg Prod.snd h)

/-- Witness for `region_ownership`: the chunks `(−1, 0, 33)` and `(31, 32, 1)` lie in
different regions and share slot 1055. -/
theorem region_ownership_witness :
    0 ≤ VoxelStorage.position_to_index ⟨-1, 0, 33⟩ defaultConfig.REGION_SIZE ∧
      VoxelStorage.position_to_index ⟨-1, 0, 33⟩ defaultConfig.REGION_SIZE
        < defaultConfig.REGION_VOLUME ∧
      VoxelStorage.slot_index defaultConfig ⟨-1, 0, 33⟩ < defaultConfig.REGION_VOLUME ∧
      ((⟨-1, 0, 33⟩ : Vec3) ≠ ⟨31, 32, 1⟩ →
        VoxelStorage.floor_div ⟨-1, 0, 33⟩ defaultConfig.REGION_SIZE
          = VoxelStorage.floor_div ⟨31, 32, 1⟩ defaultConfig.REGION_SIZE →
        VoxelStorage.position_to_index ⟨-1, 0, 33⟩ defaultConfig.REGION_SIZE
          ≠ VoxelStorage.position_to_index ⟨31, 32, 1⟩ defaultConfig.REGION_SIZE) ∧
      ((VoxelStorage.floor_div ⟨-1, 0, 33⟩ defaultConfig.REGION_SIZE,
          VoxelStorage.position_to_index ⟨-1, 0, 33⟩ defaultConfig.REGION_SIZE)
        = (VoxelStorage.floor_div ⟨31, 32, 1⟩ defaultConfig.REGION_SIZE,
          VoxelStorage.position_to_index ⟨31, 32, 1⟩ defaultConfig.REGION_SIZE) →
        (⟨-1, 0, 33⟩ : Vec3) = ⟨31, 32, 1⟩) :=
  region_ownership ⟨-1, 0, 33⟩ ⟨31, 32, 1⟩ (by decide) (by decide)

/-! ## C13: slots of a ring array -/

/-- On dimensions that fit, `position_to_index` is the mixed-radix number of the
remainders of the position, and it lies inside the array. -/
theorem Math.position_to_index_value (s p : Vec3) (hs : ArrayDimsFit s) :
    Math.position_to_index p s = (p.z % s.z * s.y + p.y % s.y) * s.x + p.x % s.x ∧
      0 ≤ Math.position_to_index p s ∧ Math.position_to_index p s < Math.volume s ∧
      Math.volume s = s.x * s.y * s.z := by
  obtain ⟨sx, sy, sz⟩ := s
  obtain ⟨⟨hx, hx2⟩, ⟨hy, hy2⟩, ⟨hz, hz2⟩, hv⟩ := hs
  simp only at hx hx2 hy hy2 hz hz2 hv ⊢
  have mx0 := Int.emod_nonneg p.x (ne_of_gt hx)
  have mx1 := Int.emod_lt_of_pos p.x hx
  have my0 := Int.emod_nonneg p.y (ne_of_gt hy)
  have my1 := Int.emod_lt_of_pos p.y hy
  have mz0 := Int.emod_nonneg p.z (ne_of_gt hz)
  have mz1 := Int.emod_lt_of_pos p.z hz
  obtain ⟨a1, a2, a3, a4, a5, a6, a7, a8, a9, a10, lx, ly, lz⟩ :=
    @index_bounds sx sy sz _ _ _ mx0 mx1 my0 my1 mz0 mz1
  have fmx := floor_mod_s32_eq p.x sx hx (tmod_add_fits _ _ hx hx2)
  have fmy := floor_mod_s32_eq p.y sy hy (tmod_add_fits _ _ hy hy2)
  have fmz := floor_mod_s32_eq p.z sz hz (tmod_add_fits _ _ hz hz2)
  have e1 : p.z % sz * sy ≤ p.z % sz * sy * sx := by
    have := mul_le_mul_of_nonneg_left (show (1 : Int) ≤ sx by omega) a1
    simpa using this
  have e2 : (p.z % sz * sy + p.y % sy) * sx = p.z % sz * sy * sx + p.y % sy * sx := by ring
  have e3 : p.y % sy ≤ p.y % sy * sx := by
    have := mul_le_mul_of_nonneg_left (show (1 : Int) ≤ sx by omega) my0
    simpa using this
  have w1 : wrapS32 (p.z % sz * sy) = p.z % sz * sy := wrapS32_id (by omega) (by omega)
  have w2 : wrapS32 (p.z % sz * sy + p.y % sy) = p.z % sz * sy + p.y % sy :=
    wrapS32_id (by omega) (by omega)
  have w3 : wrapS32 ((p.z % sz * sy + p.y % sy) * sx) = (p.z % sz * sy + p.y % sy) * sx :=
    wrapS32_id (by omega) (by omega)
  have w4 : wrapS32 ((p.z % sz * sy + p.y % sy) * sx + p.x % sx)
      = (p.z % sz * sy + p.y % sy) * sx + p.x % sx := wrapS32_id (by omega) (by omega)
  have hidx : Math.position_to_index p ⟨sx, sy, sz⟩
      = (p.z % sz * sy + p.y % sy) * sx + p.x % sx := by
    unfold Math.position_to_index Math.to_index Math.floor_mod
    simp only [fmx, fmy, fmz, w1, w2, w3, w4]
  have d7 : 0 < sx * sy := mul_pos hx hy
  have d8 : sx * sy ≤ sx * sy * sz := by
    have := mul_le_mul_of_nonneg_left (show (1 : Int) ≤ sz by omega) (le_of_lt d7)
    simpa using this
  have hvol : Math.volume ⟨sx, sy, sz⟩ = sx * sy * sz := by
    unfold Math.volume
    simp only
    rw [wrapS32_id (x := sx * sy) (by omega) (by omega), wrapS32_id (by omega) (by omega)]
  refine ⟨hidx, ?_, ?_, hvol⟩
  · rw [hidx]; omega
  · rw [hidx, hvol]; omega

/-- Two integers with the same remainder that are less than the modulus apart are
equal. -/
theorem eq_of_emod_eq_of_near (a b s R : Int) (hs : 2 * R + 1 ≤ s) (c : Int)
    (ha : -R ≤ a - c ∧ a - c ≤ R) (hb : -R ≤ b - c ∧ b - c ≤ R) (h : a % s = b % s) :
    a = b := by
  have hdvd : s ∣ a - b := Int.ModEq.dvd (show b ≡ a [ZMOD s] from h.symm)
  have habs : |a - b| < s := by
    rw [abs_lt]
    constructor <;> omega
  have := Int.eq_zero_of_abs_lt_dvd hdvd habs
  omega

/-- Inside a box of radius `R` around any center, positions with the same index in an
array of at least `2R + 1` entries per axis are equal. -/
theorem Math.position_to_index_inj (c : Vec3) (R : Int) (s p q : Vec3) (hs : ArrayDimsFit s)
    (hR : 2 * R + 1 ≤ s.x ∧ 2 * R + 1 ≤ s.y ∧ 2 * R + 1 ≤ s.z)
    (hp : inRadius c R p) (hq : inRadius c R q)
    (h : Math.position_to_index p s = Math.position_to_index q s) : p = q := by
  obtain ⟨ep, _, _, _⟩ := Math.position_to_index_value s p hs
  obtain ⟨eq, _, _, _⟩ := Math.position_to_index_value s q hs
  rw [ep, eq] at h
  obtain ⟨⟨hx, _⟩, ⟨hy, _⟩, ⟨hz, _⟩, _⟩ := hs
  obtain ⟨h1, hxx⟩ := mixed_radix_unique (Int.emod_nonneg p.x (ne_of_gt hx))
    (Int.emod_lt_of_pos p.x hx) (Int.emod_nonneg q.x (ne_of_gt hx))
    (Int.emod_lt_of_pos q.x hx) h
  obtain ⟨hzz, hyy⟩ := mixed_radix_unique (Int.emod_nonneg p.y (ne_of_gt hy))
    (Int.emod_lt_of_pos p.y hy) (Int.emod_nonneg q.y (ne_of_gt hy))
    (Int.emod_lt_of_pos q.y hy) h1
  obtain ⟨px, py, pz⟩ := hp
  obtain ⟨qx, qy, qz⟩ := hq
  have e1 := eq_of_emod_eq_of_near p.x q.x s.x R hR.1 c.x px qx hxx
  have e2 := eq_of_emod_eq_of_near p.y q.y s.y R hR.2.1 c.y py qy hyy
  have e3 := eq_of_emod_eq_of_near p.z q.z s.z R hR.2.2 c.z pz qz hzz
  cases p; cases q
  simp only at e1 e2 e3
  rw [e1, e2, e3]

/-- C13 as stated fails: in an array of `65536 × 65536 × 3` slots, which is at least
`2R + 1 = 3` wide on every axis, the positions `(0, 0, 0)` and `(0, 0, 1)` within radius 1
of the center `(0, 0, 0)` both have index 0, because `(1 * 65536 + 0) * 65536` wraps to 0
in `int32_t`. -/
theorem ring_slots_counterexample :
    (0 : Int) ≤ 1 ∧ (2 * 1 + 1 ≤ (65536 : Int) ∧ 2 * 1 + 1 ≤ (65536 : Int) ∧
        2 * 1 + 1 ≤ (3 : Int)) ∧
      inRadius ⟨0, 0, 0⟩ 1 ⟨0, 0, 0⟩ ∧ inRadius ⟨0, 0, 0⟩ 1 ⟨0, 0, 1⟩ ∧
      (⟨0, 0, 0⟩ : Vec3) ≠ ⟨0, 0, 1⟩ ∧
      Math.position_to_index ⟨0, 0, 0⟩ ⟨65536, 65536, 3⟩ = 0 ∧
      Math.position_to_index ⟨0, 0, 1⟩ ⟨65536, 65536, 3⟩ = 0 ∧
      ¬ (Math.position_to_index ⟨0, 0, 0⟩ ⟨65536, 65536, 3⟩
        ≠ Math.position_to_index ⟨0, 0, 1⟩ ⟨65536, 65536, 3⟩) := by
  decide

/-- C13 (as amended): for every center `c`, radius `R ≥ 0` and array dimensions `s` with
`s ≥ 2R + 1` on each axis, at most `2^30` on each axis and of a volume of at most
`2^31 − 1`, two different positions `p`, `q` with `|p − c|∞ ≤ R` and `|q − c|∞ ≤ R` have
different `position_to_index`, and both indices lie in `[0, volume(s))`. -/
theorem ring_slots_distinct (c : Vec3) (R : Int) (s p q : Vec3) (hR : 0 ≤ R)
    (hs : 2 * R + 1 ≤ s.x ∧ 2 * R + 1 ≤ s.y ∧ 2 * R + 1 ≤ s.z)
    (hfit : s.x ≤ 1073741824 ∧ s.y ≤ 1073741824 ∧ s.z ≤ 1073741824 ∧
      s.x * s.y * s.z ≤ 2147483647)
    (hp : inRadius c R p) (hq : inRadius c R q) (hne : p ≠ q) :
    Math.position_to_index p s ≠ Math.position_to_index q s ∧
      (0 ≤ Math.position_to_index p s ∧ Math.position_to_index p s < Math.volume s) ∧
      (0 ≤ Math.position_to_index q s ∧ Math.position_to_index q s < Math.volume s) := by
  have hdims : ArrayDimsFit s :=
    ⟨⟨by omega, hfit.1⟩, ⟨by omega, hfit.2.1⟩, ⟨by omega, hfit.2.2.1⟩, hfit.2.2.2⟩
  obtain ⟨_, p0, p1, _⟩ := Math.position_to_index_value s p hdims
  obtain ⟨_, q0, q1, _⟩ := Math.position_to_index_value s q hdims
  exact ⟨fun h => hne (Math.position_to_index_inj c R s p q hdims hs hp hq h), ⟨p0, p1⟩,
    ⟨q0, q1⟩⟩

/-- Witness for `ring_slots_distinct`: radius 2 around `(5, −3, 0)` in a `5 × 5 × 5`
array. -/
theorem ring_slots_distinct_witness :
    Math.position_to_index ⟨7, -5, 2⟩ ⟨5, 5, 5⟩ ≠ Math.position_to_index ⟨3, -1, -2⟩ ⟨5, 5, 5⟩ ∧
      (0 ≤ Math.position_to_index ⟨7, -5, 2⟩ ⟨5, 5, 5⟩ ∧
        Math.position_to_index ⟨7, -5, 2⟩ ⟨5, 5, 5⟩ < Math.volume ⟨5, 5, 5⟩) ∧
      (0 ≤ Math.position_to_index ⟨3, -1, -2⟩ ⟨5, 5, 5⟩ ∧
        Math.position_to_index ⟨3, -1, -2⟩ ⟨5, 5, 5⟩ < Math.volume ⟨5, 5, 5⟩) :=
  ring_slots_distinct ⟨5, -3, 0⟩ 2 ⟨5, 5, 5⟩ ⟨7, -5, 2⟩ ⟨3, -1, -2⟩ (by decide) (by decide)
    (by decide) (by decide) (by decide) (by decide)

/-! ## C15, C16: the overlap of two boxes -/

theorem Math.inside_iff (a : Math.AABB3) (p : Vec3) :
    Math.inside a p = true ↔
      (a.min.x ≤ p.x ∧ p.x ≤ a.max.x) ∧ (a.min.y ≤ p.y ∧ p.y ≤ a.max.y) ∧
        (a.min.z ≤ p.z ∧ p.z ≤ a.max.z) := by
  unfold Math.inside
  simp only [Bool.and_eq_true, decide_eq_true_eq, ge_iff_le]
  tauto

theorem Math.overlap_cases (a b : Math.AABB3) :
    (Math.positive_extent a b ∧
      Math.overlap a b = { min := Vec3.max a.min b.min, max := Vec3.min a.max b.max }) ∨
    (¬ Math.positive_extent a b ∧
      Math.overlap a b = { min := ⟨0, 0, 0⟩, max := ⟨0, 0, 0⟩ }) := by
  unfold Math.overlap Math.positive_extent
  simp only
  by_cases h : Vec3.any_le_zero
      (Vec3.sub (Vec3.min a.max b.max) (Vec3.max a.min b.min)) = true
  · right
    rw [if_pos h]
    refine ⟨?_, rfl⟩
    unfold Vec3.any_le_zero at h
    simp only [Bool.or_eq_true, decide_eq_true_eq] at h
    omega
  · left
    rw [if_neg h]
    refine ⟨?_, rfl⟩
    unfold Vec3.any_le_zero at h
    simp only [Bool.or_eq_true, decide_eq_true_eq, not_or, not_le] at h
    exact ⟨h.1.1, h.1.2, h.2⟩

theorem Math.inside_origin (p : Vec3) :
    Math.inside { min := ⟨0, 0, 0⟩, max := ⟨0, 0, 0⟩ } p = true ↔ p = ⟨0, 0, 0⟩ := by
  rw [Math.inside_iff]
  obtain ⟨x, y, z⟩ := p
  simp only [Vec3.mk.injEq]
  omega

theorem Math.inside_meet (a b : Math.AABB3) (p : Vec3) :
    Math.inside { min := Vec3.max a.min b.min, max := Vec3.min a.max b.max } p = true ↔
      (Math.inside a p = true ∧ Math.inside b p = true) := by
  simp only [Math.inside_iff, Vec3.max, Vec3.min, le_min_iff, max_le_iff]
  tauto

/-- C15 as stated fails: the radius-1 boxes around `(0, 0, 0)` and `(10, 0, 0)` are
disjoint, their `overlap` is the box `(0,0,0)..(0,0,0)`, and the point `(0, 0, 0)` is
inside it although it is not inside the second box. -/
theorem overlap_inside_counterexample :
    Math.overlap (Math.toAABB3 ⟨0, 0, 0⟩ ⟨1, 1, 1⟩) (Math.toAABB3 ⟨10, 0, 0⟩ ⟨1, 1, 1⟩)
        = { min := ⟨0, 0, 0⟩, max := ⟨0, 0, 0⟩ } ∧
      Math.inside (Math.overlap (Math.toAABB3 ⟨0, 0, 0⟩ ⟨1, 1, 1⟩)
        (Math.toAABB3 ⟨10, 0, 0⟩ ⟨1, 1, 1⟩)) ⟨0, 0, 0⟩ = true ∧
      Math.inside (Math.toAABB3 ⟨0, 0, 0⟩ ⟨1, 1, 1⟩) ⟨0, 0, 0⟩ = true ∧
      Math.inside (Math.toAABB3 ⟨10, 0, 0⟩ ⟨1, 1, 1⟩) ⟨0, 0, 0⟩ = false := by
  decide

theorem Math.toAABB3_of_fits (c R : Vec3) (h : RadiusBoxFits c R) :
    Math.toAABB3 c R = Math.AABB3.mk (Vec3.mk (c.x - R.x) (c.y - R.y) (c.z - R.z))
      (Vec3.mk (c.x + R.x) (c.y + R.y) (c.z + R.z)) := by
  obtain ⟨⟨⟨a1, a2⟩, ⟨a3, a4⟩⟩, ⟨⟨b1, b2⟩, ⟨b3, b4⟩⟩, ⟨⟨d1, d2⟩, ⟨d3, d4⟩⟩⟩ := h
  unfold Math.toAABB3 Vec3.sub Vec3.add
  rw [wrapS32_id a1 a2, wrapS32_id a3 a4, wrapS32_id b1 b2, wrapS32_id b3 b4,
    wrapS32_id d1 d2, wrapS32_id d3 d4]

/-- C15 (as amended): for all centers `c1`, `c2` and every radius `R` whose radius boxes
`c ± R` and whose extents `min(max, max) − max(min, min)` fit `int32_t`, and every point `p`:
if the box `max(min, min) .. min(max, max)` of the two radius boxes has positive extent
(`max − min > 0`) on every axis, `p` is inside `overlap(toAABB3(c1, R), toAABB3(c2, R))` if
and only if it is inside both radius boxes; otherwise the overlap is the box
`(0,0,0)..(0,0,0)`, and `p` is inside it if and only if `p = (0, 0, 0)`. -/
theorem overlap_inside (c1 c2 R p : Vec3) (hb1 : RadiusBoxFits c1 R)
    (hb2 : RadiusBoxFits c2 R)
    (hfit : isS32 (Min.min (c1.x + R.x) (c2.x + R.x) - Max.max (c1.x - R.x) (c2.x - R.x)) ∧
      isS32 (Min.min (c1.y + R.y) (c2.y + R.y) - Max.max (c1.y - R.y) (c2.y - R.y)) ∧
      isS32 (Min.min (c1.z + R.z) (c2.z + R.z) - Max.max (c1.z - R.z) (c2.z - R.z))) :
    Math.inside (Math.overlap (Math.toAABB3 c1 R) (Math.toAABB3 c2 R)) p = true ↔
      if 0 < Min.min (c1.x + R.x) (c2.x + R.x) - Max.max (c1.x - R.x) (c2.x - R.x) ∧
          0 < Min.min (c1.y + R.y) (c2.y + R.y) - Max.max (c1.y - R.y) (c2.y - R.y) ∧
          0 < Min.min (c1.z + R.z) (c2.z + R.z) - Max.max (c1.z - R.z) (c2.z - R.z) then
        Math.inside (Math.toAABB3 c1 R) p = true ∧ Math.inside (Math.toAABB3 c2 R) p = true
      else p = ⟨0, 0, 0⟩ := by
  obtain ⟨⟨fx0, fx1⟩, ⟨fy0, fy1⟩, ⟨fz0, fz1⟩⟩ := hfit
  have hpe : Math.positive_extent (Math.toAABB3 c1 R) (Math.toAABB3 c2 R) ↔
      (0 < Min.min (c1.x + R.x) (c2.x + R.x) - Max.max (c1.x - R.x) (c2.x - R.x) ∧
        0 < Min.min (c1.y + R.y) (c2.y + R.y) - Max.max (c1.y - R.y) (c2.y - R.y) ∧
        0 < Min.min (c1.z + R.z) (c2.z + R.z) - Max.max (c1.z - R.z) (c2.z - R.z)) := by
    rw [Math.toAABB3_of_fits c1 R hb1, Math.toAABB3_of_fits c2 R hb2]
    unfold Math.positive_extent Vec3.sub Vec3.min Vec3.max
    simp only
    rw [wrapS32_id fx0 fx1, wrapS32_id fy0 fy1, wrapS32_id fz0 fz1]
  rcases Math.overlap_cases (Math.toAABB3 c1 R) (Math.toAABB3 c2 R) with ⟨h, e⟩ | ⟨h, e⟩
  · rw [if_pos (hpe.1 h), e]
    exact Math.inside_meet _ _ p
  · rw [if_neg (fun hh => h (hpe.2 hh)), e]
    exact Math.inside_origin p

/-- Witness for `overlap_inside`: the radius-2 boxes around `(0, 0, 0)` and `(1, 0, 0)`,
which overlap in `(−1, −2, −2)..(2, 2, 2)`, and the points `(2, 0, 0)`, inside both, and
`(3, 0, 0)`, inside the second box only. -/
theorem overlap_inside_witness :
    (RadiusBoxFits ⟨0, 0, 0⟩ ⟨2, 2, 2⟩ ∧ RadiusBoxFits ⟨1, 0, 0⟩ ⟨2, 2, 2⟩) ∧
    Math.inside (Math.overlap (Math.toAABB3 ⟨0, 0, 0⟩ ⟨2, 2, 2⟩)
      (Math.toAABB3 ⟨1, 0, 0⟩ ⟨2, 2, 2⟩)) ⟨2, 0, 0⟩ = true ∧
    Math.inside (Math.overlap (Math.toAABB3 ⟨0, 0, 0⟩ ⟨2, 2, 2⟩)
      (Math.toAABB3 ⟨1, 0, 0⟩ ⟨2, 2, 2⟩)) ⟨3, 0, 0⟩ = false :=
  ⟨by decide,
    (overlap_inside ⟨0, 0, 0⟩ ⟨1, 0, 0⟩ ⟨2, 2, 2⟩ ⟨2, 0, 0⟩ (by decide) (by decide)
      (by decide)).2 (by decide),
    by
      rw [← Bool.not_eq_true]
      intro hin
      exact absurd ((overlap_inside ⟨0, 0, 0⟩ ⟨1, 0, 0⟩ ⟨2, 2, 2⟩ ⟨3, 0, 0⟩ (by decide)
        (by decide) (by decide)).1 hin) (by decide)⟩

/-- For centers and radii of at most `2^29` in size, the box of the two radius boxes has
positive extent on every axis exactly if the centers are less than `2R` apart on every
axis. -/
theorem positive_extent_radius (c1 c2 R : Vec3)
    (h1 : (-536870912 ≤ c1.x ∧ c1.x ≤ 536870912) ∧ (-536870912 ≤ c1.y ∧ c1.y ≤ 536870912) ∧
      (-536870912 ≤ c1.z ∧ c1.z ≤ 536870912))
    (h2 : (-536870912 ≤ c2.x ∧ c2.x ≤ 536870912) ∧ (-536870912 ≤ c2.y ∧ c2.y ≤ 536870912) ∧
      (-536870912 ≤ c2.z ∧ c2.z ≤ 536870912))
    (hR : (0 ≤ R.x ∧ R.x ≤ 536870912) ∧ (0 ≤ R.y ∧ R.y ≤ 536870912) ∧
      (0 ≤ R.z ∧ R.z ≤ 536870912)) :
    Math.positive_extent (Math.toAABB3 c1 R) (Math.toAABB3 c2 R) ↔
      (|c1.x - c2.x| < 2 * R.x ∧ |c1.y - c2.y| < 2 * R.y ∧ |c1.z - c2.z| < 2 * R.z) := by
  have key : ∀ a b r : Int, -536870912 ≤ a → a ≤ 536870912 → -536870912 ≤ b →
      b ≤ 536870912 → 0 ≤ r → r ≤ 536870912 →
      (0 < wrapS32 (Min.min (wrapS32 (a + r)) (wrapS32 (b + r))
        - Max.max (wrapS32 (a - r)) (wrapS32 (b - r))) ↔ |a - b| < 2 * r) := by
    intro a b r ha0 ha1 hb0 hb1 hr0 hr1
    rw [wrapS32_id (x := a + r) (by omega) (by omega),
      wrapS32_id (x := b + r) (by omega) (by omega),
      wrapS32_id (x := a - r) (by omega) (by omega),
      wrapS32_id (x := b - r) (by omega) (by omega), abs_lt]
    rw [wrapS32_id (by omega) (by omega)]
    omega
  unfold Math.positive_extent Math.toAABB3 Vec3.sub Vec3.add Vec3.min Vec3.max
  simp only
  rw [key c1.x c2.x R.x h1.1.1 h1.1.2 h2.1.1 h2.1.2 hR.1.1 hR.1.2,
    key c1.y c2.y R.y h1.2.1.1 h1.2.1.2 h2.2.1.1 h2.2.1.2 hR.2.1.1 hR.2.1.2,
    key c1.z c2.z R.z h1.2.2.1 h1.2.2.2 h2.2.2.1 h2.2.2.2 hR.2.2.1 hR.2.2.2]

/-- C16 as stated fails: the boxes `a = b = (5,5,5)..(5,5,5)` give the box
`max(a.min, b.min) .. min(a.max, b.max) = (5,5,5)..(5,5,5)`, whose max is `≥` its min on
every axis, yet `overlap(a, b)` is `(0,0,0)..(0,0,0)`. -/
theorem overlap_value_counterexample :
    ((Vec3.max (⟨5, 5, 5⟩ : Vec3) ⟨5, 5, 5⟩).x ≤ (Vec3.min (⟨5, 5, 5⟩ : Vec3) ⟨5, 5, 5⟩).x ∧
      (Vec3.max (⟨5, 5, 5⟩ : Vec3) ⟨5, 5, 5⟩).y ≤ (Vec3.min (⟨5, 5, 5⟩ : Vec3) ⟨5, 5, 5⟩).y ∧
      (Vec3.max (⟨5, 5, 5⟩ : Vec3) ⟨5, 5, 5⟩).z ≤ (Vec3.min (⟨5, 5, 5⟩ : Vec3) ⟨5, 5, 5⟩).z) ∧
      Math.overlap ⟨⟨5, 5, 5⟩, ⟨5, 5, 5⟩⟩ ⟨⟨5, 5, 5⟩, ⟨5, 5, 5⟩⟩
        = { min := ⟨0, 0, 0⟩, max := ⟨0, 0, 0⟩ } ∧
      Math.overlap ⟨⟨5, 5, 5⟩, ⟨5, 5, 5⟩⟩ ⟨⟨5, 5, 5⟩, ⟨5, 5, 5⟩⟩
        ≠ { min := Vec3.max ⟨5, 5, 5⟩ ⟨5, 5, 5⟩, max := Vec3.min ⟨5, 5, 5⟩ ⟨5, 5, 5⟩ } := by
  decide

/-- C16 (as amended): for all boxes `a` and `b` whose box
`max(a.min, b.min) .. min(a.max, b.max)` has extents `max − min` that fit `int32_t`:
`overlap(a, b)` is that box whenever its max is greater than its min on every axis, and
it is the box `(0,0,0)..(0,0,0)` when the max is less than or equal to the min on some
axis. -/
theorem overlap_value (a b : Math.AABB3)
    (hfit : isS32 ((Vec3.min a.max b.max).x - (Vec3.max a.min b.min).x) ∧
      isS32 ((Vec3.min a.max b.max).y - (Vec3.max a.min b.min).y) ∧
      isS32 ((Vec3.min a.max b.max).z - (Vec3.max a.min b.min).z)) :
    (((Vec3.max a.min b.min).x < (Vec3.min a.max b.max).x ∧
        (Vec3.max a.min b.min).y < (Vec3.min a.max b.max).y ∧
        (Vec3.max a.min b.min).z < (Vec3.min a.max b.max).z) →
      Math.overlap a b = { min := Vec3.max a.min b.min, max := Vec3.min a.max b.max }) ∧
    (((Vec3.min a.max b.max).x ≤ (Vec3.max a.min b.min).x ∨
        (Vec3.min a.max b.max).y ≤ (Vec3.max a.min b.min).y ∨
        (Vec3.min a.max b.max).z ≤ (Vec3.max a.min b.min).z) →
      Math.overlap a b = { min := ⟨0, 0, 0⟩, max := ⟨0, 0, 0⟩ }) := by
  obtain ⟨⟨fx0, fx1⟩, ⟨fy0, fy1⟩, ⟨fz0, fz1⟩⟩ := hfit
  have ex : (Vec3.sub (Vec3.min a.max b.max) (Vec3.max a.min b.min)).x
      = (Vec3.min a.max b.max).x - (Vec3.max a.min b.min).x := wrapS32_id fx0 fx1
  have ey : (Vec3.sub (Vec3.min a.max b.max) (Vec3.max a.min b.min)).y
      = (Vec3.min a.max b.max).y - (Vec3.max a.min b.min).y := wrapS32_id fy0 fy1
  have ez : (Vec3.sub (Vec3.min a.max b.max) (Vec3.max a.min b.min)).z
      = (Vec3.min a.max b.max).z - (Vec3.max a.min b.min).z := wrapS32_id fz0 fz1
  rcases Math.overlap_cases a b with ⟨h, e⟩ | ⟨h, e⟩
  · unfold Math.positive_extent at h
    rw [ex, ey, ez] at h
    refine ⟨fun _ => e, fun hle => ?_⟩
    exfalso
    omega
  · unfold Math.positive_extent at h
    rw [ex, ey, ez] at h
    refine ⟨fun hlt => ?_, fun _ => e⟩
    exfalso
    omega

/-- Witness for `overlap_value`: the radius-2 boxes around `(0, 0, 0)` and `(1, 0, 0)`
overlap in `(−1, −2, −2)..(2, 2, 2)`. -/
theorem overlap_value_witness :
    (((Vec3.max (Math.toAABB3 ⟨0, 0, 0⟩ ⟨2, 2, 2⟩).min (Math.toAABB3 ⟨1, 0, 0⟩ ⟨2, 2, 2⟩).min).x
          < (Vec3.min (Math.toAABB3 ⟨0, 0, 0⟩ ⟨2, 2, 2⟩).max
            (Math.toAABB3 ⟨1, 0, 0⟩ ⟨2, 2, 2⟩).max).x ∧
        (Vec3.max (Math.toAABB3 ⟨0, 0, 0⟩ ⟨2, 2, 2⟩).min (Math.toAABB3 ⟨1, 0, 0⟩ ⟨2, 2, 2⟩).min).y
          < (Vec3.min (Math.toAABB3 ⟨0, 0, 0⟩ ⟨2, 2, 2⟩).max
            (Math.toAABB3 ⟨1, 0, 0⟩ ⟨2, 2, 2⟩).max).y ∧
        (Vec3.max (Math.toAABB3 ⟨0, 0, 0⟩ ⟨2, 2, 2⟩).min (Math.toAABB3 ⟨1, 0, 0⟩ ⟨2, 2, 2⟩).min).z
          < (Vec3.min (Math.toAABB3 ⟨0, 0, 0⟩ ⟨2, 2, 2⟩).max
            (Math.toAABB3 ⟨1, 0, 0⟩ ⟨2, 2, 2⟩).max).z) ∧
      Math.overlap (Math.toAABB3 ⟨0, 0, 0⟩ ⟨2, 2, 2⟩) (Math.toAABB3 ⟨1, 0, 0⟩ ⟨2, 2, 2⟩)
        = { min := ⟨-1, -2, -2⟩, max := ⟨2, 2, 2⟩ }) :=
  ⟨by decide,
    (overlap_value (Math.toAABB3 ⟨0, 0, 0⟩ ⟨2, 2, 2⟩) (Math.toAABB3 ⟨1, 0, 0⟩ ⟨2, 2, 2⟩)
      (by decide)).1 (by decide)⟩

/-! ## C14: the reader contract -/

theorem Vec3.all_equal_eq_true (a b : Vec3) : Vec3.all_equal a b = true ↔ a = b := by
  obtain ⟨ax, ay, az⟩ := a
  obtain ⟨bx, b_y, bz⟩ := b
  unfold Vec3.all_equal
  simp only [Bool.and_eq_true, decide_eq_true_eq, Vec3.mk.injEq]
  tauto

/-- C14: `getChunk(p)` returns a pointer other than null if and only if the position
stored in slot `position_to_index(p, CHUNK_ARRAY_SIZE)` equals `p` and `p` is inside the
current overlap box; the pointer then addresses the block array at offset
`slot · CHUNK_VOLUME`. -/
theorem reader_contract (cc : ContainerConfig) (vc : VoxelContainer) (p : Vec3) :
    (vc.getChunk cc p ≠ none ↔
      (Math.toVec3 (vc.m_chunk_positions (Math.position_to_index p cc.CHUNK_ARRAY_SIZE)) = p ∧
        Math.inside vc.m_center_chunk_overlap p = true)) ∧
    (vc.getChunk cc p = none ∨
      vc.getChunk cc p = some (Math.position_to_index p cc.CHUNK_ARRAY_SIZE * cc.CHUNK_VOLUME))
    := by
  unfold VoxelContainer.getChunk
  simp only
  by_cases h1 : Math.toVec3 (vc.m_chunk_positions
      (Math.position_to_index p cc.CHUNK_ARRAY_SIZE)) = p
  · have e1 := (Vec3.all_equal_eq_true _ _).2 h1
    rw [e1]
    by_cases h2 : Math.inside vc.m_center_chunk_overlap p = true
    · rw [h2]
      simp [h1]
    · have e2 : Math.inside vc.m_center_chunk_overlap p = false := by simpa using h2
      rw [e2]
      simp
  · have e1 : Vec3.all_equal (Math.toVec3 (vc.m_chunk_positions
        (Math.position_to_index p cc.CHUNK_ARRAY_SIZE))) p = false := by
      rw [← Bool.not_eq_true, Vec3.all_equal_eq_true]
      exact h1
    rw [e1]
    simp [h1]

/-! ## C17, C18: the radius iterator -/

theorem mem_int_range (lo hi x : Int) : x ∈ int_range lo hi ↔ lo ≤ x ∧ x ≤ hi := by
  unfold int_range
  simp only [List.mem_map, List.mem_range]
  constructor
  · rintro ⟨i, hi', rfl⟩
    omega
  · rintro ⟨h1, h2⟩
    exact ⟨(x - lo).toNat, by omega, by omega⟩

theorem nodup_int_range (lo hi : Int) : (int_range lo hi).Nodup := by
  unfold int_range
  apply List.Nodup.map _ (List.nodup_range _)
  intro a b h
  simp only at h
  omega

theorem length_int_range (lo hi : Int) : (int_range lo hi).length = (hi - lo + 1).toNat := by
  unfold int_range
  rw [List.length_map, List.length_range]

theorem length_flatMap_const {α β : Type} (f : α → List β) (k : Nat) :
    ∀ l : List α, (∀ a ∈ l, (f a).length = k) → (l.flatMap f).length = l.length * k := by
  intro l
  induction l with
  | nil => intro _; simp
  | cons a t ih =>
    intro h
    rw [List.flatMap_cons, List.length_append, h a (List.mem_cons_self _ _),
      ih (fun b hb => h b (List.mem_cons_of_mem _ hb)), List.length_cons]
    ring

theorem mem_fill (R : Int) (v : Vec3) : v ∈ MeshIterator.fill R ↔ inRadius ⟨0, 0, 0⟩ R v := by
  unfold MeshIterator.fill inRadius
  simp only [List.mem_flatMap, List.mem_map, mem_int_range]
  constructor
  · rintro ⟨z, hz, y, hy, x, hx, rfl⟩
    simp only
    omega
  · rintro ⟨hx, hy, hz⟩
    exact ⟨v.z, by omega, v.y, by omega, v.x, by omega, rfl⟩

theorem nodup_fill (R : Int) : (MeshIterator.fill R).Nodup := by
  unfold MeshIterator.fill
  rw [List.nodup_flatMap]
  refine ⟨fun z _ => ?_, ?_⟩
  · rw [List.nodup_flatMap]
    refine ⟨fun y _ => ?_, ?_⟩
    · apply List.Nodup.map _ (nodup_int_range _ _)
      intro a b h
      exact (Vec3.mk.inj h).1
    · refine (nodup_int_range _ _).imp ?_
      intro y y' hne
      show List.Disjoint _ _
      intro v h1 h2
      obtain ⟨x, _, rfl⟩ := List.mem_map.1 h1
      obtain ⟨x', _, e⟩ := List.mem_map.1 h2
      exact hne (Vec3.mk.inj e).2.1.symm
  · refine (nodup_int_range _ _).imp ?_
    intro z z' hne
    show List.Disjoint _ _
    intro v h1 h2
    obtain ⟨y, _, h1'⟩ := List.mem_flatMap.1 h1
    obtain ⟨x, _, rfl⟩ := List.mem_map.1 h1'
    obtain ⟨y', _, h2'⟩ := List.mem_flatMap.1 h2
    obtain ⟨x', _, e⟩ := List.mem_map.1 h2'
    exact hne (Vec3.mk.inj e).2.2.symm

theorem length_fill (R : Int) (hR : 0 ≤ R) :
    (MeshIterator.fill R).length = (2 * R.toNat + 1) ^ 3 := by
  unfold MeshIterator.fill
  have hl : (int_range (-R) R).length = 2 * R.toNat + 1 := by
    rw [length_int_range]
    omega
  rw [length_flatMap_const _ ((2 * R.toNat + 1) * (2 * R.toNat + 1)), hl]
  · ring
  · intro z _
    rw [length_flatMap_const _ (2 * R.toNat + 1), hl]
    intro y _
    rw [List.length_map, hl]

theorem insertion_sort_contract : SortContract insertion_sort := by
  refine ⟨fun less l => List.perm_insertionSort _ l, fun key l => ?_⟩
  unfold insertion_sort
  haveI : IsTotal Vec3 (fun a b : Vec3 => (decide (key b < key a)) = false) :=
    ⟨fun a b => by
      simp only [decide_eq_false_iff_not, not_lt]
      exact le_total _ _⟩
  haveI : IsTrans Vec3 (fun a b : Vec3 => (decide (key b < key a)) = false) :=
    ⟨fun a b c h1 h2 => by
      simp only [decide_eq_false_iff_not, not_lt] at h1 h2 ⊢
      exact le_trans h1 h2⟩
  have hs := List.sorted_insertionSort
    (fun a b : Vec3 => (decide (key b < key a)) = false) l
  refine List.Pairwise.imp ?_ hs
  intro a b h
  simpa using h

/-- C17: for every radius `R ≥ 0`, `MeshIterator(R)` holds exactly `(2R+1)^3` entries, and
every integer vector `(x, y, z)` with `|x|, |y|, |z| ≤ R` occurs exactly once (and no other
vector occurs); for `R < 0` it is empty. -/
theorem radius_iterator_contents
    (sort : (Vec3 → Vec3 → Bool) → List Vec3 → List Vec3) (hsort : SortContract sort)
    (R : Int) :
    (0 ≤ R →
      MeshIterator.size (MeshIterator.make sort R) = (2 * R.toNat + 1) ^ 3 ∧
      (∀ v : Vec3, inRadius ⟨0, 0, 0⟩ R v → (MeshIterator.make sort R).count v = 1) ∧
      (∀ v : Vec3, v ∈ MeshIterator.make sort R → inRadius ⟨0, 0, 0⟩ R v)) ∧
    (R < 0 → MeshIterator.make sort R = []) := by
  constructor
  · intro hR
    have hmk : MeshIterator.make sort R = sort MeshIterator.less (MeshIterator.fill R) := by
      unfold MeshIterator.make
      rw [if_neg (by omega)]
    have hperm := hsort.perm MeshIterator.less (MeshIterator.fill R)
    rw [hmk]
    refine ⟨?_, ?_, ?_⟩
    · unfold MeshIterator.size
      rw [hperm.length_eq, length_fill R hR]
    · intro v hv
      rw [hperm.count_eq]
      exact List.count_eq_one_of_mem (nodup_fill R) ((mem_fill R v).2 hv)
    · intro v hv
      exact (mem_fill R v).1 (hperm.mem_iff.1 hv)
  · intro hR
    unfold MeshIterator.make
    rw [if_pos hR]

/-- Witness for `radius_iterator_contents`: radius 1 and radius −1 with insertion sort. -/
theorem radius_iterator_contents_witness :
    (MeshIterator.size (MeshIterator.make insertion_sort 1) = (2 * (1 : Int).toNat + 1) ^ 3 ∧
      (∀ v : Vec3, inRadius ⟨0, 0, 0⟩ 1 v →
        (MeshIterator.make insertion_sort 1).count v = 1) ∧
      (∀ v : Vec3, v ∈ MeshIterator.make insertion_sort 1 → inRadius ⟨0, 0, 0⟩ 1 v)) ∧
    MeshIterator.make insertion_sort (-1) = [] :=
  ⟨(radius_iterator_contents insertion_sort insertion_sort_contract 1).1 (by decide),
    (radius_iterator_contents insertion_sort insertion_sort_contract (-1)).2 (by decide)⟩

theorem squared_eq_of_inRadius (R : Int) (hfit : 3 * R * R ≤ 2147483647) (v : Vec3)
    (hv : inRadius ⟨0, 0, 0⟩ R v) : MeshIterator.squared v = squared_length v := by
  obtain ⟨⟨x0, x1⟩, ⟨y0, y1⟩, ⟨z0, z1⟩⟩ := hv
  simp only [sub_zero] at x0 x1 y0 y1 z0 z1
  have sq : ∀ a : Int, -R ≤ a → a ≤ R → 0 ≤ a * a ∧ a * a ≤ R * R := by
    intro a h0 h1
    refine ⟨mul_self_nonneg a, ?_⟩
    have := abs_le.2 ⟨h0, h1⟩
    have h2 := mul_self_le_mul_self (abs_nonneg a) this
    rw [abs_mul_abs_self] at h2
    have hR : 0 ≤ R := by omega
    calc a * a ≤ |R| * |R| := by
          have := mul_self_le_mul_self (abs_nonneg a) (le_trans this (le_abs_self R))
          rwa [abs_mul_abs_self] at this
      _ = R * R := abs_mul_abs_self R
  obtain ⟨sx0, sx1⟩ := sq v.x x0 x1
  obtain ⟨sy0, sy1⟩ := sq v.y y0 y1
  obtain ⟨sz0, sz1⟩ := sq v.z z0 z1
  have e3 : 3 * R * R = R * R + R * R + R * R := by ring
  unfold MeshIterator.squared squared_length
  rw [wrapS32_id (x := v.x * v.x) (by omega) (by omega),
    wrapS32_id (x := v.y * v.y) (by omega) (by omega),
    wrapS32_id (x := v.z * v.z) (by omega) (by omega),
    wrapS32_id (x := v.x * v.x + v.y * v.y) (by omega) (by omega),
    wrapS32_id (by omega) (by omega)]

theorem eq_origin_of_squared_length_le (v : Vec3) (h : squared_length v ≤ 0) :
    v = ⟨0, 0, 0⟩ := by
  obtain ⟨x, y, z⟩ := v
  unfold squared_length at h
  simp only at h
  have hx := mul_self_nonneg x
  have hy := mul_self_nonneg y
  have hz := mul_self_nonneg z
  have ex : x * x = 0 := by omega
  have ey : y * y = 0 := by omega
  have ez : z * z = 0 := by omega
  rw [mul_self_eq_zero.1 ex, mul_self_eq_zero.1 ey, mul_self_eq_zero.1 ez]

/-- The list the constructor of `MeshIterator` builds when no allocation fails, for a radius
`R ≥ 0` with `3R² ≤ 2^31 − 1` (that is `R ≤ 26754`, so that the `int` expression
`x * x + y * y + z * z` of the comparator is the squared length): for all indices
`i < j < size()` the squared length of `get(i)` is `≤` that of `get(j)`, and
`get(0) = (0, 0, 0)`. -/
theorem MeshIterator.make_distance_order
    (sort : (Vec3 → Vec3 → Bool) → List Vec3 → List Vec3) (hsort : SortContract sort)
    (R : Int) (hR : 0 ≤ R) (hfit : 3 * R * R ≤ 2147483647) :
    (∀ i j : Nat, i < j → j < MeshIterator.size (MeshIterator.make sort R) →
      ∃ a b, MeshIterator.get (MeshIterator.make sort R) i = some a ∧
        MeshIterator.get (MeshIterator.make sort R) j = some b ∧
        squared_length a ≤ squared_length b) ∧
    MeshIterator.get (MeshIterator.make sort R) 0 = some ⟨0, 0, 0⟩ := by
  have hmk : MeshIterator.make sort R = sort MeshIterator.less (MeshIterator.fill R) := by
    unfold MeshIterator.make
    rw [if_neg (by omega)]
  have hperm := hsort.perm MeshIterator.less (MeshIterator.fill R)
  have hsorted0 : (sort MeshIterator.less (MeshIterator.fill R)).Pairwise
      (fun u v => MeshIterator.squared u ≤ MeshIterator.squared v) :=
    hsort.sorted MeshIterator.squared (MeshIterator.fill R)
  rw [hmk]
  generalize sort MeshIterator.less (MeshIterator.fill R) = L at hperm hsorted0
  have hin : ∀ v, v ∈ L → inRadius ⟨0, 0, 0⟩ R v := fun v hv =>
    (mem_fill R v).1 (hperm.mem_iff.1 hv)
  have hsorted : L.Pairwise (fun u v => squared_length u ≤ squared_length v) := by
    refine hsorted0.imp_of_mem ?_
    intro u v hu hv h
    rw [← squared_eq_of_inRadius R hfit u (hin u hu), ← squared_eq_of_inRadius R hfit v (hin v hv)]
    exact h
  have horigin : (⟨0, 0, 0⟩ : Vec3) ∈ L :=
    hperm.mem_iff.2 ((mem_fill R _).2 (by
      unfold inRadius
      simp only [sub_zero]
      omega))
  unfold MeshIterator.get MeshIterator.size
  constructor
  · intro i j hij hj
    have hi : i < L.length := lt_trans hij hj
    refine ⟨L.get ⟨i, hi⟩, L.get ⟨j, hj⟩, List.get?_eq_get hi, List.get?_eq_get hj, ?_⟩
    exact List.pairwise_iff_get.1 hsorted ⟨i, hi⟩ ⟨j, hj⟩ hij
  · match L, hsorted, horigin with
    | b :: t, hsorted, horigin =>
      simp only [List.get?_cons_zero, Option.some.injEq]
      rcases List.mem_cons.1 horigin with e | e
      · exact e.symm
      · have := (List.pairwise_cons.1 hsorted).1 _ e
        apply eq_origin_of_squared_length_le
        have h00 : squared_length ⟨0, 0, 0⟩ = 0 := by decide
        rw [h00] at this
        exact this

theorem MeshIterator.reserve_count_eq (R : Int) (h0 : 0 ≤ R) (h1 : R ≤ 1000000) :
    MeshIterator.reserve_count R = (2 * R.toNat + 1) ^ 3 := by
  obtain ⟨n, rfl⟩ := Int.eq_ofNat_of_zero_le h0
  have hn : n ≤ 1000000 := by omega
  have e1 : to_u64 (n : Int) = n := by
    unfold to_u64
    omega
  have e2 : wrapU64 (2 * n) = 2 * n := by unfold wrapU64; omega
  have e3 : wrapU64 (2 * n + 1) = 2 * n + 1 := by unfold wrapU64; omega
  have hd : 2 * n + 1 ≤ 2000001 := by omega
  have h2 : (2 * n + 1) * (2 * n + 1) ≤ 2000001 * 2000001 := Nat.mul_le_mul hd hd
  have h3 : (2 * n + 1) * (2 * n + 1) * (2 * n + 1) ≤ 2000001 * 2000001 * 2000001 :=
    Nat.mul_le_mul h2 hd
  have e4 : wrapU64 ((2 * n + 1) * (2 * n + 1)) = (2 * n + 1) * (2 * n + 1) := by
    unfold wrapU64
    exact Nat.mod_eq_of_lt (by omega)
  have e5 : wrapU64 ((2 * n + 1) * (2 * n + 1) * (2 * n + 1))
      = (2 * n + 1) * (2 * n + 1) * (2 * n + 1) := by
    unfold wrapU64
    exact Nat.mod_eq_of_lt (by omega)
  unfold MeshIterator.reserve_count
  rw [e1, e2, e3, e4, e5, Int.toNat_ofNat]
  ring

/-- A list of `(2R + 1)³` entries that the allocator provides, with fewer than `53511³`
entries available, has a radius of at most 26754. -/
theorem radius_le_of_capacity (capacity : Nat) (hcap : capacity < 53511 ^ 3) (R : Int)
    (h : (2 * R.toNat + 1) ^ 3 ≤ capacity) : R ≤ 26754 := by
  by_contra hgt
  have h1 : 53511 ≤ 2 * R.toNat + 1 := by omega
  have h2 : 53511 ^ 3 ≤ (2 * R.toNat + 1) ^ 3 := Nat.pow_le_pow_left h1 3
  omega

/-- C18: the constructor of `MeshIterator` reserves `(2R + 1)³` entries before it fills and
sorts the list.  Where the allocator provides fewer than `53511³` entries (1.8 PB of
`glm::ivec3`), for every radius `R ≥ 0`: the constructor returns the sorted list if
`(2R + 1)³` entries are available and throws if not; and in every list it returns, for all
indices `i < j < size()` the squared length `x² + y² + z²` of `get(i)` is `≤` that of
`get(j)`, and `get(0) = (0, 0, 0)`. -/
theorem distance_first_order (capacity : Nat) (hcap : capacity < 53511 ^ 3)
    (sort : (Vec3 → Vec3 → Bool) → List Vec3 → List Vec3) (hsort : SortContract sort)
    (R : Int) (hR : 0 ≤ R) :
    ((2 * R.toNat + 1) ^ 3 ≤ capacity →
      MeshIterator.construct capacity sort R = some (MeshIterator.make sort R)) ∧
    (capacity < (2 * R.toNat + 1) ^ 3 → MeshIterator.construct capacity sort R = none) ∧
    ∀ m_values, MeshIterator.construct capacity sort R = some m_values →
      (∀ i j : Nat, i < j → j < MeshIterator.size m_values →
        ∃ a b, MeshIterator.get m_values i = some a ∧ MeshIterator.get m_values j = some b ∧
          squared_length a ≤ squared_length b) ∧
      MeshIterator.get m_values 0 = some ⟨0, 0, 0⟩ := by
  have hlen := length_fill R hR
  have hmk : MeshIterator.make sort R = sort MeshIterator.less (MeshIterator.fill R) := by
    unfold MeshIterator.make
    rw [if_neg (by omega)]
  have hret : (2 * R.toNat + 1) ^ 3 ≤ capacity →
      MeshIterator.construct capacity sort R = some (MeshIterator.make sort R) := by
    intro h
    have hR2 := radius_le_of_capacity capacity hcap R h
    unfold MeshIterator.construct
    rw [if_neg (by omega), MeshIterator.reserve_count_eq R hR (by omega), if_neg (by omega),
      hlen, if_neg (by omega), hmk]
  have hthrow : capacity < (2 * R.toNat + 1) ^ 3 →
      MeshIterator.construct capacity sort R = none := by
    intro h
    unfold MeshIterator.construct
    rw [if_neg (by omega)]
    by_cases h1 : capacity < MeshIterator.reserve_count R
    · rw [if_pos h1]
    · rw [if_neg h1, hlen, if_pos h]
  refine ⟨hret, hthrow, ?_⟩
  intro m_values hm
  have hle : (2 * R.toNat + 1) ^ 3 ≤ capacity := by
    by_contra hlt
    rw [hthrow (by omega)] at hm
    cases hm
  have hR2 := radius_le_of_capacity capacity hcap R hle
  rw [hret hle] at hm
  have hmv : m_values = MeshIterator.make sort R := (Option.some.inj hm).symm
  rw [hmv]
  have hfit : 3 * R * R ≤ 2147483647 := by nlinarith
  exact MeshIterator.make_distance_order sort hsort R hR hfit

/-- Witness for `distance_first_order`: radius 2 with insertion sort and an allocator that
provides 1000 entries. -/
theorem distance_first_order_witness :
    MeshIterator.construct 1000 insertion_sort 2 = some (MeshIterator.make insertion_sort 2) ∧
    MeshIterator.get (MeshIterator.make insertion_sort 2) 0 = some ⟨0, 0, 0⟩ :=
  ⟨(distance_first_order 1000 (by decide) insertion_sort insertion_sort_contract 2
      (by decide)).1 (by decide),
    ((distance_first_order 1000 (by decide) insertion_sort insertion_sort_contract 2
      (by decide)).2.2 _
      ((distance_first_order 1000 (by decide) insertion_sort insertion_sort_contract 2
        (by decide)).1 (by decide))).2⟩

/-! ## C20: residency after a full sweep -/

theorem mem_make (sort : (Vec3 → Vec3 → Bool) → List Vec3 → List Vec3)
    (hsort : SortContract sort) (R : Int) (hR : 0 ≤ R) (v : Vec3) :
    v ∈ MeshIterator.make sort R ↔ inRadius ⟨0, 0, 0⟩ R v := by
  unfold MeshIterator.make
  rw [if_neg (by omega), (hsort.perm MeshIterator.less (MeshIterator.fill R)).mem_iff]
  exact mem_fill R v

theorem load_chunk_slot_center (cc : ContainerConfig) (vc : VoxelContainer) (o : Vec3) :
    (vc.load_chunk_slot cc o).m_loader_center_chunk = vc.m_loader_center_chunk := by
  unfold VoxelContainer.load_chunk_slot
  simp only
  split_ifs <;> rfl

theorem load_chunk_slot_congr (cc : ContainerConfig) (vc vc' : VoxelContainer) (o : Vec3)
    (h1 : vc'.m_chunk_positions = vc.m_chunk_positions)
    (h2 : vc'.m_loader_center_chunk = vc.m_loader_center_chunk) :
    (vc'.load_chunk_slot cc o).m_chunk_positions = (vc.load_chunk_slot cc o).m_chunk_positions
      ∧ (vc'.load_chunk_slot cc o).m_loader_center_chunk
        = (vc.load_chunk_slot cc o).m_loader_center_chunk := by
  refine ⟨?_, by rw [load_chunk_slot_center, load_chunk_slot_center, h2]⟩
  unfold VoxelContainer.load_chunk_slot
  simp only [h1, h2]
  split_ifs <;> simp only [h1]

theorem load_all_congr (cc : ContainerConfig) :
    ∀ (offsets : List Vec3) (vc vc' : VoxelContainer),
      vc'.m_chunk_positions = vc.m_chunk_positions →
      vc'.m_loader_center_chunk = vc.m_loader_center_chunk →
      (vc'.load_all cc offsets).m_chunk_positions = (vc.load_all cc offsets).m_chunk_positions
  := by
  intro offsets
  induction offsets with
  | nil => intro vc vc' h1 _; exact h1
  | cons o rest ih =>
    intro vc vc' h1 h2
    obtain ⟨g1, g2⟩ := load_chunk_slot_congr cc vc vc' o h1 h2
    exact ih _ _ g1 g2

theorem emit_meshes_frame (cc : ContainerConfig) :
    ∀ (meshes : List Vec3) (vc vc' : VoxelContainer), vc.emit_meshes cc meshes = some vc' →
      vc'.m_chunk_positions = vc.m_chunk_positions ∧
      vc'.m_loader_center_chunk = vc.m_loader_center_chunk ∧
      vc'.m_mesh_readines = vc.m_mesh_readines := by
  intro meshes
  induction meshes with
  | nil =>
    intro vc vc' h
    simp only [VoxelContainer.emit_meshes, Option.some.injEq] at h
    subst h
    exact ⟨rfl, rfl, rfl⟩
  | cons m rest ih =>
    intro vc vc' h
    simp only [VoxelContainer.emit_meshes] at h
    split_ifs at h with hg
    have := ih _ _ h
    exact this

theorem process_offset_frame (cc : ContainerConfig) (vc vc' : VoxelContainer) (o : Vec3)
    (h : vc.process_offset cc o = some vc') :
    vc'.m_chunk_positions = (vc.load_chunk_slot cc o).m_chunk_positions ∧
      vc'.m_loader_center_chunk = vc.m_loader_center_chunk := by
  unfold VoxelContainer.process_offset at h
  obtain ⟨g1, g2, _⟩ := emit_meshes_frame cc _ _ _ h
  exact ⟨g1, by rw [g2]; exact load_chunk_slot_center cc vc o⟩

/-- A sweep that completes leaves the chunk positions its chunk half leaves. -/
theorem sweep_chunk_positions (cc : ContainerConfig) :
    ∀ (offsets : List Vec3) (vc vc' : VoxelContainer), vc.sweep cc offsets = some vc' →
      vc'.m_chunk_positions = (vc.load_all cc offsets).m_chunk_positions := by
  intro offsets
  induction offsets with
  | nil =>
    intro vc vc' h
    simp only [VoxelContainer.sweep, Option.some.injEq] at h
    subst h
    rfl
  | cons o rest ih =>
    intro vc vc' h
    simp only [VoxelContainer.sweep] at h
    cases hp : vc.process_offset cc o with
    | none => rw [hp] at h; cases h
    | some vc1 =>
      rw [hp] at h
      obtain ⟨g1, g2⟩ := process_offset_frame cc vc vc1 o hp
      rw [ih vc1 vc' h]
      exact load_all_congr cc rest _ _ g1 (by rw [g2, load_chunk_slot_center])

theorem add_offset_center (c : Vec3) (R : Int) (hfit : SweepFits c R) (o : Vec3)
    (ho : inRadius ⟨0, 0, 0⟩ R o) :
    Vec3.add o c = ⟨o.x + c.x, o.y + c.y, o.z + c.z⟩ ∧ (Vec3.add o c).isS21 ∧
      inRadius c R (Vec3.add o c) := by
  obtain ⟨⟨hx0, hx1⟩, ⟨hy0, hy1⟩, ⟨hz0, hz1⟩⟩ := ho
  obtain ⟨⟨fx0, fx1⟩, ⟨fy0, fy1⟩, ⟨fz0, fz1⟩⟩ := hfit
  unfold isS21 at fx0 fx1 fy0 fy1 fz0 fz1
  simp only [sub_zero] at hx0 hx1 hy0 hy1 hz0 hz1
  have e : Vec3.add o c = ⟨o.x + c.x, o.y + c.y, o.z + c.z⟩ := by
    unfold Vec3.add
    rw [wrapS32_id (x := o.x + c.x) (by omega) (by omega),
      wrapS32_id (x := o.y + c.y) (by omega) (by omega),
      wrapS32_id (x := o.z + c.z) (by omega) (by omega)]
  rw [e]
  refine ⟨rfl, ?_, ?_⟩
  · unfold Vec3.isS21 isS21
    simp only
    omega
  · unfold inRadius
    simp only
    omega

theorem load_chunk_slot_resident (cc : ContainerConfig) (vc : VoxelContainer) (o : Vec3)
    (h21 : (Vec3.add o vc.m_loader_center_chunk).isS21) :
    (vc.load_chunk_slot cc o).resident cc (Vec3.add o vc.m_loader_center_chunk) := by
  unfold VoxelContainer.load_chunk_slot VoxelContainer.resident
  simp only
  by_cases h : Vec3.all_equal (Vec3.add o vc.m_loader_center_chunk)
      (Math.toVec3 (vc.m_chunk_positions
        (Math.position_to_index (Vec3.add o vc.m_loader_center_chunk) cc.CHUNK_ARRAY_SIZE)))
      = true
  · rw [h]
    simp only [Bool.not_true, Bool.false_eq_true, if_false]
    exact ((Vec3.all_equal_eq_true _ _).1 h).symm
  · have h' : Vec3.all_equal (Vec3.add o vc.m_loader_center_chunk)
        (Math.toVec3 (vc.m_chunk_positions
          (Math.position_to_index (Vec3.add o vc.m_loader_center_chunk) cc.CHUNK_ARRAY_SIZE)))
        = false := by simpa using h
    rw [h']
    simp only [Bool.not_false, if_true]
    rw [Function.update_same]
    exact Math.toVec3_toDumb3 _ h21

theorem load_chunk_slot_preserves (cc : ContainerConfig) (vc : VoxelContainer) (o p : Vec3)
    (h21 : (Vec3.add o vc.m_loader_center_chunk).isS21)
    (hinj : Math.position_to_index (Vec3.add o vc.m_loader_center_chunk) cc.CHUNK_ARRAY_SIZE
        = Math.position_to_index p cc.CHUNK_ARRAY_SIZE → Vec3.add o vc.m_loader_center_chunk = p)
    (hp : vc.resident cc p) : (vc.load_chunk_slot cc o).resident cc p := by
  by_cases hidx : Math.position_to_index (Vec3.add o vc.m_loader_center_chunk)
      cc.CHUNK_ARRAY_SIZE = Math.position_to_index p cc.CHUNK_ARRAY_SIZE
  · rw [← hinj hidx]
    exact load_chunk_slot_resident cc vc o h21
  · unfold VoxelContainer.load_chunk_slot VoxelContainer.resident
    simp only
    split_ifs
    · simp only
      rw [Function.update_noteq (Ne.symm hidx)]
      exact hp
    · exact hp

/-- The chunk half of a sweep makes every position of the radius box resident. -/
theorem load_all_resident (cc : ContainerConfig) (R : Int) (c : Vec3)
    (hdims : ArrayDimsFit cc.CHUNK_ARRAY_SIZE)
    (hcover : 2 * R + 1 ≤ cc.CHUNK_ARRAY_SIZE.x ∧ 2 * R + 1 ≤ cc.CHUNK_ARRAY_SIZE.y ∧
      2 * R + 1 ≤ cc.CHUNK_ARRAY_SIZE.z)
    (hfit : SweepFits c R) (p : Vec3) (hp : inRadius c R p) :
    ∀ (offsets : List Vec3) (vc : VoxelContainer), vc.m_loader_center_chunk = c →
      (∀ o ∈ offsets, inRadius ⟨0, 0, 0⟩ R o) →
      (vc.resident cc p ∨ (⟨p.x - c.x, p.y - c.y, p.z - c.z⟩ : Vec3) ∈ offsets) →
      (vc.load_all cc offsets).resident cc p := by
  intro offsets
  induction offsets with
  | nil =>
    intro vc _ _ h
    rcases h with h | h
    · exact h
    · cases h
  | cons o rest ih =>
    intro vc hc hin h
    have ho := hin o (List.mem_cons_self _ _)
    obtain ⟨e, h21, hrad⟩ := add_offset_center c R hfit o ho
    rw [← hc] at e h21 hrad
    have hstep : (vc.load_chunk_slot cc o).resident cc p ∨
        (⟨p.x - c.x, p.y - c.y, p.z - c.z⟩ : Vec3) ∈ rest := by
      rcases h with h | h
      · left
        refine load_chunk_slot_preserves cc vc o p h21 (fun hidx => ?_) h
        exact Math.position_to_index_inj c R cc.CHUNK_ARRAY_SIZE _ p hdims hcover
          (by rw [← hc]; exact hrad) hp hidx
      · rcases List.mem_cons.1 h with h | h
        · left
          have : Vec3.add o vc.m_loader_center_chunk = p := by
            rw [e, hc, ← h]
            obtain ⟨px, py, pz⟩ := p
            simp only [Vec3.mk.injEq]
            omega
          rw [← this]
          exact load_chunk_slot_resident cc vc o h21
        · exact Or.inr h
    exact ih (vc.load_chunk_slot cc o) (by rw [load_chunk_slot_center, hc])
      (fun o' ho' => hin o' (List.mem_cons_of_mem _ ho')) hstep

/-- C20 as stated fails: with loader center `(1048576, 0, 0)`, radius 0 and a
`1 × 1 × 1` array, the sweep over the one offset `(0, 0, 0)` stores the packed center, which
unpacks to `(−1048576, 0, 0)`: the slot of `p = (1048576, 0, 0)` does not hold `p`. -/
theorem full_sweep_counterexample :
    MeshIterator.make insertion_sort 0 = [⟨0, 0, 0⟩] ∧
      inRadius ⟨1048576, 0, 0⟩ 0 ⟨1048576, 0, 0⟩ ∧
      Math.toVec3 (((blankContainer ⟨1048576, 0, 0⟩).load_all
        { toyContainerConfig with CHUNK_ARRAY_SIZE := ⟨1, 1, 1⟩ }
        (MeshIterator.make insertion_sort 0)).m_chunk_positions
          (Math.position_to_index ⟨1048576, 0, 0⟩ ⟨1, 1, 1⟩)) = ⟨-1048576, 0, 0⟩ ∧
      ((blankContainer ⟨1048576, 0, 0⟩).sweep
        { toyContainerConfig with CHUNK_ARRAY_SIZE := ⟨1, 1, 1⟩ }
        (MeshIterator.make insertion_sort 0)).map
          (fun vc => Math.toVec3 (vc.m_chunk_positions
            (Math.position_to_index ⟨1048576, 0, 0⟩ ⟨1, 1, 1⟩))) = some ⟨-1048576, 0, 0⟩ := by
  decide

/-- C20 (as amended): single worker, center not changed.  If `CHUNK_ARRAY_SIZE` is at
least `2R + 1` on each axis (and fits the `int32_t` index arithmetic) and the radius box
of the loader center `c` lies in the range `[−2^20, 2^20 − 1]` of packed coordinates, then
after the worker has processed every offset of the radius-`R` list, every coordinate `p`
with `|p − c|∞ ≤ R` has `toVec3(m_chunk_positions[position_to_index(p, CHUNK_ARRAY_SIZE)])
= p`, whatever the slots held before the sweep. -/
theorem full_sweep_residency (cc : ContainerConfig) (vc : VoxelContainer) (R : Int)
    (offsets : List Vec3) (hdims : ArrayDimsFit cc.CHUNK_ARRAY_SIZE)
    (hcover : 2 * R + 1 ≤ cc.CHUNK_ARRAY_SIZE.x ∧ 2 * R + 1 ≤ cc.CHUNK_ARRAY_SIZE.y ∧
      2 * R + 1 ≤ cc.CHUNK_ARRAY_SIZE.z)
    (hoffsets : ∀ o, o ∈ offsets ↔ inRadius ⟨0, 0, 0⟩ R o)
    (hfit : SweepFits vc.m_loader_center_chunk R) (p : Vec3)
    (hp : inRadius vc.m_loader_center_chunk R p) :
    (vc.load_all cc offsets).resident cc p ∧
      ∀ vc', vc.sweep cc offsets = some vc' → vc'.resident cc p := by
  have hmem : (⟨p.x - vc.m_loader_center_chunk.x, p.y - vc.m_loader_center_chunk.y,
      p.z - vc.m_loader_center_chunk.z⟩ : Vec3) ∈ offsets := by
    rw [hoffsets]
    unfold inRadius at hp ⊢
    simp only [sub_zero]
    exact hp
  have h1 := load_all_resident cc R vc.m_loader_center_chunk hdims hcover hfit p hp offsets vc
    rfl (fun o ho => (hoffsets o).1 ho) (Or.inr hmem)
  refine ⟨h1, fun vc' h => ?_⟩
  unfold VoxelContainer.resident
  rw [sweep_chunk_positions cc offsets vc vc' h]
  exact h1

/-- Witness for `full_sweep_residency`: the toy container with loader center `(5, 0, 0)`,
radius 1, the offsets of `MeshIterator(1)`, and `p = (6, 1, −1)`. -/
theorem full_sweep_residency_witness :
    ((blankContainer ⟨5, 0, 0⟩).load_all toyContainerConfig
        (MeshIterator.make insertion_sort 1)).resident toyContainerConfig ⟨6, 1, -1⟩ ∧
      ∀ vc', (blankContainer ⟨5, 0, 0⟩).sweep toyContainerConfig
          (MeshIterator.make insertion_sort 1) = some vc' →
        vc'.resident toyContainerConfig ⟨6, 1, -1⟩ :=
  full_sweep_residency toyContainerConfig (blankContainer ⟨5, 0, 0⟩) 1
    (MeshIterator.make insertion_sort 1) (by decide) (by decide)
    (mem_make insertion_sort insertion_sort_contract 1 (by decide)) (by decide) ⟨6, 1, -1⟩
    (by decide)

set_option maxRecDepth 100000 in
/-- The sweep of the toy container around `(5, 0, 0)` completes: `generateMesh` does not
throw, and the eight meshes whose chunks all lie in the radius box are pushed to the
queue. -/
theorem toy_sweep_completes :
    ((blankContainer ⟨5, 0, 0⟩).sweep toyContainerConfig
      (MeshIterator.make insertion_sort 1)).map (fun vc => vc.m_mesh_queue.length) = some 8 := by
  decide

/-! ## C19: mesh readiness -/

theorem mask_at_of_not_mem (ps : List Vec3) (m : Vec3) :
    ∀ mask, m ∉ ps → mask_at ps m mask = 0 := by
  induction ps with
  | nil => intro _ _; rfl
  | cons p t ih =>
    intro mask h
    have hp : p ≠ m := fun e => h (e ▸ List.mem_cons_self _ _)
    simp only [mask_at, if_neg hp]
    exact ih _ (fun hm => h (List.mem_cons_of_mem _ hm))

/-- The loop of `markMeshes` over positions `ps`, seen from the slot of a mesh `m` which
no other position of `ps` shares: the slot receives the mask of the visit of `m`, and `m`
is appended to the meshes to load exactly if the slot is then complete and does not hold
`m` as its last position. -/
theorem mark_loop_spec (cc : ContainerConfig) (mp : Int → Vec3) (m : Vec3) :
    ∀ (ps : List Vec3) (st : MarkState), ps.Nodup →
      (∀ p ∈ ps, p ≠ m → Math.position_to_index p cc.MESH_ARRAY_SIZE
        ≠ Math.position_to_index m cc.MESH_ARRAY_SIZE) →
      st.mask * 2 ^ ps.length ≤ 2 ^ cc.READINES_BITS →
      (ps.foldl (VoxelContainer.mark_step cc mp) st).m_mesh_readines
          (Math.position_to_index m cc.MESH_ARRAY_SIZE)
        = (if m ∈ ps then
            (st.m_mesh_readines (Math.position_to_index m cc.MESH_ARRAY_SIZE)
              ||| mask_at ps m st.mask) % 2 ^ cc.READINES_BITS
          else st.m_mesh_readines (Math.position_to_index m cc.MESH_ARRAY_SIZE)) ∧
      (ps.foldl (VoxelContainer.mark_step cc mp) st).meshes_to_load.count m
        = st.meshes_to_load.count m +
          (if m ∈ ps ∧
              (st.m_mesh_readines (Math.position_to_index m cc.MESH_ARRAY_SIZE)
                ||| mask_at ps m st.mask) % 2 ^ cc.READINES_BITS = cc.ALL_CHUNKS_READY ∧
              mp (Math.position_to_index m cc.MESH_ARRAY_SIZE) ≠ m then 1 else 0) := by
  intro ps
  induction ps with
  | nil =>
    intro st _ _ _
    simp
  | cons p t ih =>
    intro st hnd hidx hmask
    obtain ⟨hpt, hndt⟩ := List.nodup_cons.1 hnd
    have hidxt : ∀ q ∈ t, q ≠ m → Math.position_to_index q cc.MESH_ARRAY_SIZE
        ≠ Math.position_to_index m cc.MESH_ARRAY_SIZE :=
      fun q hq => hidx q (List.mem_cons_of_mem _ hq)
    rw [List.foldl_cons]
    -- the state after the step at `p`
    set st1 := VoxelContainer.mark_step cc mp st p with hst1
    have hmask1 : st1.mask = (st.mask <<< 1) % 2 ^ cc.READINES_BITS := by
      rw [hst1]
      unfold VoxelContainer.mark_step
      simp only
      split_ifs <;> rfl
    have hrd1 : st1.m_mesh_readines = Function.update st.m_mesh_readines
        (Math.position_to_index p cc.MESH_ARRAY_SIZE)
        ((st.m_mesh_readines (Math.position_to_index p cc.MESH_ARRAY_SIZE) ||| st.mask)
          % 2 ^ cc.READINES_BITS) := by
      rw [hst1]
      unfold VoxelContainer.mark_step
      simp only
      split_ifs <;> rfl
    have hml1 : st1.meshes_to_load
        = if (st.m_mesh_readines (Math.position_to_index p cc.MESH_ARRAY_SIZE) ||| st.mask)
              % 2 ^ cc.READINES_BITS = cc.ALL_CHUNKS_READY ∧
            ¬ Vec3.all_equal p (mp (Math.position_to_index p cc.MESH_ARRAY_SIZE)) = true
          then st.meshes_to_load ++ [p] else st.meshes_to_load := by
      rw [hst1]
      unfold VoxelContainer.mark_step
      simp only
      split_ifs <;> rfl
    have hmask1' : st1.mask * 2 ^ t.length ≤ 2 ^ cc.READINES_BITS ∧
        (t ≠ [] → st1.mask = st.mask * 2) := by
      rw [hmask1, Nat.shiftLeft_eq, pow_one]
      rw [List.length_cons, pow_succ] at hmask
      cases t with
      | nil =>
        refine ⟨?_, fun h => absurd rfl h⟩
        simp only [List.length_nil, pow_zero, mul_one]
        exact le_of_lt (Nat.mod_lt _ (Nat.two_pow_pos _))
      | cons q t' =>
        have h2 : 2 ≤ 2 ^ (q :: t').length := by
          rw [List.length_cons, pow_succ]
          have : 1 ≤ 2 ^ t'.length := Nat.one_le_two_pow
          omega
        have hlt : st.mask * 2 < 2 ^ cc.READINES_BITS := by
          have h0 : 0 < 2 ^ cc.READINES_BITS := Nat.two_pow_pos _
          by_cases hz : st.mask = 0
          · rw [hz]; simp
          · have : st.mask * 2 * 2 ≤ st.mask * (2 ^ (q :: t').length * 2) := by
              rw [Nat.mul_assoc]
              exact Nat.mul_le_mul_left _ (Nat.mul_le_mul_right _ h2)
            have hpos : 0 < st.mask := Nat.pos_of_ne_zero hz
            omega
        rw [Nat.mod_eq_of_lt hlt]
        refine ⟨?_, fun _ => rfl⟩
        calc st.mask * 2 * 2 ^ (q :: t').length
            = st.mask * (2 ^ (q :: t').length * 2) := by ring
          _ ≤ 2 ^ cc.READINES_BITS := hmask
    obtain ⟨ih1, ih2⟩ := ih st1 hndt hidxt hmask1'.1
    by_cases hpm : p = m
    · -- the visit of `m`
      subst hpm
      have hmt : p ∉ t := hpt
      rw [if_neg hmt] at ih1
      have hcond : ¬ (p ∈ t ∧
          (st1.m_mesh_readines (Math.position_to_index p cc.MESH_ARRAY_SIZE)
            ||| mask_at t p st1.mask) % 2 ^ cc.READINES_BITS = cc.ALL_CHUNKS_READY ∧
          mp (Math.position_to_index p cc.MESH_ARRAY_SIZE) ≠ p) := fun h => hmt h.1
      rw [if_neg hcond, Nat.add_zero] at ih2
      have hmask_at : mask_at (p :: t) p st.mask = st.mask := by
        simp only [mask_at, if_true]
      rw [ih1, ih2, if_pos (List.mem_cons_self _ _), hmask_at, hrd1, Function.update_same,
        hml1]
      refine ⟨rfl, ?_⟩
      have hne : (¬ Vec3.all_equal p (mp (Math.position_to_index p cc.MESH_ARRAY_SIZE)) = true)
          ↔ mp (Math.position_to_index p cc.MESH_ARRAY_SIZE) ≠ p := by
        rw [Vec3.all_equal_eq_true]
        exact ⟨fun h e => h e.symm, fun h e => h e.symm⟩
      by_cases hc : (st.m_mesh_readines (Math.position_to_index p cc.MESH_ARRAY_SIZE)
          ||| st.mask) % 2 ^ cc.READINES_BITS = cc.ALL_CHUNKS_READY ∧
          mp (Math.position_to_index p cc.MESH_ARRAY_SIZE) ≠ p
      · rw [if_pos ⟨hc.1, hne.2 hc.2⟩, if_pos ⟨List.mem_cons_self _ _, hc.1, hc.2⟩,
          List.count_append]
        simp
      · have hc1 : ¬ ((st.m_mesh_readines (Math.position_to_index p cc.MESH_ARRAY_SIZE)
            ||| st.mask) % 2 ^ cc.READINES_BITS = cc.ALL_CHUNKS_READY ∧
            ¬ Vec3.all_equal p (mp (Math.position_to_index p cc.MESH_ARRAY_SIZE)) = true) :=
          fun h => hc ⟨h.1, hne.1 h.2⟩
        have hc2 : ¬ (p ∈ p :: t ∧
            (st.m_mesh_readines (Math.position_to_index p cc.MESH_ARRAY_SIZE)
              ||| st.mask) % 2 ^ cc.READINES_BITS = cc.ALL_CHUNKS_READY ∧
            mp (Math.position_to_index p cc.MESH_ARRAY_SIZE) ≠ p) := fun h => hc h.2
        rw [if_neg hc1, if_neg hc2]
        rfl
    · -- a visit of another mesh
      have hi := hidx p (List.mem_cons_self _ _) hpm
      have hrd : st1.m_mesh_readines (Math.position_to_index m cc.MESH_ARRAY_SIZE)
          = st.m_mesh_readines (Math.position_to_index m cc.MESH_ARRAY_SIZE) := by
        rw [hrd1, Function.update_noteq (Ne.symm hi)]
      have hcnt : st1.meshes_to_load.count m = st.meshes_to_load.count m := by
        rw [hml1]
        split_ifs
        · rw [List.count_append, List.count_singleton]
          simp [hpm]
        · rfl
      have hmem : m ∈ p :: t ↔ m ∈ t := by
        rw [List.mem_cons]
        exact ⟨fun h => h.resolve_left (fun e => hpm e.symm), Or.inr⟩
      have hma : m ∈ t → mask_at (p :: t) m st.mask = mask_at t m st1.mask := by
        intro hmt
        simp only [mask_at, if_neg hpm]
        rw [hmask1'.2 (List.ne_nil_of_mem hmt)]
      rw [ih1, ih2, hrd, hcnt]
      by_cases hmt : m ∈ t
      · rw [if_pos hmt, if_pos (hmem.2 hmt), hma hmt]
        refine ⟨rfl, ?_⟩
        simp only [hmem, hmt, true_and]
      · rw [if_neg hmt, if_neg (fun h => hmt (hmem.1 h))]
        refine ⟨rfl, ?_⟩
        simp only [hmem, hmt, false_and, if_false]

theorem int_range_shift (a lo hi : Int) :
    int_range (a + lo) (a + hi) = (int_range lo hi).map (fun i => a + i) := by
  unfold int_range
  rw [List.map_map]
  have : a + hi - (a + lo) + 1 = hi - lo + 1 := by ring
  rw [this]
  apply List.map_congr_left
  intro i _
  simp only [Function.comp]
  ring

/-- The loops around a translated position visit the translated positions. -/
theorem box_positions_shift (m d s e : Vec3)
    (hx : isS32 (m.x + d.x + s.x) ∧ isS32 (m.x + d.x + e.x) ∧ isS32 (d.x + s.x) ∧
      isS32 (d.x + e.x))
    (hy : isS32 (m.y + d.y + s.y) ∧ isS32 (m.y + d.y + e.y) ∧ isS32 (d.y + s.y) ∧
      isS32 (d.y + e.y))
    (hz : isS32 (m.z + d.z + s.z) ∧ isS32 (m.z + d.z + e.z) ∧ isS32 (d.z + s.z) ∧
      isS32 (d.z + e.z)) :
    box_positions (Vec3.shift m d) s e = (box_positions d s e).map (Vec3.shift m) := by
  have key : ∀ a b lo hi : Int, isS32 (a + b + lo) → isS32 (a + b + hi) → isS32 (b + lo) →
      isS32 (b + hi) →
      int_range_lt (wrapS32 (a + b + lo)) (wrapS32 (a + b + hi))
        = (int_range_lt (wrapS32 (b + lo)) (wrapS32 (b + hi))).map (fun i => a + i) := by
    intro a b lo hi h1 h2 h3 h4
    rw [wrapS32_id h1.1 h1.2, wrapS32_id h2.1 h2.2, wrapS32_id h3.1 h3.2, wrapS32_id h4.1 h4.2]
    unfold int_range_lt
    rw [← int_range_shift]
    congr 1 <;> ring
  unfold box_positions Vec3.shift
  simp only
  rw [key m.z d.z s.z e.z hz.1 hz.2.1 hz.2.2.1 hz.2.2.2,
    key m.y d.y s.y e.y hy.1 hy.2.1 hy.2.2.1 hy.2.2.2,
    key m.x d.x s.x e.x hx.1 hx.2.1 hx.2.2.1 hx.2.2.2]
  simp only [List.flatMap_map, List.map_flatMap, List.map_map]
  rfl

theorem Vec3.shift_injective (m : Vec3) : Function.Injective (Vec3.shift m) := by
  intro a b h
  obtain ⟨ax, ay, az⟩ := a
  obtain ⟨bx, b_y, bz⟩ := b
  unfold Vec3.shift at h
  simp only [Vec3.mk.injEq] at h ⊢
  omega

theorem mask_at_map (f : Vec3 → Vec3) (hf : Function.Injective f) (e0 : Vec3) :
    ∀ (es : List Vec3) (mask : Nat), mask_at (es.map f) (f e0) mask = mask_at es e0 mask := by
  intro es
  induction es with
  | nil => intro _; rfl
  | cons e t ih =>
    intro mask
    simp only [List.map_cons, mask_at]
    by_cases h : e = e0
    · rw [if_pos h, if_pos (by rw [h])]
    · rw [if_neg h, if_neg (fun h' => h (hf h'))]
      exact ih _

/-- The neighbourhood `(−1,−1,−1)..(1,1,1)` of each of the eight chunks of a mesh: eight
different positions within distance 1 of the mesh, the mesh among them. -/
theorem neighbourhood_facts :
    ∀ d ∈ mesh_chunk_offsets,
      (box_positions d ⟨-1, -1, -1⟩ ⟨1, 1, 1⟩).Nodup ∧
      (box_positions d ⟨-1, -1, -1⟩ ⟨1, 1, 1⟩).length = 8 ∧
      (⟨0, 0, 0⟩ : Vec3) ∈ box_positions d ⟨-1, -1, -1⟩ ⟨1, 1, 1⟩ ∧
      (∀ e ∈ box_positions d ⟨-1, -1, -1⟩ ⟨1, 1, 1⟩, inRadius ⟨0, 0, 0⟩ 1 e) ∧
      (0 ≤ d.x ∧ d.x ≤ 1) ∧ (0 ≤ d.y ∧ d.y ≤ 1) ∧ (0 ≤ d.z ∧ d.z ≤ 1) := by
  decide

/-- The eight chunks of a mesh set the bits 7 down to 0 of its mask. -/
theorem contribution_bits :
    mesh_chunk_offsets.map contribution_bit = [128, 64, 32, 16, 8, 4, 2, 1] := by
  decide

theorem add_eq_shift (m d : Vec3) (hm : MeshFits m) (hd : d ∈ mesh_chunk_offsets) :
    Vec3.add m d = Vec3.shift m d := by
  obtain ⟨⟨x0, x1⟩, ⟨y0, y1⟩, ⟨z0, z1⟩⟩ := hm
  have hdr := (neighbourhood_facts d hd).2.2.2.2
  obtain ⟨⟨dx0, dx1⟩, ⟨dy0, dy1⟩, ⟨dz0, dz1⟩⟩ := hdr
  unfold Vec3.add Vec3.shift
  rw [wrapS32_id (x := m.x + d.x) (by omega) (by omega),
    wrapS32_id (x := m.y + d.y) (by omega) (by omega),
    wrapS32_id (x := m.z + d.z) (by omega) (by omega)]

/-- One call of `markMeshes` for a chunk of mesh `m`, seen from the slot of `m`: the
call sets the bit of the chunk, and it reports `m` exactly if the mask is then full and
the slot does not hold `m` as its last position. -/
theorem markMeshes_spec (cc : ContainerConfig) (hcfg : MeshConfigOK cc) (vc : VoxelContainer)
    (m : Vec3) (hm : MeshFits m) (d : Vec3) (hd : d ∈ mesh_chunk_offsets) :
    (vc.markMeshes cc (Vec3.add m d)).1.m_mesh_readines
        (Math.position_to_index m cc.MESH_ARRAY_SIZE)
      = (vc.m_mesh_readines (Math.position_to_index m cc.MESH_ARRAY_SIZE)
          ||| contribution_bit d) % 2 ^ cc.READINES_BITS ∧
    (vc.markMeshes cc (Vec3.add m d)).2.count m
      = (if (vc.m_mesh_readines (Math.position_to_index m cc.MESH_ARRAY_SIZE)
            ||| contribution_bit d) % 2 ^ cc.READINES_BITS = 255 ∧
          vc.m_mesh_positions (Math.position_to_index m cc.MESH_ARRAY_SIZE) ≠ m
        then 1 else 0) ∧
    (vc.markMeshes cc (Vec3.add m d)).1.m_mesh_positions = vc.m_mesh_positions := by
  obtain ⟨hnd, hlen, h0, hrad, hdr⟩ := neighbourhood_facts d hd
  obtain ⟨⟨x0, x1⟩, ⟨y0, y1⟩, ⟨z0, z1⟩⟩ := hm
  obtain ⟨⟨dx0, dx1⟩, ⟨dy0, dy1⟩, ⟨dz0, dz1⟩⟩ := hdr
  have hpos : box_positions (Vec3.add m d) cc.CHUNK_MESH_START cc.CHUNK_MESH_END
      = (box_positions d ⟨-1, -1, -1⟩ ⟨1, 1, 1⟩).map (Vec3.shift m) := by
    rw [add_eq_shift m d ⟨⟨x0, x1⟩, ⟨y0, y1⟩, ⟨z0, z1⟩⟩ hd, hcfg.mesh_start, hcfg.mesh_end]
    apply box_positions_shift
    · unfold isS32; simp only; omega
    · unfold isS32; simp only; omega
    · unfold isS32; simp only; omega
  have hm0 : Vec3.shift m ⟨0, 0, 0⟩ = m := by
    unfold Vec3.shift
    simp only [add_zero]
  have hmem : m ∈ (box_positions d ⟨-1, -1, -1⟩ ⟨1, 1, 1⟩).map (Vec3.shift m) := by
    have := List.mem_map_of_mem (Vec3.shift m) h0
    rw [hm0] at this
    exact this
  have hidx : ∀ p ∈ (box_positions d ⟨-1, -1, -1⟩ ⟨1, 1, 1⟩).map (Vec3.shift m), p ≠ m →
      Math.position_to_index p cc.MESH_ARRAY_SIZE
        ≠ Math.position_to_index m cc.MESH_ARRAY_SIZE := by
    intro p hp hne hidx
    apply hne
    obtain ⟨e, he, rfl⟩ := List.mem_map.1 hp
    have her := hrad e he
    refine Math.position_to_index_inj m 1 cc.MESH_ARRAY_SIZE _ m hcfg.dims
      (by have := hcfg.wide; omega) ?_ ?_ hidx
    · unfold inRadius Vec3.shift
      unfold inRadius at her
      simp only [sub_zero] at her ⊢
      omega
    · unfold inRadius
      simp only [sub_self]
      omega
  have hmaskat : mask_at ((box_positions d ⟨-1, -1, -1⟩ ⟨1, 1, 1⟩).map (Vec3.shift m)) m 1
      = contribution_bit d := by
    have := mask_at_map (Vec3.shift m) (Vec3.shift_injective m) ⟨0, 0, 0⟩
      (box_positions d ⟨-1, -1, -1⟩ ⟨1, 1, 1⟩) 1
    rw [hm0] at this
    exact this
  have hbound : 1 * 2 ^ ((box_positions d ⟨-1, -1, -1⟩ ⟨1, 1, 1⟩).map (Vec3.shift m)).length
      ≤ 2 ^ cc.READINES_BITS := by
    rw [List.length_map, hlen, Nat.one_mul]
    exact Nat.pow_le_pow_right (by decide) hcfg.bits
  obtain ⟨s1, s2⟩ := mark_loop_spec cc vc.m_mesh_positions m _
    { m_mesh_readines := vc.m_mesh_readines, mask := 1, meshes_to_load := [] }
    (hnd.map (Vec3.shift_injective m)) hidx hbound
  simp only [if_pos hmem, hmaskat, List.count_nil, Nat.zero_add, hmem, true_and,
    hcfg.all_ready] at s1 s2
  unfold VoxelContainer.markMeshes
  simp only [hpos]
  exact ⟨s1, s2, trivial⟩

theorem or_bit_lt (r b : Nat) (hr : r < 256) (hb : b ∈ [128, 64, 32, 16, 8, 4, 2, 1]) :
    r ||| b < 256 := by
  have hb' : b < 2 ^ 8 := by
    simp only [List.mem_cons, List.mem_singleton, List.not_mem_nil, or_false] at hb
    rcases hb with h | h | h | h | h | h | h | h <;> rw [h] <;> decide
  exact Nat.or_lt_two_pow (show r < 2 ^ 8 from hr) hb'

/-- A sequence of calls of `markMeshes` for chunks of mesh `m` reports `m` as
`readiness_trace` says. -/
theorem mark_all_spec (cc : ContainerConfig) (hcfg : MeshConfigOK cc) (m : Vec3)
    (hm : MeshFits m) :
    ∀ (ds : List Vec3) (vc : VoxelContainer), (∀ d ∈ ds, d ∈ mesh_chunk_offsets) →
      vc.m_mesh_readines (Math.position_to_index m cc.MESH_ARRAY_SIZE) < 256 →
      vc.m_mesh_positions (Math.position_to_index m cc.MESH_ARRAY_SIZE) ≠ m →
      (vc.mark_all cc (ds.map (fun d => Vec3.add m d))).2.map (fun r => r.count m)
        = readiness_trace (vc.m_mesh_readines (Math.position_to_index m cc.MESH_ARRAY_SIZE))
            (ds.map contribution_bit) := by
  intro ds
  induction ds with
  | nil => intro vc _ _ _; rfl
  | cons d t ih =>
    intro vc hds hr hp
    have hd := hds d (List.mem_cons_self _ _)
    obtain ⟨g1, g2, g3⟩ := markMeshes_spec cc hcfg vc m hm d hd
    have hbit : contribution_bit d ∈ [128, 64, 32, 16, 8, 4, 2, 1] := by
      rw [← contribution_bits]
      exact List.mem_map_of_mem _ hd
    have hlt := or_bit_lt _ _ hr hbit
    have hmod : (vc.m_mesh_readines (Math.position_to_index m cc.MESH_ARRAY_SIZE)
        ||| contribution_bit d) % 2 ^ cc.READINES_BITS
        = vc.m_mesh_readines (Math.position_to_index m cc.MESH_ARRAY_SIZE)
          ||| contribution_bit d := by
      apply Nat.mod_eq_of_lt
      have : 2 ^ 8 ≤ 2 ^ cc.READINES_BITS := Nat.pow_le_pow_right (by decide) hcfg.bits
      omega
    rw [hmod] at g1 g2
    have ih' := ih (vc.markMeshes cc (Vec3.add m d)).1
      (fun d' hd' => hds d' (List.mem_cons_of_mem _ hd')) (by rw [g1]; exact hlt)
      (by rw [g3]; exact hp)
    rw [g1] at ih'
    simp only [List.map_cons, VoxelContainer.mark_all, readiness_trace]
    rw [ih', g2]
    congr 1
    simp only [hp, ne_eq, not_false_eq_true, and_true]

set_option maxRecDepth 100000 in
theorem bit_and_bit :
    ∀ b ∈ [128, 64, 32, 16, 8, 4, 2, 1], ∀ b' ∈ [128, 64, 32, 16, 8, 4, 2, 1],
      (b &&& b' ≠ 0 ↔ b' = b) := by
  decide

set_option maxRecDepth 1000000 in
theorem full_mask_iff :
    ∀ r, r < 256 → (r = 255 ↔ ∀ b ∈ [128, 64, 32, 16, 8, 4, 2, 1], r &&& b ≠ 0) := by
  decide

theorem or_bit_and (r b b' : Nat) (hb : b ∈ [128, 64, 32, 16, 8, 4, 2, 1])
    (hb' : b' ∈ [128, 64, 32, 16, 8, 4, 2, 1]) :
    (r ||| b) &&& b' ≠ 0 ↔ (b' = b ∨ r &&& b' ≠ 0) := by
  rw [Nat.and_distrib_right, ← bit_and_bit b hb b' hb']
  constructor
  · intro h
    by_contra hc
    push_neg at hc
    apply h
    rw [hc.1, hc.2]
    rfl
  · intro h hz
    have h1 : r &&& b' = 0 := by
      apply Nat.eq_of_testBit_eq
      intro i
      have := congrArg (fun n => n.testBit i) hz
      simp only [Nat.testBit_or, Nat.zero_testBit, Bool.or_eq_false_iff] at this
      rw [this.1, Nat.zero_testBit]
    have h2 : b &&& b' = 0 := by
      apply Nat.eq_of_testBit_eq
      intro i
      have := congrArg (fun n => n.testBit i) hz
      simp only [Nat.testBit_or, Nat.zero_testBit, Bool.or_eq_false_iff] at this
      rw [this.2, Nat.zero_testBit]
    rcases h with h | h
    · exact h h2
    · exact h h1

/-- Setting the eight bits one after another, in any order, fills the mask with the
last one and not before. -/
theorem trace_spec :
    ∀ (bs pre : List Nat) (r : Nat), (pre ++ bs).Perm [128, 64, 32, 16, 8, 4, 2, 1] →
      r < 256 → (∀ b ∈ [128, 64, 32, 16, 8, 4, 2, 1], (r &&& b ≠ 0 ↔ b ∈ pre)) →
      readiness_trace r bs
        = List.replicate (bs.length - 1) 0 ++ (if bs = [] then [] else [1]) := by
  intro bs
  induction bs with
  | nil => intro pre r _ _ _; rfl
  | cons b t ih =>
    intro pre r hperm hr hbits
    have hnd : (pre ++ b :: t).Nodup := hperm.nodup_iff.2 (by decide)
    have hb : b ∈ [128, 64, 32, 16, 8, 4, 2, 1] :=
      hperm.subset (List.mem_append_right _ (List.mem_cons_self _ _))
    have hperm' : ((pre ++ [b]) ++ t).Perm [128, 64, 32, 16, 8, 4, 2, 1] := by
      rw [List.append_assoc]
      exact hperm
    have hlt := or_bit_lt r b hr hb
    have hbits' : ∀ b' ∈ [128, 64, 32, 16, 8, 4, 2, 1],
        ((r ||| b) &&& b' ≠ 0 ↔ b' ∈ pre ++ [b]) := by
      intro b' hb'
      rw [or_bit_and r b b' hb hb', hbits b' hb', List.mem_append, List.mem_singleton]
      exact or_comm
    have hfull : r ||| b = 255 ↔ t = [] := by
      rw [full_mask_iff _ hlt]
      constructor
      · intro h
        cases t with
        | nil => rfl
        | cons c t' =>
          exfalso
          have hc : c ∈ [128, 64, 32, 16, 8, 4, 2, 1] :=
            hperm.subset (List.mem_append_right _
              (List.mem_cons_of_mem _ (List.mem_cons_self _ _)))
          have hcin := (hbits' c hc).1 (h c hc)
          have hnd' : ((pre ++ [b]) ++ c :: t').Nodup := by
            rw [List.append_assoc]
            exact hnd
          exact (List.nodup_append.1 hnd').2.2 hcin (List.mem_cons_self _ _)
      · intro ht b' hb'
        rw [hbits' b' hb']
        have := hperm'.mem_iff.2 hb'
        rw [ht, List.append_nil] at this
        exact this
    have ih' := ih (pre ++ [b]) (r ||| b) hperm' hlt hbits'
    rw [readiness_trace, ih']
    cases t with
    | nil =>
      have : r ||| b = 255 := hfull.2 rfl
      simp [this]
    | cons c t' =>
      have : ¬ (r ||| b = 255) := fun h => by
        have := hfull.1 h
        cases this
      simp [this, List.replicate_succ]

/-- C19: starting from cleared readiness masks and a mesh slot whose last emitted
position is not `m`, calling `markMeshes` once for each of the eight chunks
`m + (0..1, 0..1, 0..1)`, in any order, reports `m` in the eighth call (once) and in none
of the first seven. -/
theorem mesh_readiness (cc : ContainerConfig) (hcfg : MeshConfigOK cc) (vc : VoxelContainer)
    (m : Vec3) (hm : MeshFits m) (hclear : ∀ k, vc.m_mesh_readines k = 0)
    (hpos : vc.m_mesh_positions (Math.position_to_index m cc.MESH_ARRAY_SIZE) ≠ m)
    (ds : List Vec3) (hperm : ds.Perm mesh_chunk_offsets) :
    (vc.mark_all cc (ds.map (fun d => Vec3.add m d))).2.map (fun r => r.count m)
      = [0, 0, 0, 0, 0, 0, 0, 1] := by
  have hmem : ∀ d ∈ ds, d ∈ mesh_chunk_offsets := fun d hd => hperm.subset hd
  rw [mark_all_spec cc hcfg m hm ds vc hmem (by rw [hclear]; decide) hpos, hclear]
  have hbperm : ([] ++ ds.map contribution_bit).Perm [128, 64, 32, 16, 8, 4, 2, 1] := by
    rw [List.nil_append, ← contribution_bits]
    exact hperm.map _
  have hlen : (ds.map contribution_bit).length = 8 := by
    rw [List.length_map, hperm.length_eq]
    rfl
  rw [trace_spec _ [] 0 hbperm (by decide) (by
    intro b _
    simp only [Nat.zero_and, ne_eq, not_true_eq_false, List.not_mem_nil])]
  rw [hlen]
  have hne : ds.map contribution_bit ≠ [] := by
    intro h
    rw [h] at hlen
    cases hlen
  rw [if_neg hne]
  rfl

theorem toyContainerConfig_ok : MeshConfigOK toyContainerConfig :=
  { mesh_start := rfl, mesh_end := rfl, all_ready := rfl, bits := by decide,
    dims := by decide, wide := by decide }

/-- Witness for `mesh_readiness`: the toy container with cleared masks, mesh `(1, 2, 3)`
and its eight chunks visited from `(1, 1, 1)` back to `(0, 0, 0)`. -/
theorem mesh_readiness_witness :
    ((blankContainer ⟨0, 0, 0⟩).mark_all toyContainerConfig
        (mesh_chunk_offsets.reverse.map (fun d => Vec3.add ⟨1, 2, 3⟩ d))).2.map
          (fun r => r.count ⟨1, 2, 3⟩)
      = [0, 0, 0, 0, 0, 0, 0, 1] :=
  mesh_readiness toyContainerConfig toyContainerConfig_ok (blankContainer ⟨0, 0, 0⟩)
    ⟨1, 2, 3⟩ (by decide) (fun _ => rfl) (by decide) mesh_chunk_offsets.reverse
    (List.reverse_perm _)

/-! ## C25: `moveCenterChunk` -/

/-- C25: `moveCenterChunk(n)` sets the actual center to `n`, sets the overlap box to
`overlap(toAABB3(n, R), toAABB3(loader_center, R))` with `R = CHUNK_LOADING_RADIUS`, sets
`center_dirty` if `n` differs from the previous actual center and otherwise leaves it as it
was, and leaves the loader center, the iterator, the chunk positions, the readiness masks
(and the mesh positions, the queue and the running flag) unchanged. -/
theorem move_center_frame (cc : ContainerConfig) (vc : VoxelContainer) (n : Vec3) :
    (vc.moveCenterChunk cc n).m_actual_center_chunk = n ∧
    (vc.moveCenterChunk cc n).m_center_chunk_overlap
      = Math.overlap (Math.toAABB3 n cc.CHUNK_LOADING_RADIUS)
          (Math.toAABB3 vc.m_loader_center_chunk cc.CHUNK_LOADING_RADIUS) ∧
    (vc.moveCenterChunk cc n).m_center_dirty
      = (if n = vc.m_actual_center_chunk then vc.m_center_dirty else true) ∧
    (vc.moveCenterChunk cc n).m_loader_center_chunk = vc.m_loader_center_chunk ∧
    (vc.moveCenterChunk cc n).m_iterator = vc.m_iterator ∧
    (vc.moveCenterChunk cc n).m_chunk_positions = vc.m_chunk_positions ∧
    (vc.moveCenterChunk cc n).m_mesh_readines = vc.m_mesh_readines ∧
    (vc.moveCenterChunk cc n).m_mesh_positions = vc.m_mesh_positions ∧
    (vc.moveCenterChunk cc n).m_mesh_queue = vc.m_mesh_queue ∧
    (vc.moveCenterChunk cc n).m_workers_running = vc.m_workers_running := by
  refine ⟨rfl, rfl, ?_, rfl, rfl, rfl, rfl, rfl, rfl, rfl⟩
  show (if (!(Vec3.all_equal vc.m_actual_center_chunk n)) = true then true
    else vc.m_center_dirty) = _
  by_cases h : n = vc.m_actual_center_chunk
  · rw [if_pos h, (Vec3.all_equal_eq_true _ _).2 h.symm]
    rfl
  · rw [if_neg h]
    have : Vec3.all_equal vc.m_actual_center_chunk n = false := by
      rw [← Bool.not_eq_true, Vec3.all_equal_eq_true]
      exact fun e => h e.symm
    rw [this]
    rfl

/-! ## C26: the abort step of a sweep -/

/-- C26: when a worker finds `center_dirty` set and runs the abort step, the iterator
afterwards is `max(old, N)`: a value below `N` becomes `N`, a value past `N` is kept, so
the count `old − N` of workers already past the end is preserved; the flag is cleared. -/
theorem abort_keeps_overruns (vc : VoxelContainer) (N : Nat)
    (hdirty : vc.m_center_dirty = true) (hold : vc.m_iterator < 18446744073709551616) :
    (vc.abort_step N).m_iterator = max vc.m_iterator N ∧
    (vc.m_iterator ≤ N → (vc.abort_step N).m_iterator = N) ∧
    (N < vc.m_iterator → (vc.abort_step N).m_iterator - N = vc.m_iterator - N) ∧
    (vc.abort_step N).m_center_dirty = false := by
  have key : (vc.abort_step N).m_iterator = max vc.m_iterator N ∧
      (vc.abort_step N).m_center_dirty = false := by
    unfold VoxelContainer.abort_step
    simp only [hdirty, if_true]
    by_cases h : vc.m_iterator > N
    · rw [if_pos h]
      refine ⟨?_, rfl⟩
      show wrapU64 (N + wrapU64 (vc.m_iterator - N)) = _
      unfold wrapU64
      rw [Nat.mod_eq_of_lt (by omega), Nat.mod_eq_of_lt (by omega)]
      omega
    · rw [if_neg h]
      refine ⟨?_, rfl⟩
      show N = _
      omega
  refine ⟨key.1, fun h => ?_, fun h => ?_, key.2⟩
  · rw [key.1]; omega
  · rw [key.1]; omega

/-- Witness for `abort_keeps_overruns`: with 27 offsets and three workers already past
the end (iterator 30), the abort step leaves the iterator at 30. -/
theorem abort_keeps_overruns_witness :
    (VoxelContainer.abort_step
      { blankContainer ⟨0, 0, 0⟩ with m_center_dirty := true, m_iterator := 30 } 27).m_iterator
      = max 30 27 :=
  (abort_keeps_overruns
    { blankContainer ⟨0, 0, 0⟩ with m_center_dirty := true, m_iterator := 30 } 27 rfl
    (by decide)).1

/-! ## C30: space accounting -/

/-- C30: a region created as a new file satisfies, after its creation and after every
chunk write and every defragmentation (and after closing and reopening),
`end = header_end + garbage + (sum over all slots of the stored size)`, with
`header_end = (2·REGION_VOLUME + 2)·4`. -/
theorem space_accounting (cfg : Config) (maxsz : Nat) (hfits : cfg.Fits maxsz)
    (r : RegionIO) (h : Reach cfg maxsz r) :
    r.end_ = header_end cfg + r.garbage + table_total r.file cfg.REGION_VOLUME ∧
      header_end cfg = (2 * cfg.REGION_VOLUME + 2) * 4 := by
  obtain ⟨_, _, hacc, _, _⟩ := h.ok hfits
  exact ⟨hacc, rfl⟩

/-- Witness for `space_accounting`: `demoRegion`, with `end = 33 = 24 + 3 + (4 + 2)`. -/
theorem space_accounting_witness :
    demoRegion.end_
        = header_end smallConfig + demoRegion.garbage
          + table_total demoRegion.file smallConfig.REGION_VOLUME ∧
      header_end smallConfig = (2 * smallConfig.REGION_VOLUME + 2) * 4 :=
  space_accounting smallConfig 8 (by decide) demoRegion demoRegion_reach

/-! ## C29: a chunk write does not disturb the other chunks -/

theorem mem_int_range_lt (lo hi x : Int) : x ∈ int_range_lt lo hi ↔ lo ≤ x ∧ x < hi := by
  unfold int_range_lt
  rw [mem_int_range]
  omega

theorem mem_box_positions (p s e v : Vec3) :
    v ∈ box_positions p s e ↔
      (wrapS32 (p.x + s.x) ≤ v.x ∧ v.x < wrapS32 (p.x + e.x)) ∧
      (wrapS32 (p.y + s.y) ≤ v.y ∧ v.y < wrapS32 (p.y + e.y)) ∧
      (wrapS32 (p.z + s.z) ≤ v.z ∧ v.z < wrapS32 (p.z + e.z)) := by
  obtain ⟨vx, vy, vz⟩ := v
  unfold box_positions
  simp only [List.mem_flatMap, List.mem_map, mem_int_range_lt, Vec3.mk.injEq]
  constructor
  · rintro ⟨z, hz, y, hy, x, hx, rfl, rfl, rfl⟩
    exact ⟨hx, hy, hz⟩
  · rintro ⟨hx, hy, hz⟩
    exact ⟨vz, hz, vy, hy, vx, hx, rfl, rfl, rfl⟩

theorem mem_mesh_chunk_offsets (d : Vec3) :
    d ∈ mesh_chunk_offsets ↔ (0 ≤ d.x ∧ d.x ≤ 1) ∧ (0 ≤ d.y ∧ d.y ≤ 1) ∧ (0 ≤ d.z ∧ d.z ≤ 1) := by
  constructor
  · intro h
    exact (neighbourhood_facts d h).2.2.2.2
  · rintro ⟨⟨x0, x1⟩, ⟨y0, y1⟩, ⟨z0, z1⟩⟩
    obtain ⟨dx, dy, dz⟩ := d
    simp only at x0 x1 y0 y1 z0 z1
    have hx : dx = 0 ∨ dx = 1 := by omega
    have hy : dy = 0 ∨ dy = 1 := by omega
    have hz : dz = 0 ∨ dz = 1 := by omega
    rcases hx with rfl | rfl <;> rcases hy with rfl | rfl <;> rcases hz with rfl | rfl <;> decide

theorem contribution_bits_facts :
    (mesh_chunk_offsets.map contribution_bit).Nodup ∧
      (∀ b ∈ mesh_chunk_offsets.map contribution_bit, ∃ i, i < 8 ∧ b = 2 ^ i) ∧
      (mesh_chunk_offsets.map contribution_bit).foldl (fun a b => a ||| b) 0 = 2 ^ 8 - 1 := by
  rw [contribution_bits]
  refine ⟨by decide, ?_, by decide⟩
  intro b hb
  simp only [List.mem_cons, List.mem_singleton, List.not_mem_nil, or_false] at hb
  rcases hb with h | h | h | h | h | h | h | h
  · exact ⟨7, by decide, h⟩
  · exact ⟨6, by decide, h⟩
  · exact ⟨5, by decide, h⟩
  · exact ⟨4, by decide, h⟩
  · exact ⟨3, by decide, h⟩
  · exact ⟨2, by decide, h⟩
  · exact ⟨1, by decide, h⟩
  · exact ⟨0, by decide, h⟩

/-- C27: with `CHUNK_MESH_START..END = (−1,−1,−1)..(1,1,1)` and
`MESH_CHUNK_START..END = (0,0,0)..(2,2,2)`, the loop of `markMeshes(c)` visits the mesh `m`
(and ORs a bit into its mask) if and only if the loop of `generateMesh(m)` visits the chunk
`c`; the chunks of `m` are the eight positions `m + (0..1, 0..1, 0..1)`; `markMeshes` for
the chunk `m + d` ORs the bit `contribution_bit d` into the mask of `m`; and the eight bits
are pairwise different powers of two below `2^8` whose union is `ALL_CHUNKS_READY`, the
mask of the bits 0..7. -/
theorem neighbourhoods_dual (cc : ContainerConfig) (hcfg : MeshConfigOK cc)
    (hstart : cc.MESH_CHUNK_START = ⟨0, 0, 0⟩) (hend : cc.MESH_CHUNK_END = ⟨2, 2, 2⟩)
    (c m : Vec3) (hc : MeshFits c) (hm : MeshFits m) (vc : VoxelContainer) :
    (m ∈ box_positions c cc.CHUNK_MESH_START cc.CHUNK_MESH_END ↔
      c ∈ box_positions m cc.MESH_CHUNK_START cc.MESH_CHUNK_END) ∧
    (c ∈ box_positions m cc.MESH_CHUNK_START cc.MESH_CHUNK_END ↔
      ∃ d ∈ mesh_chunk_offsets, c = Vec3.add m d) ∧
    (∀ d ∈ mesh_chunk_offsets,
      (vc.markMeshes cc (Vec3.add m d)).1.m_mesh_readines
          (Math.position_to_index m cc.MESH_ARRAY_SIZE)
        = (vc.m_mesh_readines (Math.position_to_index m cc.MESH_ARRAY_SIZE)
            ||| contribution_bit d) % 2 ^ cc.READINES_BITS) ∧
    (mesh_chunk_offsets.map contribution_bit).Nodup ∧
    (∀ b ∈ mesh_chunk_offsets.map contribution_bit, ∃ i, i < 8 ∧ b = 2 ^ i) ∧
    (mesh_chunk_offsets.map contribution_bit).foldl (fun a b => a ||| b) 0
      = cc.ALL_CHUNKS_READY ∧
    cc.ALL_CHUNKS_READY = 2 ^ 8 - 1 := by
  obtain ⟨⟨cx0, cx1⟩, ⟨cy0, cy1⟩, ⟨cz0, cz1⟩⟩ := hc
  have hm' := hm
  obtain ⟨⟨mx0, mx1⟩, ⟨my0, my1⟩, ⟨mz0, mz1⟩⟩ := hm'
  obtain ⟨b1, b2, b3⟩ := contribution_bits_facts
  have hbox : ∀ v : Vec3, v ∈ box_positions m cc.MESH_CHUNK_START cc.MESH_CHUNK_END ↔
      (m.x ≤ v.x ∧ v.x ≤ m.x + 1) ∧ (m.y ≤ v.y ∧ v.y ≤ m.y + 1) ∧
        (m.z ≤ v.z ∧ v.z ≤ m.z + 1) := by
    intro v
    rw [mem_box_positions, hstart, hend]
    simp only
    rw [wrapS32_id (x := m.x + 0) (by omega) (by omega),
      wrapS32_id (x := m.x + 2) (by omega) (by omega),
      wrapS32_id (x := m.y + 0) (by omega) (by omega),
      wrapS32_id (x := m.y + 2) (by omega) (by omega),
      wrapS32_id (x := m.z + 0) (by omega) (by omega),
      wrapS32_id (x := m.z + 2) (by omega) (by omega)]
    omega
  refine ⟨?_, ?_, ?_, b1, b2, ?_, ?_⟩
  · rw [hbox, mem_box_positions, hcfg.mesh_start, hcfg.mesh_end]
    simp only
    rw [wrapS32_id (x := c.x + -1) (by omega) (by omega),
      wrapS32_id (x := c.x + 1) (by omega) (by omega),
      wrapS32_id (x := c.y + -1) (by omega) (by omega),
      wrapS32_id (x := c.y + 1) (by omega) (by omega),
      wrapS32_id (x := c.z + -1) (by omega) (by omega),
      wrapS32_id (x := c.z + 1) (by omega) (by omega)]
    omega
  · rw [hbox]
    constructor
    · rintro ⟨⟨x0, x1⟩, ⟨y0, y1⟩, ⟨z0, z1⟩⟩
      refine ⟨⟨c.x - m.x, c.y - m.y, c.z - m.z⟩, ?_, ?_⟩
      · rw [mem_mesh_chunk_offsets]
        simp only
        omega
      · obtain ⟨cx, cy, cz⟩ := c
        unfold Vec3.add
        simp only [Vec3.mk.injEq] at x0 x1 y0 y1 z0 z1 ⊢
        rw [wrapS32_id (by omega) (by omega), wrapS32_id (by omega) (by omega),
          wrapS32_id (by omega) (by omega)]
        omega
    · rintro ⟨d, hd, rfl⟩
      rw [add_eq_shift m d hm hd]
      obtain ⟨dx, dy, dz⟩ := (mem_mesh_chunk_offsets d).1 hd
      unfold Vec3.shift
      simp only
      omega
  · intro d hd
    exact (markMeshes_spec cc hcfg vc m hm d hd).1
  · rw [b3, hcfg.all_ready]
    rfl
  · rw [hcfg.all_ready]
    rfl

/-- Witness for `neighbourhoods_dual`: the toy configuration, the chunk `(2, 2, 4)` and the
mesh `(1, 2, 3)`. -/
theorem neighbourhoods_dual_witness :
    ((⟨1, 2, 3⟩ : Vec3) ∈ box_positions ⟨2, 2, 4⟩ toyContainerConfig.CHUNK_MESH_START
        toyContainerConfig.CHUNK_MESH_END ↔
      (⟨2, 2, 4⟩ : Vec3) ∈ box_positions ⟨1, 2, 3⟩ toyContainerConfig.MESH_CHUNK_START
        toyContainerConfig.MESH_CHUNK_END) ∧
    ((⟨2, 2, 4⟩ : Vec3) ∈ box_positions ⟨1, 2, 3⟩ toyContainerConfig.MESH_CHUNK_START
        toyContainerConfig.MESH_CHUNK_END ↔
      ∃ d ∈ mesh_chunk_offsets, (⟨2, 2, 4⟩ : Vec3) = Vec3.add ⟨1, 2, 3⟩ d) ∧
    (∀ d ∈ mesh_chunk_offsets,
      ((blankContainer ⟨0, 0, 0⟩).markMeshes toyContainerConfig
          (Vec3.add ⟨1, 2, 3⟩ d)).1.m_mesh_readines
          (Math.position_to_index ⟨1, 2, 3⟩ toyContainerConfig.MESH_ARRAY_SIZE)
        = ((blankContainer ⟨0, 0, 0⟩).m_mesh_readines
            (Math.position_to_index ⟨1, 2, 3⟩ toyContainerConfig.MESH_ARRAY_SIZE)
            ||| contribution_bit d) % 2 ^ toyContainerConfig.READINES_BITS) ∧
    (mesh_chunk_offsets.map contribution_bit).Nodup ∧
    (∀ b ∈ mesh_chunk_offsets.map contribution_bit, ∃ i, i < 8 ∧ b = 2 ^ i) ∧
    (mesh_chunk_offsets.map contribution_bit).foldl (fun a b => a ||| b) 0
      = toyContainerConfig.ALL_CHUNKS_READY ∧
    toyContainerConfig.ALL_CHUNKS_READY = 2 ^ 8 - 1 :=
  neighbourhoods_dual toyContainerConfig toyContainerConfig_ok rfl rfl ⟨2, 2, 4⟩ ⟨1, 2, 3⟩
    (by decide) (by decide) (blankContainer ⟨0, 0, 0⟩)

/-! ## C23: the lookup of `LeastRecentlyUsed` -/

theorem LRUInv.mem_of_mem_bucket {V : Type} {N : Nat} {hash : Vec3 → Nat}
    {lru : LeastRecentlyUsed V} {out : List Nat} (h : LRUInv N hash lru out) {n b : Nat}
    (hn : n ∈ lru.m_map b) : n ∈ lru.m_list ∧ hash (lru.node n).key = b := by
  rw [h.buckets] at hn
  obtain ⟨h1, h2⟩ := List.mem_filter.1 hn
  refine ⟨h1, ?_⟩
  rw [← h.heads n h1]
  simpa using h2

/-- C23: `get_node(key, bucket)` returns a node of the bucket whose key is `key` if the
bucket has one, and null otherwise.  On a hit the node becomes the front of the recency
list, the other nodes keep their relative order, the cached keys are the same set, and
every node keeps its key and value; on a miss the cache is unchanged. -/
theorem lru_lookup {V : Type} (N : Nat) (hash : Vec3 → Nat) (lru : LeastRecentlyUsed V)
    (out : List Nat) (h : LRUInv N hash lru out) (key : Vec3) (bucket : Nat) :
    (∀ n, (lru.get_node key bucket).2 = some n →
      (lru.node n).key = key ∧ n ∈ lru.m_map bucket ∧
      (lru.get_node key bucket).1.m_list = n :: lru.m_list.erase n ∧
      lru.m_list.erase n = lru.m_list.filter (fun m => decide (m ≠ n)) ∧
      (lru.get_node key bucket).1.keys.Perm lru.keys ∧
      (∀ m, ((lru.get_node key bucket).1.node m).key = (lru.node m).key ∧
        ((lru.get_node key bucket).1.node m).val = (lru.node m).val) ∧
      LRUInv N hash (lru.get_node key bucket).1 out) ∧
    ((lru.get_node key bucket).2 = none ↔ ∀ n ∈ lru.m_map bucket, (lru.node n).key ≠ key) ∧
    ((lru.get_node key bucket).2 = none → (lru.get_node key bucket).1 = lru) := by
  have hres : (lru.get_node key bucket).2
      = (lru.m_map bucket).find? (fun n => VoxelStorage.all_equal key (lru.node n).key) := by
    unfold LeastRecentlyUsed.get_node
    cases (lru.m_map bucket).find? (fun n => VoxelStorage.all_equal key (lru.node n).key) <;> rfl
  refine ⟨?_, ?_, ?_⟩
  · intro n hn
    rw [hres] at hn
    have hkey : (lru.node n).key = key := by
      have := List.find?_some hn
      rw [all_equal_iff] at this
      exact this.symm
    have hmem := List.mem_of_find?_eq_some hn
    obtain ⟨hlist, hb⟩ := h.mem_of_mem_bucket hmem
    rw [hkey] at hb
    subst hb
    obtain ⟨g1, g2, _, g4, g5⟩ := h.get_node_hit n hlist key hkey
    refine ⟨hkey, hmem, g2, ?_, ?_, g4, g5⟩
    · rw [h.list_nodup.erase_eq_filter]
      apply List.filter_congr
      intro m _
      by_cases hmn : m = n <;> simp [hmn]
    · unfold LeastRecentlyUsed.keys
      rw [g2]
      have h1 : ((n :: lru.m_list.erase n).map
          (fun m => ((lru.get_node key (hash key)).1.node m).key))
          = (n :: lru.m_list.erase n).map (fun m => (lru.node m).key) :=
        List.map_congr_left (fun m _ => (g4 m).1)
      rw [h1]
      exact (List.perm_cons_erase hlist).symm.map _
  · rw [hres, List.find?_eq_none]
    constructor
    · intro hf n hn hk
      exact hf n hn ((all_equal_iff _ _).2 hk.symm)
    · intro hf n hn hk
      exact hf n hn ((all_equal_iff _ _).1 hk).symm
  · intro hn
    rw [hres] at hn
    unfold LeastRecentlyUsed.get_node
    rw [hn]

theorem demoCache_inv :
    LRUInv toyEnv.cfg.CHUNK_HEAP_SIZE (VoxelStorage.chunk_index toyEnv.cfg) demoCache [] := by
  obtain ⟨s', c, b, e, hs', _⟩ := get_spec toyEnv toyEnv_valid
    (VoxelStorage.init smallConfig emptyWorld) ⟨0, 0, 0⟩ true false
    (storeOK_init_empty toyEnv).1 (by decide)
  have h := hs'.chunks.lru
  have e' : demoCache = s'.m_chunk_LRU := by
    unfold demoCache
    rw [e]
  rw [e']
  exact h

/-- Witness for `lru_lookup`: the chunk cache of the toy store after the fetch of
`(0, 0, 0)`, looked up for `(0, 0, 0)` in the bucket of that key. -/
theorem lru_lookup_witness :
    (∀ n, (demoCache.get_node ⟨0, 0, 0⟩ (VoxelStorage.chunk_index toyEnv.cfg ⟨0, 0, 0⟩)).2
        = some n →
      (demoCache.node n).key = ⟨0, 0, 0⟩ ∧
      n ∈ demoCache.m_map (VoxelStorage.chunk_index toyEnv.cfg ⟨0, 0, 0⟩) ∧
      (demoCache.get_node ⟨0, 0, 0⟩ (VoxelStorage.chunk_index toyEnv.cfg ⟨0, 0, 0⟩)).1.m_list
        = n :: demoCache.m_list.erase n ∧
      demoCache.m_list.erase n = demoCache.m_list.filter (fun m => decide (m ≠ n)) ∧
      (demoCache.get_node ⟨0, 0, 0⟩
        (VoxelStorage.chunk_index toyEnv.cfg ⟨0, 0, 0⟩)).1.keys.Perm demoCache.keys ∧
      (∀ m, ((demoCache.get_node ⟨0, 0, 0⟩
            (VoxelStorage.chunk_index toyEnv.cfg ⟨0, 0, 0⟩)).1.node m).key
          = (demoCache.node m).key ∧
        ((demoCache.get_node ⟨0, 0, 0⟩
            (VoxelStorage.chunk_index toyEnv.cfg ⟨0, 0, 0⟩)).1.node m).val
          = (demoCache.node m).val) ∧
      LRUInv toyEnv.cfg.CHUNK_HEAP_SIZE (VoxelStorage.chunk_index toyEnv.cfg)
        (demoCache.get_node ⟨0, 0, 0⟩ (VoxelStorage.chunk_index toyEnv.cfg ⟨0, 0, 0⟩)).1 []) ∧
    ((demoCache.get_node ⟨0, 0, 0⟩ (VoxelStorage.chunk_index toyEnv.cfg ⟨0, 0, 0⟩)).2 = none ↔
      ∀ n ∈ demoCache.m_map (VoxelStorage.chunk_index toyEnv.cfg ⟨0, 0, 0⟩),
        (demoCache.node n).key ≠ ⟨0, 0, 0⟩) ∧
    ((demoCache.get_node ⟨0, 0, 0⟩ (VoxelStorage.chunk_index toyEnv.cfg ⟨0, 0, 0⟩)).2 = none →
      (demoCache.get_node ⟨0, 0, 0⟩ (VoxelStorage.chunk_index toyEnv.cfg ⟨0, 0, 0⟩)).1
        = demoCache) :=
  lru_lookup toyEnv.cfg.CHUNK_HEAP_SIZE (VoxelStorage.chunk_index toyEnv.cfg) demoCache []
    demoCache_inv ⟨0, 0, 0⟩ (VoxelStorage.chunk_index toyEnv.cfg ⟨0, 0, 0⟩)

theorem demoCache_hit :
    (demoCache.get_node ⟨0, 0, 0⟩ (VoxelStorage.chunk_index toyEnv.cfg ⟨0, 0, 0⟩)).2
      = some 1 := by
  decide

/-! ## C21: a fetch that misses the cache -/

/-- `close_chunk` on a chunk node the caller holds returns, keeps the invariant of the
regions and the chunk cache, and leaves the slot of every other chunk as it was: empty or
not, and with the same blob. -/
theorem close_chunk_frame (env : Env) (hv : env.Valid) (s : VoxelStorage) (c : Nat)
    (hr : RegionsOK env s [])
    (hkey : (s.m_chunk_LRU.node c).key.isS32)
    (hlen : (s.m_chunk_LRU.node c).val.blocks.length = env.cfg.CHUNK_VOLUME) :
    ∃ s', s.close_chunk env c = (s', .ok ()) ∧ RegionsOK env s' [] ∧
      s'.m_chunk_LRU = s.m_chunk_LRU ∧
      (∀ q : Vec3, q.isS32 → q ≠ (s.m_chunk_LRU.node c).key →
        (slot_offset (s'.world (VoxelStorage.floor_div q env.cfg.REGION_SIZE))
            (VoxelStorage.slot_index env.cfg q) = 0 ↔
          slot_offset (s.world (VoxelStorage.floor_div q env.cfg.REGION_SIZE))
            (VoxelStorage.slot_index env.cfg q) = 0) ∧
        slot_bytes (s'.world (VoxelStorage.floor_div q env.cfg.REGION_SIZE))
            (VoxelStorage.slot_index env.cfg q)
          = slot_bytes (s.world (VoxelStorage.floor_div q env.cfg.REGION_SIZE))
            (VoxelStorage.slot_index env.cfg q)) ∧
      (∀ m, m ∈ s.m_region_LRU.m_list →
        (m ∈ s'.m_region_LRU.m_list ∧
          (s'.m_region_LRU.node m).key = (s.m_region_LRU.node m).key) ∨
        (s.m_region_LRU.m_list.length = env.cfg.REGION_HEAP_SIZE ∧
          s.m_region_LRU.m_list.getLast? = some m)) := by
  by_cases hd : (s.m_chunk_LRU.node c).val.dirty = false
  · refine ⟨s, ?_, hr, rfl, fun _ _ _ => ⟨Iff.rfl, rfl⟩, fun m hm => Or.inl ⟨hm, rfl⟩⟩
    unfold VoxelStorage.close_chunk
    simp [hd]
  · have hd' : (s.m_chunk_LRU.node c).val.dirty = true := by simpa using hd
    set p := (s.m_chunk_LRU.node c).key with hp
    set rE := VoxelStorage.floor_div p env.cfg.REGION_SIZE with hrE
    obtain ⟨s1, n, hget, hr1, hc1, hhead, hkn, hbytes, _, hsurv⟩ :=
      get_region_spec env hv s rE hr
    have hn : n ∈ s1.m_region_LRU.m_list := List.mem_of_mem_head? hhead
    have hfd : (s1.m_region_LRU.node n).val.fd = some rE := by
      rw [hr1.fds n hn, hkn]
    have hk := slot_index_lt env.cfg hv.region_size_pos hv.volume_lt p hkey
    obtain ⟨comp, hcomp, hcpos, hcmax, _⟩ := hv.codec_ok _ hlen
    have hiofile : (s1.region_io n).file = s1.world rE := by
      unfold VoxelStorage.region_io VoxelStorage.region_file
      simp only [hfd]
    obtain ⟨q1, q2, _, _, q5⟩ := close_chunk_region_spec env.cfg _ (s1.region_io n)
      (VoxelStorage.slot_index env.cfg p) comp hv.fits hv.threshold_pos (hr1.cached n hn).1
      (hr1.cached n hn).2 hk hcpos hcmax
    set io' := close_chunk_region env.cfg (s1.region_io n) (VoxelStorage.slot_index env.cfg p)
      comp with hio'
    have hclose : s.close_chunk env c = (s1.set_region_io n io', .ok ()) := by
      unfold VoxelStorage.close_chunk
      rw [hd']
      simp only [Bool.not_true, Bool.false_eq_true, if_false]
      rw [← hp, ← hrE, hget]
      simp only
      rw [hc1, hcomp, ← hp]
    have hworld := VoxelStorage.set_region_io_world s1 n io' rE hfd
    refine ⟨s1.set_region_io n io', hclose, hr1.set_region_io n hn io' ⟨q1, q2⟩, by
      show s1.m_chunk_LRU = s.m_chunk_LRU
      exact hc1, ?_, ?_⟩
    · intro q hq hqp
      have hj := slot_index_lt env.cfg hv.region_size_pos hv.volume_lt q hq
      obtain ⟨e1, _, e3⟩ := slot_congr_of_bytes env.cfg
        (s.world (VoxelStorage.floor_div q env.cfg.REGION_SIZE))
        (s1.world (VoxelStorage.floor_div q env.cfg.REGION_SIZE))
        (VoxelStorage.slot_index env.cfg q)
        (hbytes (VoxelStorage.floor_div q env.cfg.REGION_SIZE)) (hr.slot_cases _ _ hj)
      rw [← e1, ← e3]
      by_cases hreg : VoxelStorage.floor_div q env.cfg.REGION_SIZE = rE
      · have hjk : VoxelStorage.slot_index env.cfg q ≠ VoxelStorage.slot_index env.cfg p := by
          intro e
          exact hqp (slot_index_inj env.cfg hv.region_size_pos hv.volume_lt q p hq hkey
            (by rw [hreg]) e)
        obtain ⟨z1, _, z3⟩ := q5 _ hj hjk
        rw [hiofile] at z1 z3
        rw [hreg, hworld rE]
        simp only [if_true]
        exact ⟨z1, z3⟩
      · rw [hworld _]
        simp [hreg]
    · intro m hm
      rcases hsurv m hm with ⟨h1, h2⟩ | h3
      · left
        exact ⟨h1, by rw [(VoxelStorage.set_region_io_node s1 n io' m).1, h2]⟩
      · exact Or.inr h3

/-- Lines 169-174 of `get_chunk` hand a chunk node to the caller; the slot of every chunk
that is not cached stays as it was: empty or not, and with the same blob. -/
theorem take_chunk_node_frame (env : Env) (hv : env.Valid) (s : VoxelStorage)
    (hr : RegionsOK env s [])
    (hlru : LRUInv env.cfg.CHUNK_HEAP_SIZE (VoxelStorage.chunk_index env.cfg) s.m_chunk_LRU [])
    (hkeys : ∀ n ∈ s.m_chunk_LRU.m_list, (s.m_chunk_LRU.node n).key.isS32)
    (hlens : ∀ n ∈ s.m_chunk_LRU.m_list,
      (s.m_chunk_LRU.node n).val.blocks.length = env.cfg.CHUNK_VOLUME) :
    ∃ s2 c, s.take_chunk_node env = (s2, .ok c) ∧ RegionsOK env s2 [] ∧
      (∀ q : Vec3, q.isS32 → q ∉ s.m_chunk_LRU.keys →
        (slot_offset (s2.world (VoxelStorage.floor_div q env.cfg.REGION_SIZE))
            (VoxelStorage.slot_index env.cfg q) = 0 ↔
          slot_offset (s.world (VoxelStorage.floor_div q env.cfg.REGION_SIZE))
            (VoxelStorage.slot_index env.cfg q) = 0) ∧
        slot_bytes (s2.world (VoxelStorage.floor_div q env.cfg.REGION_SIZE))
            (VoxelStorage.slot_index env.cfg q)
          = slot_bytes (s.world (VoxelStorage.floor_div q env.cfg.REGION_SIZE))
            (VoxelStorage.slot_index env.cfg q)) ∧
      (∀ m, m ∈ s.m_region_LRU.m_list →
        (m ∈ s2.m_region_LRU.m_list ∧
          (s2.m_region_LRU.node m).key = (s.m_region_LRU.node m).key) ∨
        (s.m_region_LRU.m_list.length = env.cfg.REGION_HEAP_SIZE ∧
          s.m_region_LRU.m_list.getLast? = some m)) := by
  cases hfree : s.m_chunk_LRU.m_free_list with
  | cons c rest =>
    obtain ⟨e1, _⟩ := hlru.get_from_heap hfree
    refine ⟨{ s with m_chunk_LRU := { s.m_chunk_LRU with m_free_list := rest } }, c, ?_,
      ⟨hr.lru, hr.fds, hr.cached, hr.closed⟩, fun _ _ _ => ⟨Iff.rfl, rfl⟩,
      fun m hm => Or.inl ⟨hm, rfl⟩⟩
    unfold VoxelStorage.take_chunk_node
    rw [e1]
  | nil =>
    have hlen := hlru.length_eq
    rw [hfree] at hlen
    simp only [List.length_nil, Nat.add_zero] at hlen
    have hne : s.m_chunk_LRU.m_list ≠ [] := by
      intro hnil
      rw [hnil] at hlen
      have := hv.chunk_heap
      simp at hlen
      omega
    obtain ⟨c, e2, hcm, _, _, _⟩ := hlru.remove_lru_node hne
    set sA : VoxelStorage := { s with m_chunk_LRU := s.m_chunk_LRU.remove_node c } with hsA
    have hrA : RegionsOK env sA [] := ⟨hr.lru, hr.fds, hr.cached, hr.closed⟩
    obtain ⟨s2, k1, k2, _, k4, k5⟩ := close_chunk_frame env hv sA c hrA
      (hkeys c hcm) (hlens c hcm)
    refine ⟨s2, c, ?_, k2, ?_, k5⟩
    · unfold VoxelStorage.take_chunk_node
      rw [LeastRecentlyUsed.get_from_heap_nil _ hfree]
      simp only
      rw [e2]
      simp only
      rw [k1]
    · intro q hq hqk
      refine k4 q hq ?_
      intro e
      apply hqk
      rw [e]
      exact List.mem_map_of_mem _ hcm

/-- The node that lines 175-204 of `get_chunk` link: it has the key and the value set, and
it is the front of the recency list. -/
theorem loaded_node_facts {V : Type} (lru : LeastRecentlyUsed V) (c : Nat) (p : Vec3) (v : V)
    (idx : Nat) :
    ((((lru.set_key c p).set_val c v).add_node c idx).node c).key = p ∧
    ((((lru.set_key c p).set_val c v).add_node c idx).node c).val = v ∧
    (((lru.set_key c p).set_val c v).add_node c idx).m_list.head? = some c := by
  obtain ⟨d1, d2⟩ := LeastRecentlyUsed.add_node_key ((lru.set_key c p).set_val c v) c idx c
  obtain ⟨a1, _, a3⟩ := LeastRecentlyUsed.set_val_node (lru.set_key c p) c v c
  obtain ⟨_, _, b3⟩ := LeastRecentlyUsed.set_key_node lru c p c
  refine ⟨by rw [d1, a1, b3]; simp, by rw [d2, a3]; simp, rfl⟩

/-- A fetch that misses the cache arrives at lines 175-205 of `get_chunk` with the region
of the chunk cached and a chunk node in hand, and the slot of the chunk in the file of the
region is as it was when the fetch began: empty or not, and with the same blob. -/
theorem get_chunk_miss_load (env : Env) (hv : env.Valid) (s : VoxelStorage)
    (hr : RegionsOK env s []) (hc : ChunksOK env s []) (p : Vec3) (hp : p.isS32)
    (hpk : p ∉ s.m_chunk_LRU.keys) :
    ∃ (s2 : VoxelStorage) (region c : Nat), s.get_chunk env p = s2.load_chunk env region c p ∧
      (∀ lru : LeastRecentlyUsed Chunk,
        VoxelStorage.region_file { s2 with m_chunk_LRU := lru } region
          = s2.world (VoxelStorage.floor_div p env.cfg.REGION_SIZE)) ∧
      (slot_offset (s2.world (VoxelStorage.floor_div p env.cfg.REGION_SIZE))
          (VoxelStorage.slot_index env.cfg p) = 0 ↔
        slot_offset (s.world (VoxelStorage.floor_div p env.cfg.REGION_SIZE))
          (VoxelStorage.slot_index env.cfg p) = 0) ∧
      slot_bytes (s2.world (VoxelStorage.floor_div p env.cfg.REGION_SIZE))
          (VoxelStorage.slot_index env.cfg p)
        = slot_bytes (s.world (VoxelStorage.floor_div p env.cfg.REGION_SIZE))
          (VoxelStorage.slot_index env.cfg p) := by
  have hmiss := hc.lru.get_node_miss p hpk
  obtain ⟨s1, region, e1, hr1, hcl1, hhead1, hkey1, hbytes1, _, _⟩ :=
    get_region_spec env hv s (VoxelStorage.floor_div p env.cfg.REGION_SIZE) hr
  have hk := slot_index_lt env.cfg hv.region_size_pos hv.volume_lt p hp
  obtain ⟨a1, _, a3⟩ := slot_congr_of_bytes env.cfg
    (s.world (VoxelStorage.floor_div p env.cfg.REGION_SIZE))
    (s1.world (VoxelStorage.floor_div p env.cfg.REGION_SIZE))
    (VoxelStorage.slot_index env.cfg p)
    (hbytes1 (VoxelStorage.floor_div p env.cfg.REGION_SIZE)) (hr.slot_cases _ _ hk)
  obtain ⟨s2, c, e2, hr2, hraw2, hsurv⟩ := take_chunk_node_frame env hv s1 hr1
    (by rw [hcl1]; exact hc.lru) (by rw [hcl1]; exact hc.keys_s32)
    (by rw [hcl1]; exact hc.lengths)
  obtain ⟨b1, b3⟩ := hraw2 p hp (by rw [hcl1]; exact hpk)
  have hregmem : region ∈ s1.m_region_LRU.m_list := List.mem_of_mem_head? hhead1
  have hreg2 : region ∈ s2.m_region_LRU.m_list ∧
      (s2.m_region_LRU.node region).key = VoxelStorage.floor_div p env.cfg.REGION_SIZE := by
    rcases hsurv region hregmem with ⟨g1, g2⟩ | ⟨g1, g2⟩
    · exact ⟨g1, by rw [g2, hkey1]⟩
    · exfalso
      have h2 : 2 ≤ s1.m_region_LRU.m_list.length := by rw [g1]; exact hv.region_heap
      exact head_ne_getLast_of_nodup _ region hr1.lru.list_nodup h2 hhead1 g2
  refine ⟨s2, region, c, ?_, ?_, by rw [b1, a1], by rw [b3, a3]⟩
  · unfold VoxelStorage.get_chunk
    rw [hmiss]
    simp only []
    rw [e1]
    simp only []
    rw [e2]
  · intro lru
    unfold VoxelStorage.region_file
    simp only [hr2.fds region hreg2.1, hreg2.2]

/-- The three ways through lines 175-205 of `get_chunk`, by the slot of the chunk in the
file `f` behind the region node: an empty slot gives the blocks of `create_new_chunk`, marked
dirty; a slot whose blob decompresses to `CHUNK_VOLUME` bytes gives those blocks, marked
clean; any other slot makes the call throw.  A node that is returned has the key `p` and is
the front of the recency list. -/
theorem load_chunk_cases (env : Env) (s : VoxelStorage) (region c : Nat) (p : Vec3) (f : File)
    (hf : ∀ lru : LeastRecentlyUsed Chunk,
      VoxelStorage.region_file { s with m_chunk_LRU := lru } region = f) :
    (slot_offset f (VoxelStorage.slot_index env.cfg p) = 0 →
      ∃ s', s.load_chunk env region c p = (s', .ok c) ∧
        (s'.m_chunk_LRU.node c).val.blocks = env.create_new_chunk p ∧
        (s'.m_chunk_LRU.node c).val.dirty = true ∧
        (s'.m_chunk_LRU.node c).key = p ∧ s'.m_chunk_LRU.m_list.head? = some c) ∧
    (slot_offset f (VoxelStorage.slot_index env.cfg p) ≠ 0 →
      ∀ blocks, env.codec.uncompress (slot_bytes f (VoxelStorage.slot_index env.cfg p))
          env.cfg.CHUNK_VOLUME = some blocks → blocks.length = env.cfg.CHUNK_VOLUME →
        ∃ s', s.load_chunk env region c p = (s', .ok c) ∧
          (s'.m_chunk_LRU.node c).val.blocks = blocks ∧
          (s'.m_chunk_LRU.node c).val.dirty = false ∧
          (s'.m_chunk_LRU.node c).key = p ∧ s'.m_chunk_LRU.m_list.head? = some c) ∧
    (slot_offset f (VoxelStorage.slot_index env.cfg p) ≠ 0 →
      (env.codec.uncompress (slot_bytes f (VoxelStorage.slot_index env.cfg p))
          env.cfg.CHUNK_VOLUME = none ∨
        ∃ blocks, env.codec.uncompress (slot_bytes f (VoxelStorage.slot_index env.cfg p))
            env.cfg.CHUNK_VOLUME = some blocks ∧ blocks.length ≠ env.cfg.CHUNK_VOLUME) →
      ∃ s', s.load_chunk env region c p = (s', .thrown)) := by
  refine ⟨?_, ?_, ?_⟩
  · intro h0
    obtain ⟨n1, n2, n3⟩ := loaded_node_facts s.m_chunk_LRU c p
      ({ blocks := env.create_new_chunk p, dirty := true } : Chunk)
      (VoxelStorage.chunk_index env.cfg p)
    have hload : s.load_chunk env region c p
        = (VoxelStorage.mk (((s.m_chunk_LRU.set_key c p).set_val c
            (Chunk.mk (env.create_new_chunk p) true)).add_node c
              (VoxelStorage.chunk_index env.cfg p)) s.m_region_LRU s.world, .ok c) := by
      unfold VoxelStorage.load_chunk
      simp only [hf]
      rw [if_neg (by simpa using h0)]
    exact ⟨_, hload, congrArg Chunk.blocks n2, congrArg Chunk.dirty n2, n1, n3⟩
  · intro h0 blocks hu hl
    obtain ⟨n1, n2, n3⟩ := loaded_node_facts s.m_chunk_LRU c p
      ({ blocks := blocks, dirty := false } : Chunk) (VoxelStorage.chunk_index env.cfg p)
    have hload : s.load_chunk env region c p
        = (VoxelStorage.mk (((s.m_chunk_LRU.set_key c p).set_val c
            (Chunk.mk blocks false)).add_node c
              (VoxelStorage.chunk_index env.cfg p)) s.m_region_LRU s.world, .ok c) := by
      unfold VoxelStorage.load_chunk
      simp only [hf]
      unfold slot_bytes at hu
      rw [if_pos h0, hu]
      simp only
      rw [if_neg (by simpa using hl)]
    exact ⟨_, hload, congrArg Chunk.blocks n2, congrArg Chunk.dirty n2, n1, n3⟩
  · intro h0 hbad
    unfold slot_bytes at hbad
    rcases hbad with hu | ⟨blocks, hu, hl⟩
    · refine ⟨(s.load_chunk env region c p).1, Prod.ext rfl ?_⟩
      unfold VoxelStorage.load_chunk
      simp only [hf]
      rw [if_pos h0, hu]
    · refine ⟨(s.load_chunk env region c p).1, Prod.ext rfl ?_⟩
      unfold VoxelStorage.load_chunk
      simp only [hf]
      rw [if_pos h0, hu]
      simp only
      rw [if_pos hl]

/-- A file that is at least as long as a complete file and has the same bytes from the
slot table on is complete. -/
theorem FileComplete.mono {cfg : Config} {f g : File} (h : FileComplete cfg f)
    (hs : f.size ≤ g.size) (hb : ∀ i, 8 ≤ i → g.get i = f.get i) : FileComplete cfg g := by
  obtain ⟨h1, h2⟩ := h
  refine ⟨by omega, fun k hk h0 => ?_⟩
  have h8 := slot_position_ge k
  have e1 : slot_offset g k = slot_offset f k :=
    File.read_u32_congr _ _ _ (fun j _ => hb _ (by omega))
  have e2 : slot_size g k = slot_size f k :=
    File.read_u32_congr _ _ _ (fun j _ => hb _ (by omega))
  rw [e1] at h0 ⊢
  rw [e2]
  have := h2 k hk h0
  omega

theorem write_header_complete (cfg : Config) (r : RegionIO) (h : FileComplete cfg r.file) :
    FileComplete cfg (write_header r) :=
  h.mono (File.size_le_pwrite _ _ _) (fun i hi => write_header_get r i hi)

theorem new_region_complete (cfg : Config) (f : File) (hf : f.size = 0) :
    FileComplete cfg (new_region cfg f).file := by
  refine ⟨le_refl _, fun k _ h0 => ?_⟩
  exact absurd (File.read_u32_of_zero _ _ (fun j _ => new_region_get cfg f hf _)) h0

theorem File.end_le_size_pwrite (f : File) (b : List Nat) (p : Nat) (hb : b.length ≠ 0) :
    p + b.length ≤ (f.pwrite b p).size := by
  unfold File.pwrite
  rw [if_neg hb]
  exact le_max_right _ _

/-- A blob that the write rule appends lies inside the file. -/
theorem write_chunk_append_size (r : RegionIO) (k : Nat) (compressed : List Nat)
    (hlen : compressed.length < 4294967296)
    (hcase : slot_size r.file k < compressed.length) :
    r.end_ + compressed.length ≤ (write_chunk r k compressed).file.size := by
  have hnew : wrapU32 compressed.length = compressed.length := wrapU32_id hlen
  have htake : compressed.take compressed.length = compressed := List.take_length _
  have hdiff : (slot_size r.file k : Int) - (compressed.length : Int) < 0 := by omega
  unfold write_chunk
  simp only [hnew, htake, hdiff, if_true]
  exact File.end_le_size_pwrite _ _ _ (by omega)

/-- The write rule of `close_chunk` keeps a complete file complete. -/
theorem write_chunk_complete (cfg : Config) (r : RegionIO) (k : Nat) (compressed : List Nat)
    (hk : k < cfg.REGION_VOLUME) (hend : header_end cfg ≤ r.end_)
    (hfit : r.end_ + compressed.length < 4294967296)
    (hslot : slot_offset r.file k = 0 ∧ slot_size r.file k = 0 ∨
      header_end cfg ≤ slot_offset r.file k)
    (hg : r.garbage + slot_size r.file k < 4294967296)
    (hc : FileComplete cfg r.file) : FileComplete cfg (write_chunk r k compressed).file := by
  obtain ⟨hA, hB, _, hsz, hD, _⟩ := write_chunk_spec cfg r k compressed hk hend hfit hslot hg
  obtain ⟨c1, c2⟩ := hc
  refine ⟨by omega, fun j hj h0 => ?_⟩
  by_cases hjk : j = k
  · subst hjk
    by_cases hcase : compressed.length ≤ slot_size r.file j
    · obtain ⟨_, ho, hs, _, _⟩ := hA hcase
      rw [ho] at h0 ⊢
      rw [hs]
      have := c2 j hj h0
      omega
    · obtain ⟨_, ho, hs, _, _⟩ := hB (by omega)
      rw [ho, hs]
      exact write_chunk_append_size r j compressed (by omega) (by omega)
  · obtain ⟨e1, e2⟩ := hD j hj hjk
    rw [e1] at h0 ⊢
    rw [e2]
    have := c2 j hj h0
    omega

/-- Defragmentation keeps a complete file complete: no blob moves up. -/
theorem defragment_region_complete (cfg : Config) (r : RegionIO) (h : BlobLayout cfg r)
    (hc : FileComplete cfg r.file) : FileComplete cfg (defragment_region cfg r).file := by
  obtain ⟨_, _, _, _, hsz, hslot⟩ := (defragment_region_spec cfg r h).1
  obtain ⟨c1, c2⟩ := hc
  refine ⟨by omega, fun k hk h0 => ?_⟩
  obtain ⟨d1, d2, d3⟩ := hslot k hk
  have h0' : slot_offset r.file k ≠ 0 := by
    intro e
    rw [d2, if_pos e] at h0
    exact h0 rfl
  have := (d3 h0').2
  have := c2 k hk h0'
  rw [d1]
  omega

/-- The region part of `close_chunk` keeps a complete file complete. -/
theorem close_chunk_region_complete (cfg : Config) (maxsz : Nat) (r : RegionIO) (k : Nat)
    (compressed : List Nat) (hfits : cfg.Fits maxsz) (h : RegionOK cfg maxsz r)
    (hgar : r.garbage < cfg.DEFRAGMENT_GARBAGE_THRESHOLD) (hk : k < cfg.REGION_VOLUME)
    (hpos : 0 < compressed.length) (hmax : compressed.length ≤ maxsz)
    (hc : FileComplete cfg r.file) :
    FileComplete cfg (close_chunk_region cfg r k compressed).file := by
  have hok1 := write_chunk_ok cfg maxsz r k compressed hfits h hgar hk hpos hmax
  obtain ⟨hwf, hz, hacc, hgb, _⟩ := h
  obtain ⟨hhe, hend, hin, _⟩ := hwf
  have hs := (hz k hk).2
  have hfit : r.end_ + compressed.length < 4294967296 := by
    have hsum : table_total r.file cfg.REGION_VOLUME ≤ cfg.REGION_VOLUME * maxsz := by
      unfold table_total
      have : ∀ (n : Nat), ((List.range n).map (slot_size r.file)).sum ≤ n * maxsz ∨
          ∃ j, j < n ∧ maxsz < slot_size r.file j := by
        intro n
        induction n with
        | zero => left; simp
        | succ n ih =>
          rcases ih with ih | ⟨j, hj, hl⟩
          · by_cases hn : slot_size r.file n ≤ maxsz
            · left
              rw [List.range_succ, List.map_append, List.sum_append]
              simp only [List.map_cons, List.map_nil, List.sum_cons, List.sum_nil]
              rw [Nat.succ_mul]
              omega
            · right; exact ⟨n, by omega, by omega⟩
          · right; exact ⟨j, by omega, hl⟩
      rcases this cfg.REGION_VOLUME with h1 | ⟨j, hj, hl⟩
      · exact h1
      · have := (hz j hj).2
        omega
    unfold Config.Fits at hfits
    rw [Nat.add_mul, Nat.one_mul] at hfits
    omega
  have hslot : slot_offset r.file k = 0 ∧ slot_size r.file k = 0 ∨
      header_end cfg ≤ slot_offset r.file k := by
    by_cases h0 : slot_offset r.file k = 0
    · exact Or.inl ⟨h0, (hz k hk).1 h0⟩
    · exact Or.inr (hin k hk h0).1
  have hw := write_chunk_complete cfg r k compressed hk hhe hfit hslot (by
    unfold Config.Fits at hfits
    have : 0 < cfg.REGION_VOLUME := by omega
    have : maxsz ≤ (cfg.REGION_VOLUME + 1) * maxsz := Nat.le_mul_of_pos_left _ (by omega)
    omega) hc
  unfold close_chunk_region
  simp only
  by_cases hd : (write_chunk r k compressed).garbage ≥ cfg.DEFRAGMENT_GARBAGE_THRESHOLD
  · rw [if_pos hd]
    exact defragment_region_complete cfg _ hok1.1.2 hw
  · rw [if_neg hd]
    exact hw

/-- Lines 329-334 of `get_region` leave every file complete. -/
theorem take_region_node_complete (env : Env) (hv : env.Valid) (s : VoxelStorage)
    (h : RegionsOK env s []) (hfc : FilesComplete env s) :
    FilesComplete env s.take_region_node.1 := by
  cases hfree : s.m_region_LRU.m_free_list with
  | cons n rest =>
    obtain ⟨e1, _⟩ := h.lru.get_from_heap hfree
    unfold VoxelStorage.take_region_node
    rw [e1]
    exact hfc
  | nil =>
    have hlen := h.lru.length_eq
    rw [hfree] at hlen
    simp only [List.length_nil, Nat.add_zero] at hlen
    have hne : s.m_region_LRU.m_list ≠ [] := by
      intro hnil
      rw [hnil] at hlen
      have := hv.region_heap
      simp at hlen
      omega
    obtain ⟨n, e2, hn, _, _, _⟩ := h.lru.remove_lru_node hne
    have hfd := h.fds n hn
    have hs'_eq : VoxelStorage.close_region
        { s with m_region_LRU := s.m_region_LRU.remove_node n } n
        = VoxelStorage.mk s.m_chunk_LRU (s.m_region_LRU.remove_node n)
          (Function.update s.world (s.m_region_LRU.node n).key
            (write_header (s.region_io n))) := by
      unfold VoxelStorage.close_region
      have : ((s.m_region_LRU.remove_node n).node n).val.fd
          = some (s.m_region_LRU.node n).key := hfd
      simp only [this]
      rfl
    have hfile_n : (s.region_io n).file = s.world (s.m_region_LRU.node n).key := by
      unfold VoxelStorage.region_io VoxelStorage.region_file
      simp only [hfd]
    have hsize := (h.cached n hn).1.2.2.2.2
    unfold VoxelStorage.take_region_node
    rw [LeastRecentlyUsed.get_from_heap_nil _ hfree]
    simp only
    rw [e2]
    simp only
    rw [hs'_eq]
    intro r hsz
    simp only at hsz ⊢
    by_cases hre : r = (s.m_region_LRU.node n).key
    · subst hre
      rw [Function.update_same]
      apply write_header_complete
      rw [hfile_n] at hsize ⊢
      exact hfc _ hsize
    · rw [Function.update_noteq hre] at hsz ⊢
      exact hfc r hsz

/-- Lines 336-361 of `get_region` leave every file complete: a new file is extended to the
end of the slot table, an existing one is not changed. -/
theorem open_region_complete (env : Env) (s : VoxelStorage) (n : Nat) (r : Vec3)
    (hfc : FilesComplete env s) : FilesComplete env (s.open_region env n r) := by
  have hw : (s.open_region env n r).world = Function.update s.world r
      (if ((s.world r).size == 0) = true then new_region env.cfg (s.world r)
        else load_region (s.world r)).file := rfl
  intro r' hsz
  rw [hw] at hsz ⊢
  by_cases hre : r' = r
  · subst hre
    rw [Function.update_same] at hsz ⊢
    by_cases hz : (s.world r').size = 0
    · have : ((s.world r').size == 0) = true := by simp [hz]
      rw [if_pos this]
      exact new_region_complete env.cfg _ hz
    · have : ¬ ((s.world r').size == 0) = true := by simp [hz]
      rw [if_neg this]
      exact hfc r' hz
  · rw [Function.update_noteq hre] at hsz ⊢
    exact hfc r' hsz

/-- `get_region` leaves every file complete. -/
theorem get_region_complete (env : Env) (hv : env.Valid) (s : VoxelStorage) (r : Vec3)
    (h : RegionsOK env s []) (hfc : FilesComplete env s) :
    FilesComplete env (s.get_region env r).1 := by
  by_cases hr : r ∈ s.m_region_LRU.keys
  · obtain ⟨n, hn, hkn⟩ := List.mem_map.1 hr
    obtain ⟨g1, _⟩ := h.lru.get_node_hit n hn r hkn
    have hget : s.get_region env r
        = ({ s with m_region_LRU :=
            (s.m_region_LRU.get_node r (VoxelStorage.region_index env.cfg r)).1 }, .ok n) := by
      unfold VoxelStorage.get_region
      have : s.m_region_LRU.get_node r (VoxelStorage.region_index env.cfg r)
          = ((s.m_region_LRU.get_node r (VoxelStorage.region_index env.cfg r)).1, some n) :=
        Prod.ext rfl g1
      rw [this]
    rw [hget]
    exact hfc
  · have hmiss := h.lru.get_node_miss r hr
    obtain ⟨s1, n, t1, _⟩ := take_region_node_spec env hv s h
    have hget : s.get_region env r = (s1.open_region env n r, .ok n) := by
      unfold VoxelStorage.get_region
      rw [hmiss]
      simp only
      have : ({ s with m_region_LRU := s.m_region_LRU } : VoxelStorage) = s := rfl
      rw [this, t1]
    rw [hget]
    apply open_region_complete
    have := take_region_node_complete env hv s h hfc
    rw [t1] at this
    exact this

/-- `close_chunk` on a chunk node the caller holds leaves every file complete. -/
theorem close_chunk_complete (env : Env) (hv : env.Valid) (s : VoxelStorage) (c : Nat)
    (hr : RegionsOK env s [])
    (hkey : (s.m_chunk_LRU.node c).key.isS32)
    (hlen : (s.m_chunk_LRU.node c).val.blocks.length = env.cfg.CHUNK_VOLUME)
    (hfc : FilesComplete env s) : FilesComplete env (s.close_chunk env c).1 := by
  by_cases hd : (s.m_chunk_LRU.node c).val.dirty = false
  · have : s.close_chunk env c = (s, .ok ()) := by
      unfold VoxelStorage.close_chunk
      simp [hd]
    rw [this]
    exact hfc
  · have hd' : (s.m_chunk_LRU.node c).val.dirty = true := by simpa using hd
    set p := (s.m_chunk_LRU.node c).key with hp
    set rE := VoxelStorage.floor_div p env.cfg.REGION_SIZE with hrE
    obtain ⟨s1, n, hget, hr1, hc1, hhead, hkn, _, _, _⟩ := get_region_spec env hv s rE hr
    have hfc1 : FilesComplete env s1 := by
      have := get_region_complete env hv s rE hr hfc
      rw [hget] at this
      exact this
    have hn : n ∈ s1.m_region_LRU.m_list := List.mem_of_mem_head? hhead
    have hfd : (s1.m_region_LRU.node n).val.fd = some rE := by
      rw [hr1.fds n hn, hkn]
    have hk := slot_index_lt env.cfg hv.region_size_pos hv.volume_lt p hkey
    obtain ⟨comp, hcomp, hcpos, hcmax, _⟩ := hv.codec_ok _ hlen
    have hiofile : (s1.region_io n).file = s1.world rE := by
      unfold VoxelStorage.region_io VoxelStorage.region_file
      simp only [hfd]
    set io' := close_chunk_region env.cfg (s1.region_io n) (VoxelStorage.slot_index env.cfg p)
      comp with hio'
    have hclose : s.close_chunk env c = (s1.set_region_io n io', .ok ()) := by
      unfold VoxelStorage.close_chunk
      rw [hd']
      simp only [Bool.not_true, Bool.false_eq_true, if_false]
      rw [← hp, ← hrE, hget]
      simp only
      rw [hc1, hcomp, ← hp]
    have hworld := VoxelStorage.set_region_io_world s1 n io' rE hfd
    rw [hclose]
    intro r hsz
    simp only at hsz ⊢
    rw [hworld r] at hsz ⊢
    by_cases hre : r = rE
    · rw [if_pos hre]
      have hsize := (hr1.cached n hn).1.2.2.2.2
      refine close_chunk_region_complete env.cfg _ (s1.region_io n) _ comp hv.fits
        (hr1.cached n hn).1 (hr1.cached n hn).2 hk hcpos hcmax ?_
      rw [hiofile] at hsize ⊢
      exact hfc1 rE hsize
    · rw [if_neg hre] at hsz ⊢
      exact hfc1 r hsz

/-- Lines 169-174 of `get_chunk` leave every file complete. -/
theorem take_chunk_node_complete (env : Env) (hv : env.Valid) (s : VoxelStorage)
    (hr : RegionsOK env s [])
    (hlru : LRUInv env.cfg.CHUNK_HEAP_SIZE (VoxelStorage.chunk_index env.cfg) s.m_chunk_LRU [])
    (hkeys : ∀ n ∈ s.m_chunk_LRU.m_list, (s.m_chunk_LRU.node n).key.isS32)
    (hlens : ∀ n ∈ s.m_chunk_LRU.m_list,
      (s.m_chunk_LRU.node n).val.blocks.length = env.cfg.CHUNK_VOLUME)
    (hfc : FilesComplete env s) : FilesComplete env (s.take_chunk_node env).1 := by
  cases hfree : s.m_chunk_LRU.m_free_list with
  | cons c rest =>
    obtain ⟨e1, _⟩ := hlru.get_from_heap hfree
    unfold VoxelStorage.take_chunk_node
    rw [e1]
    exact hfc
  | nil =>
    have hlen := hlru.length_eq
    rw [hfree] at hlen
    simp only [List.length_nil, Nat.add_zero] at hlen
    have hne : s.m_chunk_LRU.m_list ≠ [] := by
      intro hnil
      rw [hnil] at hlen
      have := hv.chunk_heap
      simp at hlen
      omega
    obtain ⟨c, e2, hcm, _, _, _⟩ := hlru.remove_lru_node hne
    set sA : VoxelStorage := { s with m_chunk_LRU := s.m_chunk_LRU.remove_node c } with hsA
    have hrA : RegionsOK env sA [] := ⟨hr.lru, hr.fds, hr.cached, hr.closed⟩
    obtain ⟨s2, k1, _⟩ := close_chunk_frame env hv sA c hrA (hkeys c hcm) (hlens c hcm)
    have hcA := close_chunk_complete env hv sA c hrA (hkeys c hcm) (hlens c hcm) hfc
    rw [k1] at hcA
    have : s.take_chunk_node env = (s2, .ok c) := by
      unfold VoxelStorage.take_chunk_node
      rw [LeastRecentlyUsed.get_from_heap_nil _ hfree]
      simp only
      rw [e2]
      simp only
      rw [k1]
    rw [this]
    exact hcA

/-- Lines 175-205 of `get_chunk` write to no file. -/
theorem VoxelStorage.load_chunk_world (env : Env) (s : VoxelStorage) (region c : Nat)
    (p : Vec3) : (s.load_chunk env region c p).1.world = s.world := by
  unfold VoxelStorage.load_chunk
  simp only
  split
  · split
    · split <;> rfl
    · rfl
  · rfl

/-- A fetch that misses the cache leaves every file complete; so the file it reads the
slot and the blob from, which it does after the eviction, is complete. -/
theorem get_chunk_complete (env : Env) (hv : env.Valid) (s : VoxelStorage)
    (hr : RegionsOK env s []) (hc : ChunksOK env s []) (p : Vec3)
    (hpk : p ∉ s.m_chunk_LRU.keys) (hfc : FilesComplete env s) :
    FilesComplete env (s.get_chunk env p).1 := by
  have hmiss := hc.lru.get_node_miss p hpk
  obtain ⟨s1, region, e1, hr1, hcl1, _⟩ :=
    get_region_spec env hv s (VoxelStorage.floor_div p env.cfg.REGION_SIZE) hr
  have hfc1 : FilesComplete env s1 := by
    have := get_region_complete env hv s (VoxelStorage.floor_div p env.cfg.REGION_SIZE) hr hfc
    rw [e1] at this
    exact this
  obtain ⟨s2, c, e2, _⟩ := take_chunk_node_frame env hv s1 hr1
    (by rw [hcl1]; exact hc.lru) (by rw [hcl1]; exact hc.keys_s32)
    (by rw [hcl1]; exact hc.lengths)
  have hfc2 : FilesComplete env s2 := by
    have := take_chunk_node_complete env hv s1 hr1
      (by rw [hcl1]; exact hc.lru) (by rw [hcl1]; exact hc.keys_s32)
      (by rw [hcl1]; exact hc.lengths) hfc1
    rw [e2] at this
    exact this
  have hget : s.get_chunk env p = s2.load_chunk env region c p := by
    unfold VoxelStorage.get_chunk
    rw [hmiss]
    simp only []
    rw [e1]
    simp only []
    rw [e2]
  rw [hget]
  intro r hsz
  rw [VoxelStorage.load_chunk_world] at hsz ⊢
  exact hfc2 r hsz

/-- A store just constructed over region files whose headers satisfy the region invariant
satisfies the invariants of the region cache and the chunk cache, whether or not the blobs
of the files can be decompressed. -/
theorem cachesOK_init (env : Env) (world : Vec3 → File)
    (hclosed : ∀ r, (world r).size ≠ 0 →
      RegionOK env.cfg (c_maximum_compressed_size env.cfg env.codec) (load_region (world r)) ∧
        (load_region (world r)).garbage < env.cfg.DEFRAGMENT_GARBAGE_THRESHOLD) :
    RegionsOK env (VoxelStorage.init env.cfg world) [] ∧
      ChunksOK env (VoxelStorage.init env.cfg world) [] := by
  have hc := LeastRecentlyUsed.fill_heap_spec
    (LeastRecentlyUsed.init ({ blocks := [], dirty := false } : Chunk)) env.cfg.CHUNK_HEAP_SIZE
  have hr := LeastRecentlyUsed.fill_heap_spec
    (LeastRecentlyUsed.init ({ fd := none, garbage := 0, end_ := 0 } : Region))
    env.cfg.REGION_HEAP_SIZE
  have hcl : (VoxelStorage.init env.cfg world).m_chunk_LRU.m_list = [] := hc.1
  have hrl : (VoxelStorage.init env.cfg world).m_region_LRU.m_list = [] := hr.1
  refine ⟨⟨LRUInv.init _ _ _, ?_, ?_, ?_⟩, ⟨LRUInv.init _ _ _, ?_, ?_, ?_⟩⟩
  · intro n hn; rw [hrl] at hn; cases hn
  · intro n hn; rw [hrl] at hn; cases hn
  · intro r _ hsz; exact hclosed r hsz
  · intro n hn; rw [hcl] at hn; cases hn
  · intro n hn; rw [hcl] at hn; cases hn
  · intro n hn; rw [hcl] at hn; cases hn

/-- The toy store just constructed over `storedWorld` satisfies the invariants of the two
caches, and the file of `storedWorld` is complete. -/
theorem storedWorld_ok :
    (RegionsOK toyEnv (VoxelStorage.init smallConfig storedWorld) [] ∧
      ChunksOK toyEnv (VoxelStorage.init smallConfig storedWorld) []) ∧
    FilesComplete toyEnv (VoxelStorage.init smallConfig storedWorld) := by
  have hw : ∀ r, (storedWorld r).size ≠ 0 → storedWorld r = storedFile := by
    intro r hsz
    unfold storedWorld at hsz ⊢
    by_cases hr : r = ⟨0, 0, 0⟩
    · rw [if_pos hr]
    · rw [if_neg hr] at hsz
      exact absurd rfl hsz
  refine ⟨cachesOK_init toyEnv storedWorld (fun r hsz => ?_), fun r hsz => ?_⟩
  · rw [hw r hsz]
    unfold RegionOK WellFormed
    exact ⟨⟨⟨by decide, by decide⟩, by decide, by decide, by decide, by decide⟩, by decide⟩
  · have e : (VoxelStorage.init smallConfig storedWorld).world r = storedFile := hw r hsz
    rw [e]
    decide

/-- The toy store just constructed over `garbledWorld` satisfies the invariants of the two
caches, and the file of `garbledWorld` is complete. -/
theorem garbledWorld_ok :
    (RegionsOK toyEnv (VoxelStorage.init smallConfig garbledWorld) [] ∧
      ChunksOK toyEnv (VoxelStorage.init smallConfig garbledWorld) []) ∧
    FilesComplete toyEnv (VoxelStorage.init smallConfig garbledWorld) := by
  have hw : ∀ r, (garbledWorld r).size ≠ 0 → garbledWorld r = garbledFile := by
    intro r hsz
    unfold garbledWorld at hsz ⊢
    by_cases hr : r = ⟨0, 0, 0⟩
    · rw [if_pos hr]
    · rw [if_neg hr] at hsz
      exact absurd rfl hsz
  refine ⟨cachesOK_init toyEnv garbledWorld (fun r hsz => ?_), fun r hsz => ?_⟩
  · rw [hw r hsz]
    unfold RegionOK WellFormed
    exact ⟨⟨⟨by decide, by decide⟩, by decide, by decide, by decide, by decide⟩, by decide⟩
  · have e : (VoxelStorage.init smallConfig garbledWorld).world r = garbledFile := hw r hsz
    rw [e]
    decide

/-- A store over a directory without files has no truncated file. -/
theorem filesComplete_init_empty (env : Env) :
    FilesComplete env (VoxelStorage.init env.cfg emptyWorld) :=
  fun _ hsz => absurd rfl hsz

/-- C21: a fetch of a chunk `p` that is not cached, in a store none of whose region files
is truncated, reads the slot `position_to_index(p, REGION_SIZE)` of the file of region
`floor_div(p, REGION_SIZE)`.  If the offset of the slot is 0 the fetch returns a node with
the blocks of `create_new_chunk(p)`, marked dirty.  Otherwise, if the `size` bytes at
`offset` decompress to exactly `CHUNK_VOLUME` bytes, it returns a node with those blocks,
marked clean, and if they do not, the fetch throws.  A node that is returned has the key `p`
and is the most recently used one.  No file is truncated after the fetch either, so the
slot and the blob were read inside the file. -/
theorem fetch_on_miss (env : Env) (hv : env.Valid) (s : VoxelStorage)
    (hr : RegionsOK env s []) (hc : ChunksOK env s []) (hfc : FilesComplete env s)
    (p : Vec3) (hp : p.isS32) (hpk : p ∉ s.m_chunk_LRU.keys) :
    (slot_offset (s.world (VoxelStorage.floor_div p env.cfg.REGION_SIZE))
        (VoxelStorage.slot_index env.cfg p) = 0 →
      ∃ s' c, s.get_chunk env p = (s', .ok c) ∧
        (s'.m_chunk_LRU.node c).val.blocks = env.create_new_chunk p ∧
        (s'.m_chunk_LRU.node c).val.dirty = true ∧
        (s'.m_chunk_LRU.node c).key = p ∧ s'.m_chunk_LRU.m_list.head? = some c) ∧
    (slot_offset (s.world (VoxelStorage.floor_div p env.cfg.REGION_SIZE))
        (VoxelStorage.slot_index env.cfg p) ≠ 0 →
      ∀ blocks, env.codec.uncompress
          ((s.world (VoxelStorage.floor_div p env.cfg.REGION_SIZE)).pread
            (slot_size (s.world (VoxelStorage.floor_div p env.cfg.REGION_SIZE))
              (VoxelStorage.slot_index env.cfg p))
            (slot_offset (s.world (VoxelStorage.floor_div p env.cfg.REGION_SIZE))
              (VoxelStorage.slot_index env.cfg p)))
          env.cfg.CHUNK_VOLUME = some blocks → blocks.length = env.cfg.CHUNK_VOLUME →
        ∃ s' c, s.get_chunk env p = (s', .ok c) ∧
          (s'.m_chunk_LRU.node c).val.blocks = blocks ∧
          (s'.m_chunk_LRU.node c).val.dirty = false ∧
          (s'.m_chunk_LRU.node c).key = p ∧ s'.m_chunk_LRU.m_list.head? = some c) ∧
    (slot_offset (s.world (VoxelStorage.floor_div p env.cfg.REGION_SIZE))
        (VoxelStorage.slot_index env.cfg p) ≠ 0 →
      (env.codec.uncompress
          ((s.world (VoxelStorage.floor_div p env.cfg.REGION_SIZE)).pread
            (slot_size (s.world (VoxelStorage.floor_div p env.cfg.REGION_SIZE))
              (VoxelStorage.slot_index env.cfg p))
            (slot_offset (s.world (VoxelStorage.floor_div p env.cfg.REGION_SIZE))
              (VoxelStorage.slot_index env.cfg p)))
          env.cfg.CHUNK_VOLUME = none ∨
        ∃ blocks, env.codec.uncompress
            ((s.world (VoxelStorage.floor_div p env.cfg.REGION_SIZE)).pread
              (slot_size (s.world (VoxelStorage.floor_div p env.cfg.REGION_SIZE))
                (VoxelStorage.slot_index env.cfg p))
              (slot_offset (s.world (VoxelStorage.floor_div p env.cfg.REGION_SIZE))
                (VoxelStorage.slot_index env.cfg p)))
            env.cfg.CHUNK_VOLUME = some blocks ∧ blocks.length ≠ env.cfg.CHUNK_VOLUME) →
      ∃ s', s.get_chunk env p = (s', .thrown)) ∧
    (slot_offset (s.world (VoxelStorage.floor_div p env.cfg.REGION_SIZE))
        (VoxelStorage.slot_index env.cfg p) ≠ 0 →
      slot_offset (s.world (VoxelStorage.floor_div p env.cfg.REGION_SIZE))
          (VoxelStorage.slot_index env.cfg p)
        + slot_size (s.world (VoxelStorage.floor_div p env.cfg.REGION_SIZE))
          (VoxelStorage.slot_index env.cfg p)
        ≤ (s.world (VoxelStorage.floor_div p env.cfg.REGION_SIZE)).size) ∧
    FilesComplete env (s.get_chunk env p).1 := by
  obtain ⟨s2, region, c, hget, hfile, hoff, hbytes⟩ :=
    get_chunk_miss_load env hv s hr hc p hp hpk
  obtain ⟨ca, cb, cc⟩ := load_chunk_cases env s2 region c p _ hfile
  rw [hbytes] at cb cc
  refine ⟨fun h0 => ?_, fun h0 blocks hu hl => ?_,
    fun h0 hbad => by rw [hget]; exact cc (fun e => h0 (hoff.1 e)) hbad,
    fun h0 => ?_, get_chunk_complete env hv s hr hc p hpk hfc⟩
  · rw [hget]
    obtain ⟨s', e⟩ := ca (hoff.2 h0)
    exact ⟨s', c, e⟩
  · rw [hget]
    obtain ⟨s', e⟩ := cb (fun e => h0 (hoff.1 e)) blocks hu hl
    exact ⟨s', c, e⟩
  · have hk := slot_index_lt env.cfg hv.region_size_pos hv.volume_lt p hp
    have hsz : (s.world (VoxelStorage.floor_div p env.cfg.REGION_SIZE)).size ≠ 0 := by
      intro e
      exact h0 (File.read_u32_of_zero _ _ (fun j _ => File.get_of_size_zero _ e _))
    exact (hfc _ hsz).2 _ hk h0

/-- Witness for `fetch_on_miss`, one fetch for each of its three cases, all by the toy store
just constructed.  Over an empty directory the slot of chunk `(1, 0, 0)` is empty and the
fetch returns the generated blocks, dirty.  Over `storedWorld` the blob of chunk `(0, 0, 0)`
decompresses to `1, 2, 3, 4` and the fetch returns these blocks, clean.  Over `garbledWorld`
the blob of chunk `(0, 0, 0)` does not decompress and the fetch throws. -/
theorem fetch_on_miss_witness :
    (∃ s' c, (VoxelStorage.init smallConfig emptyWorld).get_chunk toyEnv ⟨1, 0, 0⟩ = (s', .ok c) ∧
      (s'.m_chunk_LRU.node c).val.blocks = toyEnv.create_new_chunk ⟨1, 0, 0⟩ ∧
      (s'.m_chunk_LRU.node c).val.dirty = true ∧
      (s'.m_chunk_LRU.node c).key = ⟨1, 0, 0⟩ ∧ s'.m_chunk_LRU.m_list.head? = some c) ∧
    (∃ s' c, (VoxelStorage.init smallConfig storedWorld).get_chunk toyEnv ⟨0, 0, 0⟩
        = (s', .ok c) ∧
      (s'.m_chunk_LRU.node c).val.blocks = [1, 2, 3, 4] ∧
      (s'.m_chunk_LRU.node c).val.dirty = false ∧
      (s'.m_chunk_LRU.node c).key = ⟨0, 0, 0⟩ ∧ s'.m_chunk_LRU.m_list.head? = some c) ∧
    (∃ s', (VoxelStorage.init smallConfig garbledWorld).get_chunk toyEnv ⟨0, 0, 0⟩
        = (s', .thrown)) :=
  ⟨(fetch_on_miss toyEnv toyEnv_valid (VoxelStorage.init smallConfig emptyWorld)
      (storeOK_init_empty toyEnv).1.regions (storeOK_init_empty toyEnv).1.chunks
      (filesComplete_init_empty toyEnv) ⟨1, 0, 0⟩ (by decide) (by decide)).1 (by decide),
    (fetch_on_miss toyEnv toyEnv_valid (VoxelStorage.init smallConfig storedWorld)
      storedWorld_ok.1.1 storedWorld_ok.1.2 storedWorld_ok.2 ⟨0, 0, 0⟩ (by decide)
      (by decide)).2.1 (by decide) [1, 2, 3, 4] (by decide) (by decide),
    (fetch_on_miss toyEnv toyEnv_valid (VoxelStorage.init smallConfig garbledWorld)
      garbledWorld_ok.1.1 garbledWorld_ok.1.2 garbledWorld_ok.2 ⟨0, 0, 0⟩ (by decide)
      (by decide)).2.2.1 (by decide) (Or.inl (by decide))⟩

/-! ## C22: invalid slots -/

theorem free_list_of_fill {V : Type} (blank : V) (N : Nat) (hN : 1 ≤ N) :
    ∃ c rest, ((LeastRecentlyUsed.init blank).fill_heap N).m_free_list = c :: rest := by
  obtain ⟨k, rfl⟩ : ∃ k, N = k + 1 := ⟨N - 1, by omega⟩
  exact ⟨k, _, rfl⟩

/-- The first fetch of a store just constructed over a directory in which the file of the
region of `p` exists arrives at lines 175-205 of `get_chunk` with that file behind the
region node, whatever the file holds. -/
theorem get_chunk_fresh (env : Env) (hC : 1 ≤ env.cfg.CHUNK_HEAP_SIZE)
    (hR : 1 ≤ env.cfg.REGION_HEAP_SIZE) (world : Vec3 → File) (p : Vec3)
    (hsize : (world (VoxelStorage.floor_div p env.cfg.REGION_SIZE)).size ≠ 0) :
    ∃ (s2 : VoxelStorage) (region c : Nat),
      (VoxelStorage.init env.cfg world).get_chunk env p = s2.load_chunk env region c p ∧
      ∀ lru : LeastRecentlyUsed Chunk,
        VoxelStorage.region_file { s2 with m_chunk_LRU := lru } region
          = world (VoxelStorage.floor_div p env.cfg.REGION_SIZE) := by
  set s := VoxelStorage.init env.cfg world with hs
  set r := VoxelStorage.floor_div p env.cfg.REGION_SIZE with hr
  have hinvC : LRUInv env.cfg.CHUNK_HEAP_SIZE (VoxelStorage.chunk_index env.cfg)
      s.m_chunk_LRU [] := LRUInv.init _ _ _
  have hinvR : LRUInv env.cfg.REGION_HEAP_SIZE (VoxelStorage.region_index env.cfg)
      s.m_region_LRU [] := LRUInv.init _ _ _
  have hlC : s.m_chunk_LRU.m_list = [] := (LeastRecentlyUsed.fill_heap_spec _ _).1
  have hlR : s.m_region_LRU.m_list = [] := (LeastRecentlyUsed.fill_heap_spec _ _).1
  have hmissC := hinvC.get_node_miss p (by
    unfold LeastRecentlyUsed.keys; rw [hlC]; exact List.not_mem_nil _)
  have hmissR := hinvR.get_node_miss r (by
    unfold LeastRecentlyUsed.keys; rw [hlR]; exact List.not_mem_nil _)
  obtain ⟨n, restR, hfreeR⟩ : ∃ c rest, s.m_region_LRU.m_free_list = c :: rest :=
    free_list_of_fill _ _ hR
  obtain ⟨c, restC, hfreeC⟩ : ∃ c rest, s.m_chunk_LRU.m_free_list = c :: rest :=
    free_list_of_fill _ _ hC
  obtain ⟨eR, _⟩ := hinvR.get_from_heap hfreeR
  obtain ⟨eC, _⟩ := hinvC.get_from_heap hfreeC
  set s1 : VoxelStorage :=
    { s with m_region_LRU := { s.m_region_LRU with m_free_list := restR } } with hs1
  have htake : s.take_region_node = (s1, some n) := by
    unfold VoxelStorage.take_region_node
    rw [eR]
  have hget : s.get_region env r = (s1.open_region env n r, .ok n) := by
    unfold VoxelStorage.get_region
    rw [hmissR]
    simp only
    have : ({ s with m_region_LRU := s.m_region_LRU } : VoxelStorage) = s := rfl
    rw [this, htake]
  have hnew : ((s1.world r).size == 0) = false := by
    have : (s1.world r).size ≠ 0 := hsize
    simpa using this
  have hval : ((s1.open_region env n r).m_region_LRU.node n).val.fd = some r := by
    unfold VoxelStorage.open_region
    simp only [hnew]
    rw [(LeastRecentlyUsed.add_node_key _ n _ n).2, (LeastRecentlyUsed.set_key_node _ n r n).1,
      (LeastRecentlyUsed.set_val_node _ n _ n).2.2, if_pos rfl]
  have hworld : (s1.open_region env n r).world r = world r := by
    unfold VoxelStorage.open_region
    simp only [hnew]
    rw [Function.update_same]
    rfl
  have hchunk : (s1.open_region env n r).m_chunk_LRU = s.m_chunk_LRU := rfl
  set s2 : VoxelStorage :=
    { s1.open_region env n r with
      m_chunk_LRU := { s.m_chunk_LRU with m_free_list := restC } } with hs2
  have htakeC : (s1.open_region env n r).take_chunk_node env = (s2, .ok c) := by
    unfold VoxelStorage.take_chunk_node
    rw [hchunk, eC]
  refine ⟨s2, n, c, ?_, ?_⟩
  · unfold VoxelStorage.get_chunk
    rw [hmissC]
    simp only
    have : ({ s with m_chunk_LRU := s.m_chunk_LRU } : VoxelStorage) = s := rfl
    rw [this, hget]
    simp only
    rw [htakeC]
  · intro lru
    show (match ((s1.open_region env n r).m_region_LRU.node n).val.fd with
      | some q => (s1.open_region env n r).world q
      | none => File.empty) = world r
    rw [hval]
    exact hworld

/-- C22 as stated fails: in the region file `corruptFile` the slot of chunk `(0, 0, 0)` holds
offset 0 with size 5, and the fetch of that chunk by a store constructed over the file
returns a node with the blocks of `create_new_chunk`, marked dirty; it does not fail. -/
theorem invalid_slot_counterexample :
    slot_offset corruptFile (VoxelStorage.slot_index smallConfig ⟨0, 0, 0⟩) = 0 ∧
    slot_size corruptFile (VoxelStorage.slot_index smallConfig ⟨0, 0, 0⟩) = 5 ∧
    corruptWorld (VoxelStorage.floor_div ⟨0, 0, 0⟩ smallConfig.REGION_SIZE) = corruptFile ∧
    ((VoxelStorage.init smallConfig corruptWorld).get_chunk toyEnv ⟨0, 0, 0⟩).2 = .ok 1 ∧
    (((VoxelStorage.init smallConfig corruptWorld).get_chunk toyEnv ⟨0, 0, 0⟩).1.m_chunk_LRU.node
      1).val.blocks = toyEnv.create_new_chunk ⟨0, 0, 0⟩ ∧
    (((VoxelStorage.init smallConfig corruptWorld).get_chunk toyEnv ⟨0, 0, 0⟩).1.m_chunk_LRU.node
      1).val.dirty = true := by
  refine ⟨by decide, by decide, rfl, by decide, by decide, by decide⟩

/-- C22 (as amended): a slot with offset ≠ 0 and size 0 is fatal, `uncompress` rejecting the
empty input: the fetch throws and returns no chunk.  A slot with offset 0 counts as empty
whatever its size: the fetch returns a node with the blocks of `create_new_chunk`, marked
dirty.  Both hold for lines 175-205 of `get_chunk` in every state of the store, with `f` the
file behind the region node, and for the whole fetch by a store just constructed over a
directory in which the file of the region exists. -/
theorem invalid_slot_fetch (env : Env) (hC : 1 ≤ env.cfg.CHUNK_HEAP_SIZE)
    (hR : 1 ≤ env.cfg.REGION_HEAP_SIZE)
    (hzlib : env.codec.uncompress [] env.cfg.CHUNK_VOLUME = none ∨
      ∃ blocks, env.codec.uncompress [] env.cfg.CHUNK_VOLUME = some blocks ∧
        blocks.length ≠ env.cfg.CHUNK_VOLUME)
    (s : VoxelStorage) (region c : Nat) (p : Vec3) (f : File)
    (hf : ∀ lru : LeastRecentlyUsed Chunk,
      VoxelStorage.region_file { s with m_chunk_LRU := lru } region = f)
    (world : Vec3 → File)
    (hsize : (world (VoxelStorage.floor_div p env.cfg.REGION_SIZE)).size ≠ 0) :
    (slot_offset f (VoxelStorage.slot_index env.cfg p) ≠ 0 →
      slot_size f (VoxelStorage.slot_index env.cfg p) = 0 →
      ∃ s', s.load_chunk env region c p = (s', .thrown)) ∧
    (slot_offset f (VoxelStorage.slot_index env.cfg p) = 0 →
      ∃ s', s.load_chunk env region c p = (s', .ok c) ∧
        (s'.m_chunk_LRU.node c).val.blocks = env.create_new_chunk p ∧
        (s'.m_chunk_LRU.node c).val.dirty = true) ∧
    (slot_offset (world (VoxelStorage.floor_div p env.cfg.REGION_SIZE))
        (VoxelStorage.slot_index env.cfg p) ≠ 0 →
      slot_size (world (VoxelStorage.floor_div p env.cfg.REGION_SIZE))
        (VoxelStorage.slot_index env.cfg p) = 0 →
      ∃ s', (VoxelStorage.init env.cfg world).get_chunk env p = (s', .thrown)) ∧
    (slot_offset (world (VoxelStorage.floor_div p env.cfg.REGION_SIZE))
        (VoxelStorage.slot_index env.cfg p) = 0 →
      ∃ s' c', (VoxelStorage.init env.cfg world).get_chunk env p = (s', .ok c') ∧
        (s'.m_chunk_LRU.node c').val.blocks = env.create_new_chunk p ∧
        (s'.m_chunk_LRU.node c').val.dirty = true) := by
  have key : ∀ (s : VoxelStorage) (region c : Nat) (f : File),
      (∀ lru : LeastRecentlyUsed Chunk,
        VoxelStorage.region_file { s with m_chunk_LRU := lru } region = f) →
      (slot_offset f (VoxelStorage.slot_index env.cfg p) ≠ 0 →
        slot_size f (VoxelStorage.slot_index env.cfg p) = 0 →
        ∃ s', s.load_chunk env region c p = (s', .thrown)) ∧
      (slot_offset f (VoxelStorage.slot_index env.cfg p) = 0 →
        ∃ s', s.load_chunk env region c p = (s', .ok c) ∧
          (s'.m_chunk_LRU.node c).val.blocks = env.create_new_chunk p ∧
          (s'.m_chunk_LRU.node c).val.dirty = true) := by
    intro s region c f hf
    obtain ⟨ca, _, cc⟩ := load_chunk_cases env s region c p f hf
    refine ⟨fun h0 h1 => ?_, fun h0 => ?_⟩
    · apply cc h0
      unfold slot_bytes
      rw [h1, File.pread_zero]
      exact hzlib
    · obtain ⟨s', e1, e2, e3, _⟩ := ca h0
      exact ⟨s', e1, e2, e3⟩
  obtain ⟨k1, k2⟩ := key s region c f hf
  obtain ⟨s2, region2, c2, hget, hfile⟩ := get_chunk_fresh env hC hR world p hsize
  obtain ⟨k3, k4⟩ := key s2 region2 c2 _ hfile
  rw [hget]
  refine ⟨k1, k2, k3, fun h0 => ?_⟩
  obtain ⟨s', e⟩ := k4 h0
  exact ⟨s', c2, e⟩

/-- Witness for `invalid_slot_fetch`: the toy store constructed over `corruptWorld`; the slot
of chunk `(1, 0, 0)` holds offset 24 with size 0, and its fetch throws. -/
theorem invalid_slot_fetch_witness :
    ∃ s', (VoxelStorage.init toyEnv.cfg corruptWorld).get_chunk toyEnv ⟨1, 0, 0⟩
      = (s', .thrown) :=
  (invalid_slot_fetch toyEnv (by decide) (by decide) (Or.inl rfl)
    (VoxelStorage.init toyEnv.cfg corruptWorld) 0 0 ⟨1, 0, 0⟩ File.empty (fun _ => rfl)
    corruptWorld (by decide)).2.2.1 (by decide) (by decide)

/-! ## C28: the defragmentation threshold -/

/-- C28: `close_chunk` runs `defragment_region` after its write if and only if the garbage
of the region after the write is at least `DEFRAGMENT_GARBAGE_THRESHOLD` (16384 in the
source); so the garbage of the region is below the threshold when the write part of
`close_chunk` is done, and after `close_chunk` has returned every cached region has its
in-memory garbage below the threshold. -/
theorem defragment_threshold (env : Env) (hv : env.Valid) (r : RegionIO) (k : Nat)
    (compressed : List Nat) (s : VoxelStorage) (c : Nat) (hr : RegionsOK env s [])
    (hkey : (s.m_chunk_LRU.node c).key.isS32)
    (hlen : (s.m_chunk_LRU.node c).val.blocks.length = env.cfg.CHUNK_VOLUME) :
    defaultConfig.DEFRAGMENT_GARBAGE_THRESHOLD = 16384 ∧
    close_chunk_region env.cfg r k compressed
      = (if env.cfg.DEFRAGMENT_GARBAGE_THRESHOLD ≤ (write_chunk r k compressed).garbage then
          defragment_region env.cfg (write_chunk r k compressed)
        else write_chunk r k compressed) ∧
    (close_chunk_region env.cfg r k compressed).garbage
      < env.cfg.DEFRAGMENT_GARBAGE_THRESHOLD ∧
    ∃ s', s.close_chunk env c = (s', .ok ()) ∧
      ∀ n ∈ s'.m_region_LRU.m_list,
        (s'.m_region_LRU.node n).val.garbage < env.cfg.DEFRAGMENT_GARBAGE_THRESHOLD := by
  have hT := hv.threshold_pos
  refine ⟨rfl, rfl, ?_, ?_⟩
  · unfold close_chunk_region
    simp only
    by_cases h : (write_chunk r k compressed).garbage ≥ env.cfg.DEFRAGMENT_GARBAGE_THRESHOLD
    · rw [if_pos h]
      exact hT
    · rw [if_neg h]
      omega
  · obtain ⟨s', e, hr', _⟩ := close_chunk_frame env hv s c hr hkey hlen
    exact ⟨s', e, fun n hn => (hr'.cached n hn).2⟩

theorem dirtyChunkStore_regions : RegionsOK toyEnv dirtyChunkStore [] :=
  let h := (storeOK_init_empty toyEnv).1.regions
  ⟨h.lru, h.fds, h.cached, h.closed⟩

/-- Witness for `defragment_threshold`: the region `demoRegion` (3 bytes of garbage, the
threshold of `smallConfig` is 4) receives a blob of 3 bytes for slot 1, and the dirty chunk
of `dirtyChunkStore` is closed. -/
theorem defragment_threshold_witness :
    defaultConfig.DEFRAGMENT_GARBAGE_THRESHOLD = 16384 ∧
    close_chunk_region toyEnv.cfg demoRegion 1 [7, 7, 7]
      = (if toyEnv.cfg.DEFRAGMENT_GARBAGE_THRESHOLD
            ≤ (write_chunk demoRegion 1 [7, 7, 7]).garbage then
          defragment_region toyEnv.cfg (write_chunk demoRegion 1 [7, 7, 7])
        else write_chunk demoRegion 1 [7, 7, 7]) ∧
    (close_chunk_region toyEnv.cfg demoRegion 1 [7, 7, 7]).garbage
      < toyEnv.cfg.DEFRAGMENT_GARBAGE_THRESHOLD ∧
    ∃ s', dirtyChunkStore.close_chunk toyEnv 0 = (s', .ok ()) ∧
      ∀ n ∈ s'.m_region_LRU.m_list,
        (s'.m_region_LRU.node n).val.garbage < toyEnv.cfg.DEFRAGMENT_GARBAGE_THRESHOLD :=
  defragment_threshold toyEnv toyEnv_valid demoRegion 1 [7, 7, 7] dirtyChunkStore 0
    dirtyChunkStore_regions (by decide) rfl

/-- In the witness the write does trigger the defragmentation, and the closed chunk reaches
its region file. -/
theorem defragment_threshold_demo :
    (write_chunk demoRegion 1 [7, 7, 7]).garbage = 5 ∧
    (close_chunk_region toyEnv.cfg demoRegion 1 [7, 7, 7]).garbage = 0 ∧
    (dirtyChunkStore.close_chunk toyEnv 0).2 = .ok () := by
  decide

/-! ## C31: the assertions of `defragment_region` -/

/-- The assertions of the second loop of `defragment_region` on a list of blobs that lie
at or after `header_end`, are at most `maxsz` long and carry the size word of their slot:
in every round the bound on the offset is false, the other two assertions are true. -/
theorem move_blobs_asserts_spec (cfg : Config) (maxsz : Nat) (l : List U32Vec3) :
    ∀ (f : File) (raw : Nat → Nat) (new_end : Nat),
      (∀ i ∈ l, header_end cfg ≤ i.y ∧ i.z ≤ maxsz ∧ raw (2 * i.x + 1) = i.z) →
      (move_blobs_asserts cfg maxsz f raw new_end l).length = l.length ∧
      ∀ a ∈ move_blobs_asserts cfg maxsz f raw new_end l,
        a.offset_bound = false ∧ a.size_bound = true ∧ a.size_consistent = true := by
  induction l with
  | nil =>
    intro f raw new_end _
    exact ⟨rfl, fun a ha => by cases ha⟩
  | cons i rest ih =>
    intro f raw new_end h
    obtain ⟨h1, h2, h3⟩ := h i (List.mem_cons_self _ _)
    have hodd : ∀ j : U32Vec3,
        Function.update raw (2 * i.x) new_end (2 * j.x + 1) = raw (2 * j.x + 1) := by
      intro j
      exact Function.update_noteq (by omega) _ _
    obtain ⟨ihl, iha⟩ := ih (f.pwrite (f.pread i.z i.y) new_end)
      (Function.update raw (2 * i.x) new_end) (wrapU32 (new_end + i.z))
      (fun j hj => by
        obtain ⟨g1, g2, g3⟩ := h j (List.mem_cons_of_mem _ hj)
        exact ⟨g1, g2, by rw [hodd j]; exact g3⟩)
    refine ⟨by simp only [move_blobs_asserts, List.length_cons, ihl], ?_⟩
    intro a ha
    simp only [move_blobs_asserts, List.mem_cons] at ha
    rcases ha with rfl | ha
    · refine ⟨?_, ?_, ?_⟩
      · simp only [decide_eq_false_iff_not, Nat.not_lt]
        exact h1
      · simp only [decide_eq_true_eq]
        exact h2
      · simp only [decide_eq_true_eq]
        rw [hodd i]
        exact h3
    · exact iha a ha

/-- C31: in a region in which every non-empty slot has `header_end ≤ offset`,
`offset + size ≤ end` and `size ≤ c_maximum_compressed_size`, `defragment_region` evaluates
its three assertions once for every non-empty slot, and in every round the assertion on
the size (line 308) and the size consistency check (line 312) are true, but the bound on
the offset (line 307, `i->y < header_end`) is false: the comparison of the source is the
wrong way round, and a non-empty region makes it fail at the first blob. -/
theorem defragment_assertions (cfg : Config) (maxsz : Nat) (r : RegionIO)
    (h : ∀ k, k < cfg.REGION_VOLUME → slot_offset r.file k ≠ 0 →
      header_end cfg ≤ slot_offset r.file k ∧
        slot_offset r.file k + slot_size r.file k ≤ r.end_ ∧ slot_size r.file k ≤ maxsz) :
    (defragment_asserts cfg maxsz r).length
      = ((List.range cfg.REGION_VOLUME).filter (fun k => slot_offset r.file k != 0)).length ∧
    (∀ a ∈ defragment_asserts cfg maxsz r,
      a.offset_bound = false ∧ a.size_bound = true ∧ a.size_consistent = true) ∧
    ((∃ k, k < cfg.REGION_VOLUME ∧ slot_offset r.file k ≠ 0) →
      ∃ a, (defragment_asserts cfg maxsz r).head? = some a ∧ a.offset_bound = false) := by
  have hraw0 : ∀ k, raw_table r.file (2 * k) = slot_offset r.file k := by
    intro k
    unfold raw_table slot_offset
    rw [slot_position_eq]
  have hraw1 : ∀ k, raw_table r.file (2 * k + 1) = slot_size r.file k := by
    intro k
    unfold raw_table slot_size
    rw [slot_position_eq']
  have hmem : ∀ i ∈ defragment_order cfg r,
      header_end cfg ≤ i.y ∧ i.z ≤ maxsz ∧ raw_table r.file (2 * i.x + 1) = i.z := by
    intro i hi
    have hi' : i ∈ collect_slots (raw_table r.file) cfg.REGION_VOLUME :=
      (sort_by_position_perm _).mem_iff.1 hi
    obtain ⟨hx, hne, hy, hz⟩ := (mem_collect_slots _ _ _).1 hi'
    rw [hraw0] at hne hy
    rw [hraw1] at hz
    obtain ⟨g1, _, g3⟩ := h i.x hx hne
    exact ⟨by rw [hy]; exact g1, by rw [hz]; exact g3, by rw [hraw1, hz]⟩
  obtain ⟨hl, ha⟩ := move_blobs_asserts_spec cfg maxsz (defragment_order cfg r) r.file
    (raw_table r.file) (header_end cfg) hmem
  have hlen : (defragment_asserts cfg maxsz r).length
      = ((List.range cfg.REGION_VOLUME).filter (fun k => slot_offset r.file k != 0)).length := by
    unfold defragment_asserts
    rw [hl]
    unfold defragment_order
    rw [(sort_by_position_perm _).length_eq]
    unfold collect_slots
    rw [List.length_map]
    congr 1
    apply List.filter_congr
    intro k _
    rw [hraw0]
  refine ⟨hlen, ha, ?_⟩
  rintro ⟨k, hk, hne⟩
  have hpos : 0 < (defragment_asserts cfg maxsz r).length := by
    rw [hlen]
    apply List.length_pos_of_mem (a := k)
    simp only [List.mem_filter, List.mem_range, bne_iff_ne]
    exact ⟨hk, hne⟩
  cases hd : defragment_asserts cfg maxsz r with
  | nil => rw [hd] at hpos; simp at hpos
  | cons a rest =>
    refine ⟨a, rfl, ?_⟩
    have hmem' : a ∈ defragment_asserts cfg maxsz r := by
      rw [hd]; exact List.mem_cons_self _ _
    exact (ha a hmem').1

/-- Witness for `defragment_assertions`: the region `demoRegion` of `smallConfig`
(`header_end = 24`, blobs at 27 and 29, `end = 33`) with blobs of at most 8 bytes. -/
theorem defragment_assertions_witness :
    (∀ k, k < smallConfig.REGION_VOLUME → slot_offset demoRegion.file k ≠ 0 →
      header_end smallConfig ≤ slot_offset demoRegion.file k ∧
        slot_offset demoRegion.file k + slot_size demoRegion.file k ≤ demoRegion.end_ ∧
        slot_size demoRegion.file k ≤ 8) ∧
    (∀ a ∈ defragment_asserts smallConfig 8 demoRegion,
      a.offset_bound = false ∧ a.size_bound = true ∧ a.size_consistent = true) :=
  ⟨by decide, (defragment_assertions smallConfig 8 demoRegion (by decide)).2.1⟩

/-- The assertions of `defragment_region` on `demoRegion`, evaluated: two blobs are moved,
and for both the bound on the offset fails (`27 < 24` and `29 < 24`). -/
theorem defragment_assertions_demo :
    defragment_asserts smallConfig 8 demoRegion
      = [{ offset_bound := false, size_bound := true, size_consistent := true },
         { offset_bound := false, size_bound := true, size_consistent := true }] ∧
    (defragment_order smallConfig demoRegion).map (fun i => i.y) = [27, 29] ∧
    header_end smallConfig = 24 := by
  decide

/-! ## C33: nothing is resident initially -/

/-- The position `(0, 0, 0)` has the index 0 in an array of any `int32_t` dimensions. -/
theorem Math.position_to_index_origin (s : Vec3) (hs : s.isS32) :
    Math.position_to_index ⟨0, 0, 0⟩ s = 0 := by
  obtain ⟨⟨hx1, hx2⟩, ⟨hy1, hy2⟩, ⟨hz1, hz2⟩⟩ := hs
  have hmod : ∀ b : Int, -2147483648 ≤ b → b ≤ 2147483647 → floor_mod_s32 0 b = 0 := by
    intro b h1 h2
    unfold floor_mod_s32
    rw [Int.zero_tmod, zero_add, wrapS32_id h1 h2]
    exact Int.tmod_self
  unfold Math.position_to_index Math.floor_mod Math.to_index
  have hw0 : wrapS32 0 = 0 := by decide
  simp only [hmod _ hx1 hx2, hmod _ hy1 hy2, hmod _ hz1 hz2, zero_mul, add_zero, zero_add, hw0]

/-- The position `(1, 0, 0)` does not have the index 0 in an array that is at least 2 slots
wide on the `x` axis. -/
theorem Math.position_to_index_unit_x (s : Vec3) (hs : s.isS32) (hx : 2 ≤ s.x) :
    Math.position_to_index ⟨1, 0, 0⟩ s ≠ 0 := by
  obtain ⟨⟨hx1, hx2⟩, ⟨hy1, hy2⟩, ⟨hz1, hz2⟩⟩ := hs
  have hmod : ∀ b : Int, -2147483648 ≤ b → b ≤ 2147483647 → floor_mod_s32 0 b = 0 := by
    intro b h1 h2
    unfold floor_mod_s32
    rw [Int.zero_tmod, zero_add, wrapS32_id h1 h2]
    exact Int.tmod_self
  have h1 : Int.tmod 1 s.x = 1 := by
    rw [Int.tmod_eq_emod (by decide) (by omega)]
    exact Int.emod_eq_of_lt (by decide) (by omega)
  have hxv : floor_mod_s32 1 s.x = 1 ∨ floor_mod_s32 1 s.x = -1 := by
    unfold floor_mod_s32
    rw [h1]
    by_cases hmax : s.x = 2147483647
    · right
      rw [hmax]
      decide
    · left
      rw [wrapS32_id (by omega : (-2147483648 : Int) ≤ 1 + s.x) (by omega)]
      rw [Int.tmod_eq_emod (by omega) (by omega)]
      rw [Int.add_emod_self]
      exact Int.emod_eq_of_lt (by decide) (by omega)
  unfold Math.position_to_index Math.floor_mod Math.to_index
  have hw0 : wrapS32 0 = 0 := by decide
  simp only [hmod _ hy1 hy2, hmod _ hz1 hz2, zero_mul, add_zero, zero_add, hw0]
  rcases hxv with e | e
  · rw [e]
    decide
  · rw [e]
    decide

/-- C33: in the state the constructor of `VoxelContainer` builds, with
`CHUNK_ARRAY_SIZE.x ≥ 2`, the position stored in every chunk slot `s` maps to a slot other
than `s` under `position_to_index`; so for every coordinate `p` the position check of
`getChunk(p)` fails, and `getChunk(p)` returns null in the state of the constructor, after
any `moveCenterChunk`, and in every state whose chunk slots are those of the constructor
(only `worker` stores a position). -/
theorem nothing_resident_initially (cc : ContainerConfig) (hs : cc.CHUNK_ARRAY_SIZE.isS32)
    (hx : 2 ≤ cc.CHUNK_ARRAY_SIZE.x) (overlap : Math.AABB3) :
    (∀ s : Int, Math.position_to_index
        (Math.toVec3 ((VoxelContainer.init overlap).m_chunk_positions s)) cc.CHUNK_ARRAY_SIZE
      ≠ s) ∧
    (∀ p : Vec3, Vec3.all_equal
        (Math.toVec3 ((VoxelContainer.init overlap).m_chunk_positions
          (Math.position_to_index p cc.CHUNK_ARRAY_SIZE))) p = false) ∧
    (∀ p : Vec3, (VoxelContainer.init overlap).getChunk cc p = none) ∧
    (∀ n p : Vec3, ((VoxelContainer.init overlap).moveCenterChunk cc n).getChunk cc p = none) ∧
    (∀ vc : VoxelContainer,
      vc.m_chunk_positions = (VoxelContainer.init overlap).m_chunk_positions →
        ∀ p : Vec3, vc.getChunk cc p = none) := by
  have hslot : ∀ s : Int, Math.toVec3 ((VoxelContainer.init overlap).m_chunk_positions s)
      = if s = 0 then ⟨1, 0, 0⟩ else ⟨0, 0, 0⟩ := by
    intro s
    show Math.toVec3 (Function.update (fun _ => Math.toDumb3 ⟨0, 0, 0⟩) 0
      (Math.toDumb3 ⟨1, 0, 0⟩) s) = _
    by_cases h0 : s = 0
    · rw [h0, Function.update_same, if_pos rfl]
      exact Math.toVec3_toDumb3 ⟨1, 0, 0⟩ (by decide)
    · rw [Function.update_noteq h0, if_neg h0]
      exact Math.toVec3_toDumb3 ⟨0, 0, 0⟩ (by decide)
  have h0 := Math.position_to_index_origin cc.CHUNK_ARRAY_SIZE hs
  have h1 := Math.position_to_index_unit_x cc.CHUNK_ARRAY_SIZE hs hx
  have hcheck : ∀ p : Vec3, Vec3.all_equal
      (Math.toVec3 ((VoxelContainer.init overlap).m_chunk_positions
        (Math.position_to_index p cc.CHUNK_ARRAY_SIZE))) p = false := by
    intro p
    rw [← Bool.not_eq_true, Vec3.all_equal_eq_true, hslot]
    by_cases hi : Math.position_to_index p cc.CHUNK_ARRAY_SIZE = 0
    · rw [if_pos hi]
      intro e
      rw [← e] at hi
      exact h1 hi
    · rw [if_neg hi]
      intro e
      rw [← e] at hi
      exact hi h0
  have hnull : ∀ vc : VoxelContainer,
      vc.m_chunk_positions = (VoxelContainer.init overlap).m_chunk_positions →
        ∀ p : Vec3, vc.getChunk cc p = none := by
    intro vc hvc p
    unfold VoxelContainer.getChunk
    simp only [hvc, hcheck p, Bool.not_false, if_true]
  have hmove : ∀ n : Vec3, ((VoxelContainer.init overlap).moveCenterChunk cc n).m_chunk_positions
      = (VoxelContainer.init overlap).m_chunk_positions := fun _ => rfl
  refine ⟨?_, hcheck, hnull _ rfl, fun n p => hnull _ (hmove n) p, hnull⟩
  intro s
  rw [hslot]
  by_cases hz : s = 0
  · rw [if_pos hz, hz]
    exact h1
  · rw [if_neg hz, h0]
    exact fun e => hz e.symm

/-- Witness for `nothing_resident_initially`: the toy configuration, whose chunk array
is `3 × 3 × 3`, and the two positions the constructor stores, `(1, 0, 0)` and `(0, 0, 0)`,
with an overlap box that contains both. -/
theorem nothing_resident_initially_witness :
    2 ≤ toyContainerConfig.CHUNK_ARRAY_SIZE.x ∧
    (VoxelContainer.init ⟨⟨-1, -1, -1⟩, ⟨1, 1, 1⟩⟩).getChunk toyContainerConfig ⟨1, 0, 0⟩ = none ∧
    (VoxelContainer.init ⟨⟨-1, -1, -1⟩, ⟨1, 1, 1⟩⟩).getChunk toyContainerConfig ⟨0, 0, 0⟩ = none :=
  ⟨by decide,
    (nothing_resident_initially toyContainerConfig (by decide) (by decide)
      ⟨⟨-1, -1, -1⟩, ⟨1, 1, 1⟩⟩).2.2.1 ⟨1, 0, 0⟩,
    (nothing_resident_initially toyContainerConfig (by decide) (by decide)
      ⟨⟨-1, -1, -1⟩, ⟨1, 1, 1⟩⟩).2.2.1 ⟨0, 0, 0⟩⟩

/-! ## The two caches along `get_region`, `close_chunk` and `get_chunk` -/

/-- A node the caller holds is linked under a key that is not cached; the cache is well
linked again and nothing is held. -/
theorem LRUInv.install {V : Type} {N : Nat} {hash : Vec3 → Nat} {lru lru' : LeastRecentlyUsed V}
    {c : Nat} {p : Vec3} (h : LRUInv N hash lru [c]) (hp : p ∉ lru.keys)
    (hl : lru'.m_list = lru.m_list) (hm : lru'.m_map = lru.m_map)
    (hf : lru'.m_free_list = lru.m_free_list)
    (hn : ∀ n, n ≠ c → (lru'.node n).key = (lru.node n).key ∧
      (lru'.node n).head = (lru.node n).head)
    (hk : (lru'.node c).key = p) :
    LRUInv N hash (lru'.add_node c (hash p)) [] := by
  have hc : c ∉ lru.m_list := h.not_mem_list_of_out (List.mem_singleton_self c)
  have hne : ∀ n ∈ lru.m_list, n ≠ c := fun n hn' e => hc (e ▸ hn')
  have h' : LRUInv N hash lru' [c] :=
    h.congr hl hm (by rw [hl, hf]) (fun n hn' => hn n (hne n hn'))
  have hkeys : lru'.keys = lru.keys := by
    unfold LeastRecentlyUsed.keys
    rw [hl]
    exact List.map_congr_left (fun n hn' => (hn n (hne n hn')).1)
  have hadd := h'.add_node (List.mem_singleton_self c) (by rw [hk, hkeys]; exact hp)
  rw [hk] at hadd
  simpa using hadd

/-- The keys of a cache from which a node has been unlinked are among the keys before. -/
theorem LeastRecentlyUsed.keys_remove_node {V : Type} (lru : LeastRecentlyUsed V) (n : Nat)
    (r : Vec3) (h : r ∈ (lru.remove_node n).keys) : r ∈ lru.keys := by
  obtain ⟨m, hm, hk⟩ := List.mem_map.1 h
  exact List.mem_map.2 ⟨m, List.mem_of_mem_erase hm, hk⟩

theorem VoxelStorage.close_region_lru (s : VoxelStorage) (n : Nat) :
    (s.close_region n).m_region_LRU = s.m_region_LRU ∧
      (s.close_region n).m_chunk_LRU = s.m_chunk_LRU := by
  unfold VoxelStorage.close_region
  split <;> exact ⟨rfl, rfl⟩

/-- Lines 329-334 of `get_region` leave the chunk cache alone; a node they hand out is
held by the caller, and no key is added to the region cache. -/
theorem VoxelStorage.take_region_node_lru {N : Nat} {hash : Vec3 → Nat} (s : VoxelStorage) :
    (s.take_region_node).1.m_chunk_LRU = s.m_chunk_LRU ∧
    (LRUInv N hash s.m_region_LRU [] → ∀ n, (s.take_region_node).2 = some n →
      LRUInv N hash (s.take_region_node).1.m_region_LRU [n] ∧
      ∀ r, r ∈ (s.take_region_node).1.m_region_LRU.keys → r ∈ s.m_region_LRU.keys) := by
  cases hfree : s.m_region_LRU.m_free_list with
  | cons n rest =>
    have e1 : s.m_region_LRU.get_from_heap
        = ({ s.m_region_LRU with m_free_list := rest }, some n) := by
      unfold LeastRecentlyUsed.get_from_heap
      rw [hfree]
    have ht : s.take_region_node
        = ({ s with m_region_LRU := { s.m_region_LRU with m_free_list := rest } }, some n) := by
      unfold VoxelStorage.take_region_node
      rw [e1]
    rw [ht]
    refine ⟨rfl, fun h n' hn' => ?_⟩
    have hnn : n = n' := by simpa using hn'
    subst hnn
    exact ⟨(h.get_from_heap hfree).2, fun r hr => hr⟩
  | nil =>
    have e1 := LeastRecentlyUsed.get_from_heap_nil _ hfree
    by_cases hnil : s.m_region_LRU.m_list = []
    · have ht : s.take_region_node = ({ s with m_region_LRU := s.m_region_LRU }, none) := by
        unfold VoxelStorage.take_region_node
        rw [e1]
        simp only
        rw [LeastRecentlyUsed.remove_lru_node_nil _ hnil]
      rw [ht]
      exact ⟨rfl, fun _ n' hn' => by cases hn'⟩
    · obtain ⟨n, hlast⟩ : ∃ n, s.m_region_LRU.m_list.getLast? = some n := by
        cases hl : s.m_region_LRU.m_list.getLast? with
        | none => exact absurd (List.getLast?_eq_none_iff.1 hl) hnil
        | some n => exact ⟨n, rfl⟩
      have e2 : s.m_region_LRU.remove_lru_node = (s.m_region_LRU.remove_node n, some n) := by
        unfold LeastRecentlyUsed.remove_lru_node
        rw [hlast]
      have ht : s.take_region_node
          = (VoxelStorage.close_region { s with m_region_LRU := s.m_region_LRU.remove_node n } n,
              some n) := by
        unfold VoxelStorage.take_region_node
        rw [e1]
        simp only
        rw [e2]
      rw [ht]
      obtain ⟨c1, c2⟩ := VoxelStorage.close_region_lru
        { s with m_region_LRU := s.m_region_LRU.remove_node n } n
      refine ⟨c2, fun h n' hn' => ?_⟩
      have hnn : n = n' := by simpa using hn'
      subst hnn
      have hmem : n ∈ s.m_region_LRU.m_list := by
        rw [List.getLast?_eq_getLast _ hnil] at hlast
        have hn : s.m_region_LRU.m_list.getLast hnil = n := by simpa using hlast
        rw [← hn]
        exact List.getLast_mem hnil
      simp only [c1]
      exact ⟨h.remove_node hmem, fun r hr => LeastRecentlyUsed.keys_remove_node _ n r hr⟩

/-- `get_region` leaves the chunk cache alone and does not throw. -/
theorem VoxelStorage.get_region_chunk_lru (env : Env) (s : VoxelStorage) (r : Vec3) :
    (s.get_region env r).1.m_chunk_LRU = s.m_chunk_LRU ∧
      (s.get_region env r).2 ≠ .thrown ∧ (s.get_region env r).2 ≠ .unfinished := by
  rcases hn : s.m_region_LRU.get_node r (VoxelStorage.region_index env.cfg r)
    with ⟨lru, _ | region⟩
  · obtain ⟨t1, _⟩ := @VoxelStorage.take_region_node_lru 0 (fun _ => 0)
      { s with m_region_LRU := lru }
    rcases ht : VoxelStorage.take_region_node { s with m_region_LRU := lru } with ⟨s1, _ | n⟩
    · have hget : s.get_region env r = (s1, .null) := by
        unfold VoxelStorage.get_region
        rw [hn]
        simp only
        rw [ht]
      rw [ht] at t1
      rw [hget]
      exact ⟨t1, by simp, by simp⟩
    · have hget : s.get_region env r = (s1.open_region env n r, .ok n) := by
        unfold VoxelStorage.get_region
        rw [hn]
        simp only
        rw [ht]
      rw [ht] at t1
      rw [hget]
      exact ⟨t1, by simp, by simp⟩
  · have hget : s.get_region env r = ({ s with m_region_LRU := lru }, .ok region) := by
      unfold VoxelStorage.get_region
      rw [hn]
    rw [hget]
    exact ⟨rfl, by simp, by simp⟩

/-- A `get_region` that returns leaves the region cache well linked. -/
theorem VoxelStorage.get_region_lru (env : Env) (s : VoxelStorage) (r : Vec3)
    (h : LRUInv env.cfg.REGION_HEAP_SIZE (VoxelStorage.region_index env.cfg) s.m_region_LRU [])
    (n : Nat) (hok : (s.get_region env r).2 = .ok n) :
    LRUInv env.cfg.REGION_HEAP_SIZE (VoxelStorage.region_index env.cfg)
      (s.get_region env r).1.m_region_LRU [] := by
  by_cases hr : r ∈ s.m_region_LRU.keys
  · obtain ⟨m, hm, hkm⟩ := List.mem_map.1 hr
    obtain ⟨g1, _, _, _, g5⟩ := h.get_node_hit m hm r hkm
    have hget : s.get_region env r
        = ({ s with m_region_LRU :=
              (s.m_region_LRU.get_node r (VoxelStorage.region_index env.cfg r)).1 }, .ok m) := by
      unfold VoxelStorage.get_region
      have : s.m_region_LRU.get_node r (VoxelStorage.region_index env.cfg r)
          = ((s.m_region_LRU.get_node r (VoxelStorage.region_index env.cfg r)).1, some m) :=
        Prod.ext rfl g1
      rw [this]
    rw [hget]
    exact g5
  · have hmiss := h.get_node_miss r hr
    obtain ⟨_, t2⟩ := @VoxelStorage.take_region_node_lru env.cfg.REGION_HEAP_SIZE
      (VoxelStorage.region_index env.cfg) s
    rcases ht : s.take_region_node with ⟨s1, _ | c⟩
    · have hget : s.get_region env r = (s1, .null) := by
        unfold VoxelStorage.get_region
        rw [hmiss]
        simp only
        have : ({ s with m_region_LRU := s.m_region_LRU } : VoxelStorage) = s := rfl
        rw [this, ht]
      rw [hget] at hok
      cases hok
    · have hget : s.get_region env r = (s1.open_region env c r, .ok c) := by
        unfold VoxelStorage.get_region
        rw [hmiss]
        simp only
        have : ({ s with m_region_LRU := s.m_region_LRU } : VoxelStorage) = s := rfl
        rw [this, ht]
      rw [ht] at t2
      obtain ⟨hinv, hsub⟩ := t2 h c rfl
      rw [hget]
      show LRUInv _ _ (((s1.m_region_LRU.set_val c _).set_key c r).add_node c
        (VoxelStorage.region_index env.cfg r)) []
      refine hinv.install (fun hmem => hr (hsub r hmem)) rfl rfl rfl (fun m hmc => ?_) ?_
      · obtain ⟨a1, a2, _⟩ := LeastRecentlyUsed.set_val_node s1.m_region_LRU c
          ({ fd := some r,
             garbage := (if ((s1.world r).size == 0) = true then new_region env.cfg (s1.world r)
               else load_region (s1.world r)).garbage,
             end_ := (if ((s1.world r).size == 0) = true then new_region env.cfg (s1.world r)
               else load_region (s1.world r)).end_ } : Region) m
        obtain ⟨_, b2, b3⟩ := LeastRecentlyUsed.set_key_node (s1.m_region_LRU.set_val c
          ({ fd := some r,
             garbage := (if ((s1.world r).size == 0) = true then new_region env.cfg (s1.world r)
               else load_region (s1.world r)).garbage,
             end_ := (if ((s1.world r).size == 0) = true then new_region env.cfg (s1.world r)
               else load_region (s1.world r)).end_ } : Region)) c r m
        rw [if_neg hmc] at b3
        exact ⟨by rw [b3, a1], by rw [b2, a2]⟩
      · obtain ⟨_, _, b3⟩ := LeastRecentlyUsed.set_key_node (s1.m_region_LRU.set_val c
          ({ fd := some r,
             garbage := (if ((s1.world r).size == 0) = true then new_region env.cfg (s1.world r)
               else load_region (s1.world r)).garbage,
             end_ := (if ((s1.world r).size == 0) = true then new_region env.cfg (s1.world r)
               else load_region (s1.world r)).end_ } : Region)) c r c
        rw [if_pos rfl] at b3
        exact b3

/-- `close_chunk` leaves the chunk cache alone, and the region cache well linked if it
returns. -/
theorem VoxelStorage.close_chunk_lru (env : Env) (s : VoxelStorage) (c : Nat) :
    (s.close_chunk env c).1.m_chunk_LRU = s.m_chunk_LRU ∧
    (s.close_chunk env c).2 ≠ .unfinished ∧
    (LRUInv env.cfg.REGION_HEAP_SIZE (VoxelStorage.region_index env.cfg) s.m_region_LRU [] →
      (s.close_chunk env c).2 = .ok () →
      LRUInv env.cfg.REGION_HEAP_SIZE (VoxelStorage.region_index env.cfg)
        (s.close_chunk env c).1.m_region_LRU []) := by
  by_cases hd : (s.m_chunk_LRU.node c).val.dirty = false
  · have hclose : s.close_chunk env c = (s, .ok ()) := by
      unfold VoxelStorage.close_chunk
      simp [hd]
    rw [hclose]
    exact ⟨rfl, by simp, fun h _ => h⟩
  · have hd' : (s.m_chunk_LRU.node c).val.dirty = true := by simpa using hd
    obtain ⟨g1, g2, g3⟩ := VoxelStorage.get_region_chunk_lru env s
      (VoxelStorage.floor_div (s.m_chunk_LRU.node c).key env.cfg.REGION_SIZE)
    have g4 := VoxelStorage.get_region_lru env s
      (VoxelStorage.floor_div (s.m_chunk_LRU.node c).key env.cfg.REGION_SIZE)
    rcases hg : s.get_region env
      (VoxelStorage.floor_div (s.m_chunk_LRU.node c).key env.cfg.REGION_SIZE) with ⟨s1, o1⟩
    rw [hg] at g1 g2 g3 g4
    cases o1 with
    | ok region =>
      cases hcomp : env.codec.compress2 (s1.m_chunk_LRU.node c).val.blocks
          (c_maximum_compressed_size env.cfg env.codec) with
      | none =>
        have hclose : s.close_chunk env c = (s1, .thrown) := by
          unfold VoxelStorage.close_chunk
          rw [hd']
          simp only [Bool.not_true, Bool.false_eq_true, if_false]
          rw [hg]
          simp only
          rw [hcomp]
        rw [hclose]
        exact ⟨g1, by simp, fun _ hok => by cases hok⟩
      | some compressed =>
        have hclose : s.close_chunk env c
            = (s1.set_region_io region (close_chunk_region env.cfg (s1.region_io region)
                (VoxelStorage.slot_index env.cfg (s1.m_chunk_LRU.node c).key) compressed),
                .ok ()) := by
          unfold VoxelStorage.close_chunk
          rw [hd']
          simp only [Bool.not_true, Bool.false_eq_true, if_false]
          rw [hg]
          simp only
          rw [hcomp]
        rw [hclose]
        refine ⟨g1, by simp, fun h _ => ?_⟩
        have h1 := g4 h region rfl
        refine h1.congr rfl rfl (List.Perm.refl _) (fun m _ => ?_)
        obtain ⟨a1, a2, _⟩ := VoxelStorage.set_region_io_node s1 region
          (close_chunk_region env.cfg (s1.region_io region)
            (VoxelStorage.slot_index env.cfg (s1.m_chunk_LRU.node c).key) compressed) m
        exact ⟨a1, a2⟩
    | thrown => exact absurd rfl g2
    | null =>
      have hclose : s.close_chunk env c = (s1, .null) := by
        unfold VoxelStorage.close_chunk
        rw [hd']
        simp only [Bool.not_true, Bool.false_eq_true, if_false]
        rw [hg]
      rw [hclose]
      exact ⟨g1, by simp, fun _ hok => by cases hok⟩
    | unfinished => exact absurd rfl g3

/-- Lines 169-174 of `get_chunk`: unless there is no node at all, a node is taken from the
free chain or unlinked from the back of the recency chain, and the caller holds it, also
when closing the evicted chunk throws. -/
theorem VoxelStorage.take_chunk_node_lru (env : Env) (s : VoxelStorage)
    (hC : LRUInv env.cfg.CHUNK_HEAP_SIZE (VoxelStorage.chunk_index env.cfg) s.m_chunk_LRU []) :
    ∃ s2 o, s.take_chunk_node env = (s2, o) ∧ o ≠ .unfinished ∧
      (LRUInv env.cfg.REGION_HEAP_SIZE (VoxelStorage.region_index env.cfg) s.m_region_LRU [] →
        (∃ c, o = .ok c) →
        LRUInv env.cfg.REGION_HEAP_SIZE (VoxelStorage.region_index env.cfg) s2.m_region_LRU []) ∧
      (o = .null ∨ ∃ c, (o = .ok c ∨ o = .thrown) ∧
        LRUInv env.cfg.CHUNK_HEAP_SIZE (VoxelStorage.chunk_index env.cfg) s2.m_chunk_LRU [c] ∧
        s2.m_chunk_LRU.node = s.m_chunk_LRU.node ∧
        ((∃ rest, s.m_chunk_LRU.m_free_list = c :: rest ∧ s2.m_chunk_LRU.m_free_list = rest ∧
            s2.m_chunk_LRU.m_list = s.m_chunk_LRU.m_list) ∨
          (s.m_chunk_LRU.m_free_list = [] ∧ s2.m_chunk_LRU.m_free_list = [] ∧
            s.m_chunk_LRU.m_list = s2.m_chunk_LRU.m_list ++ [c]))) := by
  cases hfree : s.m_chunk_LRU.m_free_list with
  | cons c rest =>
    obtain ⟨e1, hinv⟩ := hC.get_from_heap hfree
    refine ⟨{ s with m_chunk_LRU := { s.m_chunk_LRU with m_free_list := rest } }, .ok c, ?_,
      by simp, fun h _ => h, Or.inr ⟨c, Or.inl rfl, hinv, rfl, Or.inl ⟨rest, rfl, rfl, rfl⟩⟩⟩
    unfold VoxelStorage.take_chunk_node
    rw [e1]
  | nil =>
    have e1 := LeastRecentlyUsed.get_from_heap_nil _ hfree
    by_cases hnil : s.m_chunk_LRU.m_list = []
    · refine ⟨{ s with m_chunk_LRU := s.m_chunk_LRU }, .null, ?_, by simp,
        fun _ hex => ?_, Or.inl rfl⟩
      · unfold VoxelStorage.take_chunk_node
        rw [e1]
        simp only
        rw [LeastRecentlyUsed.remove_lru_node_nil _ hnil]
      · obtain ⟨c, hc⟩ := hex
        cases hc
    · obtain ⟨c, e2, _, hsplit, hdrop, hinv⟩ := hC.remove_lru_node hnil
      obtain ⟨k1, k2, k3⟩ := VoxelStorage.close_chunk_lru env
        { s with m_chunk_LRU := s.m_chunk_LRU.remove_node c } c
      rcases hcl : VoxelStorage.close_chunk env
        { s with m_chunk_LRU := s.m_chunk_LRU.remove_node c } c with ⟨s2, o2⟩
      rw [hcl] at k1 k2 k3
      have k1' : s2.m_chunk_LRU = s.m_chunk_LRU.remove_node c := k1
      have hA : LRUInv env.cfg.CHUNK_HEAP_SIZE (VoxelStorage.chunk_index env.cfg)
          s2.m_chunk_LRU [c] := by rw [k1']; exact hinv
      have hB : s2.m_chunk_LRU.node = s.m_chunk_LRU.node := by rw [k1']; rfl
      have hD : s2.m_chunk_LRU.m_free_list = [] := by rw [k1']; exact hfree
      have hE : s.m_chunk_LRU.m_list = s2.m_chunk_LRU.m_list ++ [c] := by
        rw [k1', hdrop]
        exact hsplit
      cases o2 with
      | ok u =>
        refine ⟨s2, .ok c, ?_, by simp, fun h _ => k3 h rfl, Or.inr ⟨c, Or.inl rfl, hA, hB, Or.inr ⟨rfl, hD, hE⟩⟩⟩
        unfold VoxelStorage.take_chunk_node
        rw [e1]
        simp only
        rw [e2]
        simp only
        rw [hcl]
      | thrown =>
        refine ⟨s2, .thrown, ?_, by simp, fun _ hex => ?_, Or.inr ⟨c, Or.inr rfl, hA, hB, Or.inr ⟨rfl, hD, hE⟩⟩⟩
        · unfold VoxelStorage.take_chunk_node
          rw [e1]
          simp only
          rw [e2]
          simp only
          rw [hcl]
        · obtain ⟨c', hc'⟩ := hex
          cases hc'
      | null =>
        refine ⟨s2, .null, ?_, by simp, fun _ hex => ?_, Or.inl rfl⟩
        · unfold VoxelStorage.take_chunk_node
          rw [e1]
          simp only
          rw [e2]
          simp only
          rw [hcl]
        · obtain ⟨c', hc'⟩ := hex
          cases hc'
      | unfinished => exact absurd rfl k2

/-- Lines 175-205 of `get_chunk` on a node the caller holds: either the node is linked
under the key `p` and returned, or the call throws and the node stays with the caller, the
two chains of the cache and the keys of the other nodes being as before. -/
theorem VoxelStorage.load_chunk_lru (env : Env) (s : VoxelStorage) (region c : Nat) (p : Vec3)
    (hC : LRUInv env.cfg.CHUNK_HEAP_SIZE (VoxelStorage.chunk_index env.cfg) s.m_chunk_LRU [c])
    (hp : p ∉ s.m_chunk_LRU.keys) :
    (s.load_chunk env region c p).1.m_region_LRU = s.m_region_LRU ∧
    (((s.load_chunk env region c p).2 = .ok c ∧
        LRUInv env.cfg.CHUNK_HEAP_SIZE (VoxelStorage.chunk_index env.cfg)
          (s.load_chunk env region c p).1.m_chunk_LRU []) ∨
      ((s.load_chunk env region c p).2 = .thrown ∧
        LRUInv env.cfg.CHUNK_HEAP_SIZE (VoxelStorage.chunk_index env.cfg)
          (s.load_chunk env region c p).1.m_chunk_LRU [c] ∧
        (s.load_chunk env region c p).1.m_chunk_LRU.m_list = s.m_chunk_LRU.m_list ∧
        (s.load_chunk env region c p).1.m_chunk_LRU.m_free_list = s.m_chunk_LRU.m_free_list ∧
        ∀ n, n ≠ c → ((s.load_chunk env region c p).1.m_chunk_LRU.node n).key
          = (s.m_chunk_LRU.node n).key)) := by
  have hf : ∀ lru : LeastRecentlyUsed Chunk,
      VoxelStorage.region_file { s with m_chunk_LRU := lru } region = s.region_file region :=
    fun _ => rfl
  have hlink : ∀ v : Chunk, LRUInv env.cfg.CHUNK_HEAP_SIZE (VoxelStorage.chunk_index env.cfg)
      (((s.m_chunk_LRU.set_key c p).set_val c v).add_node c
        (VoxelStorage.chunk_index env.cfg p)) [] := by
    intro v
    refine hC.install hp rfl rfl rfl (fun n hnc => ?_) ?_
    · obtain ⟨a1, a2, _⟩ := LeastRecentlyUsed.set_val_node (s.m_chunk_LRU.set_key c p) c v n
      obtain ⟨_, b2, b3⟩ := LeastRecentlyUsed.set_key_node s.m_chunk_LRU c p n
      rw [if_neg hnc] at b3
      exact ⟨by rw [a1, b3], by rw [a2, b2]⟩
    · obtain ⟨a1, _, _⟩ := LeastRecentlyUsed.set_val_node (s.m_chunk_LRU.set_key c p) c v c
      obtain ⟨_, _, b3⟩ := LeastRecentlyUsed.set_key_node s.m_chunk_LRU c p c
      rw [if_pos rfl] at b3
      rw [a1, b3]
  have hkey : ∀ n, n ≠ c → ((s.m_chunk_LRU.set_key c p).node n).key = (s.m_chunk_LRU.node n).key ∧
      ((s.m_chunk_LRU.set_key c p).node n).head = (s.m_chunk_LRU.node n).head := by
    intro n hnc
    obtain ⟨_, b2, b3⟩ := LeastRecentlyUsed.set_key_node s.m_chunk_LRU c p n
    rw [if_neg hnc] at b3
    exact ⟨b3, b2⟩
  have hcl : ∀ n ∈ s.m_chunk_LRU.m_list, n ≠ c := fun n hn e =>
    hC.not_mem_list_of_out (List.mem_singleton_self c) (e ▸ hn)
  have hheld : LRUInv env.cfg.CHUNK_HEAP_SIZE (VoxelStorage.chunk_index env.cfg)
      (s.m_chunk_LRU.set_key c p) [c] :=
    hC.congr rfl rfl (List.Perm.refl _) (fun n hn => hkey n (hcl n hn))
  by_cases h0 : slot_offset (s.region_file region) (VoxelStorage.slot_index env.cfg p) = 0
  · have hload : s.load_chunk env region c p
        = (VoxelStorage.mk (((s.m_chunk_LRU.set_key c p).set_val c
            (Chunk.mk (env.create_new_chunk p) true)).add_node c
              (VoxelStorage.chunk_index env.cfg p)) s.m_region_LRU s.world, .ok c) := by
      unfold VoxelStorage.load_chunk
      simp only [hf]
      rw [if_neg (by simpa using h0)]
    rw [hload]
    exact ⟨rfl, Or.inl ⟨rfl, hlink _⟩⟩
  · cases hu : env.codec.uncompress ((s.region_file region).pread
        (slot_size (s.region_file region) (VoxelStorage.slot_index env.cfg p))
        (slot_offset (s.region_file region) (VoxelStorage.slot_index env.cfg p)))
        env.cfg.CHUNK_VOLUME with
    | none =>
      have hload : s.load_chunk env region c p
          = (VoxelStorage.mk (s.m_chunk_LRU.set_key c p) s.m_region_LRU s.world, .thrown) := by
        unfold VoxelStorage.load_chunk
        simp only [hf]
        rw [if_pos h0, hu]
      rw [hload]
      exact ⟨rfl, Or.inr ⟨rfl, hheld, rfl, rfl, fun n hnc => (hkey n hnc).1⟩⟩
    | some blocks =>
      by_cases hl : blocks.length ≠ env.cfg.CHUNK_VOLUME
      · have hload : s.load_chunk env region c p
            = (VoxelStorage.mk ((s.m_chunk_LRU.set_key c p).set_val c
                (Chunk.mk (blocks ++ ((s.m_chunk_LRU.set_key c p).node c).val.blocks.drop
                  blocks.length) ((s.m_chunk_LRU.set_key c p).node c).val.dirty))
                s.m_region_LRU s.world, .thrown) := by
          unfold VoxelStorage.load_chunk
          simp only [hf]
          rw [if_pos h0, hu]
          simp only
          rw [if_pos hl]
        rw [hload]
        refine ⟨rfl, Or.inr ⟨rfl, ?_, rfl, rfl, fun n hnc => ?_⟩⟩
        · refine hheld.congr rfl rfl (List.Perm.refl _) (fun n _ => ?_)
          obtain ⟨a1, a2, _⟩ := LeastRecentlyUsed.set_val_node (s.m_chunk_LRU.set_key c p) c
            (Chunk.mk (blocks ++ ((s.m_chunk_LRU.set_key c p).node c).val.blocks.drop
              blocks.length) ((s.m_chunk_LRU.set_key c p).node c).val.dirty) n
          exact ⟨a1, a2⟩
        · obtain ⟨a1, _, _⟩ := LeastRecentlyUsed.set_val_node (s.m_chunk_LRU.set_key c p) c
            (Chunk.mk (blocks ++ ((s.m_chunk_LRU.set_key c p).node c).val.blocks.drop
              blocks.length) ((s.m_chunk_LRU.set_key c p).node c).val.dirty) n
          rw [a1]
          exact (hkey n hnc).1
      · have hload : s.load_chunk env region c p
            = (VoxelStorage.mk (((s.m_chunk_LRU.set_key c p).set_val c
                (Chunk.mk blocks false)).add_node c
                  (VoxelStorage.chunk_index env.cfg p)) s.m_region_LRU s.world, .ok c) := by
          unfold VoxelStorage.load_chunk
          simp only [hf]
          rw [if_pos h0, hu]
          simp only
          rw [if_neg hl]
        rw [hload]
        exact ⟨rfl, Or.inl ⟨rfl, hlink _⟩⟩

/-- The two caches after `get_chunk`.  If the call returns, both caches are well linked.
If it throws, one node of the chunk cache is in neither chain: the node taken from the
free chain, or else the least recently used node, which was unlinked; the other nodes are
linked as before and keep their keys. -/
theorem VoxelStorage.get_chunk_lru (env : Env) (s : VoxelStorage) (p : Vec3)
    (hC : LRUInv env.cfg.CHUNK_HEAP_SIZE (VoxelStorage.chunk_index env.cfg) s.m_chunk_LRU []) :
    ∃ s' o, s.get_chunk env p = (s', o) ∧ o ≠ .unfinished ∧
      (∀ c, o = .ok c →
        LRUInv env.cfg.CHUNK_HEAP_SIZE (VoxelStorage.chunk_index env.cfg) s'.m_chunk_LRU [] ∧
        (LRUInv env.cfg.REGION_HEAP_SIZE (VoxelStorage.region_index env.cfg) s.m_region_LRU [] →
          LRUInv env.cfg.REGION_HEAP_SIZE (VoxelStorage.region_index env.cfg)
            s'.m_region_LRU [])) ∧
      (o = .thrown → ∃ c,
        LRUInv env.cfg.CHUNK_HEAP_SIZE (VoxelStorage.chunk_index env.cfg) s'.m_chunk_LRU [c] ∧
        (∀ n, n ≠ c → (s'.m_chunk_LRU.node n).key = (s.m_chunk_LRU.node n).key) ∧
        ((∃ rest, s.m_chunk_LRU.m_free_list = c :: rest ∧ s'.m_chunk_LRU.m_free_list = rest ∧
            s'.m_chunk_LRU.m_list = s.m_chunk_LRU.m_list) ∨
          (s.m_chunk_LRU.m_free_list = [] ∧ s'.m_chunk_LRU.m_free_list = [] ∧
            s.m_chunk_LRU.m_list = s'.m_chunk_LRU.m_list ++ [c]))) := by
  by_cases hp : p ∈ s.m_chunk_LRU.keys
  · obtain ⟨m, hm, hkm⟩ := List.mem_map.1 hp
    obtain ⟨g1, _, _, _, g5⟩ := hC.get_node_hit m hm p hkm
    refine ⟨{ s with m_chunk_LRU :=
        (s.m_chunk_LRU.get_node p (VoxelStorage.chunk_index env.cfg p)).1 }, .ok m, ?_, by simp,
      fun _ _ => ⟨g5, fun h => h⟩, fun h => by cases h⟩
    unfold VoxelStorage.get_chunk
    have : s.m_chunk_LRU.get_node p (VoxelStorage.chunk_index env.cfg p)
        = ((s.m_chunk_LRU.get_node p (VoxelStorage.chunk_index env.cfg p)).1, some m) :=
      Prod.ext rfl g1
    rw [this]
  · have hmiss := hC.get_node_miss p hp
    have hself : ({ s with m_chunk_LRU := s.m_chunk_LRU } : VoxelStorage) = s := rfl
    obtain ⟨g1, g2, g3⟩ := VoxelStorage.get_region_chunk_lru env s
      (VoxelStorage.floor_div p env.cfg.REGION_SIZE)
    have g4 := VoxelStorage.get_region_lru env s (VoxelStorage.floor_div p env.cfg.REGION_SIZE)
    rcases hg : s.get_region env (VoxelStorage.floor_div p env.cfg.REGION_SIZE) with ⟨s1, o1⟩
    rw [hg] at g1 g2 g3 g4
    have g1' : s1.m_chunk_LRU = s.m_chunk_LRU := g1
    cases o1 with
    | ok region =>
      obtain ⟨s2, o2, ht, hun, hreg, hcases⟩ := VoxelStorage.take_chunk_node_lru env s1
        (by rw [g1']; exact hC)
      rcases hcases with rfl | ⟨c, hoc, hinv, hnode, hlists⟩
      · refine ⟨s2, .null, ?_, by simp, fun _ h => (by cases h), fun h => by cases h⟩
        unfold VoxelStorage.get_chunk
        rw [hmiss]
        simp only
        rw [hself, hg]
        simp only
        rw [ht]
      · rw [g1'] at hnode hlists
        have hp2 : p ∉ s2.m_chunk_LRU.keys := by
          intro hmem
          apply hp
          obtain ⟨n, hn, hk⟩ := List.mem_map.1 hmem
          rw [hnode] at hk
          refine List.mem_map.2 ⟨n, ?_, hk⟩
          rcases hlists with ⟨rest, _, _, e⟩ | ⟨_, _, e⟩
          · rw [← e]; exact hn
          · rw [e]; exact List.mem_append_left _ hn
        rcases hoc with rfl | rfl
        · obtain ⟨l1, l2⟩ := VoxelStorage.load_chunk_lru env s2 region c p hinv hp2
          have hget : s.get_chunk env p = s2.load_chunk env region c p := by
            unfold VoxelStorage.get_chunk
            rw [hmiss]
            simp only
            rw [hself, hg]
            simp only
            rw [ht]
          rcases hl : s2.load_chunk env region c p with ⟨s', o⟩
          rw [hl] at l1 l2 hget
          have l1' : s'.m_region_LRU = s2.m_region_LRU := l1
          rcases l2 with ⟨e1, e2⟩ | ⟨e1, e2, e3, e4, e5⟩
          · have e1' : o = .ok c := e1
            subst e1'
            refine ⟨s', .ok c, hget, by simp, fun _ _ => ⟨e2, fun h => ?_⟩,
              fun h => by cases h⟩
            rw [l1']
            exact hreg (g4 h region rfl) ⟨c, rfl⟩
          · have e1' : o = .thrown := e1
            subst e1'
            refine ⟨s', .thrown, hget, by simp, fun _ h => (by cases h),
              fun _ => ⟨c, e2, fun n hnc => ?_, ?_⟩⟩
            · have := e5 n hnc
              rw [hnode] at this
              exact this
            · have e3' : s'.m_chunk_LRU.m_list = s2.m_chunk_LRU.m_list := e3
              have e4' : s'.m_chunk_LRU.m_free_list = s2.m_chunk_LRU.m_free_list := e4
              rw [e3', e4']
              exact hlists
        · refine ⟨s2, .thrown, ?_, by simp, fun _ h => (by cases h),
            fun _ => ⟨c, hinv, fun n _ => by rw [hnode], hlists⟩⟩
          unfold VoxelStorage.get_chunk
          rw [hmiss]
          simp only
          rw [hself, hg]
          simp only
          rw [ht]
    | thrown => exact absurd rfl g2
    | null =>
      refine ⟨s1, .null, ?_, by simp, fun _ h => (by cases h), fun h => by cases h⟩
      unfold VoxelStorage.get_chunk
      rw [hmiss]
      simp only
      rw [hself, hg]
    | unfinished => exact absurd rfl g3

/-! ## C32: node conservation -/

/-- A well-linked cache in which the caller holds no node conserves its nodes. -/
theorem LRUInv.conserved {V : Type} {N : Nat} {hash : Vec3 → Nat} {lru : LeastRecentlyUsed V}
    (h : LRUInv N hash lru []) : NodesConserved N hash lru := by
  have hperm : (lru.m_list ++ lru.m_free_list).Perm (List.range N) := by
    have := h.perm
    rwa [List.append_nil] at this
  have hnd : (lru.m_list ++ lru.m_free_list).Nodup := hperm.nodup_iff.2 (List.nodup_range N)
  obtain ⟨hnl, hnf, hdisj⟩ := List.nodup_append.1 hnd
  have hmem : ∀ n, n ∈ lru.m_list ∨ n ∈ lru.m_free_list ↔ n < N := by
    intro n
    rw [← List.mem_append, hperm.mem_iff, List.mem_range]
  have hbucket : ∀ b n, n ∈ lru.m_map b ↔ n ∈ lru.m_list ∧ (lru.node n).head = b := by
    intro b n
    rw [h.buckets b, List.mem_filter]
    simp
  refine ⟨?_, ?_, ⟨hnf, hnl⟩, ?_, ?_, ?_, ?_, ?_⟩
  · intro n hn
    rcases (hmem n).2 hn with h1 | h1
    · exact Or.inr ⟨fun h2 => hdisj h1 h2, h1⟩
    · exact Or.inl ⟨h1, fun h2 => hdisj h2 h1⟩
  · intro n hn
    exact (hmem n).1 hn.symm
  · have := hperm.length_eq
    rw [List.length_append, List.length_range] at this
    omega
  · intro n hn b
    rw [h.buckets b]
    by_cases hb : b = hash (lru.node n).key
    · rw [if_pos hb, List.count_filter (by simpa [h.heads n hn] using hb.symm)]
      exact List.count_eq_one_of_mem hnl hn
    · rw [if_neg hb]
      apply List.count_eq_zero_of_not_mem
      rw [List.mem_filter]
      rintro ⟨_, hh⟩
      apply hb
      rw [← h.heads n hn]
      exact (by simpa using hh : (lru.node n).head = b).symm
  · intro n hn b hb
    exact hdisj ((hbucket b n).1 hb).1 hn
  · intro n
    constructor
    · intro hn
      exact ⟨(lru.node n).head, (hbucket _ n).2 ⟨hn, rfl⟩⟩
    · rintro ⟨b, hb⟩
      exact ((hbucket b n).1 hb).1
  · intro m hm n hn hk
    exact lru.key_inj_of_nodup h.keys_nodup hm hn hk

/-- Both caches are well linked in every state of a run in which every call has
returned. -/
theorem Returned.linked {env : Env} {world : Vec3 → File} {s : VoxelStorage}
    (h : Returned env world s) :
    LRUInv env.cfg.CHUNK_HEAP_SIZE (VoxelStorage.chunk_index env.cfg) s.m_chunk_LRU [] ∧
      LRUInv env.cfg.REGION_HEAP_SIZE (VoxelStorage.region_index env.cfg) s.m_region_LRU [] := by
  induction h with
  | init => exact ⟨LRUInv.init _ _ _, LRUInv.init _ _ _⟩
  | get_chunk s s' p c _ hget ih =>
    obtain ⟨s'', o, e, _, hok, _⟩ := VoxelStorage.get_chunk_lru env s p ih.1
    rw [hget] at e
    have e1 : s' = s'' := congrArg Prod.fst e
    have e2 : Outcome.ok c = o := congrArg Prod.snd e
    subst e1
    obtain ⟨a, b⟩ := hok c e2.symm
    exact ⟨a, b ih.2⟩
  | get_region s s' r n _ hget ih =>
    obtain ⟨g1, _, _⟩ := VoxelStorage.get_region_chunk_lru env s r
    have g4 := VoxelStorage.get_region_lru env s r ih.2 n (by rw [hget])
    rw [hget] at g1 g4
    have g1' : s'.m_chunk_LRU = s.m_chunk_LRU := g1
    exact ⟨by rw [g1']; exact ih.1, g4⟩
  | get s s' p cache edit c _ hget ih =>
    obtain ⟨s'', o, e, _, hok, _⟩ := VoxelStorage.get_chunk_lru env s p ih.1
    unfold VoxelStorage.get at hget
    rw [e] at hget
    cases o with
    | ok c' =>
      obtain ⟨a, b⟩ := hok c' rfl
      simp only at hget
      by_cases hedit : edit = true
      · rw [if_pos hedit] at hget
        have e1 : s' = VoxelStorage.mk (s''.m_chunk_LRU.set_val c'
            (Chunk.mk (s''.m_chunk_LRU.node c').val.blocks true)) s''.m_region_LRU s''.world :=
          (congrArg Prod.fst hget).symm
        rw [e1]
        refine ⟨a.congr rfl rfl (List.Perm.refl _) (fun n _ => ?_), b ih.2⟩
        obtain ⟨a1, a2, _⟩ := LeastRecentlyUsed.set_val_node s''.m_chunk_LRU c'
          (Chunk.mk (s''.m_chunk_LRU.node c').val.blocks true) n
        exact ⟨a1, a2⟩
      · rw [if_neg hedit] at hget
        have e1 : s' = s'' := (congrArg Prod.fst hget).symm
        rw [e1]
        exact ⟨a, b ih.2⟩
    | thrown => exact absurd (congrArg Prod.snd hget) (by simp)
    | null => exact absurd (congrArg Prod.snd hget) (by simp)
    | unfinished => exact absurd (congrArg Prod.snd hget) (by simp)
  | write_blocks s c blocks _ ih =>
    refine ⟨ih.1.congr rfl rfl (List.Perm.refl _) (fun n _ => ?_), ih.2⟩
    obtain ⟨a1, a2, _⟩ := LeastRecentlyUsed.set_val_node s.m_chunk_LRU c
      ({ blocks := blocks, dirty := (s.m_chunk_LRU.node c).val.dirty } : Chunk) n
    exact ⟨a1, a2⟩

/-- C32: after the constructor and after every `get_chunk` and `get_region` that has
returned, in a run in which every call so far has returned, the chunk cache and the region
cache conserve their nodes: every one of the `CHUNK_HEAP_SIZE` (`REGION_HEAP_SIZE`) nodes
is either on the free list or linked in the recency list and exactly once in the bucket of
the hash of its key, never both; the recency list and the union of the buckets contain the
same nodes; and no two cached nodes have the same key. -/
theorem lru_node_conservation (env : Env) (world : Vec3 → File) (s : VoxelStorage)
    (h : Returned env world s) :
    NodesConserved env.cfg.CHUNK_HEAP_SIZE (VoxelStorage.chunk_index env.cfg) s.m_chunk_LRU ∧
      NodesConserved env.cfg.REGION_HEAP_SIZE (VoxelStorage.region_index env.cfg)
        s.m_region_LRU :=
  ⟨h.linked.1.conserved, h.linked.2.conserved⟩

/-- Witness for `lru_node_conservation`: the toy store over an empty directory after the
fetch of the chunk `(0, 0, 0)`. -/
theorem lru_node_conservation_witness :
    NodesConserved toyEnv.cfg.CHUNK_HEAP_SIZE (VoxelStorage.chunk_index toyEnv.cfg)
        ((VoxelStorage.init toyEnv.cfg emptyWorld).get_chunk toyEnv ⟨0, 0, 0⟩).1.m_chunk_LRU ∧
      NodesConserved toyEnv.cfg.REGION_HEAP_SIZE (VoxelStorage.region_index toyEnv.cfg)
        ((VoxelStorage.init toyEnv.cfg emptyWorld).get_chunk toyEnv ⟨0, 0, 0⟩).1.m_region_LRU :=
  lru_node_conservation toyEnv emptyWorld _
    (Returned.get_chunk (VoxelStorage.init toyEnv.cfg emptyWorld) _ ⟨0, 0, 0⟩ 1 Returned.init
      (Prod.ext rfl (by decide)))

/-- The chains of the toy store after the fetch of the chunk `(0, 0, 0)`: chunk node 1 is
cached and linked in bucket 0, chunk node 0 is free; region node 1 is cached, region node 0
is free. -/
theorem lru_node_conservation_demo :
    ((VoxelStorage.init toyEnv.cfg emptyWorld).get_chunk toyEnv ⟨0, 0, 0⟩).1.m_chunk_LRU.m_list
      = [1] ∧
    ((VoxelStorage.init toyEnv.cfg emptyWorld).get_chunk toyEnv
      ⟨0, 0, 0⟩).1.m_chunk_LRU.m_free_list = [0] ∧
    ((VoxelStorage.init toyEnv.cfg emptyWorld).get_chunk toyEnv ⟨0, 0, 0⟩).1.m_chunk_LRU.m_map
      (VoxelStorage.chunk_index toyEnv.cfg ⟨0, 0, 0⟩) = [1] ∧
    ((VoxelStorage.init toyEnv.cfg emptyWorld).get_chunk toyEnv ⟨0, 0, 0⟩).1.m_region_LRU.m_list
      = [1] ∧
    ((VoxelStorage.init toyEnv.cfg emptyWorld).get_chunk toyEnv
      ⟨0, 0, 0⟩).1.m_region_LRU.m_free_list = [0] := by
  decide

/-! ## C34: a fetch that fails -/

/-- Counterexample to C34.  The blob of chunk `(0, 0, 0)` in `garbledWorld` does not
decompress, and the fetch of the chunk throws.  By a store just constructed: before the
call both chunk nodes are free, afterwards one node is free and none is cached, so the
free and the cached nodes together are one less than `CHUNK_HEAP_SIZE = 2`.  By a store
whose two chunk nodes are cached with the keys `(2, 0, 0)` and `(1, 0, 0)`: afterwards only
`(2, 0, 0)` is cached and no node is free. -/
theorem failed_fetch_counterexample :
    toyCodec.uncompress (slot_bytes (garbledWorld ⟨0, 0, 0⟩)
      (VoxelStorage.slot_index smallConfig ⟨0, 0, 0⟩)) 4 = none ∧
    ((VoxelStorage.init smallConfig garbledWorld).get_chunk toyEnv ⟨0, 0, 0⟩).2 = .thrown ∧
    (VoxelStorage.init smallConfig garbledWorld).m_chunk_LRU.m_free_list.length
      + (VoxelStorage.init smallConfig garbledWorld).m_chunk_LRU.m_list.length = 2 ∧
    ((VoxelStorage.init smallConfig garbledWorld).get_chunk toyEnv
        ⟨0, 0, 0⟩).1.m_chunk_LRU.m_free_list.length
      + ((VoxelStorage.init smallConfig garbledWorld).get_chunk toyEnv
        ⟨0, 0, 0⟩).1.m_chunk_LRU.m_list.length = 1 ∧
    smallConfig.CHUNK_HEAP_SIZE = 2 ∧
    fullGarbledStore.m_chunk_LRU.keys = [⟨2, 0, 0⟩, ⟨1, 0, 0⟩] ∧
    (fullGarbledStore.get_chunk toyEnv ⟨0, 0, 0⟩).2 = .thrown ∧
    (fullGarbledStore.get_chunk toyEnv ⟨0, 0, 0⟩).1.m_chunk_LRU.keys = [⟨2, 0, 0⟩] ∧
    (fullGarbledStore.get_chunk toyEnv ⟨0, 0, 0⟩).1.m_chunk_LRU.m_free_list = [] := by
  refine ⟨by decide, by decide, by decide, by decide, by decide, by decide, by decide,
    by decide, by decide⟩

/-- C34 (as amended): when `get_chunk(p)` throws, the node taken for the chunk is lost to
the cache: it is neither cached nor on the free list, so the nodes on the free list and the
cached nodes together are `CHUNK_HEAP_SIZE − 1`.  If the free list was not empty the node
is its first one, and the cached nodes and their keys are as before the call; if it was
empty the node is the least recently used one, which has been unlinked and closed, and the
cached keys are those before the call without the last. -/
theorem failed_fetch_loses_node (env : Env) (s s' : VoxelStorage) (p : Vec3)
    (hC : LRUInv env.cfg.CHUNK_HEAP_SIZE (VoxelStorage.chunk_index env.cfg) s.m_chunk_LRU [])
    (hfail : s.get_chunk env p = (s', .thrown)) :
    s'.m_chunk_LRU.m_free_list.length + s'.m_chunk_LRU.m_list.length + 1
      = env.cfg.CHUNK_HEAP_SIZE ∧
    (∃ c, c < env.cfg.CHUNK_HEAP_SIZE ∧ c ∉ s'.m_chunk_LRU.m_free_list ∧
      c ∉ s'.m_chunk_LRU.m_list ∧
      (s.m_chunk_LRU.m_free_list.head? = some c ∨
        (s.m_chunk_LRU.m_free_list = [] ∧ s.m_chunk_LRU.m_list.getLast? = some c))) ∧
    (s.m_chunk_LRU.m_free_list ≠ [] →
      s'.m_chunk_LRU.m_free_list = s.m_chunk_LRU.m_free_list.tail ∧
      s'.m_chunk_LRU.m_list = s.m_chunk_LRU.m_list ∧
      s'.m_chunk_LRU.keys = s.m_chunk_LRU.keys) ∧
    (s.m_chunk_LRU.m_free_list = [] →
      s'.m_chunk_LRU.m_free_list = [] ∧
      s'.m_chunk_LRU.m_list = s.m_chunk_LRU.m_list.dropLast ∧
      s'.m_chunk_LRU.keys = s.m_chunk_LRU.keys.dropLast) := by
  obtain ⟨s'', o, e, _, _, hthrown⟩ := VoxelStorage.get_chunk_lru env s p hC
  rw [hfail] at e
  have e1 : s' = s'' := congrArg Prod.fst e
  have e2 : Outcome.thrown = o := congrArg Prod.snd e
  subst e1
  obtain ⟨c, hinv, hkey, hlists⟩ := hthrown e2.symm
  have hlen := hinv.length_eq
  have hnd := hinv.all_nodup
  have hcl : c ∉ s'.m_chunk_LRU.m_list := hinv.not_mem_list_of_out (List.mem_singleton_self c)
  have hcf : c ∉ s'.m_chunk_LRU.m_free_list := by
    intro hmem
    have h1 := (List.nodup_append.1 hnd).2.2
    exact h1 (List.mem_append_right _ hmem) (List.mem_singleton_self c)
  have hcN : c < env.cfg.CHUNK_HEAP_SIZE := by
    have : c ∈ s'.m_chunk_LRU.m_list ++ s'.m_chunk_LRU.m_free_list ++ [c] :=
      List.mem_append_right _ (List.mem_singleton_self c)
    exact List.mem_range.1 (hinv.perm.mem_iff.1 this)
  have hkeys : s'.m_chunk_LRU.keys
      = s'.m_chunk_LRU.m_list.map (fun n => (s.m_chunk_LRU.node n).key) := by
    unfold LeastRecentlyUsed.keys
    exact List.map_congr_left (fun n hn => hkey n (fun e => hcl (e ▸ hn)))
  refine ⟨?_, ⟨c, hcN, hcf, hcl, ?_⟩, ?_, ?_⟩
  · simp only [List.length_singleton] at hlen
    omega
  · rcases hlists with ⟨rest, h1, _, _⟩ | ⟨h1, _, h3⟩
    · left
      rw [h1]
      rfl
    · right
      refine ⟨h1, ?_⟩
      rw [h3]
      simp
  · intro hne
    rcases hlists with ⟨rest, h1, h2, h3⟩ | ⟨h1, _, _⟩
    · refine ⟨by rw [h1, h2]; rfl, h3, ?_⟩
      rw [hkeys, h3]
      rfl
    · exact absurd h1 hne
  · intro hnil
    rcases hlists with ⟨rest, h1, _, _⟩ | ⟨_, h2, h3⟩
    · rw [hnil] at h1
      cases h1
    · refine ⟨h2, by rw [h3]; simp, ?_⟩
      rw [hkeys]
      unfold LeastRecentlyUsed.keys
      rw [h3, List.map_append]
      simp

/-- Witness for `failed_fetch_loses_node`: the toy store just constructed over
`garbledWorld` and the chunk `(0, 0, 0)`, whose blob does not decompress. -/
theorem failed_fetch_loses_node_witness :
    ((VoxelStorage.init toyEnv.cfg garbledWorld).get_chunk toyEnv
        ⟨0, 0, 0⟩).1.m_chunk_LRU.m_free_list.length
      + ((VoxelStorage.init toyEnv.cfg garbledWorld).get_chunk toyEnv
        ⟨0, 0, 0⟩).1.m_chunk_LRU.m_list.length + 1 = toyEnv.cfg.CHUNK_HEAP_SIZE :=
  (failed_fetch_loses_node toyEnv (VoxelStorage.init toyEnv.cfg garbledWorld) _ ⟨0, 0, 0⟩
    (LRUInv.init _ _ _) (Prod.ext rfl (by decide))).1

end Voxel
